import Mathlib

/-!
# ProtoDatabase: a shallow embedding of `Database.cpp` / `Database.h`

The C++ class `ProtoDatabase::Database` stores protobuf messages in SQLite.
This file embeds

* the part of the protobuf reflection interface the class consults
  (descriptors, field descriptors, message values),
* the part of SQLite the class drives (tables with `INTEGER PRIMARY KEY`,
  column affinity, `UNIQUE` constraints, `AFTER DELETE` triggers, upsert,
  `last_insert_rowid`, transactions), one Lean operation per SQL statement the
  class builds,
* the member functions of `Database` themselves, statement by statement.

Modelling boundaries, stated once:

* SQL text is not parsed: every string the C++ code concatenates is represented
  by the structured statement it denotes.  The operations on the store compare
  names as they are written; the predicate `Descriptor.sqlNamed` says of a type
  that the names its statements use are SQL identifiers, no SQL keywords, and
  different from each other when letter case is ignored, so that SQLite reads
  the concatenated text as this statement.  The theorems that need it assume it.
* `REAL` cells carry a code for a non-NaN IEEE value, numerically equal values
  having the same code; widening a `float` to `double` and narrowing it back is
  exact, so the code is carried unchanged.  A NaN is a value of its own
  (`Scalar.doubleNaN`, `Scalar.floatNaN`), which `sqlite3_bind_double` binds as
  `NULL`.
* Recursion over the (tree shaped, hence acyclic) descriptor graph is driven
  by a fuel argument; `Descriptor.depth` is enough fuel.
-/

namespace ProtoDatabase

/-! ## SQLite values, tables, store -/

/-- The storage classes of SQLite that the class uses. -/
inductive SqlValue where
  | null
  | integer (i : Int)
  | real (code : Int)
  | text (s : String)
  deriving DecidableEq, Repr, Inhabited

/-- The declared column types produced by `Database::getFieldType`. -/
inductive SqlType where
  | INTEGER
  | REAL
  | BOOLEAN
  | LONGTEXT
  deriving DecidableEq, Repr, Inhabited

/-- The exceptions that can leave the member functions of `Database`. -/
inductive Err where
  /-- Thrown as `SQLite::Exception` with `SQLITE_CONSTRAINT`: a `UNIQUE` constraint failed. -/
  | constraint
  /-- Any other `SQLite::Exception`: missing table or column, malformed statement,
  trigger recursion limit. -/
  | sqlError
  /-- Thrown as `std::runtime_error("No key value in key field for ...")`. -/
  | noKeyValue
  /-- Thrown as `std::logic_error("field is not a key for ...")`. -/
  | notAKey
  /-- Thrown as `std::logic_error("no keys for deletion of ...")`. -/
  | noKeys
  /-- Thrown as `std::runtime_error("No nested object in ...")`. -/
  | noNestedObject
  /-- Thrown as `std::logic_error("couldn't insert inappropriate field to the table")`. -/
  | inappropriateField
  /-- Thrown as `std::runtime_error("couldn't write message ...")` and
  `std::runtime_error("couldn't insert array values to ...")`. -/
  | couldntWrite
  /-- Thrown as `std::logic_error("couldn't find object with type ...")` and
  `std::runtime_error("couldn't find object with ID ...")`. -/
  | notFound
  /-- Thrown as `std::logic_error("not message type in map table creation")`. -/
  | notMessageType
  /-- The reflection interface was used against the type of the field (the message
  value does not conform to its descriptor), or the recursion ran out of fuel. -/
  | unexpectedType
  deriving DecidableEq, Repr, Inhabited

/-- A row of a table: the `id INTEGER PRIMARY KEY` and one cell per declared column. -/
structure Row where
  id : Int
  cells : List SqlValue
  deriving DecidableEq, Repr, Inhabited

/-- A table as created by `CREATE TABLE`: the columns after `id`, the `UNIQUE`
constraints and the `FOREIGN KEY` clauses (recorded; SQLite does not enforce them
unless `PRAGMA foreign_keys` is switched on, which the class never does). -/
structure Table where
  name : String
  columns : List (String × SqlType)
  uniques : List (List String)
  foreignKeys : List (String × String)
  deriving DecidableEq, Repr, Inhabited

/-- The trigger `CREATE TRIGGER name AFTER DELETE ON table BEGIN
DELETE FROM target WHERE id = old.column; END`. -/
structure Trigger where
  name : String
  table : String
  target : String
  column : String
  deriving DecidableEq, Repr, Inhabited

/-- The state of the SQLite connection: the schema, the rows of every table in rowid
order (no rows under a name that is not a table), and the connection's
`last_insert_rowid`. -/
structure Store where
  tables : List Table
  triggers : List Trigger
  rows : String → List Row
  lastInsertRowid : Int

/-- A freshly opened `:memory:` database. -/
def Store.empty : Store := ⟨[], [], fun _ => [], 0⟩

/-- A statement or member function run against the connection: it returns a value
or throws, and in both cases leaves a store behind. -/
abbrev Exec (α : Type) := Store → Except Err α × Store

/-- Sequencing of two steps; an exception skips the second step. -/
def Exec.bind {α β : Type} (m : Exec α) (f : α → Exec β) : Exec β := fun s =>
  match m s with
  | (.ok a, s1) => f a s1
  | (.error e, s1) => (.error e, s1)

/-- A step that returns without touching the store. -/
def Exec.pure {α : Type} (a : α) : Exec α := fun s => (.ok a, s)

/-- A step that throws. -/
def Exec.throw {α : Type} (e : Err) : Exec α := fun s => (.error e, s)

instance : Monad Exec where
  pure := Exec.pure
  bind := Exec.bind

/-- Lookup of a table by name among the tables of a schema. -/
def tableOf (tables : List Table) (t : String) : Option Table :=
  tables.find? (fun tb => tb.name == t)

/-- Lookup of a table by name. -/
def Store.table? (s : Store) (t : String) : Option Table := tableOf s.tables t

/-- Replacement of the rows of the table named `t`. -/
def Store.setRows (s : Store) (t : String) (rows : List Row) : Store :=
  { s with rows := fun x => if x = t then rows else s.rows x }

/-- Column affinity of a declared type (SQLite, "Determination of column affinity"):
`INTEGER` contains `INT`, `LONGTEXT` contains `TEXT`, `REAL` is `REAL`, and `BOOLEAN`
falls through to `NUMERIC`. -/
inductive Affinity where
  | integer
  | real
  | numeric
  | text
  deriving DecidableEq, Repr, Inhabited

/-- The affinity SQLite derives from the declared type. -/
def SqlType.affinity : SqlType → Affinity
  | .INTEGER => .integer
  | .REAL => .real
  | .BOOLEAN => .numeric
  | .LONGTEXT => .text

/-! ## Text and machine integers -/

/-- Reduction of an integer to the signed `w`-bit range (two's complement). -/
def wrapSigned (w : Nat) (x : Int) : Int :=
  let m := x % (2 : Int) ^ w
  if m < (2 : Int) ^ (w - 1) then m else m - (2 : Int) ^ w

/-- Reduction of an integer to the unsigned `w`-bit range. -/
def wrapUnsigned (w : Nat) (x : Int) : Nat := (x % (2 : Int) ^ w).toNat

/-- The function `std::to_string` on an unsigned 64-bit value: its decimal digits. -/
def to_string (v : Nat) : String := Nat.repr v

/-- Decimal text of a signed integer, as SQLite renders an `INTEGER` cell. -/
def intText (i : Int) : String :=
  if i < 0 then "-" ++ Nat.repr i.natAbs else Nat.repr i.natAbs

/-- The value of a run of leading decimal digits, accumulated left to right. -/
def parseDigits : List Char → Nat → Nat
  | [], acc => acc
  | c :: cs, acc =>
    if c.isDigit then parseDigits cs (acc * 10 + (c.toNat - 48)) else acc

/-- Leading white space as `isspace` sees it. -/
def dropSpaces : List Char → List Char
  | [] => []
  | c :: cs => if c.isWhitespace then dropSpaces cs else c :: cs

/-- The function `strtol(s, NULL, 10)` on a 64-bit `long`: white space, an optional
sign, leading digits, saturating at `LONG_MIN` and `LONG_MAX`. -/
def strtol (s : String) : Int :=
  let v : Int :=
    match dropSpaces s.data with
    | '-' :: cs => - (parseDigits cs 0 : Int)
    | '+' :: cs => (parseDigits cs 0 : Int)
    | cs => (parseDigits cs 0 : Int)
  if v < -(2 : Int) ^ 63 then -(2 : Int) ^ 63
  else if (2 : Int) ^ 63 ≤ v then (2 : Int) ^ 63 - 1
  else v

/-- The function `atoi`, as implemented by glibc: `(int) strtol(s, NULL, 10)`.  The
result is an `int`, so it lies in the signed 32-bit range whatever the text. -/
def atoi (s : String) : Int := wrapSigned 32 (strtol s)

/-- A decimal integer literal: an optional sign followed by digits only. -/
def integerLiteral? (s : String) : Option Int :=
  match s.data with
  | [] => none
  | '-' :: cs => if cs ≠ [] ∧ cs.all Char.isDigit then some (- (parseDigits cs 0 : Int)) else none
  | '+' :: cs => if cs ≠ [] ∧ cs.all Char.isDigit then some (parseDigits cs 0 : Int) else none
  | cs => if cs.all Char.isDigit then some (parseDigits cs 0 : Int) else none

/-- Column affinity applied to a value that is stored in, or compared with, a column.
Text that is a decimal integer literal becomes an `INTEGER` in a column of numeric
affinity (a `REAL` when it does not fit 64 signed bits or the column is `REAL`); an
integer becomes its decimal text in a column of text affinity.  Everything else is
stored as it is bound. -/
def applyAffinity : Affinity → SqlValue → SqlValue
  | .text, .integer i => .text (intText i)
  | .text, v => v
  | .real, .integer i => .real i
  | .real, .text s =>
    match integerLiteral? s with
    | some i => .real i
    | none => .text s
  | .real, v => v
  | _, .text s =>
    match integerLiteral? s with
    | some i => if -(2 : Int) ^ 63 ≤ i ∧ i < (2 : Int) ^ 63 then .integer i else .real i
    | none => .text s
  | _, v => v

/-- The member `Column::getInt64`: `sqlite3_column_int64`. -/
def SqlValue.getInt64 : SqlValue → Int
  | .integer i => i
  | .text s => strtol s
  | _ => 0

/-- The member `Column::getString`: `sqlite3_column_text`.  The rendering of a
`REAL` cell is not modelled (no member function reads a `REAL` cell as text when the
message conforms to the descriptor the tables were created from). -/
def SqlValue.getString : SqlValue → String
  | .integer i => intText i
  | .text s => s
  | _ => ""

/-- The member `Column::getDouble`, on the opaque codes of `REAL` cells. -/
def SqlValue.getDouble : SqlValue → Int
  | .real c => c
  | .integer i => i
  | _ => 0

/-! ## SQL statements -/

/-- Position of a column among the declared columns of a table. -/
def Table.columnIndex? (tb : Table) (c : String) : Option Nat :=
  match tb.columns.findIdx? (fun p => p.1 == c) with
  | some i => some i
  | none => none

/-- Whether the table declares the column. -/
def Table.hasColumn (tb : Table) (c : String) : Bool :=
  tb.columns.any (fun p => p.1 == c)

/-- The cell of a list of cells that belongs to the named column (`NULL` when the
column is not declared). -/
def Table.cell (tb : Table) (cells : List SqlValue) (c : String) : SqlValue :=
  match tb.columnIndex? c with
  | some i => cells.getD i .null
  | none => .null

/-- The declared affinity of the named column. -/
def Table.affinityOf (tb : Table) (c : String) : Affinity :=
  match tb.columns.find? (fun p => p.1 == c) with
  | some p => p.2.affinity
  | none => .numeric

/-- The value bound to a column in `INSERT INTO t (cols) VALUES (vals)`. -/
def boundValue (cols : List String) (vals : List SqlValue) (c : String) : Option SqlValue :=
  match (cols.zip vals).find? (fun p => p.1 == c) with
  | some p => some p.2
  | none => none

/-- The cells of the row that `INSERT INTO t (cols) VALUES (vals)` builds: the bound
value under the affinity of its column, `NULL` for a column that is not listed. -/
def Table.buildCells (tb : Table) (cols : List String) (vals : List SqlValue) : List SqlValue :=
  tb.columns.map (fun p =>
    match boundValue cols vals p.1 with
    | some v => applyAffinity p.2.affinity v
    | none => .null)

/-- The cells of a row after `DO UPDATE SET col = excluded.col` for the listed columns. -/
def Table.updateCells (tb : Table) (old : List SqlValue) (cols : List String)
    (vals : List SqlValue) : List SqlValue :=
  tb.columns.map (fun p =>
    match boundValue cols vals p.1 with
    | some v => applyAffinity p.2.affinity v
    | none => tb.cell old p.1)

/-- Whether a row collides with the given cells on one `UNIQUE(u)` constraint: equal,
non-`NULL` cells in every column of `u`. -/
def Table.conflictsOn (tb : Table) (cells : List SqlValue) (u : List String) (r : Row) : Bool :=
  u.all (fun c => tb.cell cells c != .null && tb.cell cells c == tb.cell r.cells c)

/-- The row that makes an insert of the given cells fail, if any: the constraints
are tried in the order of their declaration. -/
def Table.conflictRow? (tb : Table) (cells : List SqlValue) (rows : List Row) : Option Row :=
  tb.uniques.findSome? (fun u => rows.find? (tb.conflictsOn cells u))

/-- The rowid SQLite gives to a new row of an `INTEGER PRIMARY KEY` table: one more
than the largest rowid in use, 1 in an empty table. -/
def nextId (rows : List Row) : Int :=
  rows.foldl (fun m r => max m r.id) 0 + 1

/-- The statement `CREATE TABLE IF NOT EXISTS name (id INTEGER PRIMARY KEY, columns,
UNIQUE(...), FOREIGN KEY ...)`.  An empty `UNIQUE()` is a syntax error and a column
name that occurs twice is rejected; an existing table of that name makes the
statement a no-op. -/
def Store.createTable (name : String) (columns : List (String × SqlType))
    (uniques : List (List String)) (foreignKeys : List (String × String)) : Exec Unit := fun s =>
  if uniques.any (fun u => u.isEmpty) then (.error .sqlError, s)
  else if !(decide (columns.map (fun c => c.1)).Nodup) then (.error .sqlError, s)
  else match s.table? name with
    | some _ => (.ok (), s)
    | none => (.ok (), { s with tables := s.tables ++ [⟨name, columns, uniques, foreignKeys⟩] })

/-- The statement `CREATE TRIGGER IF NOT EXISTS name AFTER DELETE ON table BEGIN
DELETE FROM target WHERE id = old.column; END`. -/
def Store.createTrigger (trg : Trigger) : Exec Unit := fun s =>
  match s.table? trg.table with
  | none => (.error .sqlError, s)
  | some _ =>
    if s.triggers.any (fun x => x.name == trg.name) then (.ok (), s)
    else (.ok (), { s with triggers := s.triggers ++ [trg] })

/-- Compilation of a statement that names a table and some of its columns
(the constructor of `SQLite::Statement`): it throws when one of them is missing. -/
def Store.prepare (t : String) (cols : List String) : Exec Unit := fun s =>
  match s.table? t with
  | none => (.error .sqlError, s)
  | some tb => if cols.all tb.hasColumn then (.ok (), s) else (.error .sqlError, s)

/-- The statement `INSERT INTO t (cols) VALUES (vals)`, with
`ON CONFLICT DO UPDATE SET col = excluded.col, ...` over the same columns when
`upsert` is set (`INSERT INTO t DEFAULT VALUES` when `cols` is empty).  It returns the
number of rows changed.  Only the insert of a new row sets `last_insert_rowid`; the
update of the conflicting row leaves it as it was. -/
def Store.insert (t : String) (cols : List String) (vals : List SqlValue) (upsert : Bool) :
    Exec Nat := fun s =>
  match s.table? t with
  | none => (.error .sqlError, s)
  | some tb =>
    if !cols.all tb.hasColumn then (.error .sqlError, s) else
    let cells := tb.buildCells cols vals
    match tb.conflictRow? cells (s.rows t) with
    | none =>
      let id := nextId (s.rows t)
      (.ok 1, { s.setRows t (s.rows t ++ [⟨id, cells⟩]) with lastInsertRowid := id })
    | some r =>
      if upsert then
        let cells1 := tb.updateCells r.cells cols vals
        match tb.conflictRow? cells1 ((s.rows t).filter (fun x => x.id != r.id)) with
        | some _ => (.error .constraint, s)
        | none =>
          (.ok 1, s.setRows t ((s.rows t).map (fun x => if x.id == r.id then ⟨r.id, cells1⟩ else x)))
      else (.error .constraint, s)

/-- The rows of a multi-row `VALUES` list, inserted one after the other. -/
def Store.insertRows (t : String) (cols : List String) : List (List SqlValue) → Exec Nat
  | [] => Exec.pure 0
  | vals :: rest =>
    Exec.bind (Store.insert t cols vals false) (fun n =>
      Exec.bind (Store.insertRows t cols rest) (fun k => Exec.pure (n + k)))

/-- The statement `INSERT INTO t (cols) VALUES (..),(..),...`.  A statement that fails
is undone as a whole (SQLite's default `ABORT` resolution); the connection's
`last_insert_rowid` is not part of what is undone. -/
def Store.insertMany (t : String) (cols : List String) (rows : List (List SqlValue)) :
    Exec Nat := fun s =>
  match Store.insertRows t cols rows s with
  | (.ok n, s1) => (.ok n, s1)
  | (.error e, s1) => (.error e, { s with lastInsertRowid := s1.lastInsertRowid })

/-- The triggers of one deleted row, fired in the order of their creation. -/
def fireRow (del : String → SqlValue → Exec Unit) (tb : Table) (old : Row) :
    List Trigger → Exec Unit
  | [] => Exec.pure ()
  | trg :: rest =>
    Exec.bind (del trg.target (tb.cell old.cells trg.column)) (fun _ => fireRow del tb old rest)

/-- The triggers of all deleted rows, in rowid order. -/
def fireRows (del : String → SqlValue → Exec Unit) (tb : Table) (trgs : List Trigger) :
    List Row → Exec Unit
  | [] => Exec.pure ()
  | r :: rs => Exec.bind (fireRow del tb r trgs) (fun _ => fireRows del tb trgs rs)

/-- Deletion of the rows of `t` that satisfy `p`, followed by the `AFTER DELETE`
triggers of `t` for each deleted row; a trigger body `DELETE FROM target WHERE id =
old.column` is itself such a deletion.  The first argument is SQLite's limit on the
depth of trigger recursion. -/
def deleteCascade : Nat → String → (Table → Row → Bool) → Exec Unit
  | 0, _, _ => Exec.throw .sqlError
  | depth + 1, t, p => fun s =>
    match s.table? t with
    | none => (.error .sqlError, s)
    | some tb =>
      fireRows (fun target v => deleteCascade depth target (fun _ r => SqlValue.integer r.id == v))
        tb (s.triggers.filter (fun trg => trg.table == t)) ((s.rows t).filter (p tb))
        (s.setRows t ((s.rows t).filter (fun r => !p tb r)))

/-- The statement `DELETE FROM t WHERE ...` (`SQLITE_MAX_TRIGGER_DEPTH` is 1000); a
statement that fails is undone as a whole. -/
def Store.delete (t : String) (p : Table → Row → Bool) : Exec Unit := fun s =>
  match deleteCascade 1000 t p s with
  | (.ok u, s1) => (.ok u, s1)
  | (.error e, _) => (.error e, s)

/-- The condition `column = ?` on a row, the bound value taking the affinity of the
column; a `NULL` on either side never matches. -/
def Table.matches (tb : Table) (c : String) (v : SqlValue) (r : Row) : Bool :=
  tb.cell r.cells c != .null && tb.cell r.cells c == applyAffinity (tb.affinityOf c) v

/-- The statement `SELECT ... FROM t WHERE c1 = ? AND c2 = ? ...` (no condition when
`conds` is empty): the matching rows in rowid order. -/
def Store.selectWhere (s : Store) (t : String) (conds : List (String × SqlValue)) :
    Except Err (List Row) :=
  match s.table? t with
  | none => .error .sqlError
  | some tb =>
    if conds.all (fun c => tb.hasColumn c.1) then
      .ok ((s.rows t).filter (fun r => conds.all (fun c => tb.matches c.1 c.2 r)))
    else .error .sqlError

/-- The statement `SELECT ... FROM t WHERE id = n`. -/
def Store.selectById (s : Store) (t : String) (id : Int) : Except Err (List Row) :=
  match s.table? t with
  | none => .error .sqlError
  | some _ => .ok ((s.rows t).filter (fun r => r.id == id))

/-! ## Protobuf reflection -/

/-- The scalar members of `FieldDescriptor::CppType` (`CPPTYPE_MESSAGE` is
`FieldType.message`). -/
inductive CppType where
  | INT32
  | INT64
  | UINT32
  | UINT64
  | DOUBLE
  | FLOAT
  | BOOL
  | ENUM
  | STRING
  deriving DecidableEq, Repr, Inhabited

/-- The cardinality of a field: `is_repeated()` holds for `repeated` and `map`,
`is_map()` for `map` only. -/
inductive Label where
  | singular
  | repeated
  | map
  deriving DecidableEq, Repr, Inhabited

mutual
/-- A message type (`google::protobuf::Descriptor`): its short name and its fields in
declaration order.  Nested message types are held by value, so a type graph is a
tree and has no cycle. -/
inductive Descriptor where
  | mk (name : String) (fields : List FieldDescriptor)
/-- A field (`google::protobuf::FieldDescriptor`): name, cardinality, type, and the
value of the option `Proto::objectKeyField` (`none` when the extension is absent).
The type of a map field is its entry type, whose two fields are the key and the
value. -/
inductive FieldDescriptor where
  | mk (name : String) (label : Label) (type : FieldType) (objectKeyField : Option Bool)
/-- The type of a field: a scalar `cpp_type()`, or `CPPTYPE_MESSAGE` together with
`message_type()`. -/
inductive FieldType where
  | scalar (t : CppType)
  | message (d : Descriptor)
end

/-- The member `Descriptor::name`. -/
def Descriptor.name : Descriptor → String
  | .mk n _ => n

/-- The fields `field(0)`, ..., `field(field_count() - 1)`. -/
def Descriptor.fields : Descriptor → List FieldDescriptor
  | .mk _ fs => fs

/-- The member `FieldDescriptor::name`. -/
def FieldDescriptor.name : FieldDescriptor → String
  | .mk n _ _ _ => n

/-- The cardinality of the field. -/
def FieldDescriptor.label : FieldDescriptor → Label
  | .mk _ l _ _ => l

/-- The type of the field. -/
def FieldDescriptor.type : FieldDescriptor → FieldType
  | .mk _ _ t _ => t

/-- The option `Proto::objectKeyField` of the field. -/
def FieldDescriptor.objectKeyField : FieldDescriptor → Option Bool
  | .mk _ _ _ k => k

/-- The member `FieldDescriptor::is_map`. -/
def FieldDescriptor.is_map (f : FieldDescriptor) : Bool :=
  match f.label with
  | .map => true
  | _ => false

/-- The member `FieldDescriptor::is_repeated`. -/
def FieldDescriptor.is_repeated (f : FieldDescriptor) : Bool :=
  match f.label with
  | .singular => false
  | _ => true

/-- The member `FieldDescriptor::message_type` (null for a scalar field). -/
def FieldDescriptor.message_type (f : FieldDescriptor) : Option Descriptor :=
  match f.type with
  | .message d => some d
  | .scalar _ => none

/-- The member `Descriptor::map_key` of a map entry type: its first field. -/
def Descriptor.map_key (d : Descriptor) : Option FieldDescriptor := d.fields.get? 0

/-- The member `Descriptor::map_value` of a map entry type: its second field. -/
def Descriptor.map_value (d : Descriptor) : Option FieldDescriptor := d.fields.get? 1

mutual
/-- The height of the type tree below a message type. -/
def Descriptor.depth : Descriptor → Nat
  | .mk _ fs => FieldDescriptor.depthList fs + 1
/-- The largest height among the message types of a list of fields. -/
def FieldDescriptor.depthList : List FieldDescriptor → Nat
  | [] => 0
  | f :: fs => max (FieldDescriptor.depth f) (FieldDescriptor.depthList fs)
/-- The height of the message type of a field (0 for a scalar field). -/
def FieldDescriptor.depth : FieldDescriptor → Nat
  | .mk _ _ t _ => FieldType.depth t
/-- The height of a field type. -/
def FieldType.depth : FieldType → Nat
  | .scalar _ => 0
  | .message d => Descriptor.depth d
end

/-- A scalar field value, tagged with its C++ type.  Signed values are integers,
unsigned values naturals; `double` and `float` carry the code of their value when it
is a number, and `doubleNaN` and `floatNaN` are the values that are not a number. -/
inductive Scalar where
  | int32 (v : Int)
  | int64 (v : Int)
  | uint32 (v : Nat)
  | uint64 (v : Nat)
  | double (code : Int)
  | float (code : Int)
  | doubleNaN
  | floatNaN
  | bool (b : Bool)
  | enum (v : Int)
  | string (s : String)
  deriving DecidableEq, Repr, Inhabited

mutual
/-- A message value (`google::protobuf::Message`): one value per field of its
descriptor, in declaration order. -/
inductive Message where
  | mk (fields : List Value)
/-- The content of one field.  A singular field has the presence bit that `HasField`
reports and the value its getter returns (the default value when unset).  A map field
holds its entry messages, as the reflection interface presents them
(`FieldSize`, `GetRepeatedMessage`). -/
inductive Value where
  | scalar (has : Bool) (v : Scalar)
  | message (has : Bool) (m : Message)
  | repeated (vs : List Scalar)
  | repeatedMessage (ms : List Message)
end

/-- The field values of a message. -/
def Message.fields : Message → List Value
  | .mk vs => vs

/-- The function `Database::getColumnName`. -/
def getColumnName (fieldName : String) : String := "field_" ++ fieldName

/-- The name `getFieldTableName` builds from the name of the owner type and the name
of the field. -/
def fieldTableName (owner fieldName : String) : String :=
  "field_table_" ++ owner ++ "_" ++ fieldName

/-- The function `Database::getFieldTableName`. -/
def getFieldTableName (descriptor : Descriptor) (field : FieldDescriptor) : String :=
  fieldTableName descriptor.name field.name

/-- The function `Database::getFieldType`. -/
def getFieldType (field : FieldDescriptor) : SqlType :=
  match field.type with
  | .scalar .INT32 => .INTEGER
  | .scalar .INT64 => .INTEGER
  | .scalar .UINT32 => .INTEGER
  | .scalar .UINT64 => .INTEGER
  | .scalar .DOUBLE => .REAL
  | .scalar .FLOAT => .REAL
  | .scalar .BOOL => .BOOLEAN
  | .scalar .ENUM => .INTEGER
  | .scalar .STRING => .LONGTEXT
  | .message _ => .INTEGER

/-- The function `Database::isKey`: the option is present and set. -/
def isKey (field : FieldDescriptor) : Bool :=
  match field.objectKeyField with
  | some b => b
  | none => false

/-- The value a scalar getter hands to `Statement::bind`, by the switch on
`cpp_type()` in `insertMessageFields` (the switch of `insertMessageRepeatedField`
binds the elements of a repeated field in the same way): integers as `INTEGER`,
`UInt64` as the text of `std::to_string`, `bool` as 1 or 0, floating point as `REAL`,
strings as text.  `sqlite3_bind_double` binds a NaN as `NULL`.  A value of another C++
type than the field is a misuse of the reflection interface. -/
def bindScalar : CppType → Scalar → Except Err SqlValue
  | .STRING, .string s => .ok (.text s)
  | .INT32, .int32 v => .ok (.integer v)
  | .INT64, .int64 v => .ok (.integer v)
  | .UINT32, .uint32 v => .ok (.integer v)
  | .UINT64, .uint64 v => .ok (.text (to_string v))
  | .BOOL, .bool b => .ok (.integer (if b then 1 else 0))
  | .DOUBLE, .double c => .ok (.real c)
  | .FLOAT, .float c => .ok (.real c)
  | .DOUBLE, .doubleNaN => .ok .null
  | .FLOAT, .floatNaN => .ok .null
  | .ENUM, .enum v => .ok (.integer v)
  | _, _ => .error .unexpectedType

/-- The value `readFields` stores from a column, by its switches on `cpp_type()`
(both switches convert alike): the conversion operators of `SQLite::Column` truncate
to the width of the setter's parameter, and a `UInt64` is `atoi` of the column text,
an `int` that the setter widens to 64 unsigned bits. -/
def readScalar : CppType → SqlValue → Scalar
  | .STRING, c => .string c.getString
  | .INT32, c => .int32 (wrapSigned 32 c.getInt64)
  | .INT64, c => .int64 c.getInt64
  | .UINT32, c => .uint32 (wrapUnsigned 32 c.getInt64)
  | .UINT64, c => .uint64 (wrapUnsigned 64 (atoi c.getString))
  | .BOOL, c => .bool (wrapSigned 32 c.getInt64 != 0)
  | .DOUBLE, c => .double c.getDouble
  | .FLOAT, c => .float c.getDouble
  | .ENUM, c => .enum (wrapSigned 32 c.getInt64)

/-! ## The class `Database`: schema -/

/-- A read-only member function, run as a step. -/
def Exec.ofStore {α : Type} (f : Store → Except Err α) : Exec α := fun s => (f s, s)

/-- A computation that does not look at the store, run as a step. -/
def Exec.ofExcept {α : Type} (r : Except Err α) : Exec α := fun s => (r, s)

/-- The class `SQLite::Transaction` around a member function: `BEGIN`, then the body,
then `commit()`; when the body throws, the destructor issues `ROLLBACK`, which
restores schema and rows (the connection's `last_insert_rowid` is not restored). -/
def transaction {α : Type} (body : Exec α) : Exec α := fun s =>
  match body s with
  | (.ok a, s1) => (.ok a, s1)
  | (.error e, s1) => (.error e, { s with lastInsertRowid := s1.lastInsertRowid })

/-- The local variables of `createTableImpl` that its loop over the fields updates. -/
structure CreateAcc where
  fields : List (String × SqlType)
  uniqueFields : List (List String)
  foreignKeys : List (String × String)
  fieldList : List String
  uniqueObjects : Bool
  deriving Inhabited

/-- The function `Database::createMapTable`; `create` is `createTableImpl`. -/
def createMapTable (create : Descriptor → Bool → Exec Unit) (descriptor : Descriptor)
    (field : FieldDescriptor) : Exec Unit :=
  match field.message_type with
  | none => Exec.throw .notMessageType
  | some entry =>
    match entry.map_key, entry.map_value with
    | some keyField, some valueField =>
      let keyFieldName := getColumnName keyField.name
      let valueFieldName := getColumnName valueField.name
      let columns := [(keyFieldName, getFieldType keyField),
        (valueFieldName, getFieldType valueField), ("owner_id", SqlType.INTEGER)]
      match valueField.type with
      | .message typeDesc =>
        Exec.bind (create typeDesc false) (fun _ =>
          Store.createTable (getFieldTableName descriptor field) columns
            [["owner_id", keyFieldName]]
            [("owner_id", descriptor.name), (valueFieldName, typeDesc.name)])
      | .scalar _ =>
        Store.createTable (getFieldTableName descriptor field) columns
          [["owner_id", keyFieldName]] [("owner_id", descriptor.name)]
    | _, _ => Exec.throw .notMessageType

/-- The function `Database::createArrayTable`; `create` is `createTableImpl`. -/
def createArrayTable (create : Descriptor → Bool → Exec Unit) (descriptor : Descriptor)
    (field : FieldDescriptor) : Exec Unit :=
  let fieldName := getColumnName field.name
  let columns := [(fieldName, getFieldType field), ("owner_id", SqlType.INTEGER)]
  match field.type with
  | .message nested =>
    Exec.bind (create nested false) (fun _ =>
      Store.createTable (getFieldTableName descriptor field) columns
        [["owner_id", fieldName]] [("owner_id", descriptor.name), (fieldName, nested.name)])
  | .scalar _ =>
    Store.createTable (getFieldTableName descriptor field) columns
      [["owner_id", fieldName]] [("owner_id", descriptor.name)]

/-- The loop of `createTableImpl` over the fields of the descriptor. -/
def createTableLoop (create : Descriptor → Bool → Exec Unit) (descriptor : Descriptor) :
    List FieldDescriptor → CreateAcc → Exec CreateAcc
  | [], acc => Exec.pure acc
  | field :: rest, acc =>
    let fieldName := getColumnName field.name
    if field.is_map then
      Exec.bind (createMapTable create descriptor field) (fun _ =>
        createTableLoop create descriptor rest acc)
    else if field.is_repeated then
      Exec.bind (createArrayTable create descriptor field) (fun _ =>
        createTableLoop create descriptor rest acc)
    else
      let key := isKey field
      let acc1 : CreateAcc :=
        if key then
          { acc with uniqueFields := acc.uniqueFields ++ [[fieldName]], uniqueObjects := true }
        else acc
      let column (a : CreateAcc) : CreateAcc :=
        { a with fields := a.fields ++ [(fieldName, getFieldType field)],
                 fieldList := a.fieldList ++ [fieldName] }
      match field.type with
      | .message nestedMessage =>
        Exec.bind (create nestedMessage key) (fun _ =>
          createTableLoop create descriptor rest
            (column { acc1 with
              foreignKeys := acc1.foreignKeys ++ [(fieldName, nestedMessage.name)] }))
      | .scalar _ => createTableLoop create descriptor rest (column acc1)

/-- The triggers `createTableImpl` registers, one `CREATE TRIGGER IF NOT EXISTS` per
entry of `foreignKeys`; the name of the trigger is made of the two table names. -/
def createTriggers (descriptor : Descriptor) : List (String × String) → Exec Unit
  | [] => Exec.pure ()
  | key :: rest =>
    Exec.bind (Store.createTrigger
      ⟨"on_delete_" ++ descriptor.name ++ "_" ++ key.2, descriptor.name, key.2, key.1⟩)
      (fun _ => createTriggers descriptor rest)

/-- The function `Database::createTableImpl`.  The first argument bounds the depth of
the recursion over nested message types. -/
def createTableImpl : Nat → Descriptor → Bool → Exec Unit
  | 0, _, _ => Exec.throw .unexpectedType
  | fuel + 1, descriptor, uniqueObjects =>
    Exec.bind (createTableLoop (createTableImpl fuel) descriptor descriptor.fields
      ⟨[], [], [], [], uniqueObjects⟩) (fun acc =>
    let uniqueFields :=
      if acc.uniqueFields.isEmpty && acc.uniqueObjects then [acc.fieldList]
      else acc.uniqueFields
    Exec.bind (Store.createTable descriptor.name acc.fields uniqueFields acc.foreignKeys)
      (fun _ => createTriggers descriptor acc.foreignKeys))

/-- The function `Database::createTable(const Descriptor*)`. -/
def createTable (fuel : Nat) (reflection : Descriptor) : Exec Unit :=
  transaction (createTableImpl fuel reflection false)

/-! ## The class `Database`: identity lookup and write path -/

/-- The member `Reflection::HasField`; asking it of a repeated field is a misuse of the
reflection interface. -/
def Value.hasField : Value → Except Err Bool
  | .scalar has _ => .ok has
  | .message has _ => .ok has
  | _ => .error .unexpectedType

/-- The first loop of `getMessageKeys`: the fields whose key option is present and
set, each of which must have a value. -/
def declaredKeys : List (FieldDescriptor × Value) → Except Err (List (FieldDescriptor × Value))
  | [] => .ok []
  | (field, value) :: rest =>
    match field.objectKeyField with
    | some true =>
      match value.hasField with
      | .error e => .error e
      | .ok false => .error .noKeyValue
      | .ok true =>
        match declaredKeys rest with
        | .ok res => .ok ((field, value) :: res)
        | .error e => .error e
    | _ => declaredKeys rest

/-- The function `Database::getMessageKeys`: the declared key fields, or, when there
is none and `strict` is not set, every field of the message. -/
def getMessageKeys (descriptor : Descriptor) (message : Message) (strict : Bool) :
    Except Err (List (FieldDescriptor × Value)) :=
  if descriptor.fields.length != message.fields.length then .error .unexpectedType else
  match declaredKeys (descriptor.fields.zip message.fields) with
  | .error e => .error e
  | .ok res =>
    if res.isEmpty && !strict then .ok (descriptor.fields.zip message.fields) else .ok res

/-- The body of the loop of `insertMessageFields`: the value the switch on
`cpp_type()` binds for one field.  For a nested message it is the row id that `write`
(`writeMessageImpl(.., false)`, when `isInsertion`) or `find` (`findMessage(message)`,
otherwise) returns. -/
def bindField (write : Descriptor → Message → Exec Int)
    (find : Descriptor → Message → Store → Except Err (Option Int)) (isInsertion : Bool)
    (field : FieldDescriptor) (value : Value) : Exec SqlValue :=
  match field.type, value with
  | .scalar t, .scalar _ x => Exec.ofExcept (bindScalar t x)
  | .message d, .message _ m =>
    if isInsertion then Exec.bind (write d m) (fun key => Exec.pure (.integer key))
    else Exec.bind (Exec.ofStore (find d m)) (fun key =>
      match key with
      | some k => Exec.pure (.integer k)
      | none => Exec.throw .noNestedObject)
  | _, _ => Exec.throw .unexpectedType

/-- The function `Database::insertMessageFields`: the values it binds to the
parameters of a statement, one per field. -/
def insertMessageFields (write : Descriptor → Message → Exec Int)
    (find : Descriptor → Message → Store → Except Err (Option Int)) (isInsertion : Bool) :
    List (FieldDescriptor × Value) → Exec (List SqlValue)
  | [] => Exec.pure []
  | (field, value) :: rest =>
    if field.is_repeated || field.is_map then Exec.throw .inappropriateField
    else
      Exec.bind (bindField write find isInsertion field value) (fun v =>
        Exec.bind (insertMessageFields write find isInsertion rest) (fun vs =>
          Exec.pure (v :: vs)))

/-- The function `Database::findMessage(const Message&)`: the lowest row id whose key
columns (or, without declared keys, whose columns for all fields) equal the values
of the message. -/
def findMessage : Nat → Descriptor → Message → Store → Except Err (Option Int)
  | 0, _, _, _ => .error .unexpectedType
  | fuel + 1, descriptor, message, s =>
    match getMessageKeys descriptor message false with
    | .error e => .error e
    | .ok keys =>
      let columns := keys.map (fun k => getColumnName k.1.name)
      match (Store.prepare descriptor.name columns s).1 with
      | .error e => .error e
      | .ok _ =>
        match (insertMessageFields (fun _ _ => Exec.throw .unexpectedType)
            (findMessage fuel) false keys s).1 with
        | .error e => .error e
        | .ok vals =>
          match s.selectWhere descriptor.name (columns.zip vals) with
          | .error e => .error e
          | .ok rows => .ok (rows.head?.map (fun r => r.id))

/-- The bound values of `insertMessageRepeatedField` for the elements of a repeated
field of message type, written one after the other. -/
def writeElements (write : Descriptor → Message → Exec Int) (d : Descriptor) :
    List Message → Exec (List SqlValue)
  | [] => Exec.pure []
  | m :: rest =>
    Exec.bind (write d m) (fun key =>
      Exec.bind (writeElements write d rest) (fun vs => Exec.pure (.integer key :: vs)))

/-- The bound values of a list of scalars, by `bindScalar`. -/
def bindScalars (t : CppType) : List Scalar → Except Err (List SqlValue)
  | [] => .ok []
  | x :: rest =>
    match bindScalar t x with
    | .error e => .error e
    | .ok v =>
      match bindScalars t rest with
      | .error e => .error e
      | .ok vs => .ok (v :: vs)

/-- The function `Database::insertMessageRepeatedField` with `isInsertion` set: the
values it binds, one per element of the repeated field. -/
def insertMessageRepeatedField (write : Descriptor → Message → Exec Int)
    (field : FieldDescriptor) (value : Value) : Exec (List SqlValue) :=
  match field.type, value with
  | .scalar t, .repeated vs => Exec.ofExcept (bindScalars t vs)
  | .message d, .repeatedMessage ms => writeElements write d ms
  | _, _ => Exec.throw .unexpectedType

/-- The member `Reflection::FieldSize` of a repeated or map field. -/
def Value.fieldSize : Value → Nat
  | .repeated vs => vs.length
  | .repeatedMessage ms => ms.length
  | _ => 0

/-- The functions `Database::removeMap` and `Database::removeArray` (their bodies are
the same): `DELETE FROM side WHERE owner_id = id`. -/
def removeArray (descriptor : Descriptor) (field : FieldDescriptor) (id : Int) : Exec Unit :=
  Exec.bind (Store.prepare (getFieldTableName descriptor field) ["owner_id"]) (fun _ =>
    Store.delete (getFieldTableName descriptor field)
      (fun tb r => tb.matches "owner_id" (.integer id) r))

/-- The function `Database::writeArray`. -/
def writeArray (write : Descriptor → Message → Exec Int) (descriptor : Descriptor)
    (field : FieldDescriptor) (value : Value) (id : Int) : Exec Unit :=
  Exec.bind (removeArray descriptor field id) (fun _ =>
    let arraySize := value.fieldSize
    if arraySize == 0 then Exec.pure ()
    else
      let columns := [getColumnName field.name, "owner_id"]
      Exec.bind (Store.prepare (getFieldTableName descriptor field) columns) (fun _ =>
        Exec.bind (insertMessageRepeatedField write field value) (fun vals =>
          Exec.bind (Store.insertMany (getFieldTableName descriptor field) columns
              (vals.map (fun v => [v, .integer id]))) (fun n =>
            if n != arraySize then Exec.throw .couldntWrite else Exec.pure ()))))

/-- The bound values of the entries of a map field: for each entry message,
`insertMessageFields` on its key field and its value field. -/
def writeEntries (write : Descriptor → Message → Exec Int) (keyField valueField : FieldDescriptor) :
    List Message → Exec (List (List SqlValue))
  | [] => Exec.pure []
  | entry :: rest =>
    if entry.fields.length != 2 then Exec.throw .unexpectedType
    else
      Exec.bind (insertMessageFields write (fun _ _ _ => .error .unexpectedType) true
          ([keyField, valueField].zip entry.fields)) (fun kv =>
        Exec.bind (writeEntries write keyField valueField rest) (fun rows =>
          Exec.pure (kv :: rows)))

/-- The entry messages of a map field, as `GetRepeatedMessage` returns them. -/
def Value.entries : Value → List Message
  | .repeatedMessage ms => ms
  | _ => []

/-- The function `Database::writeMap`. -/
def writeMap (write : Descriptor → Message → Exec Int) (descriptor : Descriptor)
    (field : FieldDescriptor) (value : Value) (id : Int) : Exec Unit :=
  Exec.bind (removeArray descriptor field id) (fun _ =>
    let arraySize := value.fieldSize
    if arraySize == 0 then Exec.pure ()
    else
      match field.message_type with
      | none => Exec.throw .unexpectedType
      | some entry =>
        match entry.map_key, entry.map_value with
        | some keyField, some valueField =>
          let columns := [getColumnName keyField.name, getColumnName valueField.name, "owner_id"]
          Exec.bind (Store.prepare (getFieldTableName descriptor field) columns) (fun _ =>
            Exec.bind (writeEntries write keyField valueField value.entries) (fun rows =>
              Exec.bind (Store.insertMany (getFieldTableName descriptor field) columns
                  (rows.map (fun kv => kv ++ [.integer id]))) (fun n =>
                if n != arraySize then Exec.throw .couldntWrite else Exec.pure ())))
        | _, _ => Exec.throw .unexpectedType)

/-- The loop `for (field : mapFields) writeMap(message, field, id)`. -/
def writeMaps (write : Descriptor → Message → Exec Int) (descriptor : Descriptor) (id : Int) :
    List (FieldDescriptor × Value) → Exec Unit
  | [] => Exec.pure ()
  | (field, value) :: rest =>
    Exec.bind (writeMap write descriptor field value id) (fun _ =>
      writeMaps write descriptor id rest)

/-- The loop `for (field : repeatedFields) writeArray(message, field, id)`. -/
def writeArrays (write : Descriptor → Message → Exec Int) (descriptor : Descriptor) (id : Int) :
    List (FieldDescriptor × Value) → Exec Unit
  | [] => Exec.pure ()
  | (field, value) :: rest =>
    Exec.bind (writeArray write descriptor field value id) (fun _ =>
      writeArrays write descriptor id rest)

/-- The member `Database::getLastInsertRowid` of the connection. -/
def getLastInsertRowid : Exec Int := fun s => (.ok s.lastInsertRowid, s)

/-- The function `Database::writeMessageImpl`.  The first argument bounds the depth of
the recursion over nested messages.  The statement is compiled before the values are
bound, the nested messages are written while they are bound, and the row id is the
connection's `last_insert_rowid` after the statement has run. -/
def writeMessageImpl : Nat → Descriptor → Message → Bool → Exec Int
  | 0, _, _, _ => Exec.throw .unexpectedType
  | fuel + 1, descriptor, message, handleConficts =>
    if descriptor.fields.length != message.fields.length then Exec.throw .unexpectedType
    else
      let all := descriptor.fields.zip message.fields
      let mapFields := all.filter (fun p => p.1.is_map)
      let repeatedFields := all.filter (fun p => !p.1.is_map && p.1.is_repeated)
      let dataFields := all.filter (fun p => !p.1.is_map && !p.1.is_repeated)
      let fieldNames := dataFields.map (fun p => getColumnName p.1.name)
      let write := fun d m => writeMessageImpl fuel d m false
      Exec.bind (Store.prepare descriptor.name fieldNames) (fun _ =>
        Exec.bind (insertMessageFields write (fun _ _ _ => .error .unexpectedType) true
            dataFields) (fun vals =>
          Exec.bind (Store.insert descriptor.name fieldNames vals
              (handleConficts && !fieldNames.isEmpty)) (fun n =>
            if n == 0 then Exec.throw .couldntWrite
            else
              Exec.bind getLastInsertRowid (fun id =>
                Exec.bind (writeMaps write descriptor id mapFields) (fun _ =>
                  Exec.bind (writeArrays write descriptor id repeatedFields) (fun _ =>
                    Exec.pure id))))))

/-- The function `Database::insertMessage`. -/
def insertMessage (fuel : Nat) (descriptor : Descriptor) (message : Message) : Exec Int :=
  transaction (writeMessageImpl fuel descriptor message false)

/-- The function `Database::writeMessage`. -/
def writeMessage (fuel : Nat) (descriptor : Descriptor) (message : Message) : Exec Int :=
  transaction (writeMessageImpl fuel descriptor message true)

/-! ## The class `Database`: read path -/

/-- The function `Database::findAssociatedMessages`:
`SELECT id FROM type WHERE owner_id = owner ORDER BY id`. -/
def findAssociatedMessages (s : Store) (type : String) (owner : Int) : Except Err (List Int) :=
  match s.selectWhere type [("owner_id", .integer owner)] with
  | .error e => .error e
  | .ok rows => .ok (rows.map (fun r => r.id))

/-- The statement `SELECT column FROM t WHERE id = n` of the array branch of
`readFields`, stepped once: the cell of the first row. -/
def Store.selectColumnById (s : Store) (t : String) (column : String) (id : Int) :
    Except Err (Option SqlValue) :=
  match s.table? t with
  | none => .error .sqlError
  | some tb =>
    if tb.hasColumn column then
      .ok (((s.rows t).find? (fun r => r.id == id)).map (fun r => tb.cell r.cells column))
    else .error .sqlError

/-- The member `Statement::getColumn(index)` on a row of `SELECT *`: column 0 is `id`,
and an index past the last column throws. -/
def Row.getColumn (row : Row) (index : Nat) : Except Err SqlValue :=
  match index with
  | 0 => .ok (.integer row.id)
  | i + 1 =>
    match row.cells.get? i with
    | some v => .ok v
    | none => .error .sqlError

/-- The loop of the array branch of `readFields` over the ids of the side-table rows
of one repeated scalar field. -/
def readArrayScalars (s : Store) (tableName columnName : String) (t : CppType) :
    List Int → Except Err (List Scalar)
  | [] => .ok []
  | msgId :: rest =>
    match s.selectColumnById tableName columnName msgId with
    | .error e => .error e
    | .ok none => .error .notFound
    | .ok (some cell) =>
      match readArrayScalars s tableName columnName t rest with
      | .error e => .error e
      | .ok vs => .ok (readScalar t cell :: vs)

/-- The loop of the array branch of `readFields` over the ids of the side-table rows
of one repeated field of message type; `find` is `findMessage(type, id, message)`. -/
def readArrayMessages (find : String → Descriptor → Int → Except Err Message) (s : Store)
    (tableName columnName : String) (nested : Descriptor) : List Int → Except Err (List Message)
  | [] => .ok []
  | msgId :: rest =>
    match s.selectColumnById tableName columnName msgId with
    | .error e => .error e
    | .ok none => .error .notFound
    | .ok (some cell) =>
      match find nested.name nested cell.getInt64 with
      | .error e => .error e
      | .ok m =>
        match readArrayMessages find s tableName columnName nested rest with
        | .error e => .error e
        | .ok ms => .ok (m :: ms)

/-- The loop of the map branch of `readFields`: each side-table row is read as an
entry message, by `findMessage(tableName, msgId, entry)`. -/
def readMapEntries (find : String → Descriptor → Int → Except Err Message)
    (tableName : String) (entry : Descriptor) : List Int → Except Err (List Message)
  | [] => .ok []
  | msgId :: rest =>
    match find tableName entry msgId with
    | .error e => .error e
    | .ok m =>
      match readMapEntries find tableName entry rest with
      | .error e => .error e
      | .ok ms => .ok (m :: ms)

/-- The loop of `readFields` over the fields of the descriptor; `column` is the index
of the next column of the row, which only a singular field advances. -/
def readFieldsLoop (find : String → Descriptor → Int → Except Err Message) (s : Store)
    (descriptor : Descriptor) (row : Row) : List FieldDescriptor → Nat → Except Err (List Value)
  | [], _ => .ok []
  | field :: rest, column =>
    if field.is_repeated && !field.is_map then
      let tableName := getFieldTableName descriptor field
      match findAssociatedMessages s tableName row.id with
      | .error e => .error e
      | .ok messages =>
        let columnName := getColumnName field.name
        let value : Except Err Value :=
          match field.type with
          | .scalar t =>
            match readArrayScalars s tableName columnName t messages with
            | .error e => .error e
            | .ok vs => .ok (.repeated vs)
          | .message nested =>
            match readArrayMessages find s tableName columnName nested messages with
            | .error e => .error e
            | .ok ms => .ok (.repeatedMessage ms)
        match value with
        | .error e => .error e
        | .ok v =>
          match readFieldsLoop find s descriptor row rest column with
          | .error e => .error e
          | .ok vs => .ok (v :: vs)
    else
      match field.type with
      | .scalar t =>
        match row.getColumn column with
        | .error e => .error e
        | .ok cell =>
          match readFieldsLoop find s descriptor row rest (column + 1) with
          | .error e => .error e
          | .ok vs => .ok (.scalar true (readScalar t cell) :: vs)
      | .message nested =>
        if field.is_map then
          let tableName := getFieldTableName descriptor field
          match findAssociatedMessages s tableName row.id with
          | .error e => .error e
          | .ok messages =>
            match readMapEntries find tableName nested messages with
            | .error e => .error e
            | .ok ms =>
              match readFieldsLoop find s descriptor row rest column with
              | .error e => .error e
              | .ok vs => .ok (.repeatedMessage ms :: vs)
        else
          match row.getColumn column with
          | .error e => .error e
          | .ok cell =>
            match find nested.name nested cell.getInt64 with
            | .error e => .error e
            | .ok m =>
              match readFieldsLoop find s descriptor row rest (column + 1) with
              | .error e => .error e
              | .ok vs => .ok (.message true m :: vs)

/-- The function `Database::findMessage(type, id, message)`: the first row of
`SELECT * FROM type WHERE id = n`, read by `readFields` into a message of the given
descriptor.  The first argument bounds the depth of the recursion. -/
def findMessageById : Nat → Store → String → Descriptor → Int → Except Err Message
  | 0, _, _, _, _ => .error .unexpectedType
  | fuel + 1, s, type, descriptor, id =>
    match s.selectById type id with
    | .error e => .error e
    | .ok [] => .error .notFound
    | .ok (row :: _) =>
      match readFieldsLoop (findMessageById fuel s) s descriptor row descriptor.fields 1 with
      | .error e => .error e
      | .ok vs => .ok (.mk vs)

/-- The function `Database::readFields` on a row of the main table of `descriptor`. -/
def readFields (fuel : Nat) (s : Store) (descriptor : Descriptor) (row : Row) :
    Except Err Message :=
  match readFieldsLoop (findMessageById fuel s) s descriptor row descriptor.fields 1 with
  | .error e => .error e
  | .ok vs => .ok (.mk vs)

/-- The rows of `getAllMessages`, each read by `readFields`. -/
def readRows (fuel : Nat) (s : Store) (descriptor : Descriptor) :
    List Row → Except Err (List Message)
  | [] => .ok []
  | row :: rest =>
    match readFields fuel s descriptor row with
    | .error e => .error e
    | .ok m =>
      match readRows fuel s descriptor rest with
      | .error e => .error e
      | .ok ms => .ok (m :: ms)

/-- The function `Database::getAllMessages<Message>`: every row of
`SELECT * FROM type`, read by `readFields`. -/
def getAllMessages (fuel : Nat) (descriptor : Descriptor) (s : Store) : Except Err (List Message) :=
  match s.selectWhere descriptor.name [] with
  | .error e => .error e
  | .ok rows => readRows fuel s descriptor rows

/-- The argument `key` of the templates `findMessage<Message, Key>` and
`deleteMessage<Message, Key>`: a value that `Statement::bind` takes as it is, or a
message. -/
inductive Key where
  | scalar (v : SqlValue)
  | message (d : Descriptor) (m : Message)

/-- The function `Database::findMessage<Message, Key>(field, key)`. -/
def findMessageByKey (fuel : Nat) (descriptor : Descriptor) (field : FieldDescriptor) (key : Key)
    (s : Store) : Except Err (Option Message) :=
  if !isKey field then .error .notAKey
  else
    let column := getColumnName field.name
    match (Store.prepare descriptor.name [column] s).1 with
    | .error e => .error e
    | .ok _ =>
      let bound : Except Err (Option SqlValue) :=
        match key with
        | .message kd km =>
          match findMessage fuel kd km s with
          | .error e => .error e
          | .ok none => .ok none
          | .ok (some keyId) => .ok (some (.integer keyId))
        | .scalar v => .ok (some v)
      match bound with
      | .error e => .error e
      | .ok none => .ok none
      | .ok (some v) =>
        match s.selectWhere descriptor.name [(column, v)] with
        | .error e => .error e
        | .ok [] => .ok none
        | .ok (row :: _) =>
          match readFields fuel s descriptor row with
          | .error e => .error e
          | .ok m => .ok (some m)

/-- The function `Database::deleteMessage<Message, Key>(field, key)`.  It runs
outside any `SQLite::Transaction`. -/
def deleteMessageByKey (fuel : Nat) (descriptor : Descriptor) (field : FieldDescriptor)
    (key : Key) : Exec Unit := fun s =>
  if !isKey field then (.error .notAKey, s)
  else
    let column := getColumnName field.name
    match Store.prepare descriptor.name [column] s with
    | (.error e, s1) => (.error e, s1)
    | (.ok _, _) =>
      let bound : Except Err (Option SqlValue) :=
        match key with
        | .message kd km =>
          match findMessage fuel kd km s with
          | .error e => .error e
          | .ok none => .ok none
          | .ok (some keyId) => .ok (some (.integer keyId))
        | .scalar v => .ok (some v)
      match bound with
      | .error e => (.error e, s)
      | .ok none => (.ok (), s)
      | .ok (some v) => Store.delete descriptor.name (fun tb r => tb.matches column v r) s

/-- The function `Database::clearTable`: `DELETE FROM type` in a transaction. -/
def clearTable (type : String) : Exec Unit :=
  transaction (Store.delete type (fun _ _ => true))

end ProtoDatabase


namespace ProtoDatabase

/-! ## Vocabulary of the statements -/

mutual
/-- The message with every presence bit set: what is left of a message when it is
compared field for field by the values its getters return. -/
def Message.present : Message → Message
  | .mk vs => .mk (Value.presentList vs)
/-- The values of a list of fields, every presence bit set. -/
def Value.presentList : List Value → List Value
  | [] => []
  | v :: vs => Value.present v :: Value.presentList vs
/-- The value of a field, every presence bit set. -/
def Value.present : Value → Value
  | .scalar _ x => .scalar true x
  | .message _ m => .message true (Message.present m)
  | .repeated xs => .repeated xs
  | .repeatedMessage ms => .repeatedMessage (Message.presentAll ms)
/-- The messages of a list, every presence bit set. -/
def Message.presentAll : List Message → List Message
  | [] => []
  | m :: ms => Message.present m :: Message.presentAll ms
end

/-- The C++ type a scalar value is tagged with. -/
def Scalar.cppType : Scalar → CppType
  | .int32 _ => .INT32
  | .int64 _ => .INT64
  | .uint32 _ => .UINT32
  | .uint64 _ => .UINT64
  | .double _ => .DOUBLE
  | .float _ => .FLOAT
  | .doubleNaN => .DOUBLE
  | .floatNaN => .FLOAT
  | .bool _ => .BOOL
  | .enum _ => .ENUM
  | .string _ => .STRING

/-- The value lies in the range of its C++ type. -/
def Scalar.inRange : Scalar → Bool
  | .int32 v => decide (-(2 : Int) ^ 31 ≤ v ∧ v < (2 : Int) ^ 31)
  | .int64 v => decide (-(2 : Int) ^ 63 ≤ v ∧ v < (2 : Int) ^ 63)
  | .uint32 v => decide (v < 2 ^ 32)
  | .uint64 v => decide (v < 2 ^ 64)
  | .enum v => decide (-(2 : Int) ^ 31 ≤ v ∧ v < (2 : Int) ^ 31)
  | _ => true

/-- The value is a floating point NaN. -/
def Scalar.isNaN : Scalar → Bool
  | .doubleNaN => true
  | .floatNaN => true
  | _ => false

/-- The value is one that `readScalar` returns from the cell `bindScalar` stores: not a
`UInt64` of `2 ^ 31` or more, which `atoi` does not return, and not a NaN, which is
stored as `NULL` and read as zero. -/
def Scalar.readsBack : Scalar → Bool
  | .uint64 v => decide (v < 2 ^ 31)
  | .doubleNaN => false
  | .floatNaN => false
  | _ => true

mutual
/-- Every scalar of the message, at any depth, satisfies `p`. -/
def Message.allScalars (p : Scalar → Bool) : Message → Bool
  | .mk vs => Value.allScalarsList p vs
/-- Every scalar of the values of a list satisfies `p`. -/
def Value.allScalarsList (p : Scalar → Bool) : List Value → Bool
  | [] => true
  | v :: vs => Value.allScalars p v && Value.allScalarsList p vs
/-- Every scalar of the value satisfies `p`. -/
def Value.allScalars (p : Scalar → Bool) : Value → Bool
  | .scalar _ x => p x
  | .message _ m => Message.allScalars p m
  | .repeated xs => xs.all p
  | .repeatedMessage ms => Message.allScalarsAll p ms
/-- Every scalar of the messages of a list satisfies `p`. -/
def Message.allScalarsAll (p : Scalar → Bool) : List Message → Bool
  | [] => true
  | m :: ms => Message.allScalars p m && Message.allScalarsAll p ms
end

/-- The shape of a map entry type: a singular scalar key field and a singular value
field. -/
def isEntryShape : List FieldDescriptor → Bool
  | [k, v] =>
    (match k.label, k.type with
      | .singular, .scalar _ => true
      | _, _ => false) &&
    (match v.label with
      | .singular => true
      | _ => false)
  | _ => false

mutual
/-- The message is a value of the type: one value per field, of the cardinality and
C++ type of the field, every scalar in the range of its type. -/
def Descriptor.conforms : Descriptor → Message → Bool
  | .mk _ fs, m => FieldDescriptor.conformsList fs m.fields
/-- The values are values of the fields, one for one. -/
def FieldDescriptor.conformsList : List FieldDescriptor → List Value → Bool
  | [], [] => true
  | f :: fs, v :: vs => FieldDescriptor.conformsValue f v && FieldDescriptor.conformsList fs vs
  | _, _ => false
/-- The value is a value of the field. -/
def FieldDescriptor.conformsValue : FieldDescriptor → Value → Bool
  | .mk _ label type _, v => FieldType.conformsValue label type v
/-- The value is a value of a field of the given cardinality and type. -/
def FieldType.conformsValue : Label → FieldType → Value → Bool
  | .singular, .scalar t, .scalar _ x => decide (x.cppType = t) && x.inRange
  | .singular, .message d, .message _ m => Descriptor.conforms d m
  | .repeated, .scalar t, .repeated xs => xs.all (fun x => decide (x.cppType = t) && x.inRange)
  | .repeated, .message d, .repeatedMessage ms => ms.all (fun m => Descriptor.conforms d m)
  | .map, .message d, .repeatedMessage ms => ms.all (fun m => Descriptor.conforms d m)
  | _, _, _ => false
end

/-- The columns `createTableImpl` gives the main table of a type: one per singular
field, in declaration order. -/
def mainColumns (fs : List FieldDescriptor) : List (String × SqlType) :=
  (fs.filter (fun f => !f.is_map && !f.is_repeated)).map
    (fun f => (getColumnName f.name, getFieldType f))

/-- The schema of a store: its tables and its triggers. -/
def Store.schema (s : Store) : List Table × List Trigger := (s.tables, s.triggers)

/-- The schema has a table of that name with exactly these columns. -/
def tableIs (sc : List Table × List Trigger) (name : String)
    (columns : List (String × SqlType)) : Bool :=
  match tableOf sc.1 name with
  | some tb => decide (tb.columns = columns) && decide (columns.map (fun c => c.1)).Nodup
  | none => false

/-- The schema has a side table of that name with exactly these columns and the
constraint `UNIQUE(owner_id, keyColumn)`, and no trigger fires on it. -/
def sideIs (sc : List Table × List Trigger) (name : String)
    (columns : List (String × SqlType)) (keyColumn : String) : Bool :=
  match tableOf sc.1 name with
  | some tb =>
    decide (tb.columns = columns) && decide (columns.map (fun c => c.1)).Nodup &&
    decide (tb.uniques = [["owner_id", keyColumn]]) &&
    sc.2.all (fun trg => trg.table != name)
  | none => false

mutual
/-- The schema holds the tables of the type and of every type below it, as
`createTableImpl` lays them out: a main table per type with one column per singular
field, a side table per repeated or map field. -/
def Descriptor.schemaOk (s : List Table × List Trigger) : Descriptor → Bool
  | .mk name fs =>
    tableIs s name (mainColumns fs) &&
    decide ((fs.map (fun f => f.name)).Nodup) &&
    FieldDescriptor.schemaOkList s name fs
/-- The tables of the fields of a type named `owner` are in the schema. -/
def FieldDescriptor.schemaOkList (s : List Table × List Trigger) (owner : String) : List FieldDescriptor → Bool
  | [] => true
  | f :: fs => FieldDescriptor.schemaOk s owner f && FieldDescriptor.schemaOkList s owner fs
/-- The tables of one field of a type named `owner` are in the schema. -/
def FieldDescriptor.schemaOk (s : List Table × List Trigger) (owner : String) : FieldDescriptor → Bool
  | .mk fname label type _ => FieldType.schemaOk s owner fname label type
/-- The tables of a field of the given name, cardinality and type. -/
def FieldType.schemaOk (s : List Table × List Trigger) (owner fname : String) : Label → FieldType → Bool
  | .singular, .scalar _ => true
  | .singular, .message d => Descriptor.schemaOk s d
  | .repeated, .scalar t =>
    sideIs s (fieldTableName owner fname)
      [(getColumnName fname, getFieldType (.mk fname .repeated (.scalar t) none)),
       ("owner_id", .INTEGER)] (getColumnName fname)
  | .repeated, .message d =>
    sideIs s (fieldTableName owner fname)
      [(getColumnName fname, .INTEGER), ("owner_id", .INTEGER)] (getColumnName fname) &&
    Descriptor.schemaOk s d
  | .map, .message (.mk _ efs) =>
    isEntryShape efs &&
    sideIs s (fieldTableName owner fname)
      (efs.map (fun f => (getColumnName f.name, getFieldType f)) ++ [("owner_id", .INTEGER)])
      (getColumnName ((efs.head?.map (fun f => f.name)).getD "")) &&
    FieldDescriptor.schemaOkList s "" efs
  | .map, .scalar _ => false
end

mutual
/-- The tables a write of a message of the type can touch: the name of each, and for
a side table the name of the main table of its owner. -/
def Descriptor.tables : Descriptor → List (String × Option String)
  | .mk name fs => (name, none) :: FieldDescriptor.tablesList name fs
/-- The tables of the fields of a type named `owner`. -/
def FieldDescriptor.tablesList (owner : String) : List FieldDescriptor →
    List (String × Option String)
  | [] => []
  | f :: fs => FieldDescriptor.tables owner f ++ FieldDescriptor.tablesList owner fs
/-- The tables of one field of a type named `owner`. -/
def FieldDescriptor.tables (owner : String) : FieldDescriptor → List (String × Option String)
  | .mk fname label type _ => FieldType.tables owner fname label type
/-- The tables of a field of the given name, cardinality and type. -/
def FieldType.tables (owner fname : String) : Label → FieldType → List (String × Option String)
  | .singular, .scalar _ => []
  | .singular, .message d => Descriptor.tables d
  | .repeated, .scalar _ => [(fieldTableName owner fname, some owner)]
  | .repeated, .message d => (fieldTableName owner fname, some owner) :: Descriptor.tables d
  | .map, .scalar _ => [(fieldTableName owner fname, some owner)]
  | .map, .message (.mk _ efs) =>
    (fieldTableName owner fname, some owner) :: FieldDescriptor.tablesList "" efs
end

/-- No name stands for two tables: a name is not both a main table and a side table,
and a side table has one owner. -/
def namesAgree (tables : List (String × Option String)) : Prop :=
  ∀ x ∈ tables, ∀ y ∈ tables, x.1 = y.1 → x.2 = y.2

/-- The ids of the rows of a table. -/
def Store.ids (s : Store) (t : String) : List Int := (s.rows t).map (fun r => r.id)

/-- The row ids of every table are pairwise distinct (`id` is the primary key). -/
def Store.idsNodup (s : Store) : Prop := ∀ t, (s.ids t).Nodup

/-- The final store has the schema of the first one, and the rows of every table
outside `L`. -/
def Touches (L : List String) (s s2 : Store) : Prop :=
  s2.schema = s.schema ∧ ∀ t, t ∉ L → s2.rows t = s.rows t

/-- Whatever its outcome, the step changes no schema and no rows outside `L`. -/
def Exec.touches {α : Type} (L : List String) (m : Exec α) : Prop :=
  ∀ s r s2, m s = (r, s2) → Touches L s s2

/-- Started in a store of schema `sc`, the step changes no schema and no rows outside
`L`, whatever its outcome. -/
def Exec.touchesIf {α : Type} (sc : List Table × List Trigger) (L : List String)
    (m : Exec α) : Prop :=
  ∀ s r s2, s.schema = sc → m s = (r, s2) → Touches L s s2

/-- The tables of the field are in the schema and their names are in `L`. -/
def FieldIn (sc : List Table × List Trigger) (L : List String) (owner : String)
    (f : FieldDescriptor) : Prop :=
  FieldDescriptor.schemaOk sc owner f = true ∧ ∀ x ∈ FieldDescriptor.tables owner f, x.1 ∈ L

/-- The tables of the type are in the schema and their names are in `L`. -/
def TypeIn (sc : List Table × List Trigger) (L : List String) (d : Descriptor) : Prop :=
  Descriptor.schemaOk sc d = true ∧ ∀ x ∈ Descriptor.tables d, x.1 ∈ L

/-- The function `write` changes no schema and no rows outside `L` when it writes a
message of a type whose tables are in the schema and in `L`. -/
def WriteTouches (sc : List Table × List Trigger) (L : List String)
    (write : Descriptor → Message → Exec Int) : Prop :=
  ∀ d m, TypeIn sc L d → Exec.touchesIf sc L (write d m)

/-- The singular fields of a message with their values (`dataFields` of
`writeMessageImpl`). -/
def dataFields (d : Descriptor) (m : Message) : List (FieldDescriptor × Value) :=
  (d.fields.zip m.fields).filter (fun p => !p.1.is_map && !p.1.is_repeated)

/-- The map fields of a message with their values (`mapFields` of `writeMessageImpl`). -/
def mapFields (d : Descriptor) (m : Message) : List (FieldDescriptor × Value) :=
  (d.fields.zip m.fields).filter (fun p => p.1.is_map)

/-- The repeated fields of a message with their values (`repeatedFields` of
`writeMessageImpl`). -/
def repeatedFields (d : Descriptor) (m : Message) : List (FieldDescriptor × Value) :=
  (d.fields.zip m.fields).filter (fun p => !p.1.is_map && p.1.is_repeated)

/-- The column names of the `INSERT` of `writeMessageImpl` (`fieldNames`). -/
def fieldNames (d : Descriptor) (m : Message) : List String :=
  (dataFields d m).map (fun p => getColumnName p.1.name)

/-- The recursive call of `writeMessageImpl` for a nested message. -/
def writeNested (fuel : Nat) : Descriptor → Message → Exec Int :=
  fun d m => writeMessageImpl fuel d m false

/-- The argument `find` of `insertMessageFields` where `isInsertion` is set. -/
def noFind : Descriptor → Message → Store → Except Err (Option Int) :=
  fun _ _ _ => .error .unexpectedType

/-- The names of the tables below a type: the side tables of its fields and the
tables of the types of its fields. -/
def Descriptor.childTables (d : Descriptor) : List String :=
  (FieldDescriptor.tablesList d.name d.fields).map (fun x => x.1)

/-- The `UNIQUE` constraints `createTableImpl` gives the main table of a type that
declares key fields: one per key field, over its column alone. -/
def keyUniques (d : Descriptor) : List (List String) :=
  (d.fields.filter (fun f => !f.is_map && !f.is_repeated && isKey f)).map
    (fun f => [getColumnName f.name])

/-- Started in a store of schema `sc`, the step keeps the schema and either returns a
value that satisfies `P` or throws the constraint error. -/
def Exec.yields {α : Type} (sc : List Table × List Trigger) (P : α → Prop) (m : Exec α) : Prop :=
  ∀ s r s2, s.schema = sc → m s = (r, s2) →
    s2.schema = sc ∧ ((∃ a, r = .ok a ∧ P a) ∨ r = .error .constraint)

/-- The function `write` returns or throws the constraint error when it writes a
conforming message of a type of depth at most `fuel` whose tables are in the schema. -/
def WriteYields (sc : List Table × List Trigger) (L : List String) (fuel : Nat)
    (write : Descriptor → Message → Exec Int) : Prop :=
  ∀ d m, d.depth ≤ fuel → TypeIn sc L d → Descriptor.conforms d m = true →
    Exec.yields sc (fun _ => True) (write d m)

/-- The field is in the schema, its value conforms to it, and the depth of its type is
at most `fuel`. -/
def FieldReady (sc : List Table × List Trigger) (L : List String) (fuel : Nat) (owner : String)
    (p : FieldDescriptor × Value) : Prop :=
  FieldIn sc L owner p.1 ∧ FieldDescriptor.conformsValue p.1 p.2 = true ∧
    FieldDescriptor.depth p.1 ≤ fuel

end ProtoDatabase

namespace ProtoDatabase

/-! ## Example types and records -/

namespace Examples

/-- A type with one singular `uint64` field: `message Counter { uint64 n = 1; }`. -/
def Counter : Descriptor := .mk "Counter" [.mk "n" .singular (.scalar .UINT64) none]

/-- A type with one repeated `uint64` field: `message Counters { repeated uint64 n = 1; }`. -/
def Counters : Descriptor := .mk "Counters" [.mk "n" .repeated (.scalar .UINT64) none]

/-- The type of the scenario of the specification:
`message Bag { repeated int32 values = 1; }`. -/
def Bag : Descriptor := .mk "Bag" [.mk "values" .repeated (.scalar .INT32) none]

/-- A nested type with two scalar fields: `message Pos { int32 x = 1; int32 y = 2; }`. -/
def Pos : Descriptor := .mk "Pos"
  [.mk "x" .singular (.scalar .INT32) none, .mk "y" .singular (.scalar .INT32) none]

/-- A record of `Pos`. -/
def pos (x y : Int) : Message := .mk [.scalar true (.int32 x), .scalar true (.int32 y)]

/-- A type that uses `Pos` twice, first as a plain field and then as its key:
`message Item { Pos other = 1; Pos pos = 2 [key]; string data = 3; }`. -/
def Item : Descriptor := .mk "Item"
  [.mk "other" .singular (.message Pos) none,
   .mk "pos" .singular (.message Pos) (some true),
   .mk "data" .singular (.scalar .STRING) none]

/-- A record of `Item`. -/
def item (other key : Message) (data : String) : Message :=
  .mk [.message true other, .message true key, .scalar true (.string data)]

/-- A type with a key: `message Tag { int32 k = 1 [key]; }`. -/
def Tag : Descriptor := .mk "Tag" [.mk "k" .singular (.scalar .INT32) (some true)]

/-- A record of `Tag`. -/
def tag (k : Int) : Message := .mk [.scalar true (.int32 k)]

/-- A type with two fields of the keyed type: `message Pair { Tag a = 1; Tag b = 2; }`. -/
def Pair : Descriptor := .mk "Pair"
  [.mk "a" .singular (.message Tag) none, .mk "b" .singular (.message Tag) none]

/-- A map entry with an `int32` key and a message value. -/
def entry (key : Int) (value : Message) : Message :=
  .mk [.scalar true (.int32 key), .message true value]

/-- A type with a nested message and a repeated scalar field:
`message Note { Pos origin = 1; repeated string tags = 2; }`. -/
def Note : Descriptor := .mk "Note"
  [.mk "origin" .singular (.message Pos) none, .mk "tags" .repeated (.scalar .STRING) none]

/-- A record of `Track`. -/
def track : Message :=
  .mk [.repeated [.int32 3, .int32 1], .repeatedMessage [pos 1 2]]

/-- The store after `createTable` of a type on a fresh database. -/
def created (fuel : Nat) (d : Descriptor) : Store := (createTable fuel d Store.empty).2

/-- The store after `writeMessage` of a record on the store `s`. -/
def written (fuel : Nat) (d : Descriptor) (m : Message) (s : Store) : Store :=
  (writeMessage fuel d m s).2

/-- The store after `insertMessage` of a record on the store `s`. -/
def inserted (fuel : Nat) (d : Descriptor) (m : Message) (s : Store) : Store :=
  (insertMessage fuel d m s).2

end Examples

end ProtoDatabase

namespace ProtoDatabase

/-! ## Vocabulary of the round trip -/

/-- The rows of every table are listed in ascending order of `id`: the order in which
a scan of a rowid table, and `ORDER BY id`, return them. -/
def Store.ascending (s : Store) : Prop :=
  ∀ t, ((s.rows t).map (fun r => r.id)).Pairwise (fun a b => a < b)

/-- The rows of the side table `t` that `WHERE owner_id = o` selects. -/
def ownerRows (s : Store) (t : String) (o : Int) : List Row :=
  match s.table? t with
  | some tb => (s.rows t).filter (fun r => tb.matches "owner_id" (.integer o) r)
  | none => []

/-- What a step from `s` to `s2` keeps: the schema, the order of the rows, every row of
a main table of `T`, and the rows of a side table `t` under an owner `o` with `Q t o`. -/
structure Pres (T : List (String × Option String)) (Q : String → Int → Prop)
    (s s2 : Store) : Prop where
  /-- The schema is the same. -/
  schema : s2.schema = s.schema
  /-- The rows stay in ascending order of `id`. -/
  ascending : s.ascending → s2.ascending
  /-- The rows of the main tables stay. -/
  main : ∀ t, (t, none) ∈ T → ∀ r ∈ s.rows t, r ∈ s2.rows t
  /-- The rows of the side tables under the owners `Q` names stay as they are. -/
  side : ∀ t o, Q t o → ownerRows s2 t o = ownerRows s t o

/-- The layout of a side table: its own columns, then `owner_id`. -/
structure SideTable (tb : Table) (cs : List (String × SqlType)) : Prop where
  /-- The columns of the table. -/
  columns : tb.columns = cs ++ [("owner_id", .INTEGER)]
  /-- No two columns have the same name. -/
  nodup : (tb.columns.map (fun c => c.1)).Nodup

/-- The side table `t` of `T` and an owner row that the store holds. -/
def existing (T : List (String × Option String)) (s : Store) (t : String) (o : Int) : Prop :=
  ∃ owner, (t, some owner) ∈ T ∧ (owner, none) ∈ T ∧ o ∈ s.ids owner

/-- The side table `t` of `T` and an owner row that `s2` holds and `s` does not. -/
def newSince (T : List (String × Option String)) (s s2 : Store) (t : String) (o : Int) : Prop :=
  ∃ owner, (t, some owner) ∈ T ∧ (owner, none) ∈ T ∧ o ∈ s2.ids owner ∧ o ∉ s.ids owner

/-- The side table `tn` under the owner `id`, or a side table under an owner row that
`s2` holds and `s` does not. -/
def ownOr (T : List (String × Option String)) (tn : String) (id : Int) (s s2 : Store)
    (t : String) (o : Int) : Prop :=
  (t = tn ∧ o = id) ∨ newSince T s s2 t o

/-- Row `id` of the main table of `d` reads back as `m`, in `s2` and in every store
that a step from `s2` reaches that keeps the rows written between `s` and `s2`. -/
def ReadsIn (T : List (String × Option String)) (s s2 : Store) (d : Descriptor) (id : Int)
    (m : Message) : Prop :=
  ∀ s3, Pres T (newSince T s s2) s2 s3 → s3.ascending → ∀ f, d.depth ≤ f →
    findMessageById f s3 d.name d id = .ok m

/-- The tables of the type are in the schema, with their roles listed in `T`. -/
def TypeOk (sc : List Table × List Trigger) (T : List (String × Option String))
    (d : Descriptor) : Prop :=
  Descriptor.schemaOk sc d = true ∧ ∀ x ∈ Descriptor.tables d, x ∈ T

/-- The tables of the field are in the schema, with their roles listed in `T`. -/
def FieldOk (sc : List Table × List Trigger) (T : List (String × Option String))
    (owner : String) (f : FieldDescriptor) : Prop :=
  FieldDescriptor.schemaOk sc owner f = true ∧ ∀ x ∈ FieldDescriptor.tables owner f, x ∈ T

/-- The cell `c` of a singular field reads back as the value of the field. -/
def singularRead (find : String → Descriptor → Int → Except Err Message)
    (p : FieldDescriptor × Value) (c : SqlValue) : Prop :=
  match p.1.type, p.2 with
  | .scalar t, .scalar _ x => readScalar t c = x
  | .message n, .message _ m => find n.name n c.getInt64 = .ok (Message.present m)
  | _, _ => False

/-- The side table of a map field reads back, for the owner `id`, as the entries of
the field. -/
def mapRead (find : String → Descriptor → Int → Except Err Message) (s : Store)
    (d : Descriptor) (id : Int) (p : FieldDescriptor × Value) : Prop :=
  match p.1.type, p.2 with
  | .message entry, .repeatedMessage es =>
    ∃ ids, findAssociatedMessages s (getFieldTableName d p.1) id = .ok ids ∧
      readMapEntries find (getFieldTableName d p.1) entry ids = .ok (Message.presentAll es)
  | _, _ => False

/-- The side table of a repeated field reads back, for the owner `id`, as the elements
of the field. -/
def arrayRead (find : String → Descriptor → Int → Except Err Message) (s : Store)
    (d : Descriptor) (id : Int) (p : FieldDescriptor × Value) : Prop :=
  match p.1.type, p.2 with
  | .scalar t, .repeated xs =>
    ∃ ids, findAssociatedMessages s (getFieldTableName d p.1) id = .ok ids ∧
      readArrayScalars s (getFieldTableName d p.1) (getColumnName p.1.name) t ids = .ok xs
  | .message n, .repeatedMessage ms =>
    ∃ ids, findAssociatedMessages s (getFieldTableName d p.1) id = .ok ids ∧
      readArrayMessages find s (getFieldTableName d p.1) (getColumnName p.1.name) n ids
        = .ok (Message.presentAll ms)
  | _, _ => False

/-- The value `v` bound for a singular field written between `s` and `s2`: the bound
scalar, or the id of a row that reads back as the nested message. -/
def storedSingular (T : List (String × Option String)) (s s2 : Store)
    (p : FieldDescriptor × Value) (v : SqlValue) : Prop :=
  match p.1.type, p.2 with
  | .scalar t, .scalar _ x => bindScalar t x = .ok v
  | .message n, .message _ m => ∃ k, v = .integer k ∧ ReadsIn T s s2 n k (Message.present m)
  | _, _ => False

/-- The function `write` inserts a row that reads back as the message it was given, and
keeps what the store held. -/
def WriteReads (sc : List Table × List Trigger) (T : List (String × Option String))
    (write : Descriptor → Message → Exec Int) : Prop :=
  ∀ d m s s2 id, TypeOk sc T d → s.schema = sc → s.ascending →
    Descriptor.conforms d m = true → Message.allScalars Scalar.readsBack m = true →
    write d m s = (.ok id, s2) →
    Pres T (existing T s) s s2 ∧ id ∈ s2.ids d.name ∧ id ∉ s.ids d.name ∧
      ReadsIn T s s2 d id (Message.present m)

end ProtoDatabase

namespace ProtoDatabase

/-! ## The class `Database`: deletion by record -/

/-- Compilation of the text `fullSQL` that the loop of `deleteMessageImpl` builds from
the names of the keys.  The loop appends `name=?` for each key, with the name of the
field as it is (not `getColumnName`), and where another key follows it assigns the
text `" AND "` to `fullSQL`.  With one key the text is `DELETE FROM table WHERE name=?;`,
which compiles when the table has a column of that name (`id` or a declared column);
with more than one it is `" AND name=?;"`, which is no statement. -/
def compileDelete (table : String) : List String → Exec Unit
  | [name] => Store.prepare table ([name].filter (fun c => c != "id"))
  | _ => Exec.throw .sqlError

/-- The function `Database::deleteMessageImpl`.  The keys are bound to the compiled
statement `query` by `insertMessageFields`, but the statement that runs is
`database.exec(fullSQL)`, a second compilation of the text whose parameter is not
bound: its condition `name = NULL` holds for no row. -/
def deleteMessageImpl (fuel : Nat) (descriptor : Descriptor) (message : Message) : Exec Unit :=
  Exec.bind (Exec.ofExcept (getMessageKeys descriptor message false)) (fun keys =>
    if keys.isEmpty then Exec.throw .noKeys
    else
      Exec.bind (compileDelete descriptor.name (keys.map (fun k => k.1.name))) (fun _ =>
        Exec.bind (insertMessageFields (fun _ _ => Exec.throw .unexpectedType)
            (findMessage fuel) false keys) (fun _ =>
          Exec.bind (compileDelete descriptor.name (keys.map (fun k => k.1.name))) (fun _ =>
            Store.delete descriptor.name (fun _ _ => false)))))

/-- The function `Database::deleteMessage(const Message&)`. -/
def deleteMessage (fuel : Nat) (descriptor : Descriptor) (message : Message) : Exec Unit :=
  transaction (deleteMessageImpl fuel descriptor message)

/-- The loop of the test "Keys test": `writeMessage` of each record of a list in turn;
it stops at the first one that throws. -/
def writeMessages (fuel : Nat) (descriptor : Descriptor) : List Message → Exec (List Int)
  | [] => Exec.pure []
  | message :: rest =>
    Exec.bind (writeMessage fuel descriptor message) (fun id =>
      Exec.bind (writeMessages fuel descriptor rest) (fun ids => Exec.pure (id :: ids)))

/-- The row holds, in the column of every singular scalar field, the value bound for
the record. -/
def rowOf (tb : Table) (d : Descriptor) (m : Message) (row : Row) : Prop :=
  ∀ kf c x t v, (kf, Value.scalar c x) ∈ dataFields d m → kf.type = .scalar t →
    bindScalar t x = .ok v →
    tb.cell row.cells (getColumnName kf.name) = applyAffinity (getFieldType kf).affinity v

/-- In no key column does the row hold the value bound for the record. -/
def keysDiffer (tb : Table) (d : Descriptor) (m : Message) (old : Row) : Prop :=
  ∀ kf c x t v, isKey kf = true → (kf, Value.scalar c x) ∈ dataFields d m →
    kf.type = .scalar t → bindScalar t x = .ok v →
    tb.cell old.cells (getColumnName kf.name) ≠ applyAffinity (getFieldType kf).affinity v

/-- The two records have different values in every key field. -/
def distinctKeys (d : Descriptor) (r1 r2 : Message) : Prop :=
  ∀ kf c1 x1 c2 x2, isKey kf = true → (kf, Value.scalar c1 x1) ∈ dataFields d r1 →
    (kf, Value.scalar c2 x2) ∈ dataFields d r2 → x1 ≠ x2

/-- Row `id` of the main table of `d` reads back as `m`, in `s` and in every store that
a step from `s` reaches that keeps the rows `s` holds. -/
def readsAs (T : List (String × Option String)) (s : Store) (d : Descriptor) (id : Int)
    (m : Message) : Prop :=
  ∀ s3, Pres T (existing T s) s s3 → s3.ascending → ∀ f, d.depth ≤ f →
    findMessageById f s3 d.name d id = .ok m

/-! ## The errors of a step -/

/-- Whatever the store, the step throws only errors of the set `E`. -/
def Exec.raisesOnly {α : Type} (E : Err → Bool) (m : Exec α) : Prop :=
  ∀ s e s1, m s = (.error e, s1) → E e = true

/-- The errors of the write path: those of the SQL engine, and those of a record that
does not fit its descriptor. -/
def Err.ofWrite : Err → Bool
  | .constraint => true
  | .sqlError => true
  | .unexpectedType => true
  | .inappropriateField => true
  | .couldntWrite => true
  | _ => false

/-! ## Vocabulary of the schema creation -/

/-- Every table name and every trigger name of `s` is one of `s2`. -/
def Store.within (s s2 : Store) : Prop :=
  (∀ n, (s.table? n).isSome = true → (s2.table? n).isSome = true) ∧
  (∀ n, s.triggers.any (fun x => x.name == n) = true →
    s2.triggers.any (fun x => x.name == n) = true)

/-- The step changes no row; where it returns, it has only added to the schema, and run
again in a store that has what it added it returns the same value and changes nothing. -/
def Exec.settles {α : Type} (m : Exec α) : Prop :=
  ∀ s r s1, m s = (r, s1) →
    s1.rows = s.rows ∧ s1.lastInsertRowid = s.lastInsertRowid ∧
    ∀ a, r = .ok a → s.within s1 ∧ ∀ s2, s1.within s2 → m s2 = (.ok a, s2)

mutual
/-- The statements `createTableImpl(descriptor, uniqueObjects)` builds are well formed:
no two fields of a type have the same name, a map field has an entry type with a
scalar key and a value of another name, and a type that gets the `UNIQUE` constraint
over all its columns (no key field of its own, `uniqueObjects` set) has a column. -/
def Descriptor.creatable : Descriptor → Bool → Bool
  | .mk _ fs, u =>
    decide ((fs.map (fun f => f.name)).Nodup) &&
    (fs.any (fun f => !f.is_map && !f.is_repeated && isKey f) || !u ||
      fs.any (fun f => !f.is_map && !f.is_repeated)) &&
    FieldDescriptor.creatableList fs
/-- The statements for the fields of a list are well formed. -/
def FieldDescriptor.creatableList : List FieldDescriptor → Bool
  | [] => true
  | f :: fs => FieldDescriptor.creatable f && FieldDescriptor.creatableList fs
/-- The statements for a field are well formed. -/
def FieldDescriptor.creatable : FieldDescriptor → Bool
  | .mk _ label type key =>
    FieldType.creatable label (match key with
      | some b => b
      | none => false) type
/-- The statements for a field of the given cardinality, key option and type are well
formed. -/
def FieldType.creatable : Label → Bool → FieldType → Bool
  | .singular, _, .scalar _ => true
  | .singular, key, .message d => Descriptor.creatable d key
  | .repeated, _, .scalar _ => true
  | .repeated, _, .message d => Descriptor.creatable d false
  | .map, _, .message (.mk _ efs) => isEntryShape efs && FieldDescriptor.creatableEntry efs
  | .map, _, .scalar _ => false
/-- The statements for the value type of a map entry are well formed, and the two
fields of the entry have different names. -/
def FieldDescriptor.creatableEntry : List FieldDescriptor → Bool
  | [.mk kn _ _ _, .mk vn _ (.message d) _] => decide (kn ≠ vn) && Descriptor.creatable d false
  | [.mk kn _ _ _, .mk vn _ (.scalar _) _] => decide (kn ≠ vn)
  | _ => false
end

/-! ## More example types and records -/

namespace Examples

/-- A type whose key field is named `id`: `message Entity { int32 id = 1 [key]; }`. -/
def Entity : Descriptor := .mk "Entity" [.mk "id" .singular (.scalar .INT32) (some true)]

/-- A type with a scalar key and a repeated field:
`message Shelf { int32 k = 1 [key]; repeated int32 items = 2; }`. -/
def Shelf : Descriptor := .mk "Shelf"
  [.mk "k" .singular (.scalar .INT32) (some true), .mk "items" .repeated (.scalar .INT32) none]

/-- A record of `Shelf`. -/
def shelf (k : Int) (items : List Int) : Message :=
  .mk [.scalar true (.int32 k), .repeated (items.map Scalar.int32)]

/-- The nested type of the scenario of the specification, with a key:
`message Pos { int32 x = 1 [key]; int32 y = 2; }`. -/
def KPos : Descriptor := .mk "Pos"
  [.mk "x" .singular (.scalar .INT32) (some true), .mk "y" .singular (.scalar .INT32) none]

/-- The type of the scenario of the specification, whose key is a nested record with a
key of its own: `message Item { Pos pos = 1 [key]; string data = 2; }`. -/
def Slot : Descriptor := .mk "Item"
  [.mk "pos" .singular (.message KPos) (some true), .mk "data" .singular (.scalar .STRING) none]

/-- The type of the test "Complex key test", without its repeated and enum fields: the
key is a nested record whose type declares no key:
`message Spot { Pos pos = 1 [key]; string data = 2; }`. -/
def Spot : Descriptor := .mk "Spot"
  [.mk "pos" .singular (.message Pos) (some true), .mk "data" .singular (.scalar .STRING) none]

/-- A record of `Slot` or of `Spot`. -/
def slot (key : Message) (data : String) : Message :=
  .mk [.message true key, .scalar true (.string data)]

/-- The last type of a chain of nested types: `message B_C { int32 v = 1; }`. -/
def Leg : Descriptor := .mk "B_C" [.mk "v" .singular (.scalar .INT32) none]

/-- The type `message A { B_C b = 1; }`. -/
def Hop : Descriptor := .mk "A" [.mk "b" .singular (.message Leg) none]

/-- The type `message C { A a = 1; }`. -/
def Trip : Descriptor := .mk "C" [.mk "a" .singular (.message Hop) none]

/-- An owner type with a scalar key, one singular nested field and a repeated field:
`message A_B { int32 k = 1 [key]; C c = 2; repeated int32 items = 3; }`. -/
def Tour : Descriptor := .mk "A_B"
  [.mk "k" .singular (.scalar .INT32) (some true), .mk "c" .singular (.message Trip) none,
   .mk "items" .repeated (.scalar .INT32) none]

/-- A record of `Tour`: `A_B{k, c: C{a: A{b: B_C{v}}}, items}`. -/
def tour (k v : Int) (items : List Int) : Message :=
  .mk [.scalar true (.int32 k),
    .message true (.mk [.message true (.mk [.message true (.mk [.scalar true (.int32 v)])])]),
    .repeated (items.map Scalar.int32)]

end Examples

end ProtoDatabase

namespace ProtoDatabase

/-! ## The statements of the schema creation -/

/-- A statement of the schema creation: `CREATE TABLE IF NOT EXISTS` with the table it
defines, or `CREATE TRIGGER IF NOT EXISTS` with the trigger it defines. -/
inductive Statement where
  | table (tb : Table)
  | trigger (trg : Trigger)
  deriving DecidableEq, Repr, Inhabited

/-- The store after `CREATE TABLE IF NOT EXISTS` of a well-formed definition: the table
is added unless one of that name exists. -/
def Store.addTable (s : Store) (tb : Table) : Store :=
  match s.table? tb.name with
  | some _ => s
  | none => { s with tables := s.tables ++ [tb] }

/-- The store after `CREATE TRIGGER IF NOT EXISTS`: the trigger is added unless one of
that name exists. -/
def Store.addTrigger (s : Store) (trg : Trigger) : Store :=
  if s.triggers.any (fun x => x.name == trg.name) then s
  else { s with triggers := s.triggers ++ [trg] }

/-- The store after a list of statements, run one after the other. -/
def Store.run (s : Store) : List Statement → Store
  | [] => s
  | .table tb :: rest => (s.addTable tb).run rest
  | .trigger trg :: rest => (s.addTrigger trg).run rest

/-- The tables a list of statements defines, in the order of the statements. -/
def tablesOf : List Statement → List Table
  | [] => []
  | .table tb :: rest => tb :: tablesOf rest
  | .trigger _ :: rest => tablesOf rest

/-- The triggers a list of statements defines, in the order of the statements. -/
def triggersOf : List Statement → List Trigger
  | [] => []
  | .table _ :: rest => triggersOf rest
  | .trigger trg :: rest => trg :: triggersOf rest

/-- The list `foreignKeys` of `createTableImpl` after its loop: for every singular field
of message type, its column and the name of the nested type. -/
def mainForeignKeys (fs : List FieldDescriptor) : List (String × String) :=
  (fs.filter (fun f => !f.is_map && !f.is_repeated)).filterMap (fun f =>
    match f.type with
    | .message nested => some (getColumnName f.name, nested.name)
    | .scalar _ => none)

/-- The `UNIQUE` constraints of the statement `createTableImpl` builds for the main
table: one per key field over its column alone, or, without key fields and with
`uniqueObjects` set, one over the columns of all singular fields. -/
def mainUniques (fs : List FieldDescriptor) (uniqueObjects : Bool) : List (List String) :=
  if ((fs.filter (fun f => !f.is_map && !f.is_repeated && isKey f)).map
      (fun f => [getColumnName f.name])).isEmpty && uniqueObjects then
    [(mainColumns fs).map (fun c => c.1)]
  else (fs.filter (fun f => !f.is_map && !f.is_repeated && isKey f)).map
    (fun f => [getColumnName f.name])

/-- The trigger `createTableImpl` builds for one entry of `foreignKeys`. -/
def cascadeTrigger (owner : String) (key : String × String) : Trigger :=
  ⟨"on_delete_" ++ owner ++ "_" ++ key.2, owner, key.2, key.1⟩

mutual
/-- The statements `createTableImpl(descriptor, uniqueObjects)` runs, in their order:
those of the fields, then the main table, then its triggers. -/
def Descriptor.statements : Descriptor → Bool → List Statement
  | .mk name fs, u =>
    FieldDescriptor.statementsList name fs ++
      (Statement.table ⟨name, mainColumns fs, mainUniques fs u, mainForeignKeys fs⟩ ::
        (mainForeignKeys fs).map (fun key => Statement.trigger (cascadeTrigger name key)))
/-- The statements for the fields of a type named `owner`. -/
def FieldDescriptor.statementsList (owner : String) : List FieldDescriptor → List Statement
  | [] => []
  | f :: fs => FieldDescriptor.statements owner f ++ FieldDescriptor.statementsList owner fs
/-- The statements for one field of a type named `owner`. -/
def FieldDescriptor.statements (owner : String) : FieldDescriptor → List Statement
  | .mk fname label type key =>
    FieldType.statements owner fname label (match key with
      | some b => b
      | none => false) type
/-- The statements for a field of the given name, cardinality, key option and type. -/
def FieldType.statements (owner fname : String) : Label → Bool → FieldType → List Statement
  | .singular, _, .scalar _ => []
  | .singular, key, .message d => Descriptor.statements d key
  | .repeated, _, .scalar t =>
    [.table ⟨fieldTableName owner fname,
      [(getColumnName fname, getFieldType (.mk fname .repeated (.scalar t) none)),
       ("owner_id", .INTEGER)],
      [["owner_id", getColumnName fname]], [("owner_id", owner)]⟩]
  | .repeated, _, .message d =>
    Descriptor.statements d false ++
      [.table ⟨fieldTableName owner fname,
        [(getColumnName fname, .INTEGER), ("owner_id", .INTEGER)],
        [["owner_id", getColumnName fname]],
        [("owner_id", owner), (getColumnName fname, d.name)]⟩]
  | .map, _, .message (.mk _ efs) => FieldDescriptor.statementsEntry owner fname efs
  | .map, _, .scalar _ => []
/-- The statements for a map field with the given fields of its entry type. -/
def FieldDescriptor.statementsEntry (owner fname : String) : List FieldDescriptor → List Statement
  | [.mk kn kl kt kk, .mk vn _ (.message d) _] =>
    Descriptor.statements d false ++
      [.table ⟨fieldTableName owner fname,
        [(getColumnName kn, getFieldType (.mk kn kl kt kk)), (getColumnName vn, .INTEGER),
         ("owner_id", .INTEGER)],
        [["owner_id", getColumnName kn]],
        [("owner_id", owner), (getColumnName vn, d.name)]⟩]
  | [.mk kn kl kt kk, .mk vn vl (.scalar t) vk] =>
    [.table ⟨fieldTableName owner fname,
      [(getColumnName kn, getFieldType (.mk kn kl kt kk)),
       (getColumnName vn, getFieldType (.mk vn vl (.scalar t) vk)), ("owner_id", .INTEGER)],
      [["owner_id", getColumnName kn]], [("owner_id", owner)]⟩]
  | _ => []
end

/-! ## Vocabulary of the recursion -/

/-- The exceptions of the C++ code: every error but the one that stands for a misuse of
the reflection interface and for a recursion that ran out of fuel. -/
def Err.thrown : Err → Bool
  | .unexpectedType => false
  | _ => true

mutual
/-- The entry type of every map field of the type, at any depth, has two fields (as the
protobuf compiler generates it) and every map field has an entry type. -/
def Descriptor.entriesOk : Descriptor → Bool
  | .mk _ fs => FieldDescriptor.entriesOkList fs
/-- The map fields of a list of fields, and those below them, have proper entry types. -/
def FieldDescriptor.entriesOkList : List FieldDescriptor → Bool
  | [] => true
  | f :: fs => FieldDescriptor.entriesOk f && FieldDescriptor.entriesOkList fs
/-- The map fields at and below a field have proper entry types. -/
def FieldDescriptor.entriesOk : FieldDescriptor → Bool
  | .mk _ label type _ => FieldType.entriesOk label type
/-- The map fields at and below a field of the given cardinality and type have proper
entry types. -/
def FieldType.entriesOk : Label → FieldType → Bool
  | .map, .message (.mk _ efs) => decide (efs.length = 2) && FieldDescriptor.entriesOkList efs
  | .map, .scalar _ => false
  | .singular, .scalar _ => true
  | .repeated, .scalar _ => true
  | .singular, .message d => Descriptor.entriesOk d
  | .repeated, .message d => Descriptor.entriesOk d
end

/-- The function `write` does not run out of fuel on a conforming message of a type of
depth at most `n` whose map fields have proper entry types. -/
def WriteThrown (n : Nat) (write : Descriptor → Message → Exec Int) : Prop :=
  ∀ d m, d.depth ≤ n → Descriptor.entriesOk d = true → Descriptor.conforms d m = true →
    Exec.raisesOnly Err.thrown (write d m)

/-- The value of the field conforms to it, the map fields at and below it have proper
entry types, and the depth of its type is at most `n`. -/
def FieldFits (n : Nat) (p : FieldDescriptor × Value) : Prop :=
  FieldDescriptor.conformsValue p.1 p.2 = true ∧ FieldDescriptor.entriesOk p.1 = true ∧
    FieldDescriptor.depth p.1 ≤ n

/-! ## Vocabulary of the identity lookup -/

/-- The value `insertMessageFields` binds for a key of `findMessage(message)`: the bound
scalar, or the row id under which `findMessage` finds the nested record. -/
def boundAs (fuel : Nat) (s : Store) (k : FieldDescriptor × Value) (v : SqlValue) : Prop :=
  match k.1.type, k.2 with
  | .scalar t, .scalar _ x => bindScalar t x = .ok v
  | .message nested, .message _ m =>
    ∃ id, findMessage fuel nested m s = .ok (some id) ∧ v = .integer id
  | _, _ => False

/-- The row holds, in the column of every key, the value bound for it. -/
def matchesKeys (tb : Table) (keys : List (FieldDescriptor × Value)) (vals : List SqlValue)
    (row : Row) : Bool :=
  ((keys.map (fun k => getColumnName k.1.name)).zip vals).all
    (fun c => tb.matches c.1 c.2 row)

/-! ## Vocabulary of the schema cover -/

/-- The keywords of SQLite, in lower case. -/
def sqlKeywords : List String :=
  ["abort", "action", "add", "after", "all", "alter", "always", "analyze", "and", "as",
   "asc", "attach", "autoincrement", "before", "begin", "between", "by", "cascade",
   "case", "cast", "check", "collate", "column", "commit", "conflict", "constraint",
   "create", "cross", "current", "current_date", "current_time", "current_timestamp",
   "database", "default", "deferrable", "deferred", "delete", "desc", "detach",
   "distinct", "do", "drop", "each", "else", "end", "escape", "except", "exclude",
   "exclusive", "exists", "explain", "fail", "filter", "first", "following", "for",
   "foreign", "from", "full", "generated", "glob", "group", "groups", "having", "if",
   "ignore", "immediate", "in", "index", "indexed", "initially", "inner", "insert",
   "instead", "intersect", "into", "is", "isnull", "join", "key", "last", "left", "like",
   "limit", "match", "materialized", "natural", "no", "not", "nothing", "notnull",
   "null", "nulls", "of", "offset", "on", "or", "order", "others", "outer", "over",
   "partition", "plan", "pragma", "preceding", "primary", "query", "raise", "range",
   "recursive", "references", "regexp", "reindex", "release", "rename", "replace",
   "restrict", "returning", "right", "rollback", "row", "rows", "savepoint", "select",
   "set", "table", "temp", "temporary", "then", "ties", "to", "transaction", "trigger",
   "unbounded", "union", "unique", "update", "using", "vacuum", "values", "view",
   "virtual", "when", "where", "window", "with", "within", "without"]

/-- The code of a character with the upper-case ASCII letters folded to lower case. -/
def foldChar (c : Char) : Nat :=
  if 65 ≤ c.toNat ∧ c.toNat ≤ 90 then c.toNat + 32 else c.toNat

/-- A name as SQLite compares it: without regard to the case of ASCII letters. -/
def caseFold (s : String) : List Nat := s.data.map foldChar

/-- The text stands for a name when it is written unquoted into a statement: it is not
empty, consists of ASCII letters, digits and underscores, does not start with a digit,
is not a keyword and does not start with `sqlite_`, which SQLite reserves. -/
def sqlName (s : String) : Bool :=
  s.data.all (fun c => c.isAlphanum || c == '_') &&
  (match s.data with
   | [] => false
   | c :: _ => !c.isDigit) &&
  !(sqlKeywords.any (fun k => caseFold k == caseFold s)) &&
  ((caseFold s).take 7 != caseFold "sqlite_")

/-- No two names of the list differ only in the case of their letters. -/
def caseDistinct (names : List String) : Bool :=
  names.all (fun a => names.all (fun b => caseFold a != caseFold b || a == b))

/-- SQLite reads the text `createTable(T)` concatenates as the statements
`T.statements`: every table, column and trigger name is a name by `sqlName`, no two
table names, no two trigger names and no two columns of a table differ only in the
case of their letters, and no table has more than the 2000 columns SQLite allows. -/
def Descriptor.sqlNamed (T : Descriptor) : Bool :=
  (tablesOf (T.statements false)).all (fun tb =>
    sqlName tb.name && tb.columns.all (fun c => sqlName c.1) &&
    caseDistinct (tb.columns.map (fun c => c.1)) && decide (tb.columns.length ≤ 2000)) &&
  caseDistinct ((tablesOf (T.statements false)).map (fun tb => tb.name)) &&
  (triggersOf (T.statements false)).all (fun trg => sqlName trg.name) &&
  caseDistinct ((triggersOf (T.statements false)).map (fun trg => trg.name))

/-! ## Deciding the outcome of a step -/

/-- Equality of the outcomes of a member function is decidable when equality of the
values it returns is. -/
instance exceptDecEq {ε α : Type} [DecidableEq ε] [DecidableEq α] : DecidableEq (Except ε α)
  | .ok a, .ok b =>
    if h : a = b then isTrue (by rw [h]) else isFalse (by intro h2; cases h2; exact h rfl)
  | .error a, .error b =>
    if h : a = b then isTrue (by rw [h]) else isFalse (by intro h2; cases h2; exact h rfl)
  | .ok _, .error _ => isFalse (by intro h; cases h)
  | .error _, .ok _ => isFalse (by intro h; cases h)

/-! ## Key values of the type of their field -/

/-- The cell SQLite stores for the value is the cell of the embedding: the value is not
a `UInt64` of `2 ^ 63` or more, whose text a column of integer affinity turns into a
rounded `REAL`. -/
def Scalar.storedExactly : Scalar → Bool
  | .uint64 v => decide (v < 2 ^ 63)
  | _ => true

/-- The key handed to `findMessage<Message, Key>` or `deleteMessage<Message, Key>` is of
the type of the key field: for a scalar field the value bound from a scalar of its C++
type in the range of that type, for a field of message type a record of that type or a
row id. -/
def Key.typed (field : FieldDescriptor) : Key → Prop
  | .message kd _ => field.type = .message kd
  | .scalar v =>
    match field.type with
    | .scalar t =>
      ∃ x : Scalar, x.inRange = true ∧ x.storedExactly = true ∧ bindScalar t x = .ok v
    | .message _ => ∃ i : Int, -(2 : Int) ^ 63 ≤ i ∧ i < (2 : Int) ^ 63 ∧ v = .integer i

/-! ## Vocabulary of the type graph -/

mutual
/-- The types at and below a type that have a main table: the type itself and the types
of its nested fields, of the elements of its repeated fields and of the values of its
maps. -/
def Descriptor.types : Descriptor → List Descriptor
  | .mk name fs => .mk name fs :: FieldDescriptor.typesList fs
/-- The types at and below the fields of a list. -/
def FieldDescriptor.typesList : List FieldDescriptor → List Descriptor
  | [] => []
  | f :: fs => FieldDescriptor.types f ++ FieldDescriptor.typesList fs
/-- The types at and below a field. -/
def FieldDescriptor.types : FieldDescriptor → List Descriptor
  | .mk _ label type _ => FieldType.types label type
/-- The types at and below a field of the given cardinality and type. -/
def FieldType.types : Label → FieldType → List Descriptor
  | .singular, .message d => Descriptor.types d
  | .repeated, .message d => Descriptor.types d
  | .map, .message (.mk _ efs) => FieldDescriptor.typesEntry efs
  | _, .scalar _ => []
/-- The types at and below the value of a map with the given fields of its entry type. -/
def FieldDescriptor.typesEntry : List FieldDescriptor → List Descriptor
  | [_, .mk _ _ (.message d) _] => Descriptor.types d
  | _ => []
end

/-- The types of the singular nested fields of a type: those whose rows a trigger of the
type deletes. -/
def Descriptor.nested (d : Descriptor) : List Descriptor :=
  d.fields.filterMap (fun f =>
    match f.label, f.type with
    | .singular, .message nd => some nd
    | _, _ => none)

/-- What a `DELETE` with its triggers does to a store: it keeps the schema and the
connection's `last_insert_rowid`, it only removes rows, and it leaves the tables outside
`C` as they are. -/
def Shrinks (C : String → Prop) (s s1 : Store) : Prop :=
  s1.schema = s.schema ∧ s1.lastInsertRowid = s.lastInsertRowid ∧
    (∀ x, (s1.rows x).Sublist (s.rows x)) ∧ ∀ x, ¬ C x → s1.rows x = s.rows x

/-! ## Example types for the schema creation -/

namespace Examples

/-- A type that reaches `Pos` through a repeated field before it uses it as its key:
`message Route { repeated Pos stops = 1; Pos start = 2 [key]; }`. -/
def Route : Descriptor := .mk "Route"
  [.mk "stops" .repeated (.message Pos) none, .mk "start" .singular (.message Pos) (some true)]

/-- A record of `Route`. -/
def route (stops : List Message) (start : Message) : Message :=
  .mk [.repeatedMessage stops, .message true start]

/-- A type that reaches `Pos` through the value of a map before it uses it as its key:
`message Chart { map<int32, Pos> marks = 1; Pos origin = 2 [key]; }`. -/
def Chart : Descriptor := .mk "Chart"
  [.mk "marks" .map (.message (.mk "MarksEntry"
     [.mk "key" .singular (.scalar .INT32) none,
      .mk "value" .singular (.message Pos) none])) none,
   .mk "origin" .singular (.message Pos) (some true)]

/-- A record of `Pair`. -/
def pair (a b : Int) : Message := .mk [.message true (tag a), .message true (tag b)]

end Examples

end ProtoDatabase

namespace ProtoDatabase

/-! ## Vocabulary of the progress of a write -/

/-- The cells of the main-table row of a record in the columns of its singular scalar
fields: the values bound for them, under the affinity of their columns. -/
def Descriptor.cells (d : Descriptor) (m : Message) : List (String × SqlValue) :=
  (dataFields d m).filterMap (fun p =>
    match p.1.type, p.2 with
    | .scalar t, .scalar _ x =>
      match bindScalar t x with
      | .ok v => some (getColumnName p.1.name, applyAffinity (getFieldType p.1).affinity v)
      | .error _ => none
    | _, _ => none)

end ProtoDatabase

namespace ProtoDatabase

/-! ## Vocabulary of the lookup by a record -/

/-- Row `id` of the main table of `d` is the row of the record `m`: the column of a
singular scalar field holds the value bound for the record, the column of a singular
field of message type the id of the row of the nested record. -/
def Stored : Nat → Store → Descriptor → Message → Int → Prop
  | 0, _, _, _, _ => False
  | fuel + 1, s, d, m, id =>
    ∃ tb row, s.table? d.name = some tb ∧ row ∈ s.rows d.name ∧ row.id = id ∧
      ∀ p ∈ dataFields d m,
        match p.1.type, p.2 with
        | .scalar t, .scalar _ x => ∃ v, bindScalar t x = .ok v ∧
            tb.cell row.cells (getColumnName p.1.name) =
              applyAffinity (getFieldType p.1).affinity v
        | .message e, .message _ n => ∃ k,
            tb.cell row.cells (getColumnName p.1.name) = .integer k ∧ Stored fuel s e n k
        | _, _ => False

end ProtoDatabase

namespace ProtoDatabase

/-! ## Decimal text: printing and parsing agree -/

theorem digitChar_isDigit (d : Nat) (h : d < 10) : (Nat.digitChar d).isDigit = true := by
  interval_cases d <;> rfl

theorem digitChar_value (d : Nat) (h : d < 10) : (Nat.digitChar d).toNat - 48 = d := by
  interval_cases d <;> rfl

theorem digitChar_not_space (d : Nat) (h : d < 10) : (Nat.digitChar d).isWhitespace = false := by
  interval_cases d <;> rfl

theorem digitChar_ne_minus (d : Nat) (h : d < 10) : Nat.digitChar d ≠ '-' := by
  interval_cases d <;> decide

theorem digitChar_ne_plus (d : Nat) (h : d < 10) : Nat.digitChar d ≠ '+' := by
  interval_cases d <;> decide

/-- The digits `toDigitsCore` puts in front of its accumulator: a non-empty run of
decimal digits whose value is the number printed. -/
theorem toDigitsCore_spec : ∀ (fuel n : Nat) (ds : List Char), n < fuel →
    ∃ l : List Char, Nat.toDigitsCore 10 fuel n ds = l ++ ds ∧ l ≠ [] ∧
      (∀ c ∈ l, c.isDigit = true) ∧ (∀ c ∈ l, c.isWhitespace = false) ∧
      (∀ c ∈ l, c ≠ '-' ∧ c ≠ '+') ∧
      ∀ (acc : Nat) (rest : List Char), (∀ c ∈ rest.head?, c.isDigit = false) →
        parseDigits (l ++ rest) acc = acc * 10 ^ l.length + n := by
  intro fuel
  induction fuel with
  | zero => intro n ds h; omega
  | succ fuel ih =>
    intro n ds h
    have hd : n % 10 < 10 := Nat.mod_lt _ (by decide)
    unfold Nat.toDigitsCore
    by_cases h0 : n / 10 = 0
    · simp only [h0, if_true]
      refine ⟨[Nat.digitChar (n % 10)], rfl, by simp, ?_, ?_, ?_, ?_⟩
      · intro c hc
        simp only [List.mem_singleton] at hc
        subst hc
        exact digitChar_isDigit _ hd
      · intro c hc
        simp only [List.mem_singleton] at hc
        subst hc
        exact digitChar_not_space _ hd
      · intro c hc
        simp only [List.mem_singleton] at hc
        subst hc
        exact ⟨digitChar_ne_minus _ hd, digitChar_ne_plus _ hd⟩
      · intro acc rest hrest
        have hn : n % 10 = n := by
          have := Nat.div_add_mod n 10
          omega
        simp only [List.singleton_append, parseDigits, digitChar_isDigit _ hd, if_true,
          digitChar_value _ hd, List.length_singleton, pow_one]
        cases rest with
        | nil => simp [parseDigits, hn]
        | cons c cs =>
          have hc : c.isDigit = false := hrest c (by simp)
          simp [parseDigits, hc, hn]
    · simp only [h0, if_false]
      have hlt : n / 10 < fuel := by
        have : n / 10 < n := Nat.div_lt_self (by
          rcases Nat.eq_zero_or_pos n with hz | hz
          · subst hz; simp at h0
          · exact hz) (by decide)
        omega
      obtain ⟨l, hl, hne, hdig, hsp, hsg, hval⟩ := ih (n / 10) (Nat.digitChar (n % 10) :: ds) hlt
      refine ⟨l ++ [Nat.digitChar (n % 10)], by simp [hl], by simp, ?_, ?_, ?_, ?_⟩
      · intro c hc
        rcases List.mem_append.mp hc with hc | hc
        · exact hdig c hc
        · simp only [List.mem_singleton] at hc
          subst hc
          exact digitChar_isDigit _ hd
      · intro c hc
        rcases List.mem_append.mp hc with hc | hc
        · exact hsp c hc
        · simp only [List.mem_singleton] at hc
          subst hc
          exact digitChar_not_space _ hd
      · intro c hc
        rcases List.mem_append.mp hc with hc | hc
        · exact hsg c hc
        · simp only [List.mem_singleton] at hc
          subst hc
          exact ⟨digitChar_ne_minus _ hd, digitChar_ne_plus _ hd⟩
      · intro acc rest hrest
        have hstep : ∀ (l1 : List Char) (a : Nat), (∀ c ∈ l1, c.isDigit = true) →
            parseDigits (l1 ++ Nat.digitChar (n % 10) :: rest) a =
              parseDigits (Nat.digitChar (n % 10) :: rest) (parseDigits l1 a) := by
          intro l1
          induction l1 with
          | nil => intro a _; simp [parseDigits]
          | cons c cs ihc =>
            intro a hall
            have hc : c.isDigit = true := hall c (by simp)
            simp only [List.cons_append, parseDigits, hc, if_true]
            exact ihc _ (fun x hx => hall x (by simp [hx]))
        have hl0 := hval acc [] (by simp)
        simp only [List.append_nil] at hl0
        rw [List.append_assoc, List.singleton_append, hstep l acc hdig, hl0]
        have hmod := Nat.div_add_mod n 10
        simp only [parseDigits, digitChar_isDigit _ hd, if_true, digitChar_value _ hd,
          List.length_append, List.length_singleton]
        have hrest2 : parseDigits rest ((acc * 10 ^ l.length + n / 10) * 10 + n % 10) =
            (acc * 10 ^ l.length + n / 10) * 10 + n % 10 := by
          cases rest with
          | nil => simp [parseDigits]
          | cons c cs =>
            have hc : c.isDigit = false := hrest c (by simp)
            simp [parseDigits, hc]
        rw [hrest2, pow_succ]
        ring_nf
        omega

/-- The text of `std::to_string`: a non-empty run of decimal digits with the value
printed. -/
theorem to_string_spec (v : Nat) :
    ∃ l : List Char, (to_string v).data = l ∧ l ≠ [] ∧ (∀ c ∈ l, c.isDigit = true) ∧
      (∀ c ∈ l, c.isWhitespace = false) ∧ (∀ c ∈ l, c ≠ '-' ∧ c ≠ '+') ∧
      parseDigits l 0 = v := by
  obtain ⟨l, hl, hne, hdig, hsp, hsg, hval⟩ := toDigitsCore_spec (v + 1) v [] (by omega)
  refine ⟨l, ?_, hne, hdig, hsp, hsg, ?_⟩
  · simp only [to_string, Nat.repr, Nat.toDigits, List.asString, hl, List.append_nil]
  · have := hval 0 [] (by simp)
    simpa using this

theorem strtol_to_string (v : Nat) (h : v < 2 ^ 63) : strtol (to_string v) = v := by
  obtain ⟨l, hl, hne, hdig, hsp, hsg, hval⟩ := to_string_spec v
  have key : ∀ x : Int, x = (v : Int) →
      (if x < -(2 : Int) ^ 63 then -(2 : Int) ^ 63
       else if (2 : Int) ^ 63 ≤ x then (2 : Int) ^ 63 - 1 else x) = v := by
    intro x hx
    subst hx
    have h1 : ¬ ((v : Int) < -(2 : Int) ^ 63) := by
      have : (0 : Int) ≤ v := Int.ofNat_nonneg v
      intro hlt
      have : (0:Int) < (2:Int)^63 := by norm_num
      omega
    have h2 : ¬ ((2 : Int) ^ 63 ≤ (v : Int)) := by
      have : (v : Int) < (2 : Int) ^ 63 := by exact_mod_cast h
      omega
    rw [if_neg h1, if_neg h2]
  unfold strtol
  rw [hl]
  cases l with
  | nil => exact absurd rfl hne
  | cons c cs =>
    have hc1 : c.isWhitespace = false := hsp c (by simp)
    have hc2 : c ≠ '-' := (hsg c (by simp)).1
    have hc3 : c ≠ '+' := (hsg c (by simp)).2
    have hdrop : dropSpaces (c :: cs) = c :: cs := by simp [dropSpaces, hc1]
    rw [hdrop]
    apply key
    split
    · rename_i h1; simp only [List.cons.injEq] at h1; exact absurd h1.1 hc2
    · rename_i h1; simp only [List.cons.injEq] at h1; exact absurd h1.1 hc3
    · rw [hval]

theorem wrapSigned_of_range (w : Nat) (hw : 0 < w) (x : Int)
    (h1 : -(2 : Int) ^ (w - 1) ≤ x) (h2 : x < (2 : Int) ^ (w - 1)) : wrapSigned w x = x := by
  unfold wrapSigned
  have hp : (2 : Int) ^ w = 2 * (2 : Int) ^ (w - 1) := by
    have : w = (w - 1) + 1 := by omega
    conv_lhs => rw [this, pow_succ]
    ring
  have hpos : (0 : Int) < (2 : Int) ^ (w - 1) := by positivity
  by_cases hx : 0 ≤ x
  · have hm : x % (2 : Int) ^ w = x := Int.emod_eq_of_lt hx (by omega)
    simp only [hm]
    simp [h2]
  · have hm : x % (2 : Int) ^ w = x + (2 : Int) ^ w := by
      have h3 : (x + (2 : Int) ^ w) % (2 : Int) ^ w = x + (2 : Int) ^ w :=
        Int.emod_eq_of_lt (by omega) (by omega)
      rw [← h3, Int.add_emod_self]
    simp only [hm]
    have : ¬ (x + (2 : Int) ^ w < (2 : Int) ^ (w - 1)) := by omega
    simp only [this, if_false]
    ring

theorem wrapUnsigned_of_range (w : Nat) (v : Nat) (h : v < 2 ^ w) :
    wrapUnsigned w (v : Int) = v := by
  unfold wrapUnsigned
  have : (v : Int) % (2 : Int) ^ w = v := by
    apply Int.emod_eq_of_lt (Int.ofNat_nonneg v)
    exact_mod_cast h
  simp [this]

/-- Below `2 ^ 31` the text of a `UInt64` is read back exactly by `atoi`. -/
theorem atoi_to_string (v : Nat) (h : v < 2 ^ 31) : atoi (to_string v) = v := by
  unfold atoi
  rw [strtol_to_string v (by omega)]
  apply wrapSigned_of_range 32 (by decide)
  · have : (0 : Int) ≤ v := Int.ofNat_nonneg v
    have : (0:Int) < (2 : Int) ^ (32 - 1) := by norm_num
    omega
  · have : (v : Int) < (2 : Int) ^ 31 := by exact_mod_cast h
    simpa using this

theorem integerLiteral_to_string (v : Nat) : integerLiteral? (to_string v) = some (v : Int) := by
  obtain ⟨l, hl, hne, hdig, hsp, hsg, hval⟩ := to_string_spec v
  unfold integerLiteral?
  rw [hl]
  cases l with
  | nil => exact absurd rfl hne
  | cons c cs =>
    have hc2 : c ≠ '-' := (hsg c (by simp)).1
    have hc3 : c ≠ '+' := (hsg c (by simp)).2
    have hall : (c :: cs).all Char.isDigit = true := by
      rw [List.all_eq_true]
      exact hdig
    split
    · rename_i h1; exact absurd h1 (by simp)
    · rename_i h1; simp only [List.cons.injEq] at h1; exact absurd h1.1 hc2
    · rename_i h1; simp only [List.cons.injEq] at h1; exact absurd h1.1 hc3
    · simp [hall, hval]

end ProtoDatabase

namespace ProtoDatabase

/-! ## Steps: sequencing, and what a step leaves untouched -/

theorem Exec.bind_ok {α β : Type} {m : Exec α} {f : α → Exec β} {s s2 : Store} {b : β} :
    Exec.bind m f s = (.ok b, s2) ↔ ∃ a s1, m s = (.ok a, s1) ∧ f a s1 = (.ok b, s2) := by
  unfold Exec.bind
  constructor
  · intro h
    split at h
    · rename_i a s1 hm
      exact ⟨a, s1, hm, h⟩
    · simp at h
  · rintro ⟨a, s1, hm, hf⟩
    rw [hm]
    exact hf

theorem Exec.bind_cases {α β : Type} {m : Exec α} {f : α → Exec β} {s s2 : Store}
    {r : Except Err β} (h : Exec.bind m f s = (r, s2)) :
    (∃ a s1, m s = (.ok a, s1) ∧ f a s1 = (r, s2)) ∨ (∃ e, m s = (.error e, s2) ∧ r = .error e) := by
  unfold Exec.bind at h
  split at h
  · rename_i a s1 hm
    exact Or.inl ⟨a, s1, hm, h⟩
  · rename_i e s1 hm
    simp only [Prod.mk.injEq] at h
    obtain ⟨h1, h2⟩ := h
    subst h2
    exact Or.inr ⟨e, hm, h1.symm⟩

theorem Exec.pure_eq {α : Type} {a : α} {s s2 : Store} {r : Except Err α}
    (h : Exec.pure a s = (r, s2)) : r = .ok a ∧ s2 = s := by
  unfold Exec.pure at h
  simp only [Prod.mk.injEq] at h
  exact ⟨h.1.symm, h.2.symm⟩

theorem Exec.throw_eq {α : Type} {e : Err} {s s2 : Store} {r : Except Err α}
    (h : Exec.throw e s = (r, s2)) : r = .error e ∧ s2 = s := by
  unfold Exec.throw at h
  simp only [Prod.mk.injEq] at h
  exact ⟨h.1.symm, h.2.symm⟩

theorem Touches.refl (L : List String) (s : Store) : Touches L s s :=
  ⟨rfl, fun _ _ => rfl⟩

theorem Touches.trans {L : List String} {s1 s2 s3 : Store} (h1 : Touches L s1 s2)
    (h2 : Touches L s2 s3) : Touches L s1 s3 :=
  ⟨h2.1.trans h1.1, fun t ht => (h2.2 t ht).trans (h1.2 t ht)⟩

theorem Touches.mono {L1 L2 : List String} {s1 s2 : Store} (hL : ∀ t ∈ L1, t ∈ L2)
    (h : Touches L1 s1 s2) : Touches L2 s1 s2 :=
  ⟨h.1, fun t ht => h.2 t (fun hc => ht (hL t hc))⟩

theorem Touches.tables {L : List String} {s1 s2 : Store} (h : Touches L s1 s2) :
    s2.tables = s1.tables := congrArg Prod.fst h.1

theorem Touches.triggers {L : List String} {s1 s2 : Store} (h : Touches L s1 s2) :
    s2.triggers = s1.triggers := congrArg Prod.snd h.1

theorem Touches.table? {L : List String} {s1 s2 : Store} (h : Touches L s1 s2) (t : String) :
    s2.table? t = s1.table? t := by
  unfold Store.table?
  rw [h.tables]

theorem Exec.touches_mono {α : Type} {L1 L2 : List String} {m : Exec α}
    (hL : ∀ t ∈ L1, t ∈ L2) (h : Exec.touches L1 m) : Exec.touches L2 m :=
  fun s r s2 hm => (h s r s2 hm).mono hL

theorem Exec.touches_pure {α : Type} (L : List String) (a : α) : Exec.touches L (Exec.pure a) := by
  intro s r s2 h
  obtain ⟨_, h2⟩ := Exec.pure_eq h
  rw [h2]
  exact Touches.refl L s

theorem Exec.touches_throw {α : Type} (L : List String) (e : Err) :
    Exec.touches L (Exec.throw e : Exec α) := by
  intro s r s2 h
  obtain ⟨_, h2⟩ := Exec.throw_eq h
  rw [h2]
  exact Touches.refl L s

theorem Exec.touches_bind {α β : Type} {L : List String} {m : Exec α} {f : α → Exec β}
    (hm : Exec.touches L m) (hf : ∀ a, Exec.touches L (f a)) : Exec.touches L (Exec.bind m f) := by
  intro s r s2 h
  rcases Exec.bind_cases h with ⟨a, s1, h1, h2⟩ | ⟨e, h1, _⟩
  · exact (hm s _ s1 h1).trans (hf a s1 r s2 h2)
  · exact hm s _ s2 h1

theorem Exec.touches_ofStore {α : Type} (L : List String) (f : Store → Except Err α) :
    Exec.touches L (Exec.ofStore f) := by
  intro s r s2 h
  unfold Exec.ofStore at h
  simp only [Prod.mk.injEq] at h
  rw [← h.2]
  exact Touches.refl L s

theorem Exec.touches_ofExcept {α : Type} (L : List String) (x : Except Err α) :
    Exec.touches L (Exec.ofExcept x) := by
  intro s r s2 h
  unfold Exec.ofExcept at h
  simp only [Prod.mk.injEq] at h
  rw [← h.2]
  exact Touches.refl L s

theorem Exec.touches_ite {α : Type} {L : List String} {c : Prop} [Decidable c] {m1 m2 : Exec α}
    (h1 : Exec.touches L m1) (h2 : Exec.touches L m2) :
    Exec.touches L (if c then m1 else m2) := by
  split
  · exact h1
  · exact h2

theorem Store.prepare_state {t : String} {cols : List String} {s s2 : Store}
    {r : Except Err Unit} (h : Store.prepare t cols s = (r, s2)) : s2 = s := by
  unfold Store.prepare at h
  split at h
  · simp only [Prod.mk.injEq] at h; exact h.2.symm
  · split at h <;> (simp only [Prod.mk.injEq] at h; exact h.2.symm)

theorem Store.prepare_touches (L : List String) (t : String) (cols : List String) :
    Exec.touches L (Store.prepare t cols) := by
  intro s r s2 h
  rw [Store.prepare_state h]
  exact Touches.refl L s

theorem getLastInsertRowid_touches (L : List String) : Exec.touches L getLastInsertRowid := by
  intro s r s2 h
  unfold getLastInsertRowid at h
  simp only [Prod.mk.injEq] at h
  rw [← h.2]
  exact Touches.refl L s

theorem Store.setRows_rows_ne (s : Store) (t x : String) (rows : List Row) (h : x ≠ t) :
    (s.setRows t rows).rows x = s.rows x := by
  simp [Store.setRows, h]

theorem Store.setRows_rows_eq (s : Store) (t : String) (rows : List Row) :
    (s.setRows t rows).rows t = rows := by
  simp [Store.setRows]

theorem Store.setRows_touches (s : Store) (t : String) (rows : List Row) :
    Touches [t] s (s.setRows t rows) := by
  refine ⟨rfl, fun x hx => ?_⟩
  apply Store.setRows_rows_ne
  simpa using hx

theorem Store.insert_touches (t : String) (cols : List String) (vals : List SqlValue)
    (upsert : Bool) : Exec.touches [t] (Store.insert t cols vals upsert) := by
  intro s r s2 h
  unfold Store.insert at h
  split at h
  · simp only [Prod.mk.injEq] at h; rw [← h.2]; exact Touches.refl _ s
  · split at h
    · simp only [Prod.mk.injEq] at h; rw [← h.2]; exact Touches.refl _ s
    · simp only at h
      split at h
      · simp only [Prod.mk.injEq] at h
        rw [← h.2]
        exact ⟨rfl, fun x hx => Store.setRows_rows_ne s t x _ (by simpa using hx)⟩
      · split at h
        · split at h
          · simp only [Prod.mk.injEq] at h; rw [← h.2]; exact Touches.refl _ s
          · simp only [Prod.mk.injEq] at h
            rw [← h.2]
            exact Store.setRows_touches s t _
        · simp only [Prod.mk.injEq] at h; rw [← h.2]; exact Touches.refl _ s

theorem Store.insertRows_touches (t : String) (cols : List String) (rows : List (List SqlValue)) :
    Exec.touches [t] (Store.insertRows t cols rows) := by
  induction rows with
  | nil => exact Exec.touches_pure _ _
  | cons vals rest ih =>
    unfold Store.insertRows
    exact Exec.touches_bind (Store.insert_touches t cols vals false)
      (fun n => Exec.touches_bind ih (fun k => Exec.touches_pure _ _))

theorem Store.insertMany_touches (t : String) (cols : List String) (rows : List (List SqlValue)) :
    Exec.touches [t] (Store.insertMany t cols rows) := by
  intro s r s2 h
  unfold Store.insertMany at h
  split at h
  · rename_i n s1 h1
    simp only [Prod.mk.injEq] at h
    rw [← h.2]
    exact Store.insertRows_touches t cols rows s _ s1 h1
  · simp only [Prod.mk.injEq] at h
    rw [← h.2]
    exact ⟨rfl, fun _ _ => rfl⟩

theorem transaction_touches {α : Type} {L : List String} {m : Exec α} (h : Exec.touches L m) :
    Exec.touches L (transaction m) := by
  intro s r s2 hm
  unfold transaction at hm
  split at hm
  · rename_i a s1 h1
    simp only [Prod.mk.injEq] at hm
    rw [← hm.2]
    exact h s _ s1 h1
  · simp only [Prod.mk.injEq] at hm
    rw [← hm.2]
    exact ⟨rfl, fun _ _ => rfl⟩

end ProtoDatabase

namespace ProtoDatabase

/-! ## The footprint of the write path -/

theorem Exec.touchesIf_of_touches {α : Type} {sc : List Table × List Trigger} {L : List String}
    {m : Exec α} (h : Exec.touches L m) : Exec.touchesIf sc L m :=
  fun s r s2 _ hm => h s r s2 hm

theorem Exec.touchesIf_bind {α β : Type} {sc : List Table × List Trigger} {L : List String}
    {m : Exec α} {f : α → Exec β} (hm : Exec.touchesIf sc L m)
    (hf : ∀ a, Exec.touchesIf sc L (f a)) : Exec.touchesIf sc L (Exec.bind m f) := by
  intro s r s2 hs h
  rcases Exec.bind_cases h with ⟨a, s1, h1, h2⟩ | ⟨e, h1, _⟩
  · have t1 := hm s _ s1 hs h1
    exact t1.trans (hf a s1 r s2 (t1.1.trans hs) h2)
  · exact hm s _ s2 hs h1

theorem Exec.touchesIf_mono {α : Type} {sc : List Table × List Trigger} {L1 L2 : List String}
    {m : Exec α} (hL : ∀ t ∈ L1, t ∈ L2) (h : Exec.touchesIf sc L1 m) : Exec.touchesIf sc L2 m :=
  fun s r s2 hs hm => (h s r s2 hs hm).mono hL

theorem Descriptor.schemaOk_mk (sc : List Table × List Trigger) (name : String)
    (fs : List FieldDescriptor) :
    Descriptor.schemaOk sc (.mk name fs) =
      (tableIs sc name (mainColumns fs) && decide ((fs.map (fun f => f.name)).Nodup) &&
        FieldDescriptor.schemaOkList sc name fs) := by
  rw [Descriptor.schemaOk]

theorem Descriptor.tables_mk (name : String) (fs : List FieldDescriptor) :
    Descriptor.tables (.mk name fs) = (name, none) :: FieldDescriptor.tablesList name fs := by
  rw [Descriptor.tables]

theorem FieldDescriptor.schemaOkList_mem {sc : List Table × List Trigger} {owner : String} :
    ∀ {fs : List FieldDescriptor}, FieldDescriptor.schemaOkList sc owner fs = true →
      ∀ f ∈ fs, FieldDescriptor.schemaOk sc owner f = true := by
  intro fs
  induction fs with
  | nil => intro _ f hf; simp at hf
  | cons g gs ih =>
    intro h f hf
    rw [FieldDescriptor.schemaOkList, Bool.and_eq_true] at h
    rcases List.mem_cons.mp hf with rfl | hf
    · exact h.1
    · exact ih h.2 f hf

theorem FieldDescriptor.tablesList_mem {owner : String} :
    ∀ {fs : List FieldDescriptor} {f : FieldDescriptor}, f ∈ fs →
      ∀ x ∈ FieldDescriptor.tables owner f, x ∈ FieldDescriptor.tablesList owner fs := by
  intro fs
  induction fs with
  | nil => intro f hf; simp at hf
  | cons g gs ih =>
    intro f hf x hx
    rw [FieldDescriptor.tablesList]
    rcases List.mem_cons.mp hf with rfl | hf
    · exact List.mem_append_left _ hx
    · exact List.mem_append_right _ (ih hf x hx)

/-- The fields of a type whose tables are in the schema and in `L`. -/
theorem TypeIn.fields {sc : List Table × List Trigger} {L : List String} {name : String}
    {fs : List FieldDescriptor} (h : TypeIn sc L (.mk name fs)) :
    ∀ f ∈ fs, FieldIn sc L name f := by
  intro f hf
  obtain ⟨h1, h2⟩ := h
  rw [Descriptor.schemaOk_mk, Bool.and_eq_true] at h1
  refine ⟨FieldDescriptor.schemaOkList_mem h1.2 f hf, fun x hx => ?_⟩
  apply h2
  rw [Descriptor.tables_mk]
  exact List.mem_cons_of_mem _ (FieldDescriptor.tablesList_mem hf x hx)

theorem TypeIn.name_mem {sc : List Table × List Trigger} {L : List String} {d : Descriptor}
    (h : TypeIn sc L d) : d.name ∈ L := by
  cases d with
  | mk name fs =>
    have := h.2 (name, none) (by rw [Descriptor.tables_mk]; exact List.mem_cons_self _ _)
    simpa [Descriptor.name] using this

theorem FieldIn.singular_message {sc : List Table × List Trigger} {L : List String}
    {owner : String} {f : FieldDescriptor} {d : Descriptor} (h : FieldIn sc L owner f)
    (hl : f.label = .singular) (ht : f.type = .message d) : TypeIn sc L d := by
  cases f with
  | mk fname label type key =>
    simp only [FieldDescriptor.label, FieldDescriptor.type] at hl ht
    subst hl ht
    obtain ⟨h1, h2⟩ := h
    rw [FieldDescriptor.schemaOk, FieldType.schemaOk] at h1
    rw [FieldDescriptor.tables, FieldType.tables] at h2
    exact ⟨h1, h2⟩

/-- What the schema holds for a repeated field: its side table, and the tables of the
type of its elements. -/
theorem FieldIn.repeated {sc : List Table × List Trigger} {L : List String}
    {owner : String} {f : FieldDescriptor} (h : FieldIn sc L owner f)
    (hl : f.label = .repeated) :
    sideIs sc (fieldTableName owner f.name)
      [(getColumnName f.name, getFieldType f), ("owner_id", .INTEGER)]
      (getColumnName f.name) = true ∧
    fieldTableName owner f.name ∈ L ∧
    ∀ d, f.type = .message d → TypeIn sc L d := by
  cases f with
  | mk fname label type key =>
    simp only [FieldDescriptor.label] at hl
    subst hl
    obtain ⟨h1, h2⟩ := h
    rw [FieldDescriptor.schemaOk] at h1
    rw [FieldDescriptor.tables] at h2
    cases type with
    | scalar t =>
      rw [FieldType.schemaOk] at h1
      rw [FieldType.tables] at h2
      refine ⟨?_, h2 (fieldTableName owner fname, some owner) (by simp), ?_⟩
      · simpa [FieldDescriptor.name, getFieldType, FieldDescriptor.type] using h1
      · intro d hd
        simp [FieldDescriptor.type] at hd
    | message d =>
      rw [FieldType.schemaOk, Bool.and_eq_true] at h1
      rw [FieldType.tables] at h2
      refine ⟨?_, h2 (fieldTableName owner fname, some owner) (by simp), ?_⟩
      · simpa [FieldDescriptor.name, getFieldType, FieldDescriptor.type] using h1.1
      · intro d2 hd
        simp only [FieldDescriptor.type, FieldType.message.injEq] at hd
        subst hd
        exact ⟨h1.2, fun x hx => h2 x (List.mem_cons_of_mem _ hx)⟩

/-- What the schema holds for a map field: its entry type has a key field and a value
field, its side table has their two columns, and the tables of the value type are
there. -/
theorem FieldIn.map {sc : List Table × List Trigger} {L : List String}
    {owner : String} {f : FieldDescriptor} (h : FieldIn sc L owner f)
    (hl : f.label = .map) :
    ∃ en k v, f.type = .message (.mk en [k, v]) ∧ isEntryShape [k, v] = true ∧
      sideIs sc (fieldTableName owner f.name)
        [(getColumnName k.name, getFieldType k), (getColumnName v.name, getFieldType v),
          ("owner_id", .INTEGER)] (getColumnName k.name) = true ∧
      fieldTableName owner f.name ∈ L ∧ FieldIn sc L "" k ∧ FieldIn sc L "" v := by
  cases f with
  | mk fname label type key =>
    simp only [FieldDescriptor.label] at hl
    subst hl
    obtain ⟨h1, h2⟩ := h
    rw [FieldDescriptor.schemaOk] at h1
    rw [FieldDescriptor.tables] at h2
    cases type with
    | scalar t => rw [FieldType.schemaOk] at h1; simp at h1
    | message d =>
      cases d with
      | mk en efs =>
        rw [FieldType.schemaOk, Bool.and_eq_true, Bool.and_eq_true] at h1
        rw [FieldType.tables] at h2
        obtain ⟨⟨hshape, hside⟩, hlist⟩ := h1
        match efs, hshape, hside, hlist, h2 with
        | [k, v], hshape, hside, hlist, h2 =>
          refine ⟨en, k, v, rfl, hshape, ?_, h2 (fieldTableName owner fname, some owner) (by simp), ?_, ?_⟩
          · simpa [FieldDescriptor.name] using hside
          · exact ⟨FieldDescriptor.schemaOkList_mem hlist k (by simp),
              fun x hx => h2 x (List.mem_cons_of_mem _
                (FieldDescriptor.tablesList_mem (by simp) x hx))⟩
          · exact ⟨FieldDescriptor.schemaOkList_mem hlist v (by simp),
              fun x hx => h2 x (List.mem_cons_of_mem _
                (FieldDescriptor.tablesList_mem (by simp) x hx))⟩
        | [], hshape, _, _, _ => simp [isEntryShape] at hshape
        | [_], hshape, _, _, _ => simp [isEntryShape] at hshape
        | _ :: _ :: _ :: _, hshape, _, _, _ => simp [isEntryShape] at hshape

theorem sideIs_spec {sc : List Table × List Trigger} {name : String}
    {columns : List (String × SqlType)} {keyColumn : String}
    (h : sideIs sc name columns keyColumn = true) :
    ∃ tb, tableOf sc.1 name = some tb ∧ tb.columns = columns ∧
      (columns.map (fun c => c.1)).Nodup ∧ tb.uniques = [["owner_id", keyColumn]] ∧
      ∀ trg ∈ sc.2, trg.table ≠ name := by
  unfold sideIs at h
  split at h
  · rename_i tb htb
    simp only [Bool.and_eq_true, decide_eq_true_eq, List.all_eq_true, bne_iff_ne, ne_eq] at h
    exact ⟨tb, htb, h.1.1.1, h.1.1.2, h.1.2, h.2⟩
  · simp at h

theorem tableIs_spec {sc : List Table × List Trigger} {name : String}
    {columns : List (String × SqlType)} (h : tableIs sc name columns = true) :
    ∃ tb, tableOf sc.1 name = some tb ∧ tb.columns = columns ∧
      (columns.map (fun c => c.1)).Nodup := by
  unfold tableIs at h
  split at h
  · rename_i tb htb
    simp only [Bool.and_eq_true, decide_eq_true_eq] at h
    exact ⟨tb, htb, h.1, h.2⟩
  · simp at h

theorem fireRow_nil (del : String → SqlValue → Exec Unit) (tb : Table) (old : Row) :
    fireRow del tb old [] = Exec.pure () := by
  rw [fireRow]

theorem fireRows_nil (del : String → SqlValue → Exec Unit) (tb : Table) (rows : List Row)
    (s : Store) : fireRows del tb [] rows s = (.ok (), s) := by
  induction rows with
  | nil => rw [fireRows]; rfl
  | cons r rs ih =>
    rw [fireRows, fireRow_nil]
    unfold Exec.bind Exec.pure
    simpa using ih

/-- A `DELETE` on a table without triggers removes the matching rows and nothing else. -/
theorem Store.delete_no_triggers {t : String} {p : Table → Row → Bool} {s : Store} {tb : Table}
    (htb : s.table? t = some tb) (htr : ∀ trg ∈ s.triggers, trg.table ≠ t) :
    Store.delete t p s = (.ok (), s.setRows t ((s.rows t).filter (fun r => !p tb r))) := by
  have hf : s.triggers.filter (fun trg => trg.table == t) = [] := by
    rw [List.filter_eq_nil_iff]
    intro trg htrg
    simpa using htr trg htrg
  have h1 : deleteCascade (999 + 1) t p s =
      (.ok (), s.setRows t ((s.rows t).filter (fun r => !p tb r))) := by
    rw [deleteCascade]
    simp only [htb, hf, fireRows_nil]
  unfold Store.delete
  rw [show (1000 : Nat) = 999 + 1 from rfl, h1]

theorem Store.delete_missing {t : String} {p : Table → Row → Bool} {s : Store}
    (htb : s.table? t = none) : Store.delete t p s = (.error .sqlError, s) := by
  have h1 : deleteCascade (999 + 1) t p s = (.error .sqlError, s) := by
    rw [deleteCascade]
    simp only [htb]
  unfold Store.delete
  rw [show (1000 : Nat) = 999 + 1 from rfl, h1]

theorem FieldDescriptor.label_of_not_repeated {f : FieldDescriptor}
    (h : f.is_repeated = false) : f.label = .singular := by
  unfold FieldDescriptor.is_repeated at h
  cases hl : f.label <;> simp [hl] at h ⊢

theorem FieldDescriptor.label_of_map {f : FieldDescriptor} (h : f.is_map = true) :
    f.label = .map := by
  unfold FieldDescriptor.is_map at h
  cases hl : f.label <;> simp [hl] at h ⊢

theorem FieldDescriptor.label_of_repeated {f : FieldDescriptor} (h1 : f.is_map = false)
    (h2 : f.is_repeated = true) : f.label = .repeated := by
  unfold FieldDescriptor.is_map at h1
  unfold FieldDescriptor.is_repeated at h2
  cases hl : f.label <;> simp [hl] at h1 h2 ⊢

theorem insertMessageFields_touchesIf {sc : List Table × List Trigger} {L : List String}
    {owner : String} {write : Descriptor → Message → Exec Int}
    {find : Descriptor → Message → Store → Except Err (Option Int)} (isInsertion : Bool)
    (hw : WriteTouches sc L write) :
    ∀ fields : List (FieldDescriptor × Value), (∀ p ∈ fields, FieldIn sc L owner p.1) →
      Exec.touchesIf sc L (insertMessageFields write find isInsertion fields) := by
  intro fields
  induction fields with
  | nil =>
    intro _
    rw [insertMessageFields]
    exact Exec.touchesIf_of_touches (Exec.touches_pure _ _)
  | cons p rest ih =>
    intro hin
    obtain ⟨field, value⟩ := p
    rw [insertMessageFields]
    by_cases hrep : (field.is_repeated || field.is_map) = true
    · rw [if_pos hrep]
      exact Exec.touchesIf_of_touches (Exec.touches_throw _ _)
    · rw [if_neg hrep]
      simp only [Bool.or_eq_true, not_or, Bool.not_eq_true] at hrep
      have hlabel := FieldDescriptor.label_of_not_repeated hrep.1
      have hfield : FieldIn sc L owner field := hin (field, value) (by simp)
      apply Exec.touchesIf_bind
      · unfold bindField
        split
        · exact Exec.touchesIf_of_touches (Exec.touches_ofExcept _ _)
        · rename_i d _ m ht
          split
          · exact Exec.touchesIf_bind (hw d m (hfield.singular_message hlabel ht))
              (fun _ => Exec.touchesIf_of_touches (Exec.touches_pure _ _))
          · apply Exec.touchesIf_bind (Exec.touchesIf_of_touches (Exec.touches_ofStore _ _))
            intro key
            split
            · exact Exec.touchesIf_of_touches (Exec.touches_pure _ _)
            · exact Exec.touchesIf_of_touches (Exec.touches_throw _ _)
        · exact Exec.touchesIf_of_touches (Exec.touches_throw _ _)
      · intro v
        exact Exec.touchesIf_bind (ih (fun q hq => hin q (List.mem_cons_of_mem _ hq)))
          (fun _ => Exec.touchesIf_of_touches (Exec.touches_pure _ _))

theorem writeElements_touchesIf {sc : List Table × List Trigger} {L : List String}
    {write : Descriptor → Message → Exec Int} (hw : WriteTouches sc L write) {d : Descriptor}
    (hd : TypeIn sc L d) : ∀ ms : List Message, Exec.touchesIf sc L (writeElements write d ms) := by
  intro ms
  induction ms with
  | nil => rw [writeElements]; exact Exec.touchesIf_of_touches (Exec.touches_pure _ _)
  | cons m rest ih =>
    rw [writeElements]
    exact Exec.touchesIf_bind (hw d m hd) (fun _ =>
      Exec.touchesIf_bind ih (fun _ => Exec.touchesIf_of_touches (Exec.touches_pure _ _)))

theorem insertMessageRepeatedField_touchesIf {sc : List Table × List Trigger} {L : List String}
    {write : Descriptor → Message → Exec Int} (hw : WriteTouches sc L write)
    {field : FieldDescriptor} (value : Value) (hd : ∀ d, field.type = .message d → TypeIn sc L d) :
    Exec.touchesIf sc L (insertMessageRepeatedField write field value) := by
  unfold insertMessageRepeatedField
  split
  · exact Exec.touchesIf_of_touches (Exec.touches_ofExcept _ _)
  · rename_i d ms ht
    exact writeElements_touchesIf hw (hd d ht) ms
  · exact Exec.touchesIf_of_touches (Exec.touches_throw _ _)

theorem Store.delete_touchesIf {sc : List Table × List Trigger} {L : List String} {t : String}
    (p : Table → Row → Bool) (htr : ∀ trg ∈ sc.2, trg.table ≠ t) (hL : t ∈ L) :
    Exec.touchesIf sc L (Store.delete t p) := by
  intro s r s2 hs h
  cases htb : s.table? t with
  | none =>
    rw [Store.delete_missing htb] at h
    simp only [Prod.mk.injEq] at h
    rw [← h.2]
    exact Touches.refl _ _
  | some tb =>
    have htr2 : ∀ trg ∈ s.triggers, trg.table ≠ t := by
      intro trg htrg
      apply htr
      rw [← hs]
      exact htrg
    rw [Store.delete_no_triggers htb htr2] at h
    simp only [Prod.mk.injEq] at h
    rw [← h.2]
    exact (Store.setRows_touches s t _).mono (by simpa using hL)

theorem removeArray_touchesIf {sc : List Table × List Trigger} {L : List String}
    (descriptor : Descriptor) (field : FieldDescriptor) (id : Int)
    (htr : ∀ trg ∈ sc.2, trg.table ≠ getFieldTableName descriptor field)
    (hL : getFieldTableName descriptor field ∈ L) :
    Exec.touchesIf sc L (removeArray descriptor field id) := by
  unfold removeArray
  exact Exec.touchesIf_bind (Exec.touchesIf_of_touches (Store.prepare_touches _ _ _))
    (fun _ => Store.delete_touchesIf _ htr hL)

theorem singleton_subset {L : List String} {t : String} (h : t ∈ L) : ∀ x ∈ [t], x ∈ L := by
  intro x hx
  simp only [List.mem_singleton] at hx
  rw [hx]
  exact h

theorem writeArray_touchesIf {sc : List Table × List Trigger} {L : List String}
    {write : Descriptor → Message → Exec Int} (hw : WriteTouches sc L write)
    (descriptor : Descriptor) {field : FieldDescriptor} (value : Value) (id : Int)
    (hf : FieldIn sc L descriptor.name field) (hl : field.label = .repeated) :
    Exec.touchesIf sc L (writeArray write descriptor field value id) := by
  obtain ⟨hside, hL, hd⟩ := hf.repeated hl
  obtain ⟨tb, _, _, _, _, htr⟩ := sideIs_spec hside
  unfold writeArray
  apply Exec.touchesIf_bind (removeArray_touchesIf descriptor field id htr hL)
  intro _
  simp only []
  split
  · exact Exec.touchesIf_of_touches (Exec.touches_pure _ _)
  · apply Exec.touchesIf_bind (Exec.touchesIf_of_touches (Store.prepare_touches _ _ _))
    intro _
    apply Exec.touchesIf_bind (insertMessageRepeatedField_touchesIf hw value hd)
    intro vals
    apply Exec.touchesIf_bind (Exec.touchesIf_of_touches
      (Exec.touches_mono (singleton_subset hL) (Store.insertMany_touches _ _ _)))
    intro n
    split
    · exact Exec.touchesIf_of_touches (Exec.touches_throw _ _)
    · exact Exec.touchesIf_of_touches (Exec.touches_pure _ _)

theorem writeEntries_touchesIf {sc : List Table × List Trigger} {L : List String}
    {write : Descriptor → Message → Exec Int} (hw : WriteTouches sc L write)
    {keyField valueField : FieldDescriptor} (hk : FieldIn sc L "" keyField)
    (hv : FieldIn sc L "" valueField) :
    ∀ entries : List Message,
      Exec.touchesIf sc L (writeEntries write keyField valueField entries) := by
  intro entries
  induction entries with
  | nil => rw [writeEntries]; exact Exec.touchesIf_of_touches (Exec.touches_pure _ _)
  | cons entry rest ih =>
    rw [writeEntries]
    split
    · exact Exec.touchesIf_of_touches (Exec.touches_throw _ _)
    · apply Exec.touchesIf_bind
      · apply insertMessageFields_touchesIf true hw
        intro p hp
        have hp1 : p.1 ∈ [keyField, valueField] := (List.of_mem_zip hp).1
        simp only [List.mem_cons, List.mem_singleton, List.not_mem_nil, or_false] at hp1
        rcases hp1 with h | h
        · rw [h]; exact hk
        · rw [h]; exact hv
      · intro kv
        exact Exec.touchesIf_bind ih (fun _ => Exec.touchesIf_of_touches (Exec.touches_pure _ _))

theorem writeMap_touchesIf {sc : List Table × List Trigger} {L : List String}
    {write : Descriptor → Message → Exec Int} (hw : WriteTouches sc L write)
    (descriptor : Descriptor) {field : FieldDescriptor} (value : Value) (id : Int)
    (hf : FieldIn sc L descriptor.name field) (hl : field.label = .map) :
    Exec.touchesIf sc L (writeMap write descriptor field value id) := by
  obtain ⟨en, k, v, ht, _, hside, hL, hk, hv⟩ := hf.map hl
  obtain ⟨tb, _, _, _, _, htr⟩ := sideIs_spec hside
  unfold writeMap
  apply Exec.touchesIf_bind (removeArray_touchesIf descriptor field id htr hL)
  intro _
  simp only []
  split
  · exact Exec.touchesIf_of_touches (Exec.touches_pure _ _)
  · simp only [FieldDescriptor.message_type, ht, Descriptor.map_key, Descriptor.map_value,
      Descriptor.fields, List.get?]
    apply Exec.touchesIf_bind (Exec.touchesIf_of_touches (Store.prepare_touches _ _ _))
    intro _
    apply Exec.touchesIf_bind (writeEntries_touchesIf hw hk hv _)
    intro rows
    apply Exec.touchesIf_bind (Exec.touchesIf_of_touches
      (Exec.touches_mono (singleton_subset hL) (Store.insertMany_touches _ _ _)))
    intro n
    split
    · exact Exec.touchesIf_of_touches (Exec.touches_throw _ _)
    · exact Exec.touchesIf_of_touches (Exec.touches_pure _ _)

theorem writeMaps_touchesIf {sc : List Table × List Trigger} {L : List String}
    {write : Descriptor → Message → Exec Int} (hw : WriteTouches sc L write)
    (descriptor : Descriptor) (id : Int) :
    ∀ fields : List (FieldDescriptor × Value),
      (∀ p ∈ fields, FieldIn sc L descriptor.name p.1 ∧ p.1.label = .map) →
      Exec.touchesIf sc L (writeMaps write descriptor id fields) := by
  intro fields
  induction fields with
  | nil => intro _; rw [writeMaps]; exact Exec.touchesIf_of_touches (Exec.touches_pure _ _)
  | cons p rest ih =>
    intro h
    obtain ⟨field, value⟩ := p
    rw [writeMaps]
    have hp := h (field, value) (by simp)
    exact Exec.touchesIf_bind (writeMap_touchesIf hw descriptor value id hp.1 hp.2)
      (fun _ => ih (fun q hq => h q (List.mem_cons_of_mem _ hq)))

theorem writeArrays_touchesIf {sc : List Table × List Trigger} {L : List String}
    {write : Descriptor → Message → Exec Int} (hw : WriteTouches sc L write)
    (descriptor : Descriptor) (id : Int) :
    ∀ fields : List (FieldDescriptor × Value),
      (∀ p ∈ fields, FieldIn sc L descriptor.name p.1 ∧ p.1.label = .repeated) →
      Exec.touchesIf sc L (writeArrays write descriptor id fields) := by
  intro fields
  induction fields with
  | nil => intro _; rw [writeArrays]; exact Exec.touchesIf_of_touches (Exec.touches_pure _ _)
  | cons p rest ih =>
    intro h
    obtain ⟨field, value⟩ := p
    rw [writeArrays]
    have hp := h (field, value) (by simp)
    exact Exec.touchesIf_bind (writeArray_touchesIf hw descriptor value id hp.1 hp.2)
      (fun _ => ih (fun q hq => h q (List.mem_cons_of_mem _ hq)))

/-- The footprint of `writeMessageImpl`: whatever its outcome, it changes no schema,
and no rows outside the tables of the type it writes. -/
theorem writeMessageImpl_touchesIf (sc : List Table × List Trigger) (L : List String) :
    ∀ (fuel : Nat) (d : Descriptor) (m : Message) (hc : Bool), TypeIn sc L d →
      Exec.touchesIf sc L (writeMessageImpl fuel d m hc) := by
  intro fuel
  induction fuel with
  | zero =>
    intro d m hc _
    rw [writeMessageImpl]
    exact Exec.touchesIf_of_touches (Exec.touches_throw _ _)
  | succ fuel ih =>
    intro d m hc hd
    have hw : WriteTouches sc L (fun d m => writeMessageImpl fuel d m false) :=
      fun d2 m2 h2 => ih d2 m2 false h2
    cases d with
    | mk name fs =>
    have hfields := hd.fields
    have hname : name ∈ L := by simpa [Descriptor.name] using hd.name_mem
    rw [writeMessageImpl]
    split
    · exact Exec.touchesIf_of_touches (Exec.touches_throw _ _)
    · simp only [Descriptor.name, Descriptor.fields]
      apply Exec.touchesIf_bind (Exec.touchesIf_of_touches (Store.prepare_touches _ _ _))
      intro _
      apply Exec.touchesIf_bind
      · apply @insertMessageFields_touchesIf _ _ name _ _ true hw
        intro p hp
        exact hfields p.1 (List.of_mem_zip (List.mem_filter.mp hp).1).1
      intro vals
      apply Exec.touchesIf_bind (Exec.touchesIf_of_touches
        (Exec.touches_mono (singleton_subset hname) (Store.insert_touches _ _ _ _)))
      intro n
      split
      · exact Exec.touchesIf_of_touches (Exec.touches_throw _ _)
      · apply Exec.touchesIf_bind (Exec.touchesIf_of_touches (getLastInsertRowid_touches _))
        intro id
        apply Exec.touchesIf_bind
        · apply writeMaps_touchesIf hw (.mk name fs) id
          intro p hp
          have hp2 := List.mem_filter.mp hp
          exact ⟨hfields p.1 (List.of_mem_zip hp2.1).1,
            FieldDescriptor.label_of_map (by simpa using hp2.2)⟩
        intro _
        apply Exec.touchesIf_bind
        · apply writeArrays_touchesIf hw (.mk name fs) id
          intro p hp
          have hp2 := List.mem_filter.mp hp
          simp only [Bool.and_eq_true, Bool.not_eq_true'] at hp2
          exact ⟨hfields p.1 (List.of_mem_zip hp2.1).1,
            FieldDescriptor.label_of_repeated hp2.2.1 hp2.2.2⟩
        intro _
        exact Exec.touchesIf_of_touches (Exec.touches_pure _ _)

end ProtoDatabase

namespace ProtoDatabase

/-! ## Rows built by `INSERT` -/

theorem boundValue_of_mem : ∀ (cols : List String) (vals : List SqlValue), cols.Nodup →
    ∀ c v, (c, v) ∈ cols.zip vals → boundValue cols vals c = some v := by
  intro cols
  induction cols with
  | nil => intro vals _ c v h; simp at h
  | cons c0 cs ih =>
    intro vals hnd c v h
    cases vals with
    | nil => simp at h
    | cons v0 vs =>
      rw [List.nodup_cons] at hnd
      simp only [List.zip_cons_cons, List.mem_cons, Prod.mk.injEq] at h
      unfold boundValue
      simp only [List.zip_cons_cons, List.find?_cons]
      by_cases hc : c0 = c
      · subst hc
        simp only [beq_self_eq_true]
        rcases h with h | h
        · rw [h.2]
        · exact absurd (List.of_mem_zip h).1 hnd.1
      · have hne : (c0 == c) = false := by simpa using hc
        simp only [hne]
        rcases h with h | h
        · exact absurd h.1.symm hc
        · have := ih vs hnd.2 c v h
          unfold boundValue at this
          exact this

theorem boundValue_none : ∀ (cols : List String) (vals : List SqlValue) (c : String),
    c ∉ cols → boundValue cols vals c = none := by
  intro cols vals c hc
  unfold boundValue
  have : (cols.zip vals).find? (fun p => p.1 == c) = none := by
    rw [List.find?_eq_none]
    intro p hp
    have := (List.of_mem_zip hp).1
    simp only [beq_iff_eq]
    intro h
    rw [h] at this
    exact hc this
  rw [this]

/-- The cells an `INSERT` builds when it lists every column of the table, each once
and in the order of the table: the bound values, each under the affinity of its
column. -/
theorem Table.buildCells_eq (tb : Table) (vals : List SqlValue)
    (hnd : (tb.columns.map (fun c => c.1)).Nodup) (hlen : vals.length = tb.columns.length) :
    tb.buildCells (tb.columns.map (fun c => c.1)) vals =
      List.zipWith (fun c v => applyAffinity c.2.affinity v) tb.columns vals := by
  unfold Table.buildCells
  have key : ∀ (ctys : List (String × SqlType)) (vs : List SqlValue),
      ctys.length = vs.length →
      (∀ p ∈ ctys.zip vs, boundValue (tb.columns.map (fun c => c.1)) vals p.1.1 = some p.2) →
      ctys.map (fun p =>
        match boundValue (tb.columns.map (fun c => c.1)) vals p.1 with
        | some v => applyAffinity p.2.affinity v
        | none => .null) = List.zipWith (fun c v => applyAffinity c.2.affinity v) ctys vs := by
    intro ctys
    induction ctys with
    | nil => intro vs _ _; simp
    | cons p ps ih =>
      intro vs hl h
      cases vs with
      | nil => simp at hl
      | cons v vs =>
        simp only [List.map_cons, List.zipWith_cons_cons, List.cons.injEq]
        constructor
        · rw [h (p, v) (by simp)]
        · exact ih vs (by simpa using hl) (fun q hq => h q (by simp [hq]))
  apply key tb.columns vals hlen.symm
  intro p hp
  apply boundValue_of_mem _ _ hnd
  rw [List.zip_map_left]
  exact List.mem_map.mpr ⟨p, hp, rfl⟩

theorem nextId_gt (rows : List Row) : ∀ r ∈ rows, r.id < nextId rows := by
  have key : ∀ (rows : List Row) (m : Int), (∀ r ∈ rows, r.id ≤ rows.foldl (fun m r => max m r.id) m) ∧
      m ≤ rows.foldl (fun m r => max m r.id) m := by
    intro rows
    induction rows with
    | nil => intro m; simp
    | cons r rs ih =>
      intro m
      simp only [List.foldl_cons, List.mem_cons, forall_eq_or_imp]
      have h := ih (max m r.id)
      refine ⟨⟨?_, h.1⟩, ?_⟩
      · exact le_trans (le_max_right m r.id) h.2
      · exact le_trans (le_max_left m r.id) h.2
  intro r hr
  unfold nextId
  have := (key rows 0).1 r hr
  omega

theorem nextId_not_mem (rows : List Row) : nextId rows ∉ rows.map (fun r => r.id) := by
  intro h
  obtain ⟨r, hr, he⟩ := List.mem_map.mp h
  have := nextId_gt rows r hr
  omega

/-- The outcome of a successful `INSERT`: a new row at the end of the table, with the
next id, unless the statement is an upsert that hits a row, which it then rewrites in
place. -/
theorem Store.insert_ok {t : String} {cols : List String} {vals : List SqlValue} {upsert : Bool}
    {s s2 : Store} {n : Nat} (h : Store.insert t cols vals upsert s = (.ok n, s2)) :
    ∃ tb, s.table? t = some tb ∧ cols.all tb.hasColumn = true ∧ n = 1 ∧
      ((tb.conflictRow? (tb.buildCells cols vals) (s.rows t) = none ∧
          s2 = { s.setRows t (s.rows t ++ [⟨nextId (s.rows t), tb.buildCells cols vals⟩]) with
                  lastInsertRowid := nextId (s.rows t) }) ∨
        (upsert = true ∧ ∃ r, tb.conflictRow? (tb.buildCells cols vals) (s.rows t) = some r ∧
          tb.conflictRow? (tb.updateCells r.cells cols vals)
            ((s.rows t).filter (fun x => x.id != r.id)) = none ∧
          s2 = s.setRows t ((s.rows t).map (fun x =>
            if x.id == r.id then ⟨r.id, tb.updateCells r.cells cols vals⟩ else x)))) := by
  unfold Store.insert at h
  split at h
  · simp at h
  · rename_i tb htb
    split at h
    · simp at h
    · rename_i hcols
      simp only [Bool.not_eq_true, Bool.not_eq_false'] at hcols
      simp only at h
      split at h
      · rename_i hconf
        simp only [Prod.mk.injEq, Except.ok.injEq] at h
        exact ⟨tb, htb, by simpa using hcols, h.1.symm, Or.inl ⟨hconf, h.2.symm⟩⟩
      · rename_i r hconf
        split at h
        · rename_i hup
          split at h
          · simp at h
          · rename_i hconf2
            simp only [Prod.mk.injEq, Except.ok.injEq] at h
            exact ⟨tb, htb, by simpa using hcols, h.1.symm,
              Or.inr ⟨hup, r, hconf, hconf2, h.2.symm⟩⟩
        · simp at h

theorem Table.conflictRow?_nil (tb : Table) (cells : List SqlValue) :
    tb.conflictRow? cells [] = none := by
  unfold Table.conflictRow?
  rw [List.findSome?_eq_none_iff]
  intro u _
  rfl

/-! ## The steps of a successful `writeMessageImpl` -/

/-- A successful `writeMessageImpl` is the succession of its steps: the values are
bound (nested messages written), the row is inserted, its id is read from the
connection, the map fields and then the repeated fields are written. -/
theorem writeMessageImpl_ok {fuel : Nat} {d : Descriptor} {m : Message} {hc : Bool}
    {s s2 : Store} {id : Int} (h : writeMessageImpl (fuel + 1) d m hc s = (.ok id, s2)) :
    d.fields.length = m.fields.length ∧
    ∃ vals sA n sM sB,
      Store.prepare d.name (fieldNames d m) s = (.ok (), s) ∧
      insertMessageFields (writeNested fuel) noFind true (dataFields d m) s = (.ok vals, sA) ∧
      Store.insert d.name (fieldNames d m) vals (hc && !(fieldNames d m).isEmpty) sA
        = (.ok n, sM) ∧
      id = sM.lastInsertRowid ∧
      writeMaps (writeNested fuel) d id (mapFields d m) sM = (.ok (), sB) ∧
      writeArrays (writeNested fuel) d id (repeatedFields d m) sB = (.ok (), s2) := by
  rw [writeMessageImpl] at h
  split at h
  · simp [Exec.throw] at h
  · rename_i hlen
    simp only [bne_iff_ne, ne_eq, Decidable.not_not] at hlen
    refine ⟨hlen, ?_⟩
    simp only [] at h
    obtain ⟨u, s0, hprep, h1⟩ := Exec.bind_ok.mp h
    clear h
    have hs0 := Store.prepare_state hprep
    subst hs0
    obtain ⟨vals, sA, hvals, h2⟩ := Exec.bind_ok.mp h1
    obtain ⟨n, sM, hins, h3⟩ := Exec.bind_ok.mp h2
    split at h3
    · simp [Exec.throw] at h3
    · obtain ⟨id2, sM2, hid, h4⟩ := Exec.bind_ok.mp h3
      unfold getLastInsertRowid at hid
      simp only [Prod.mk.injEq, Except.ok.injEq] at hid
      obtain ⟨hid1, hid2⟩ := hid
      subst hid2
      obtain ⟨u2, sB, hmaps, h5⟩ := Exec.bind_ok.mp h4
      obtain ⟨u3, sC, harr, h6⟩ := Exec.bind_ok.mp h5
      unfold Exec.pure at h6
      simp only [Prod.mk.injEq, Except.ok.injEq] at h6
      obtain ⟨h7, h8⟩ := h6
      subst h7 h8
      exact ⟨vals, sA, n, sM, sB, hprep, hvals, hins, hid1.symm, hmaps, harr⟩

theorem exists_zip_of_mem {α β : Type} : ∀ {l1 : List α} {l2 : List β} {a : α},
    l1.length = l2.length → a ∈ l1 → ∃ b, (a, b) ∈ l1.zip l2 := by
  intro l1
  induction l1 with
  | nil => intro l2 a _ h; simp at h
  | cons x xs ih =>
    intro l2 a hl h
    cases l2 with
    | nil => simp at hl
    | cons y ys =>
      rcases List.mem_cons.mp h with rfl | h
      · exact ⟨y, by simp⟩
      · obtain ⟨b, hb⟩ := ih (by simpa using hl) h
        exact ⟨b, by simp [hb]⟩

theorem bindField_scalar {write : Descriptor → Message → Exec Int}
    {find : Descriptor → Message → Store → Except Err (Option Int)} {ins : Bool}
    {field : FieldDescriptor} {t : CppType} {has : Bool} {x : Scalar} {s s2 : Store}
    {v : SqlValue} (ht : field.type = .scalar t)
    (h : bindField write find ins field (.scalar has x) s = (.ok v, s2)) :
    bindScalar t x = .ok v ∧ s2 = s := by
  unfold bindField at h
  rw [ht] at h
  simp only [Exec.ofExcept, Prod.mk.injEq] at h
  exact ⟨h.1, h.2.symm⟩

/-- The values `insertMessageFields` binds: as many as fields, and for a scalar field
the value `bindScalar` gives. -/
theorem insertMessageFields_ok {write : Descriptor → Message → Exec Int}
    {find : Descriptor → Message → Store → Except Err (Option Int)} {ins : Bool} :
    ∀ {fields : List (FieldDescriptor × Value)} {s s2 : Store} {vals : List SqlValue},
      insertMessageFields write find ins fields s = (.ok vals, s2) →
      vals.length = fields.length ∧
      (∀ p ∈ fields, p.1.is_repeated = false) ∧
      ∀ p v, (p, v) ∈ fields.zip vals → ∀ t, p.1.type = .scalar t →
        ∃ has x, p.2 = .scalar has x ∧ bindScalar t x = .ok v := by
  intro fields
  induction fields with
  | nil =>
    intro s s2 vals h
    rw [insertMessageFields] at h
    simp only [Exec.pure, Prod.mk.injEq, Except.ok.injEq] at h
    rw [← h.1]
    simp
  | cons p rest ih =>
    intro s s2 vals h
    obtain ⟨field, value⟩ := p
    rw [insertMessageFields] at h
    split at h
    · simp [Exec.throw] at h
    · rename_i hrep
      simp only [Bool.or_eq_true, not_or, Bool.not_eq_true] at hrep
      obtain ⟨v, s1, hv, h1⟩ := Exec.bind_ok.mp h
      obtain ⟨vs, s3, hvs, h2⟩ := Exec.bind_ok.mp h1
      simp only [Exec.pure, Prod.mk.injEq, Except.ok.injEq] at h2
      obtain ⟨h3, h4⟩ := h2
      subst h3
      obtain ⟨ihl, ihr, ihv⟩ := ih hvs
      refine ⟨by simp [ihl], ?_, ?_⟩
      · intro q hq
        rcases List.mem_cons.mp hq with rfl | hq
        · exact hrep.1
        · exact ihr q hq
      · intro q w hqw t ht
        simp only [List.zip_cons_cons, List.mem_cons, Prod.mk.injEq] at hqw
        rcases hqw with ⟨hq, hw⟩ | hqw
        · subst hq hw
          simp only at ht
          cases value with
          | scalar has x => exact ⟨has, x, rfl, (bindField_scalar ht hv).1⟩
          | message has m => simp [bindField, ht, Exec.throw] at hv
          | repeated xs => simp [bindField, ht, Exec.throw] at hv
          | repeatedMessage ms => simp [bindField, ht, Exec.throw] at hv
        · exact ihv q w hqw t ht

theorem zip_filter_fst {α β : Type} (p : α → Bool) : ∀ (l1 : List α) (l2 : List β),
    l1.length = l2.length →
    ((l1.zip l2).filter (fun x => p x.1)).map (fun x => x.1) = l1.filter p := by
  intro l1
  induction l1 with
  | nil => intro l2 _; simp
  | cons a as ih =>
    intro l2 hl
    cases l2 with
    | nil => simp at hl
    | cons b bs =>
      simp only [List.zip_cons_cons, List.filter_cons]
      by_cases hp : p a = true
      · simp only [hp, if_true, List.map_cons, List.cons.injEq, true_and]
        exact ih bs (by simpa using hl)
      · simp only [hp, if_false, Bool.false_eq_true]
        exact ih bs (by simpa using hl)

theorem fieldNames_eq {d : Descriptor} {m : Message} (hl : d.fields.length = m.fields.length) :
    fieldNames d m = (mainColumns d.fields).map (fun c => c.1) := by
  unfold fieldNames dataFields mainColumns
  rw [List.map_map]
  have h := zip_filter_fst (fun f : FieldDescriptor => !f.is_map && !f.is_repeated)
    d.fields m.fields hl
  rw [← h, List.map_map]
  rfl

theorem dataFields_fst {d : Descriptor} {m : Message} (hl : d.fields.length = m.fields.length) :
    (dataFields d m).map (fun p => p.1) =
      d.fields.filter (fun f => !f.is_map && !f.is_repeated) :=
  zip_filter_fst (fun f : FieldDescriptor => !f.is_map && !f.is_repeated) d.fields m.fields hl

/-! ## The main table during a write -/

theorem fieldIn_children {sc : List Table × List Trigger} {d : Descriptor}
    (h : Descriptor.schemaOk sc d = true) : ∀ f ∈ d.fields, FieldIn sc d.childTables d.name f := by
  cases d with
  | mk name fs =>
    intro f hf
    simp only [Descriptor.fields] at hf
    rw [Descriptor.schemaOk_mk, Bool.and_eq_true] at h
    refine ⟨FieldDescriptor.schemaOkList_mem h.2 f hf, fun x hx => ?_⟩
    simp only [Descriptor.childTables, Descriptor.name, Descriptor.fields]
    exact List.mem_map.mpr ⟨x, FieldDescriptor.tablesList_mem hf x hx, rfl⟩

theorem writeNested_touches (sc : List Table × List Trigger) (L : List String) (fuel : Nat) :
    WriteTouches sc L (writeNested fuel) :=
  fun d m h => writeMessageImpl_touchesIf sc L fuel d m false h

theorem mem_dataFields {d : Descriptor} {m : Message} {p : FieldDescriptor × Value}
    (h : p ∈ dataFields d m) :
    p ∈ d.fields.zip m.fields ∧ p.1 ∈ d.fields ∧ p.1.is_map = false ∧ p.1.is_repeated = false := by
  unfold dataFields at h
  have h2 := List.mem_filter.mp h
  simp only [Bool.and_eq_true, Bool.not_eq_true'] at h2
  exact ⟨h2.1, (List.of_mem_zip h2.1).1, h2.2.1, h2.2.2⟩

theorem mem_mapFields {d : Descriptor} {m : Message} {p : FieldDescriptor × Value}
    (h : p ∈ mapFields d m) :
    p ∈ d.fields.zip m.fields ∧ p.1 ∈ d.fields ∧ p.1.label = .map := by
  unfold mapFields at h
  have h2 := List.mem_filter.mp h
  exact ⟨h2.1, (List.of_mem_zip h2.1).1, FieldDescriptor.label_of_map h2.2⟩

theorem mem_repeatedFields {d : Descriptor} {m : Message} {p : FieldDescriptor × Value}
    (h : p ∈ repeatedFields d m) :
    p ∈ d.fields.zip m.fields ∧ p.1 ∈ d.fields ∧ p.1.label = .repeated := by
  unfold repeatedFields at h
  have h2 := List.mem_filter.mp h
  simp only [Bool.and_eq_true, Bool.not_eq_true'] at h2
  exact ⟨h2.1, (List.of_mem_zip h2.1).1, FieldDescriptor.label_of_repeated h2.2.1 h2.2.2⟩

/-- During a successful `writeMessageImpl` only its `INSERT` changes the rows of the
main table of the type, provided no table below the type has the name of the type. -/
theorem writeMessageImpl_main_rows {fuel : Nat} {d : Descriptor} {m : Message} {hc : Bool}
    {s s2 : Store} {id : Int} (hschema : Descriptor.schemaOk s.schema d = true)
    (hself : d.name ∉ d.childTables)
    (h : writeMessageImpl (fuel + 1) d m hc s = (.ok id, s2)) :
    d.fields.length = m.fields.length ∧
    ∃ vals sA n sM,
      insertMessageFields (writeNested fuel) noFind true (dataFields d m) s = (.ok vals, sA) ∧
      sA.schema = s.schema ∧ sA.rows d.name = s.rows d.name ∧
      Store.insert d.name (fieldNames d m) vals (hc && !(fieldNames d m).isEmpty) sA
        = (.ok n, sM) ∧
      id = sM.lastInsertRowid ∧
      s2.schema = s.schema ∧ s2.rows d.name = sM.rows d.name := by
  obtain ⟨hlen, vals, sA, n, sM, sB, _, hvals, hins, hid, hmaps, harr⟩ := writeMessageImpl_ok h
  have hfields := fieldIn_children hschema
  have hw := writeNested_touches s.schema d.childTables fuel
  have t1 : Touches d.childTables s sA :=
    insertMessageFields_touchesIf true hw (dataFields d m)
      (fun p hp => hfields p.1 (mem_dataFields hp).2.1) s _ sA rfl hvals
  have t2 : Touches [d.name] sA sM := Store.insert_touches _ _ _ _ sA _ sM hins
  have t3 : Touches d.childTables sM sB :=
    writeMaps_touchesIf hw d id (mapFields d m)
      (fun p hp => ⟨hfields p.1 (mem_mapFields hp).2.1, (mem_mapFields hp).2.2⟩)
      sM _ sB (t2.1.trans t1.1) hmaps
  have t4 : Touches d.childTables sB s2 :=
    writeArrays_touchesIf hw d id (repeatedFields d m)
      (fun p hp => ⟨hfields p.1 (mem_repeatedFields hp).2.1, (mem_repeatedFields hp).2.2⟩)
      sB _ s2 (t3.1.trans (t2.1.trans t1.1)) harr
  refine ⟨hlen, vals, sA, n, sM, hvals, t1.1, t1.2 _ hself, hins, hid, ?_, ?_⟩
  · exact t4.1.trans (t3.1.trans (t2.1.trans t1.1))
  · exact (t4.2 _ hself).trans (t3.2 _ hself)

theorem getD_findIdx {α β : Type} (p : α → Bool) (g : α → β) (d : β) : ∀ (l : List α),
    (∀ i, l.findIdx? p = some i → ∃ a, l.find? p = some a ∧ (l.map g).getD i d = g a) ∧
    (l.findIdx? p = none → l.find? p = none) := by
  intro l
  induction l with
  | nil => simp
  | cons a as ih =>
    rw [List.findIdx?_cons, List.find?_cons]
    by_cases hp : p a = true
    · simp [hp]
    · simp only [hp, Bool.false_eq_true, if_false]
      rw [List.findIdx?_succ]
      constructor
      · intro i hi
        cases h : List.findIdx? p as with
        | none => simp [h] at hi
        | some j =>
          simp only [h, Option.map_some', Option.some.injEq] at hi
          obtain ⟨b, hb1, hb2⟩ := ih.1 j h
          subst hi
          exact ⟨b, hb1, by simpa using hb2⟩
      · intro hi
        cases h : List.findIdx? p as with
        | none => exact ih.2 h
        | some j => simp [h] at hi

/-- The cell of a column in the row an `INSERT` builds: the value bound to the column,
under its affinity. -/
theorem Table.cell_buildCells (tb : Table) (cols : List String) (vals : List SqlValue)
    (c : String) (p : String × SqlType) (hp : tb.columns.find? (fun q => q.1 == c) = some p) :
    tb.cell (tb.buildCells cols vals) c =
      (match boundValue cols vals p.1 with
        | some v => applyAffinity p.2.affinity v
        | none => .null) := by
  unfold Table.cell Table.columnIndex? Table.buildCells
  have key := getD_findIdx (fun q : String × SqlType => q.1 == c)
    (fun q => match boundValue cols vals q.1 with
      | some v => applyAffinity q.2.affinity v
      | none => SqlValue.null) SqlValue.null tb.columns
  cases hfi : List.findIdx? (fun q => q.1 == c) tb.columns with
  | none =>
    have := key.2 hfi
    rw [hp] at this
    simp at this
  | some i =>
    obtain ⟨a, ha1, ha2⟩ := key.1 i hfi
    rw [hp] at ha1
    simp only [Option.some.injEq] at ha1
    subst ha1
    simp only []
    exact ha2

theorem applyAffinity_ne_null (a : Affinity) (v : SqlValue) (h : v ≠ .null) :
    applyAffinity a v ≠ .null := by
  cases a <;> cases v <;> simp [applyAffinity] at h ⊢ <;> (repeat' split) <;> simp

theorem bindScalar_ne_null {t : CppType} {x : Scalar} {v : SqlValue}
    (h : bindScalar t x = .ok v) (hn : x.isNaN = false) : v ≠ .null := by
  cases t <;> cases x <;> simp [bindScalar, Scalar.isNaN] at h hn <;> subst h <;> simp

theorem bindScalar_null {t : CppType} {x : Scalar}
    (h : bindScalar t x = .ok .null) : x.isNaN = true := by
  cases t <;> cases x <;> simp [bindScalar, Scalar.isNaN] at h ⊢

theorem Scalar.isNaN_of_readsBack {x : Scalar} (h : x.readsBack = true) : x.isNaN = false := by
  cases x <;> simp [Scalar.readsBack, Scalar.isNaN] at h ⊢

theorem getColumnName_injective {a b : String} (h : getColumnName a = getColumnName b) :
    a = b := by
  unfold getColumnName at h
  have h2 := congrArg String.data h
  simp only [String.data_append] at h2
  exact String.ext (List.append_cancel_left h2)

theorem Descriptor.schemaOk_spec {sc : List Table × List Trigger} {d : Descriptor}
    (h : Descriptor.schemaOk sc d = true) :
    (∃ tb, tableOf sc.1 d.name = some tb ∧ tb.columns = mainColumns d.fields ∧
      ((mainColumns d.fields).map (fun c => c.1)).Nodup) ∧
    (d.fields.map (fun f => f.name)).Nodup := by
  cases d with
  | mk name fs =>
    rw [Descriptor.schemaOk_mk, Bool.and_eq_true, Bool.and_eq_true] at h
    exact ⟨tableIs_spec h.1.1, by simpa using h.1.2⟩

theorem mainColumns_find {fs : List FieldDescriptor} (hnd : (fs.map (fun f => f.name)).Nodup)
    {f : FieldDescriptor} (hf : f ∈ fs) (h1 : f.is_map = false) (h2 : f.is_repeated = false) :
    (mainColumns fs).find? (fun q => q.1 == getColumnName f.name) =
      some (getColumnName f.name, getFieldType f) := by
  have hmem : (getColumnName f.name, getFieldType f) ∈ mainColumns fs := by
    unfold mainColumns
    exact List.mem_map.mpr ⟨f, List.mem_filter.mpr ⟨hf, by simp [h1, h2]⟩, rfl⟩
  cases hfind : (mainColumns fs).find? (fun q => q.1 == getColumnName f.name) with
  | none =>
    rw [List.find?_eq_none] at hfind
    have := hfind _ hmem
    simp at this
  | some q =>
    have hq1 := List.find?_some hfind
    have hq2 := List.mem_of_find?_eq_some hfind
    unfold mainColumns at hq2
    obtain ⟨g, hg, hgq⟩ := List.mem_map.mp hq2
    have hg2 := (List.mem_filter.mp hg).1
    simp only [beq_iff_eq] at hq1
    rw [← hgq] at hq1
    have hname : g.name = f.name := getColumnName_injective hq1
    have hgf : g = f := List.inj_on_of_nodup_map hnd hg2 hf hname
    rw [← hgq, hgf]

theorem zip_map_fst_mem {α β γ : Type} (g : α → γ) {l : List α} {vals : List β} {a : α} {v : β}
    (h : (a, v) ∈ l.zip vals) : (g a, v) ∈ (l.map g).zip vals := by
  rw [List.zip_map_left]
  exact List.mem_map.mpr ⟨(a, v), h, rfl⟩

/-- The cell of the column of a singular field in the row `writeMessageImpl` inserts:
the value bound for the field, under the affinity of its column type. -/
theorem stored_cell {sc : List Table × List Trigger} {d : Descriptor} {m : Message} {tb : Table}
    (hschema : Descriptor.schemaOk sc d = true) (htb : tableOf sc.1 d.name = some tb)
    (hlen : d.fields.length = m.fields.length) {vals : List SqlValue}
    {p : FieldDescriptor × Value} {v : SqlValue} (hp : (p, v) ∈ (dataFields d m).zip vals) :
    tb.cell (tb.buildCells (fieldNames d m) vals) (getColumnName p.1.name) =
      applyAffinity (getFieldType p.1).affinity v := by
  obtain ⟨⟨tb2, htb2, hcols, hnd⟩, hnames⟩ := Descriptor.schemaOk_spec hschema
  rw [htb] at htb2
  simp only [Option.some.injEq] at htb2
  subst htb2
  have hpd := mem_dataFields (List.of_mem_zip hp).1
  have hfind := mainColumns_find hnames hpd.2.1 hpd.2.2.1 hpd.2.2.2
  rw [← hcols] at hfind
  rw [Table.cell_buildCells tb _ _ _ _ hfind]
  have hb : boundValue (fieldNames d m) vals (getColumnName p.1.name) = some v := by
    apply boundValue_of_mem
    · rw [fieldNames_eq hlen]
      exact hnd
    · unfold fieldNames
      exact zip_map_fst_mem (fun q : FieldDescriptor × Value => getColumnName q.1.name) hp
  simp only [hb]

end ProtoDatabase

namespace ProtoDatabase

/-! ## Upsert on a scalar key -/

theorem transaction_ok {α : Type} {body : Exec α} {s s2 : Store} {a : α}
    (h : transaction body s = (.ok a, s2)) : body s = (.ok a, s2) := by
  unfold transaction at h
  split at h
  · rename_i b s1 hb
    simp only [Prod.mk.injEq, Except.ok.injEq] at h
    rw [hb, h.1, h.2]
  · simp at h

theorem writeMessageImpl_fuel {fuel : Nat} {d : Descriptor} {m : Message} {hc : Bool}
    {s s2 : Store} {id : Int} (h : writeMessageImpl fuel d m hc s = (.ok id, s2)) :
    ∃ f, fuel = f + 1 := by
  cases fuel with
  | zero => rw [writeMessageImpl] at h; simp [Exec.throw] at h
  | succ f => exact ⟨f, rfl⟩

theorem exists_dataField {d : Descriptor} {m : Message} (hlen : d.fields.length = m.fields.length)
    {f : FieldDescriptor} (hf : f ∈ d.fields) (h1 : f.is_map = false)
    (h2 : f.is_repeated = false) : ∃ v, (f, v) ∈ dataFields d m := by
  have hmem : f ∈ (dataFields d m).map (fun p => p.1) := by
    rw [dataFields_fst hlen]
    exact List.mem_filter.mpr ⟨hf, by simp [h1, h2]⟩
  obtain ⟨p, hp, hpf⟩ := List.mem_map.mp hmem
  exact ⟨p.2, by rw [← hpf]; exact hp⟩

/-- The stored cell of a scalar field after the values of a message were bound. -/
theorem stored_scalar_cell {fuel : Nat} {d : Descriptor} {m : Message} {s sA : Store}
    {tb : Table} {vals : List SqlValue} (hschema : Descriptor.schemaOk s.schema d = true)
    (htb : s.table? d.name = some tb) (hlen : d.fields.length = m.fields.length)
    (hvals : insertMessageFields (writeNested fuel) noFind true (dataFields d m) s
      = (.ok vals, sA))
    {f : FieldDescriptor} {value : Value} {t : CppType} (hf : (f, value) ∈ dataFields d m)
    (ht : f.type = .scalar t) :
    ∃ has x v, value = .scalar has x ∧ bindScalar t x = .ok v ∧
      tb.cell (tb.buildCells (fieldNames d m) vals) (getColumnName f.name) =
        applyAffinity (getFieldType f).affinity v := by
  obtain ⟨hvl, _, hbind⟩ := insertMessageFields_ok hvals
  obtain ⟨v, hv⟩ := exists_zip_of_mem hvl.symm hf
  obtain ⟨has, x, hx, hb⟩ := hbind (f, value) v hv t ht
  exact ⟨has, x, v, hx, hb, stored_cell hschema htb hlen hv⟩

end ProtoDatabase

namespace ProtoDatabase

/-! ## A write that conforms to the schema returns or throws the constraint error -/

theorem Exec.yields_bind {α β : Type} {sc : List Table × List Trigger} {P : α → Prop}
    {Q : β → Prop} {m : Exec α} {f : α → Exec β} (hm : Exec.yields sc P m)
    (hf : ∀ a, P a → Exec.yields sc Q (f a)) : Exec.yields sc Q (Exec.bind m f) := by
  intro s r s2 hs h
  rcases Exec.bind_cases h with ⟨a, s1, h1, h2⟩ | ⟨e, h1, hr⟩
  · obtain ⟨hs1, hr1⟩ := hm s _ s1 hs h1
    rcases hr1 with ⟨a2, ha2, hP⟩ | hr1
    · simp only [Except.ok.injEq] at ha2
      subst ha2
      exact hf a hP s1 r s2 hs1 h2
    · simp at hr1
  · obtain ⟨hs1, hr1⟩ := hm s _ s2 hs h1
    rcases hr1 with ⟨a2, ha2, _⟩ | hr1
    · simp at ha2
    · simp only [Except.error.injEq] at hr1
      subst hr1
      exact ⟨hs1, Or.inr hr⟩

theorem Exec.yields_pure {α : Type} {sc : List Table × List Trigger} {P : α → Prop} {a : α}
    (h : P a) : Exec.yields sc P (Exec.pure a) := by
  intro s r s2 hs hm
  obtain ⟨h1, h2⟩ := Exec.pure_eq hm
  rw [h2]
  exact ⟨hs, Or.inl ⟨a, h1, h⟩⟩

theorem Exec.yields_mono {α : Type} {sc : List Table × List Trigger} {P Q : α → Prop}
    {m : Exec α} (h : Exec.yields sc P m) (hPQ : ∀ a, P a → Q a) : Exec.yields sc Q m := by
  intro s r s2 hs hm
  obtain ⟨h1, h2⟩ := h s r s2 hs hm
  refine ⟨h1, ?_⟩
  rcases h2 with ⟨a, ha, hP⟩ | h2
  · exact Or.inl ⟨a, ha, hPQ a hP⟩
  · exact Or.inr h2

theorem Store.table?_of_schema {s : Store} {sc : List Table × List Trigger} (hs : s.schema = sc)
    (t : String) : s.table? t = tableOf sc.1 t := by
  unfold Store.table?
  rw [← hs]
  rfl

theorem Store.prepare_yields {sc : List Table × List Trigger} {t : String} {cols : List String}
    {tb : Table} (htb : tableOf sc.1 t = some tb) (hcols : ∀ c ∈ cols, tb.hasColumn c = true) :
    Exec.yields sc (fun _ => True) (Store.prepare t cols) := by
  intro s r s2 hs h
  unfold Store.prepare at h
  rw [Store.table?_of_schema hs, htb] at h
  have : cols.all tb.hasColumn = true := List.all_eq_true.mpr hcols
  simp only [this, if_true, Prod.mk.injEq] at h
  rw [← h.2, ← h.1]
  exact ⟨hs, Or.inl ⟨(), rfl, trivial⟩⟩

theorem Store.insert_yields {sc : List Table × List Trigger} {t : String} {cols : List String}
    (vals : List SqlValue) (up : Bool)
    {tb : Table} (htb : tableOf sc.1 t = some tb) (hcols : ∀ c ∈ cols, tb.hasColumn c = true) :
    Exec.yields sc (fun n => n = 1) (Store.insert t cols vals up) := by
  intro s r s2 hs h
  have hsch : s2.schema = sc := by
    rw [← hs]
    exact (Store.insert_touches t cols vals up s r s2 h).1
  refine ⟨hsch, ?_⟩
  unfold Store.insert at h
  rw [Store.table?_of_schema hs, htb] at h
  have : cols.all tb.hasColumn = true := List.all_eq_true.mpr hcols
  simp only [this, Bool.not_true, Bool.false_eq_true, if_false] at h
  split at h
  · simp only [Prod.mk.injEq] at h
    exact Or.inl ⟨1, h.1.symm, rfl⟩
  · split at h
    · split at h
      · simp only [Prod.mk.injEq] at h
        exact Or.inr h.1.symm
      · simp only [Prod.mk.injEq] at h
        exact Or.inl ⟨1, h.1.symm, rfl⟩
    · simp only [Prod.mk.injEq] at h
      exact Or.inr h.1.symm

theorem Store.insertRows_yields {sc : List Table × List Trigger} {t : String}
    {cols : List String} {tb : Table} (htb : tableOf sc.1 t = some tb)
    (hcols : ∀ c ∈ cols, tb.hasColumn c = true) :
    ∀ rows : List (List SqlValue),
      Exec.yields sc (fun n => n = rows.length) (Store.insertRows t cols rows) := by
  intro rows
  induction rows with
  | nil => rw [Store.insertRows]; exact Exec.yields_pure rfl
  | cons vals rest ih =>
    rw [Store.insertRows]
    apply Exec.yields_bind (Store.insert_yields vals false htb hcols)
    intro n hn
    apply Exec.yields_bind ih
    intro k hk
    apply Exec.yields_pure
    simp only [List.length_cons]
    omega

theorem Store.insertMany_yields {sc : List Table × List Trigger} {t : String}
    {cols : List String} {tb : Table} (htb : tableOf sc.1 t = some tb)
    (hcols : ∀ c ∈ cols, tb.hasColumn c = true) (rows : List (List SqlValue)) :
    Exec.yields sc (fun n => n = rows.length) (Store.insertMany t cols rows) := by
  intro s r s2 hs h
  unfold Store.insertMany at h
  split at h
  · rename_i n s1 h1
    simp only [Prod.mk.injEq] at h
    rw [← h.1, ← h.2]
    exact Store.insertRows_yields htb hcols rows s _ s1 hs h1
  · rename_i e s1 h1
    simp only [Prod.mk.injEq] at h
    rw [← h.1, ← h.2]
    obtain ⟨_, h3⟩ := Store.insertRows_yields htb hcols rows s _ s1 hs h1
    refine ⟨hs, ?_⟩
    rcases h3 with ⟨a, ha, _⟩ | h3
    · simp at ha
    · exact Or.inr h3

theorem Store.delete_yields {sc : List Table × List Trigger} {t : String}
    (p : Table → Row → Bool) {tb : Table} (htb : tableOf sc.1 t = some tb)
    (htr : ∀ trg ∈ sc.2, trg.table ≠ t) :
    Exec.yields sc (fun _ => True) (Store.delete t p) := by
  intro s r s2 hs h
  have htb2 : s.table? t = some tb := by rw [Store.table?_of_schema hs, htb]
  have htr2 : ∀ trg ∈ s.triggers, trg.table ≠ t := by
    intro trg htrg
    apply htr
    rw [← hs]
    exact htrg
  rw [Store.delete_no_triggers htb2 htr2] at h
  simp only [Prod.mk.injEq] at h
  rw [← h.1, ← h.2]
  exact ⟨hs, Or.inl ⟨(), rfl, trivial⟩⟩

theorem Table.hasColumn_of_mem {tb : Table} {c : String} {ty : SqlType}
    (h : (c, ty) ∈ tb.columns) : tb.hasColumn c = true := by
  unfold Table.hasColumn
  rw [List.any_eq_true]
  exact ⟨(c, ty), h, by simp⟩

theorem removeArray_yields {sc : List Table × List Trigger} (descriptor : Descriptor)
    (field : FieldDescriptor) (id : Int) {cols : List (String × SqlType)} {keyColumn : String}
    (hside : sideIs sc (getFieldTableName descriptor field) cols keyColumn = true)
    (hown : ("owner_id", SqlType.INTEGER) ∈ cols) :
    Exec.yields sc (fun _ => True) (removeArray descriptor field id) := by
  obtain ⟨tb, htb, hcols, _, _, htr⟩ := sideIs_spec hside
  unfold removeArray
  apply Exec.yields_bind (Store.prepare_yields htb _)
  · intro _ _
    exact Store.delete_yields _ htb htr
  · intro c hc
    simp only [List.mem_singleton] at hc
    subst hc
    exact Table.hasColumn_of_mem (by rw [hcols]; exact hown)

theorem FieldDescriptor.conformsList_spec : ∀ {fs : List FieldDescriptor} {vs : List Value},
    FieldDescriptor.conformsList fs vs = true →
    fs.length = vs.length ∧ ∀ p ∈ fs.zip vs, FieldDescriptor.conformsValue p.1 p.2 = true := by
  intro fs
  induction fs with
  | nil =>
    intro vs h
    cases vs with
    | nil => simp
    | cons v vs => simp [FieldDescriptor.conformsList] at h
  | cons f fs ih =>
    intro vs h
    cases vs with
    | nil => simp [FieldDescriptor.conformsList] at h
    | cons v vs =>
      rw [FieldDescriptor.conformsList, Bool.and_eq_true] at h
      obtain ⟨h1, h2⟩ := ih h.2
      refine ⟨by simp [h1], ?_⟩
      intro p hp
      simp only [List.zip_cons_cons, List.mem_cons] at hp
      rcases hp with rfl | hp
      · exact h.1
      · exact h2 p hp

theorem Descriptor.conforms_spec {d : Descriptor} {m : Message}
    (h : Descriptor.conforms d m = true) :
    d.fields.length = m.fields.length ∧
      ∀ p ∈ d.fields.zip m.fields, FieldDescriptor.conformsValue p.1 p.2 = true := by
  cases d with
  | mk name fs =>
    rw [Descriptor.conforms] at h
    exact FieldDescriptor.conformsList_spec h

theorem FieldDescriptor.conformsValue_eq (f : FieldDescriptor) (v : Value) :
    FieldDescriptor.conformsValue f v = FieldType.conformsValue f.label f.type v := by
  cases f with
  | mk n l t k => rw [FieldDescriptor.conformsValue]; rfl

theorem FieldDescriptor.depth_eq (f : FieldDescriptor) :
    FieldDescriptor.depth f = FieldType.depth f.type := by
  cases f with
  | mk n l t k => rw [FieldDescriptor.depth]; rfl

theorem FieldDescriptor.depth_message {f : FieldDescriptor} {d : Descriptor}
    (h : f.type = .message d) : FieldDescriptor.depth f = d.depth := by
  rw [FieldDescriptor.depth_eq, h, FieldType.depth]

theorem FieldDescriptor.depthList_mem : ∀ {fs : List FieldDescriptor} {f : FieldDescriptor},
    f ∈ fs → FieldDescriptor.depth f ≤ FieldDescriptor.depthList fs := by
  intro fs
  induction fs with
  | nil => intro f hf; simp at hf
  | cons g gs ih =>
    intro f hf
    rw [FieldDescriptor.depthList]
    rcases List.mem_cons.mp hf with rfl | hf
    · exact le_max_left _ _
    · exact le_trans (ih hf) (le_max_right _ _)

theorem Descriptor.depth_fields {d : Descriptor} {fuel : Nat} (h : d.depth ≤ fuel + 1) :
    ∀ f ∈ d.fields, FieldDescriptor.depth f ≤ fuel := by
  cases d with
  | mk name fs =>
    intro f hf
    rw [Descriptor.depth] at h
    have := FieldDescriptor.depthList_mem (show f ∈ fs from hf)
    omega

theorem Descriptor.depth_pos (d : Descriptor) : 0 < d.depth := by
  cases d with
  | mk name fs => rw [Descriptor.depth]; omega

theorem bindScalar_of_type {t : CppType} {x : Scalar} (h : x.cppType = t) :
    ∃ v, bindScalar t x = .ok v := by
  subst h
  cases x <;> exact ⟨_, rfl⟩

/-- The fields of a conforming message of a type in the schema. -/
theorem fields_ready {sc : List Table × List Trigger} {L : List String} {fuel : Nat}
    {d : Descriptor} {m : Message} (hd : d.depth ≤ fuel + 1) (hin : TypeIn sc L d)
    (hc : Descriptor.conforms d m = true) :
    ∀ p ∈ d.fields.zip m.fields, FieldReady sc L fuel d.name p := by
  intro p hp
  have hf : p.1 ∈ d.fields := (List.of_mem_zip hp).1
  refine ⟨?_, (Descriptor.conforms_spec hc).2 p hp, Descriptor.depth_fields hd p.1 hf⟩
  cases d with
  | mk name fs => exact hin.fields p.1 hf

theorem bindField_yields {sc : List Table × List Trigger} {L : List String} {fuel : Nat}
    {owner : String} {write : Descriptor → Message → Exec Int} (hw : WriteYields sc L fuel write)
    {p : FieldDescriptor × Value} (hp : FieldReady sc L fuel owner p)
    (hl : p.1.label = .singular) :
    Exec.yields sc (fun _ => True) (bindField write noFind true p.1 p.2) := by
  obtain ⟨hin, hconf, hdepth⟩ := hp
  rw [FieldDescriptor.conformsValue_eq, hl] at hconf
  unfold bindField
  cases ht : p.1.type with
  | scalar t =>
    rw [ht] at hconf
    cases hv : p.2 with
    | scalar has x =>
      rw [hv, FieldType.conformsValue] at hconf
      simp only [Bool.and_eq_true, decide_eq_true_eq] at hconf
      obtain ⟨v, hb⟩ := bindScalar_of_type hconf.1
      simp only [hb]
      intro s r s2 hs h
      simp only [Exec.ofExcept, Prod.mk.injEq] at h
      rw [← h.1, ← h.2]
      exact ⟨hs, Or.inl ⟨v, rfl, trivial⟩⟩
    | message has m => rw [hv] at hconf; simp [FieldType.conformsValue] at hconf
    | repeated xs => rw [hv] at hconf; simp [FieldType.conformsValue] at hconf
    | repeatedMessage ms => rw [hv] at hconf; simp [FieldType.conformsValue] at hconf
  | message d =>
    rw [ht] at hconf
    cases hv : p.2 with
    | scalar has x => rw [hv] at hconf; simp [FieldType.conformsValue] at hconf
    | message has m =>
      rw [hv, FieldType.conformsValue] at hconf
      simp only [if_true]
      apply Exec.yields_bind (hw d m (by rw [← FieldDescriptor.depth_message ht]; exact hdepth)
        (hin.singular_message hl ht) hconf)
      intro key _
      exact Exec.yields_pure trivial
    | repeated xs => rw [hv] at hconf; simp [FieldType.conformsValue] at hconf
    | repeatedMessage ms => rw [hv] at hconf; simp [FieldType.conformsValue] at hconf

theorem insertMessageFields_yields {sc : List Table × List Trigger} {L : List String}
    {fuel : Nat} {owner : String} {write : Descriptor → Message → Exec Int}
    (hw : WriteYields sc L fuel write) :
    ∀ fields : List (FieldDescriptor × Value),
      (∀ p ∈ fields, FieldReady sc L fuel owner p ∧ p.1.label = .singular) →
      Exec.yields sc (fun vals => vals.length = fields.length)
        (insertMessageFields write noFind true fields) := by
  intro fields
  induction fields with
  | nil =>
    intro _
    rw [insertMessageFields]
    exact Exec.yields_pure rfl
  | cons p rest ih =>
    intro h
    obtain ⟨field, value⟩ := p
    have hp := h (field, value) (by simp)
    rw [insertMessageFields]
    have hrep : (field.is_repeated || field.is_map) = false := by
      have := hp.2
      simp only at this
      simp [FieldDescriptor.is_repeated, FieldDescriptor.is_map, this]
    rw [if_neg (by simp [hrep])]
    apply Exec.yields_bind (bindField_yields hw hp.1 hp.2)
    intro v _
    apply Exec.yields_bind (ih (fun q hq => h q (List.mem_cons_of_mem _ hq)))
    intro vs hvs
    exact Exec.yields_pure (by simp [hvs])

theorem bindScalars_of_conforms (t : CppType) : ∀ xs : List Scalar,
    (xs.all (fun x => decide (x.cppType = t) && x.inRange)) = true →
    ∃ vals, bindScalars t xs = .ok vals ∧ vals.length = xs.length := by
  intro xs
  induction xs with
  | nil => intro _; exact ⟨[], rfl, rfl⟩
  | cons x rest ih =>
    intro h
    simp only [List.all_cons, Bool.and_eq_true, decide_eq_true_eq] at h
    obtain ⟨v, hv⟩ := bindScalar_of_type h.1.1
    obtain ⟨vs, hvs, hl⟩ := ih (by simpa using h.2)
    exact ⟨v :: vs, by rw [bindScalars, hv, hvs], by simp [hl]⟩

theorem writeElements_yields {sc : List Table × List Trigger} {L : List String} {fuel : Nat}
    {write : Descriptor → Message → Exec Int} (hw : WriteYields sc L fuel write)
    {d : Descriptor} (hd : d.depth ≤ fuel) (hin : TypeIn sc L d) :
    ∀ ms : List Message, (∀ m ∈ ms, Descriptor.conforms d m = true) →
      Exec.yields sc (fun vals => vals.length = ms.length) (writeElements write d ms) := by
  intro ms
  induction ms with
  | nil => intro _; rw [writeElements]; exact Exec.yields_pure rfl
  | cons m rest ih =>
    intro h
    rw [writeElements]
    apply Exec.yields_bind (hw d m hd hin (h m (by simp)))
    intro key _
    apply Exec.yields_bind (ih (fun q hq => h q (List.mem_cons_of_mem _ hq)))
    intro vs hvs
    exact Exec.yields_pure (by simp [hvs])

theorem insertMessageRepeatedField_yields {sc : List Table × List Trigger} {L : List String}
    {fuel : Nat} {owner : String} {write : Descriptor → Message → Exec Int}
    (hw : WriteYields sc L fuel write) {p : FieldDescriptor × Value}
    (hp : FieldReady sc L fuel owner p) (hl : p.1.label = .repeated) :
    Exec.yields sc (fun vals => vals.length = p.2.fieldSize)
      (insertMessageRepeatedField write p.1 p.2) := by
  obtain ⟨hin, hconf, hdepth⟩ := hp
  rw [FieldDescriptor.conformsValue_eq, hl] at hconf
  unfold insertMessageRepeatedField
  cases ht : p.1.type with
  | scalar t =>
    rw [ht] at hconf
    cases hv : p.2 with
    | scalar has x => rw [hv] at hconf; simp [FieldType.conformsValue] at hconf
    | message has m => rw [hv] at hconf; simp [FieldType.conformsValue] at hconf
    | repeated xs =>
      rw [hv, FieldType.conformsValue] at hconf
      obtain ⟨vals, hb, hlen⟩ := bindScalars_of_conforms t xs hconf
      simp only [hb]
      intro s r s2 hs h
      simp only [Exec.ofExcept, Prod.mk.injEq] at h
      rw [← h.1, ← h.2]
      exact ⟨hs, Or.inl ⟨vals, rfl, by simp [Value.fieldSize, hlen]⟩⟩
    | repeatedMessage ms => rw [hv] at hconf; simp [FieldType.conformsValue] at hconf
  | message d =>
    rw [ht] at hconf
    cases hv : p.2 with
    | scalar has x => rw [hv] at hconf; simp [FieldType.conformsValue] at hconf
    | message has m => rw [hv] at hconf; simp [FieldType.conformsValue] at hconf
    | repeated xs => rw [hv] at hconf; simp [FieldType.conformsValue] at hconf
    | repeatedMessage ms =>
      rw [hv, FieldType.conformsValue, List.all_eq_true] at hconf
      simp only [Value.fieldSize]
      exact writeElements_yields hw (by rw [← FieldDescriptor.depth_message ht]; exact hdepth)
        ((hin.repeated hl).2.2 d ht) ms hconf

theorem getLastInsertRowid_yields (sc : List Table × List Trigger) :
    Exec.yields sc (fun _ => True) getLastInsertRowid := by
  intro s r s2 hs h
  unfold getLastInsertRowid at h
  simp only [Prod.mk.injEq] at h
  rw [← h.1, ← h.2]
  exact ⟨hs, Or.inl ⟨_, rfl, trivial⟩⟩

theorem writeArray_yields {sc : List Table × List Trigger} {L : List String} {fuel : Nat}
    {write : Descriptor → Message → Exec Int} (hw : WriteYields sc L fuel write)
    (descriptor : Descriptor) (id : Int) {p : FieldDescriptor × Value}
    (hp : FieldReady sc L fuel descriptor.name p) (hl : p.1.label = .repeated) :
    Exec.yields sc (fun _ => True) (writeArray write descriptor p.1 p.2 id) := by
  obtain ⟨hside, _, _⟩ := hp.1.repeated hl
  obtain ⟨tb, htb, hcols, _, _, _⟩ := sideIs_spec hside
  unfold writeArray
  apply Exec.yields_bind (removeArray_yields descriptor p.1 id hside (by simp))
  intro _ _
  simp only []
  split
  · exact Exec.yields_pure trivial
  · apply Exec.yields_bind (Store.prepare_yields htb _)
    · intro _ _
      apply Exec.yields_bind (insertMessageRepeatedField_yields hw hp hl)
      intro vals hvals
      apply Exec.yields_bind (Store.insertMany_yields htb _ _)
      · intro n hn
        simp only [List.length_map] at hn
        rw [hn, hvals]
        simp only [bne_self_eq_false, Bool.false_eq_true, if_false]
        exact Exec.yields_pure trivial
      · intro c hc
        simp only [List.mem_cons, List.mem_singleton, List.not_mem_nil, or_false] at hc
        rcases hc with rfl | rfl
        · exact @Table.hasColumn_of_mem _ _ (getFieldType p.1) (by rw [hcols]; simp)
        · exact @Table.hasColumn_of_mem _ _ (.INTEGER) (by rw [hcols]; simp)
    · intro c hc
      simp only [List.mem_cons, List.mem_singleton, List.not_mem_nil, or_false] at hc
      rcases hc with rfl | rfl
      · exact @Table.hasColumn_of_mem _ _ (getFieldType p.1) (by rw [hcols]; simp)
      · exact @Table.hasColumn_of_mem _ _ (.INTEGER) (by rw [hcols]; simp)

theorem isEntryShape_labels {k v : FieldDescriptor} (h : isEntryShape [k, v] = true) :
    k.label = .singular ∧ v.label = .singular := by
  unfold isEntryShape at h
  simp only [Bool.and_eq_true] at h
  obtain ⟨h1, h2⟩ := h
  constructor
  · cases hk : k.label <;> simp [hk] at h1 ⊢
  · cases hv : v.label <;> simp [hv] at h2 ⊢

theorem writeEntries_yields {sc : List Table × List Trigger} {L : List String} {fuel : Nat}
    {write : Descriptor → Message → Exec Int} (hw : WriteYields sc L fuel write)
    {en : String} {k v : FieldDescriptor} (hk : FieldIn sc L "" k) (hv : FieldIn sc L "" v)
    (hshape : isEntryShape [k, v] = true) (hdk : FieldDescriptor.depth k ≤ fuel)
    (hdv : FieldDescriptor.depth v ≤ fuel) :
    ∀ entries : List Message,
      (∀ m ∈ entries, Descriptor.conforms (.mk en [k, v]) m = true) →
      Exec.yields sc (fun rows => rows.length = entries.length)
        (writeEntries write k v entries) := by
  intro entries
  induction entries with
  | nil => intro _; rw [writeEntries]; exact Exec.yields_pure rfl
  | cons entry rest ih =>
    intro h
    have hc := Descriptor.conforms_spec (h entry (by simp))
    simp only [Descriptor.fields] at hc
    rw [writeEntries]
    have hlen : entry.fields.length = 2 := by
      have := hc.1
      simp only [List.length_cons, List.length_nil] at this
      omega
    rw [if_neg (by simp [hlen])]
    obtain ⟨hlk, hlv⟩ := isEntryShape_labels hshape
    apply Exec.yields_bind (@insertMessageFields_yields _ _ _ "" _ hw _ _)
    · intro kv _
      apply Exec.yields_bind (ih (fun q hq => h q (List.mem_cons_of_mem _ hq)))
      intro rows hrows
      exact Exec.yields_pure (by simp [hrows])
    · intro q hq
      have hq1 : q.1 ∈ [k, v] := (List.of_mem_zip hq).1
      simp only [List.mem_cons, List.mem_singleton, List.not_mem_nil, or_false] at hq1
      rcases hq1 with h1 | h1
      · exact ⟨⟨by rw [h1]; exact hk, hc.2 q hq, by rw [h1]; exact hdk⟩, by rw [h1]; exact hlk⟩
      · exact ⟨⟨by rw [h1]; exact hv, hc.2 q hq, by rw [h1]; exact hdv⟩, by rw [h1]; exact hlv⟩

theorem writeMap_yields {sc : List Table × List Trigger} {L : List String} {fuel : Nat}
    {write : Descriptor → Message → Exec Int} (hw : WriteYields sc L fuel write)
    (descriptor : Descriptor) (id : Int) {p : FieldDescriptor × Value}
    (hp : FieldReady sc L fuel descriptor.name p) (hl : p.1.label = .map) :
    Exec.yields sc (fun _ => True) (writeMap write descriptor p.1 p.2 id) := by
  obtain ⟨en, k, v, ht, hshape, hside, _, hk, hv⟩ := hp.1.map hl
  obtain ⟨tb, htb, hcols, _, _, _⟩ := sideIs_spec hside
  obtain ⟨_, hconf, hdepth⟩ := hp
  rw [FieldDescriptor.conformsValue_eq, hl, ht] at hconf
  rw [FieldDescriptor.depth_message ht, Descriptor.depth, FieldDescriptor.depthList,
    FieldDescriptor.depthList, FieldDescriptor.depthList] at hdepth
  have hdk : FieldDescriptor.depth k ≤ fuel := by
    have := le_max_left (FieldDescriptor.depth k) (max (FieldDescriptor.depth v) 0)
    omega
  have hdv : FieldDescriptor.depth v ≤ fuel := by
    have h1 := le_max_right (FieldDescriptor.depth k) (max (FieldDescriptor.depth v) 0)
    have h2 := le_max_left (FieldDescriptor.depth v) 0
    omega
  have hcolsIn : ∀ c ∈ [getColumnName k.name, getColumnName v.name, "owner_id"],
      tb.hasColumn c = true := by
    intro c hc
    simp only [List.mem_cons, List.mem_singleton, List.not_mem_nil, or_false] at hc
    rcases hc with rfl | rfl | rfl
    · exact @Table.hasColumn_of_mem _ _ (getFieldType k) (by rw [hcols]; simp)
    · exact @Table.hasColumn_of_mem _ _ (getFieldType v) (by rw [hcols]; simp)
    · exact @Table.hasColumn_of_mem _ _ (.INTEGER) (by rw [hcols]; simp)
  unfold writeMap
  apply Exec.yields_bind (removeArray_yields descriptor p.1 id hside (by simp))
  intro _ _
  simp only []
  split
  · exact Exec.yields_pure trivial
  · simp only [FieldDescriptor.message_type, ht, Descriptor.map_key, Descriptor.map_value,
      Descriptor.fields, List.get?]
    cases hval : p.2 with
    | scalar has x => rw [hval] at hconf; simp [FieldType.conformsValue] at hconf
    | message has m => rw [hval] at hconf; simp [FieldType.conformsValue] at hconf
    | repeated xs => rw [hval] at hconf; simp [FieldType.conformsValue] at hconf
    | repeatedMessage ms =>
      rw [hval, FieldType.conformsValue, List.all_eq_true] at hconf
      simp only [Value.entries, Value.fieldSize]
      apply Exec.yields_bind (Store.prepare_yields htb hcolsIn)
      intro _ _
      apply Exec.yields_bind (writeEntries_yields hw hk hv hshape hdk hdv ms hconf)
      intro rows hrows
      apply Exec.yields_bind (Store.insertMany_yields htb hcolsIn _)
      intro n hn
      simp only [List.length_map] at hn
      rw [hn, hrows]
      simp only [bne_self_eq_false, Bool.false_eq_true, if_false]
      exact Exec.yields_pure trivial

theorem writeMaps_yields {sc : List Table × List Trigger} {L : List String} {fuel : Nat}
    {write : Descriptor → Message → Exec Int} (hw : WriteYields sc L fuel write)
    (descriptor : Descriptor) (id : Int) :
    ∀ fields : List (FieldDescriptor × Value),
      (∀ p ∈ fields, FieldReady sc L fuel descriptor.name p ∧ p.1.label = .map) →
      Exec.yields sc (fun _ => True) (writeMaps write descriptor id fields) := by
  intro fields
  induction fields with
  | nil => intro _; rw [writeMaps]; exact Exec.yields_pure trivial
  | cons p rest ih =>
    intro h
    obtain ⟨field, value⟩ := p
    rw [writeMaps]
    have hp := h (field, value) (by simp)
    exact Exec.yields_bind (writeMap_yields hw descriptor id hp.1 hp.2)
      (fun _ _ => ih (fun q hq => h q (List.mem_cons_of_mem _ hq)))

theorem writeArrays_yields {sc : List Table × List Trigger} {L : List String} {fuel : Nat}
    {write : Descriptor → Message → Exec Int} (hw : WriteYields sc L fuel write)
    (descriptor : Descriptor) (id : Int) :
    ∀ fields : List (FieldDescriptor × Value),
      (∀ p ∈ fields, FieldReady sc L fuel descriptor.name p ∧ p.1.label = .repeated) →
      Exec.yields sc (fun _ => True) (writeArrays write descriptor id fields) := by
  intro fields
  induction fields with
  | nil => intro _; rw [writeArrays]; exact Exec.yields_pure trivial
  | cons p rest ih =>
    intro h
    obtain ⟨field, value⟩ := p
    rw [writeArrays]
    have hp := h (field, value) (by simp)
    exact Exec.yields_bind (writeArray_yields hw descriptor id hp.1 hp.2)
      (fun _ _ => ih (fun q hq => h q (List.mem_cons_of_mem _ hq)))

theorem mainColumns_hasColumn {d : Descriptor} {m : Message}
    {tb : Table} (hlen : d.fields.length = m.fields.length)
    (hcols : tb.columns = mainColumns d.fields) :
    ∀ c ∈ fieldNames d m, tb.hasColumn c = true := by
  intro c hc
  rw [fieldNames_eq hlen, ← hcols] at hc
  obtain ⟨q, hq, hqc⟩ := List.mem_map.mp hc
  rw [← hqc]
  exact @Table.hasColumn_of_mem _ _ (q.2) hq

/-- Progress of the write path: on a store that holds the tables of the type, with
enough fuel, `writeMessageImpl` of a conforming message returns a row id or throws the
constraint error, and nothing else. -/
theorem writeMessageImpl_yields (sc : List Table × List Trigger) (L : List String) :
    ∀ (fuel : Nat) (d : Descriptor) (m : Message) (hc : Bool), d.depth ≤ fuel →
      TypeIn sc L d → Descriptor.conforms d m = true →
      Exec.yields sc (fun _ => True) (writeMessageImpl fuel d m hc) := by
  intro fuel
  induction fuel with
  | zero =>
    intro d m hc hd _ _
    have := Descriptor.depth_pos d
    omega
  | succ fuel ih =>
    intro d m hc hd hin hconf
    have hw : WriteYields sc L fuel (fun d m => writeMessageImpl fuel d m false) :=
      fun d2 m2 h1 h2 h3 => ih d2 m2 false h1 h2 h3
    have hready := fields_ready hd hin hconf
    have hlen := (Descriptor.conforms_spec hconf).1
    obtain ⟨⟨tb, htb, hcols, _⟩, _⟩ := Descriptor.schemaOk_spec hin.1
    have hcolsIn := mainColumns_hasColumn hlen hcols
    rw [writeMessageImpl]
    rw [if_neg (by simp [hlen])]
    simp only []
    apply Exec.yields_bind (Store.prepare_yields htb hcolsIn)
    intro _ _
    apply Exec.yields_bind (@insertMessageFields_yields _ _ _ d.name _ hw _ _)
    · intro vals _
      apply Exec.yields_bind (Store.insert_yields vals _ htb hcolsIn)
      intro n hn
      rw [hn]
      simp only [Nat.succ_ne_zero, beq_iff_eq, OfNat.ofNat_ne_zero, if_false, one_ne_zero]
      apply Exec.yields_bind (getLastInsertRowid_yields sc)
      intro id _
      apply Exec.yields_bind (writeMaps_yields hw d id _ _)
      · intro _ _
        apply Exec.yields_bind (writeArrays_yields hw d id _ _)
        · intro _ _
          exact Exec.yields_pure trivial
        · intro p hp
          have hp2 := List.mem_filter.mp hp
          simp only [Bool.and_eq_true, Bool.not_eq_true'] at hp2
          exact ⟨hready p hp2.1, FieldDescriptor.label_of_repeated hp2.2.1 hp2.2.2⟩
      · intro p hp
        have hp2 := List.mem_filter.mp hp
        exact ⟨hready p hp2.1, FieldDescriptor.label_of_map hp2.2⟩
    · intro p hp
      have hp2 := List.mem_filter.mp hp
      simp only [Bool.and_eq_true, Bool.not_eq_true'] at hp2
      exact ⟨hready p hp2.1, FieldDescriptor.label_of_not_repeated hp2.2.2⟩

end ProtoDatabase

namespace ProtoDatabase

/-! ## Duplicate values in a repeated field -/

theorem Table.conflictRow?_none {tb : Table} {cells : List SqlValue} {rows : List Row}
    (h : tb.conflictRow? cells rows = none) :
    ∀ u ∈ tb.uniques, ∀ r ∈ rows, tb.conflictsOn cells u r = false := by
  intro u hu r hr
  unfold Table.conflictRow? at h
  rw [List.findSome?_eq_none_iff] at h
  have h1 := h u hu
  rw [List.find?_eq_none] at h1
  simpa using h1 r hr

theorem getColumnName_ne_owner (a : String) : getColumnName a ≠ "owner_id" := by
  intro h
  unfold getColumnName at h
  have h2 := congrArg String.data h
  simp only [String.data_append] at h2
  have h3 : ("field_".data ++ a.data).head? = "owner_id".data.head? := by rw [h2]
  simp at h3

theorem TypeIn.self {sc : List Table × List Trigger} {d : Descriptor}
    (h : Descriptor.schemaOk sc d = true) : TypeIn sc (d.tables.map (fun x => x.1)) d :=
  ⟨h, fun x hx => List.mem_map.mpr ⟨x, hx, rfl⟩⟩

end ProtoDatabase

namespace ProtoDatabase

/-! ## Steps that keep what the store holds -/

theorem Pres.same (T : List (String × Option String)) (Q : String → Int → Prop) (s : Store) :
    Pres T Q s s :=
  ⟨rfl, fun h => h, fun _ _ _ h => h, fun _ _ _ => rfl⟩

theorem Pres.andThen {T : List (String × Option String)} {Q : String → Int → Prop}
    {s1 s2 s3 : Store} (h1 : Pres T Q s1 s2) (h2 : Pres T Q s2 s3) : Pres T Q s1 s3 :=
  ⟨h2.schema.trans h1.schema, fun h => h2.ascending (h1.ascending h),
    fun t ht r hr => h2.main t ht r (h1.main t ht r hr),
    fun t o hq => (h2.side t o hq).trans (h1.side t o hq)⟩

theorem Pres.weaken {T : List (String × Option String)} {Q Q2 : String → Int → Prop}
    {s1 s2 : Store} (h : Pres T Q s1 s2) (hq : ∀ t o, Q2 t o → Q t o) : Pres T Q2 s1 s2 :=
  ⟨h.schema, h.ascending, h.main, fun t o hq2 => h.side t o (hq t o hq2)⟩

theorem Pres.ids {T : List (String × Option String)} {Q : String → Int → Prop}
    {s1 s2 : Store} (h : Pres T Q s1 s2) {t : String} (ht : (t, none) ∈ T) {o : Int}
    (ho : o ∈ s1.ids t) : o ∈ s2.ids t := by
  unfold Store.ids at ho ⊢
  obtain ⟨r, hr, rfl⟩ := List.mem_map.mp ho
  exact List.mem_map.mpr ⟨r, h.main t ht r hr, rfl⟩

theorem Pres.tableEq {T : List (String × Option String)} {Q : String → Int → Prop}
    {s1 s2 : Store} (h : Pres T Q s1 s2) (t : String) : s2.table? t = s1.table? t := by
  unfold Store.table?
  rw [show s2.tables = s1.tables from congrArg Prod.fst h.schema]

theorem existing_of_newSince {T : List (String × Option String)} {s s2 : Store} {t : String}
    {o : Int} (h : newSince T s s2 t o) : existing T s2 t o := by
  obtain ⟨ow, h1, h2, h3, _⟩ := h
  exact ⟨ow, h1, h2, h3⟩

theorem existing_mono {T : List (String × Option String)} {Q : String → Int → Prop}
    {s s2 : Store} (h : Pres T Q s s2) {t : String} {o : Int} (he : existing T s t o) :
    existing T s2 t o := by
  obtain ⟨ow, h1, h2, h3⟩ := he
  exact ⟨ow, h1, h2, h.ids h2 h3⟩

/-- Two steps that each keep what the store held before them. -/
theorem Pres.step {T : List (String × Option String)} {s1 s2 s3 : Store}
    (h1 : Pres T (existing T s1) s1 s2) (h2 : Pres T (existing T s2) s2 s3) :
    Pres T (existing T s1) s1 s3 :=
  h1.andThen (h2.weaken (fun _ _ he => existing_mono h1 he))

/-- In a table whose row ids are distinct, the row of a given id is the first one with
that id. -/
theorem find_by_id {rows : List Row} (h : (rows.map (fun r => r.id)).Pairwise (fun a b => a < b))
    {r : Row} (hr : r ∈ rows) : rows.find? (fun x => x.id == r.id) = some r := by
  induction rows with
  | nil => simp at hr
  | cons a rest ih =>
    rw [List.map_cons, List.pairwise_cons] at h
    rw [List.find?_cons]
    rcases List.mem_cons.mp hr with rfl | hr
    · simp
    · have hlt : a.id < r.id := h.1 r.id (List.mem_map.mpr ⟨r, hr, rfl⟩)
      have hne : (a.id == r.id) = false := by
        simp only [beq_eq_false_iff_ne, ne_eq]
        omega
      rw [hne]
      exact ih h.2 hr

theorem filter_by_id {rows : List Row} (h : (rows.map (fun r => r.id)).Pairwise (fun a b => a < b))
    {r : Row} (hr : r ∈ rows) : rows.filter (fun x => x.id == r.id) = [r] := by
  induction rows with
  | nil => simp at hr
  | cons a rest ih =>
    rw [List.map_cons, List.pairwise_cons] at h
    rcases List.mem_cons.mp hr with rfl | hr
    · rw [List.filter_cons]
      simp only [beq_self_eq_true, if_true, List.cons.injEq, true_and]
      rw [List.filter_eq_nil_iff]
      intro x hx
      have := h.1 x.id (List.mem_map.mpr ⟨x, hx, rfl⟩)
      simp only [beq_iff_eq]
      omega
    · have hlt : a.id < r.id := h.1 r.id (List.mem_map.mpr ⟨r, hr, rfl⟩)
      have hne : (a.id == r.id) = false := by
        simp only [beq_eq_false_iff_ne, ne_eq]
        omega
      rw [List.filter_cons, hne]
      exact ih h.2 hr

theorem ascending_append {rows : List Row}
    (h : (rows.map (fun r => r.id)).Pairwise (fun a b => a < b)) (cells : List SqlValue) :
    ((rows ++ [Row.mk (nextId rows) cells]).map (fun r => r.id)).Pairwise (fun a b => a < b) := by
  rw [List.map_append, List.pairwise_append]
  refine ⟨h, by simp, ?_⟩
  intro a ha b hb
  simp only [List.map_cons, List.map_nil, List.mem_singleton] at hb
  obtain ⟨r, hr, rfl⟩ := List.mem_map.mp ha
  rw [hb]
  exact nextId_gt rows r hr

theorem ascending_filter {rows : List Row} (p : Row → Bool)
    (h : (rows.map (fun r => r.id)).Pairwise (fun a b => a < b)) :
    ((rows.filter p).map (fun r => r.id)).Pairwise (fun a b => a < b) := by
  rw [List.pairwise_map] at h ⊢
  exact h.sublist (List.filter_sublist rows)

theorem ownerRows_setRows_ne (s : Store) (t x : String) (rows : List Row) (o : Int)
    (h : x ≠ t) : ownerRows (s.setRows t rows) x o = ownerRows s x o := by
  unfold ownerRows
  rw [Store.setRows_rows_ne s t x rows h]
  rfl

/-- The step that appends a row with a fresh id to a table keeps the rows of every
owner that the new row does not belong to. -/
theorem Pres.of_append (T : List (String × Option String)) (Q : String → Int → Prop)
    (s : Store) (t : String) (cells : List SqlValue) (last : Int)
    (hQ : ∀ tb o, s.table? t = some tb → Q t o →
      tb.matches "owner_id" (.integer o) (Row.mk (nextId (s.rows t)) cells) = false) :
    Pres T Q s { s.setRows t (s.rows t ++ [⟨nextId (s.rows t), cells⟩]) with
      lastInsertRowid := last } := by
  refine ⟨rfl, ?_, ?_, ?_⟩
  · intro h x
    by_cases hx : x = t
    · subst hx
      simp only [Store.setRows, if_true]
      exact ascending_append (h x) cells
    · simp only [Store.setRows, hx, if_false]
      exact h x
  · intro x _ r hr
    by_cases hx : x = t
    · subst hx
      simp only [Store.setRows, if_true]
      exact List.mem_append_left _ hr
    · simpa [Store.setRows, hx] using hr
  · intro x o hq
    by_cases hx : x = t
    · subst hx
      unfold ownerRows
      show (match s.table? x with
        | some tb => List.filter (fun r => tb.matches "owner_id" (.integer o) r)
            ((s.setRows x (s.rows x ++ [Row.mk (nextId (s.rows x)) cells])).rows x)
        | none => []) = _
      cases htb : s.table? x with
      | none => rfl
      | some tb =>
        simp only [Store.setRows_rows_eq, List.filter_append]
        have := hQ tb o htb hq
        simp [List.filter_cons, this]
    · exact ownerRows_setRows_ne s t x _ o hx

/-- The step that deletes rows of a table that is not a main table of `T` keeps the
rows of every owner none of whose rows it deletes. -/
theorem Pres.of_filter (T : List (String × Option String)) (Q : String → Int → Prop)
    (s : Store) (t : String) (p : Row → Bool) (hmain : (t, none) ∉ T)
    (hQ : ∀ tb o r, s.table? t = some tb → Q t o → r ∈ s.rows t →
      tb.matches "owner_id" (.integer o) r = true → p r = true) :
    Pres T Q s (s.setRows t ((s.rows t).filter p)) := by
  refine ⟨rfl, ?_, ?_, ?_⟩
  · intro h x
    by_cases hx : x = t
    · subst hx
      simp only [Store.setRows, if_true]
      exact ascending_filter p (h x)
    · simp only [Store.setRows, hx, if_false]
      exact h x
  · intro x hxT r hr
    have hx : x ≠ t := fun h => hmain (h ▸ hxT)
    simpa [Store.setRows, hx] using hr
  · intro x o hq
    by_cases hx : x = t
    · subst hx
      unfold ownerRows
      show (match s.table? x with
        | some tb => List.filter (fun r => tb.matches "owner_id" (.integer o) r)
            ((s.setRows x ((s.rows x).filter p)).rows x)
        | none => []) = _
      cases htb : s.table? x with
      | none => rfl
      | some tb =>
        simp only [Store.setRows_rows_eq, List.filter_filter]
        apply List.filter_congr
        intro r hr
        by_cases hm : tb.matches "owner_id" (.integer o) r = true
        · simp [hm, hQ tb o r htb hq hr hm]
        · simp [hm]
    · exact ownerRows_setRows_ne s t x _ o hx

end ProtoDatabase

namespace ProtoDatabase

/-! ## Reading back what was bound -/

theorem intText_natCast (n : Nat) : intText (n : Int) = to_string n := by
  unfold intText to_string
  have : ¬ ((n : Int) < 0) := by omega
  simp [this]

theorem applyAffinity_to_string (n : Nat) (h : n < 2 ^ 31) :
    applyAffinity .integer (.text (to_string n)) = .integer n := by
  have h1 : (-(2 : Int) ^ 63 ≤ (n : Int) ∧ (n : Int) < (2 : Int) ^ 63) := by
    constructor
    · have : (0 : Int) ≤ n := Int.ofNat_nonneg n
      have : (0 : Int) < (2 : Int) ^ 63 := by norm_num
      omega
    · have : (n : Int) < (2 : Int) ^ 31 := by exact_mod_cast h
      have : (2 : Int) ^ 31 < (2 : Int) ^ 63 := by norm_num
      omega
  simp only [applyAffinity]
  rw [integerLiteral_to_string]
  show (if -(2 : Int) ^ 63 ≤ (n : Int) ∧ (n : Int) < (2 : Int) ^ 63 then SqlValue.integer n
    else SqlValue.real n) = _
  rw [if_pos h1]

theorem readScalar_uint64 (n : Nat) (hr : n < 2 ^ 64) (ha : n < 2 ^ 31) :
    readScalar .UINT64 (.integer n) = .uint64 n := by
  simp only [readScalar, SqlValue.getString]
  rw [intText_natCast, atoi_to_string n ha, wrapUnsigned_of_range 64 n hr]

/-- A scalar in the range of its type, no `UInt64` of `2 ^ 31` or more and no NaN, reads
back from the cell it was bound to as itself. -/
theorem readScalar_bindScalar {t : CppType} {x : Scalar} {v : SqlValue}
    (hb : bindScalar t x = .ok v) (hr : x.inRange = true) (ha : x.readsBack = true)
    (f : FieldDescriptor) (hf : f.type = .scalar t) :
    readScalar t (applyAffinity (getFieldType f).affinity v) = x := by
  unfold getFieldType
  rw [hf]
  cases t <;> cases x <;> simp only [bindScalar, Except.ok.injEq] at hb <;>
    first
    | exact absurd hb (by simp)
    | (simp [Scalar.readsBack] at ha; done)
    | (subst hb
       simp only [Scalar.inRange, Scalar.readsBack, decide_eq_true_eq] at hr ha
       simp only [SqlType.affinity]
       first
       | (rw [applyAffinity_to_string _ ha]; exact readScalar_uint64 _ hr ha)
       | simp only [applyAffinity, readScalar, SqlValue.getInt64,
           SqlValue.getString, SqlValue.getDouble])
  · rw [wrapSigned_of_range 32 (by omega) _ (by simpa using hr.1) (by simpa using hr.2)]
  · rw [wrapUnsigned_of_range 32 _ hr]
  · rename_i b
    cases b
    · rw [if_neg (by simp), wrapSigned_of_range 32 (by omega) 0 (by norm_num) (by norm_num)]
      rfl
    · rw [if_pos rfl, wrapSigned_of_range 32 (by omega) 1 (by norm_num) (by norm_num)]
      rfl
  · rw [wrapSigned_of_range 32 (by omega) _ (by simpa using hr.1) (by simpa using hr.2)]

theorem drop_cons_get {l : List SqlValue} {n : Nat} {c : SqlValue} {r : List SqlValue}
    (h : l.drop n = c :: r) : l.get? n = some c ∧ l.drop (n + 1) = r := by
  constructor
  · rw [List.get?_eq_getElem?, ← List.head?_drop, h]; rfl
  · rw [← List.tail_drop, h]; rfl

/-- The loop of `readFields` returns the values of the fields, every presence bit set,
when each cell of the row reads back as the value of its singular field and each side
table reads back as the value of its repeated or map field. -/
theorem readFieldsLoop_spec (find : String → Descriptor → Int → Except Err Message)
    (s : Store) (d : Descriptor) (row : Row) :
    ∀ (ps : List (FieldDescriptor × Value)) (col : Nat) (cs extra : List SqlValue),
      row.cells.drop col = cs ++ extra →
      List.Forall₂ (singularRead find)
        (ps.filter (fun p => !p.1.is_map && !p.1.is_repeated)) cs →
      (∀ p ∈ ps, p.1.is_map = true → mapRead find s d row.id p) →
      (∀ p ∈ ps, p.1.is_map = false → p.1.is_repeated = true → arrayRead find s d row.id p) →
      readFieldsLoop find s d row (ps.map (fun p => p.1)) (col + 1) =
        .ok (Value.presentList (ps.map (fun p => p.2))) := by
  intro ps
  induction ps with
  | nil => intro col cs extra _ _ _ _; simp [readFieldsLoop, Value.presentList]
  | cons p rest ih =>
    intro col cs extra hcells hsing hmap harr
    obtain ⟨f, v⟩ := p
    have hmap2 : ∀ p ∈ rest, p.1.is_map = true → mapRead find s d row.id p :=
      fun p hp => hmap p (List.mem_cons_of_mem _ hp)
    have harr2 : ∀ p ∈ rest, p.1.is_map = false → p.1.is_repeated = true →
        arrayRead find s d row.id p := fun p hp => harr p (List.mem_cons_of_mem _ hp)
    rw [List.map_cons, List.map_cons, readFieldsLoop, Value.presentList]
    cases hl : f.label with
    | singular =>
      have hm : f.is_map = false := by simp [FieldDescriptor.is_map, hl]
      have hr : f.is_repeated = false := by simp [FieldDescriptor.is_repeated, hl]
      rw [List.filter_cons] at hsing
      simp only [hm, hr, Bool.not_false, Bool.and_self, if_true] at hsing
      cases hsing with
      | cons hc hrest =>
        rename_i c cs2
        obtain ⟨hget, hdrop⟩ := drop_cons_get (List.cons_append c cs2 extra ▸ hcells)
        have ihr := ih (col + 1) cs2 extra hdrop hrest hmap2 harr2
        simp only [hm, hr, Bool.false_and, Bool.false_eq_true, if_false]
        unfold singularRead at hc
        simp only [] at hc
        cases hty : f.type with
        | scalar t =>
          rw [hty] at hc
          cases v with
          | scalar has x =>
            simp only [] at hc
            simp only [Row.getColumn, hget, ihr, hc, Value.present]
          | message _ _ => exact absurd hc (by simp)
          | repeated _ => exact absurd hc (by simp)
          | repeatedMessage _ => exact absurd hc (by simp)
        | message n =>
          rw [hty] at hc
          cases v with
          | scalar _ _ => exact absurd hc (by simp)
          | message has m =>
            simp only [] at hc
            simp only [Row.getColumn, hget, ihr, hc, Value.present]
          | repeated _ => exact absurd hc (by simp)
          | repeatedMessage _ => exact absurd hc (by simp)
    | repeated =>
      have hm : f.is_map = false := by simp [FieldDescriptor.is_map, hl]
      have hr : f.is_repeated = true := by simp [FieldDescriptor.is_repeated, hl]
      rw [List.filter_cons] at hsing
      simp only [hm, hr, Bool.not_false, Bool.not_true, Bool.and_false, Bool.false_eq_true,
        if_false] at hsing
      have ihr := ih col cs extra hcells hsing hmap2 harr2
      have ha := harr (f, v) (List.mem_cons_self _ _) hm hr
      simp only [hm, hr, Bool.not_false, Bool.and_self, if_true]
      unfold arrayRead at ha
      simp only [] at ha
      cases hty : f.type with
      | scalar t =>
        rw [hty] at ha
        cases v with
        | repeated xs =>
          simp only [] at ha
          obtain ⟨ids, h1, h2⟩ := ha
          simp only [h1, h2, ihr, Value.present]
        | scalar _ _ => exact absurd ha (by simp)
        | message _ _ => exact absurd ha (by simp)
        | repeatedMessage _ => exact absurd ha (by simp)
      | message n =>
        rw [hty] at ha
        cases v with
        | repeatedMessage ms =>
          simp only [] at ha
          obtain ⟨ids, h1, h2⟩ := ha
          simp only [h1, h2, ihr, Value.present]
        | scalar _ _ => exact absurd ha (by simp)
        | message _ _ => exact absurd ha (by simp)
        | repeated _ => exact absurd ha (by simp)
    | map =>
      have hm : f.is_map = true := by simp [FieldDescriptor.is_map, hl]
      have hr : f.is_repeated = true := by simp [FieldDescriptor.is_repeated, hl]
      rw [List.filter_cons] at hsing
      simp only [hm, hr, Bool.not_true, Bool.and_self, Bool.false_eq_true, if_false] at hsing
      have ihr := ih col cs extra hcells hsing hmap2 harr2
      have ha := hmap (f, v) (List.mem_cons_self _ _) hm
      simp only [hm, hr, Bool.not_true, Bool.and_false, Bool.false_eq_true, if_false, if_true]
      unfold mapRead at ha
      simp only [] at ha
      cases hty : f.type with
      | scalar t =>
        rw [hty] at ha
        exact absurd ha (by simp)
      | message n =>
        rw [hty] at ha
        cases v with
        | repeatedMessage ms =>
          simp only [] at ha
          obtain ⟨ids, h1, h2⟩ := ha
          simp only [h1, h2, ihr, Value.present]
        | scalar _ _ => exact absurd ha (by simp)
        | message _ _ => exact absurd ha (by simp)
        | repeated _ => exact absurd ha (by simp)

end ProtoDatabase

namespace ProtoDatabase

/-! ## Side tables -/

/-- An `INSERT` that is no upsert, or goes into an empty table, appends a row. -/
theorem Store.insert_new {t : String} {cols : List String} {vals : List SqlValue} {up : Bool}
    {s s2 : Store} {n : Nat} {tb : Table} (htb : s.table? t = some tb)
    (hup : up = false ∨ s.rows t = [])
    (h : Store.insert t cols vals up s = (.ok n, s2)) :
    s2 = { s.setRows t (s.rows t ++ [⟨nextId (s.rows t), tb.buildCells cols vals⟩]) with
      lastInsertRowid := nextId (s.rows t) } := by
  obtain ⟨tb2, htb2, _, _, hcase⟩ := Store.insert_ok h
  rw [htb] at htb2
  simp only [Option.some.injEq] at htb2
  subst htb2
  rcases hcase with ⟨_, hs⟩ | ⟨hu, r, hr, _, _⟩
  · exact hs
  · rcases hup with hup | hup
    · rw [hup] at hu; simp at hu
    · rw [hup, Table.conflictRow?_nil] at hr
      simp at hr

theorem matches_owner {tb : Table} (haff : tb.affinityOf "owner_id" = .integer) (o : Int)
    (r : Row) :
    tb.matches "owner_id" (.integer o) r = (tb.cell r.cells "owner_id" == .integer o) := by
  unfold Table.matches
  rw [haff]
  simp only [applyAffinity]
  cases h : tb.cell r.cells "owner_id" <;> simp

theorem SideTable.find_owner {tb : Table} {cs : List (String × SqlType)} (h : SideTable tb cs) :
    tb.columns.find? (fun q => q.1 == "owner_id") = some ("owner_id", .INTEGER) := by
  have hnd := h.nodup
  rw [h.columns, List.map_append, List.nodup_append] at hnd
  rw [h.columns, List.find?_append]
  have : cs.find? (fun q => q.1 == "owner_id") = none := by
    rw [List.find?_eq_none]
    intro q hq
    simp only [beq_iff_eq]
    intro he
    exact hnd.2.2 (List.mem_map.mpr ⟨q, hq, rfl⟩) (by simp [he])
  rw [this]
  simp

theorem SideTable.affinity {tb : Table} {cs : List (String × SqlType)} (h : SideTable tb cs) :
    tb.affinityOf "owner_id" = .integer := by
  unfold Table.affinityOf
  rw [h.find_owner]
  rfl

theorem SideTable.hasOwner {tb : Table} {cs : List (String × SqlType)} (h : SideTable tb cs) :
    tb.hasColumn "owner_id" = true := by
  unfold Table.hasColumn
  rw [h.columns]
  simp

/-- The cells of a row `(values, owner_id)` of a side table. -/
theorem SideTable.cells {tb : Table} {cs : List (String × SqlType)} (h : SideTable tb cs)
    (vs : List SqlValue) (id : Int) (hlen : vs.length = cs.length) :
    tb.buildCells (tb.columns.map (fun c => c.1)) (vs ++ [.integer id]) =
      List.zipWith (fun c v => applyAffinity c.2.affinity v) cs vs ++ [.integer id] := by
  rw [Table.buildCells_eq tb _ h.nodup (by rw [h.columns]; simp [hlen]), h.columns,
    List.zipWith_append _ _ _ _ _ hlen.symm]
  rfl

theorem SideTable.owner_cell {tb : Table} {cs : List (String × SqlType)} (h : SideTable tb cs)
    (vs : List SqlValue) (id : Int) (hlen : vs.length = cs.length) :
    tb.cell (tb.buildCells (tb.columns.map (fun c => c.1)) (vs ++ [.integer id])) "owner_id" =
      .integer id := by
  rw [Table.cell_buildCells tb _ _ _ _ h.find_owner]
  have hz : ("owner_id", SqlValue.integer id) ∈
      (tb.columns.map (fun c => c.1)).zip (vs ++ [.integer id]) := by
    rw [h.columns, List.map_append, List.zip_append (by simp [hlen])]
    simp
  rw [boundValue_of_mem _ _ h.nodup _ _ hz]
  rfl

/-- A row `(values, owner_id)` of a side table belongs to the owner `o` exactly when
`owner_id` is `o`. -/
theorem SideTable.matches_row {tb : Table} {cs : List (String × SqlType)} (h : SideTable tb cs)
    (vs : List SqlValue) (id : Int) (hlen : vs.length = cs.length) (o i : Int) :
    tb.matches "owner_id" (.integer o)
      ⟨i, tb.buildCells (tb.columns.map (fun c => c.1)) (vs ++ [.integer id])⟩ =
      decide (id = o) := by
  rw [matches_owner h.affinity, h.owner_cell vs id hlen]
  by_cases hio : id = o
  · simp [hio]
  · simp [hio]

theorem findAssociatedMessages_eq {s : Store} {t : String} {tb : Table}
    (htb : s.table? t = some tb) (hcol : tb.hasColumn "owner_id" = true) (o : Int) :
    findAssociatedMessages s t o = .ok ((ownerRows s t o).map (fun r => r.id)) := by
  unfold findAssociatedMessages Store.selectWhere ownerRows
  simp [htb, hcol]

theorem ownerRows_subset {s : Store} {t : String} {o : Int} {r : Row}
    (h : r ∈ ownerRows s t o) : r ∈ s.rows t := by
  unfold ownerRows at h
  split at h
  · exact (List.mem_filter.mp h).1
  · simp at h

/-- The statement `DELETE FROM side WHERE owner_id = id` on a side table without
triggers: the owner `id` has no rows left, and the rows of every other owner stay. -/
theorem Store.delete_side (T : List (String × Option String)) (Q : String → Int → Prop)
    {s s1 : Store} {t : String} {tb : Table} {cs : List (String × SqlType)} {id : Int}
    (htb : s.table? t = some tb) (hside : SideTable tb cs)
    (htr : ∀ trg ∈ s.triggers, trg.table ≠ t) (hmain : (t, none) ∉ T)
    (hQ : ∀ o, Q t o → o ≠ id)
    (h : Store.delete t (fun tb r => tb.matches "owner_id" (.integer id) r) s = (.ok (), s1)) :
    Pres T Q s s1 ∧ ownerRows s1 t id = [] := by
  rw [Store.delete_no_triggers htb htr] at h
  simp only [Prod.mk.injEq, true_and] at h
  subst h
  constructor
  · apply Pres.of_filter T Q s t _ hmain
    intro tb2 o r htb2 hq _ hm
    rw [htb] at htb2
    simp only [Option.some.injEq] at htb2
    subst htb2
    rw [matches_owner hside.affinity] at hm ⊢
    simp only [beq_iff_eq] at hm
    rw [hm]
    have := hQ o hq
    simp [this]
  · unfold ownerRows
    show (match s.table? t with
      | some tb2 => List.filter (fun r => tb2.matches "owner_id" (.integer id) r)
          ((s.setRows t ((s.rows t).filter
            (fun r => !tb.matches "owner_id" (.integer id) r))).rows t)
      | none => []) = _
    rw [htb]
    simp only [Store.setRows_rows_eq, List.filter_filter]
    rw [List.filter_eq_nil_iff]
    intro r _
    simp

theorem ownerRows_of_rows {s2 : Store} {t : String} {tb : Table} {rows : List Row}
    (htb : s2.table? t = some tb) (hrows : s2.rows t = rows) (o : Int) :
    ownerRows s2 t o = rows.filter (fun r => tb.matches "owner_id" (.integer o) r) := by
  unfold ownerRows
  rw [htb, hrows]

/-- A multi-row `INSERT` of rows `(values, id)` into a side table: the rows are
appended, they belong to the owner `id`, and the rows of every other owner stay. -/
theorem Store.insertRows_side (T : List (String × Option String)) (Q : String → Int → Prop)
    {t : String} {tb : Table} {cs : List (String × SqlType)} (id : Int)
    (hside : SideTable tb cs) (hQ : ∀ o, Q t o → o ≠ id) :
    ∀ (kvs : List (List SqlValue)) (s s2 : Store) (n : Nat), s.table? t = some tb →
      (∀ kv ∈ kvs, kv.length = cs.length) →
      Store.insertRows t (tb.columns.map (fun c => c.1))
        (kvs.map (fun kv => kv ++ [.integer id])) s = (.ok n, s2) →
      Pres T Q s s2 ∧ ∃ R : List Row, s2.rows t = s.rows t ++ R ∧
        List.Forall₂ (fun r kv => r.cells =
          tb.buildCells (tb.columns.map (fun c => c.1)) (kv ++ [.integer id])) R kvs ∧
        ownerRows s2 t id = ownerRows s t id ++ R := by
  intro kvs
  induction kvs with
  | nil =>
    intro s s2 n htb _ h
    rw [List.map_nil, Store.insertRows] at h
    simp only [Exec.pure, Prod.mk.injEq] at h
    rw [← h.2]
    exact ⟨Pres.same T Q s, [], by simp, List.Forall₂.nil, by simp⟩
  | cons kv rest ih =>
    intro s s2 n htb hlen h
    rw [List.map_cons, Store.insertRows] at h
    obtain ⟨k, s1, hins, h1⟩ := Exec.bind_ok.mp h
    obtain ⟨k2, s3, hrest, h2⟩ := Exec.bind_ok.mp h1
    simp only [Exec.pure, Prod.mk.injEq, Except.ok.injEq] at h2
    obtain ⟨_, h3⟩ := h2
    subst h3
    have hs1 := Store.insert_new htb (Or.inl rfl) hins
    have hkv := hlen kv (List.mem_cons_self _ _)
    have hp1 : Pres T Q s s1 := by
      rw [hs1]
      apply Pres.of_append
      intro tb2 o htb2 hq
      rw [htb] at htb2
      simp only [Option.some.injEq] at htb2
      subst htb2
      rw [hside.matches_row kv id hkv o]
      have := hQ o hq
      simp only [decide_eq_false_iff_not]
      exact fun h => this h.symm
    have htb1 : s1.table? t = some tb := by rw [hp1.tableEq]; exact htb
    have hrows1 : s1.rows t = s.rows t ++
        [⟨nextId (s.rows t), tb.buildCells (tb.columns.map (fun c => c.1))
          (kv ++ [.integer id])⟩] := by
      rw [hs1]
      exact Store.setRows_rows_eq _ _ _
    obtain ⟨hp2, R, hR1, hR2, hR3⟩ := ih s1 s3 k2 htb1
      (fun q hq => hlen q (List.mem_cons_of_mem _ hq)) hrest
    refine ⟨hp1.andThen hp2, ⟨nextId (s.rows t), tb.buildCells (tb.columns.map (fun c => c.1))
      (kv ++ [.integer id])⟩ :: R, ?_, ?_, ?_⟩
    · rw [hR1, hrows1, List.append_assoc]
      rfl
    · exact List.Forall₂.cons rfl hR2
    · rw [hR3, ownerRows_of_rows htb1 hrows1, ownerRows_of_rows htb rfl, List.filter_append,
        List.append_assoc]
      congr 1
      rw [List.filter_cons, hside.matches_row kv id hkv id]
      simp

theorem Store.insertMany_ok {t : String} {cols : List String} {rows : List (List SqlValue)}
    {s s2 : Store} {n : Nat} (h : Store.insertMany t cols rows s = (.ok n, s2)) :
    Store.insertRows t cols rows s = (.ok n, s2) := by
  unfold Store.insertMany at h
  split at h
  · rename_i n2 s3 hr
    simp only [Prod.mk.injEq, Except.ok.injEq] at h
    rw [hr, h.1, h.2]
  · simp at h

end ProtoDatabase

namespace ProtoDatabase

/-! ## The roles of the tables of a type -/

theorem TypeOk.typeIn {sc : List Table × List Trigger} {T : List (String × Option String)}
    {d : Descriptor} (h : TypeOk sc T d) : TypeIn sc (T.map (fun x => x.1)) d :=
  ⟨h.1, fun x hx => List.mem_map.mpr ⟨x, h.2 x hx, rfl⟩⟩

theorem FieldOk.fieldIn {sc : List Table × List Trigger} {T : List (String × Option String)}
    {owner : String} {f : FieldDescriptor} (h : FieldOk sc T owner f) :
    FieldIn sc (T.map (fun x => x.1)) owner f :=
  ⟨h.1, fun x hx => List.mem_map.mpr ⟨x, h.2 x hx, rfl⟩⟩

theorem TypeOk.main {sc : List Table × List Trigger} {T : List (String × Option String)}
    {d : Descriptor} (h : TypeOk sc T d) : (d.name, none) ∈ T := by
  cases d with
  | mk name fs =>
    exact h.2 (name, none) (by rw [Descriptor.tables_mk]; exact List.mem_cons_self _ _)

theorem TypeOk.fieldOk {sc : List Table × List Trigger} {T : List (String × Option String)}
    {d : Descriptor} (h : TypeOk sc T d) : ∀ f ∈ d.fields, FieldOk sc T d.name f := by
  cases d with
  | mk name fs =>
    intro f hf
    simp only [Descriptor.fields] at hf
    obtain ⟨h1, h2⟩ := h
    rw [Descriptor.schemaOk_mk, Bool.and_eq_true] at h1
    refine ⟨FieldDescriptor.schemaOkList_mem h1.2 f hf, fun x hx => ?_⟩
    apply h2
    rw [Descriptor.tables_mk]
    exact List.mem_cons_of_mem _ (FieldDescriptor.tablesList_mem hf x hx)

theorem FieldOk.nested {sc : List Table × List Trigger}
    {T : List (String × Option String)} {owner : String} {f : FieldDescriptor} {d : Descriptor}
    (h : FieldOk sc T owner f) (hl : f.label = .singular) (ht : f.type = .message d) :
    TypeOk sc T d := by
  cases f with
  | mk fname label type key =>
    simp only [FieldDescriptor.label, FieldDescriptor.type] at hl ht
    subst hl ht
    obtain ⟨h1, h2⟩ := h
    rw [FieldDescriptor.schemaOk, FieldType.schemaOk] at h1
    rw [FieldDescriptor.tables, FieldType.tables] at h2
    exact ⟨h1, h2⟩

theorem FieldOk.repeatedRole {sc : List Table × List Trigger} {T : List (String × Option String)}
    {owner : String} {f : FieldDescriptor} (h : FieldOk sc T owner f)
    (hl : f.label = .repeated) :
    (fieldTableName owner f.name, some owner) ∈ T ∧
    ∀ d, f.type = .message d → TypeOk sc T d := by
  cases f with
  | mk fname label type key =>
    simp only [FieldDescriptor.label] at hl
    subst hl
    obtain ⟨h1, h2⟩ := h
    rw [FieldDescriptor.schemaOk] at h1
    rw [FieldDescriptor.tables] at h2
    cases type with
    | scalar t =>
      rw [FieldType.tables] at h2
      refine ⟨h2 (fieldTableName owner fname, some owner) (by simp), ?_⟩
      intro d hd
      simp [FieldDescriptor.type] at hd
    | message d =>
      rw [FieldType.schemaOk, Bool.and_eq_true] at h1
      rw [FieldType.tables] at h2
      refine ⟨h2 (fieldTableName owner fname, some owner) (by simp), ?_⟩
      intro d2 hd
      simp only [FieldDescriptor.type, FieldType.message.injEq] at hd
      subst hd
      exact ⟨h1.2, fun x hx => h2 x (List.mem_cons_of_mem _ hx)⟩

theorem FieldOk.mapRole {sc : List Table × List Trigger} {T : List (String × Option String)}
    {owner : String} {f : FieldDescriptor} (h : FieldOk sc T owner f)
    (hl : f.label = .map) :
    (fieldTableName owner f.name, some owner) ∈ T ∧
    ∀ en k v, f.type = .message (.mk en [k, v]) → FieldOk sc T "" k ∧ FieldOk sc T "" v := by
  cases f with
  | mk fname label type key =>
    simp only [FieldDescriptor.label] at hl
    subst hl
    obtain ⟨h1, h2⟩ := h
    rw [FieldDescriptor.schemaOk] at h1
    rw [FieldDescriptor.tables] at h2
    cases type with
    | scalar t => rw [FieldType.schemaOk] at h1; simp at h1
    | message d =>
      cases d with
      | mk en efs =>
        rw [FieldType.schemaOk, Bool.and_eq_true, Bool.and_eq_true] at h1
        rw [FieldType.tables] at h2
        refine ⟨h2 (fieldTableName owner fname, some owner) (by simp), ?_⟩
        intro en2 k v hty
        simp only [FieldDescriptor.type, FieldType.message.injEq, Descriptor.mk.injEq] at hty
        obtain ⟨_, hefs⟩ := hty
        subst hefs
        exact ⟨⟨FieldDescriptor.schemaOkList_mem h1.2 k (by simp),
            fun x hx => h2 x (List.mem_cons_of_mem _
              (FieldDescriptor.tablesList_mem (by simp) x hx))⟩,
          ⟨FieldDescriptor.schemaOkList_mem h1.2 v (by simp),
            fun x hx => h2 x (List.mem_cons_of_mem _
              (FieldDescriptor.tablesList_mem (by simp) x hx))⟩⟩

theorem not_main_of_side {T : List (String × Option String)} (hT : namesAgree T) {t ow : String}
    (h : (t, some ow) ∈ T) : (t, none) ∉ T := by
  intro hn
  have := hT _ h _ hn rfl
  simp at this

theorem owner_unique {T : List (String × Option String)} (hT : namesAgree T) {t ow ow2 : String}
    (h : (t, some ow) ∈ T) (h2 : (t, some ow2) ∈ T) : ow2 = ow := by
  have := hT _ h _ h2 rfl
  simpa using this.symm

theorem existing_owner {T : List (String × Option String)} (hT : namesAgree T) {s : Store}
    {t ow : String} {o : Int} (h : (t, some ow) ∈ T) (he : existing T s t o) : o ∈ s.ids ow := by
  obtain ⟨ow2, h1, _, h3⟩ := he
  rw [owner_unique hT h h1] at h3
  exact h3

theorem newSince_owner {T : List (String × Option String)} (hT : namesAgree T) {s s2 : Store}
    {t ow : String} {o : Int} (h : (t, some ow) ∈ T) (he : newSince T s s2 t o) :
    o ∈ s2.ids ow ∧ o ∉ s.ids ow := by
  obtain ⟨ow2, h1, _, h3, h4⟩ := he
  rw [owner_unique hT h h1] at h3 h4
  exact ⟨h3, h4⟩

theorem not_existing_main {T : List (String × Option String)} (hT : namesAgree T) {s : Store}
    {t : String} (h : (t, none) ∈ T) (o : Int) : ¬ existing T s t o := by
  intro ⟨ow, h1, _, _⟩
  exact not_main_of_side hT h1 h

theorem fieldTableName_injective {ow a b : String}
    (h : fieldTableName ow a = fieldTableName ow b) : a = b := by
  unfold fieldTableName at h
  have h2 := congrArg String.data h
  simp only [String.data_append] at h2
  have h3 := List.append_cancel_left h2
  exact String.ext h3

end ProtoDatabase

namespace ProtoDatabase

/-! ## What the write path leaves to read -/

/-- A row that reads back between `a` and `b` reads back in every wider interval. -/
theorem ReadsIn.widen {T : List (String × Option String)} {a b s e : Store} {n : Descriptor}
    {k : Int} {m : Message} (h : ReadsIn T a b n k m)
    (hsa : ∀ ow, (ow, none) ∈ T → ∀ o ∈ s.ids ow, o ∈ a.ids ow)
    (hbe : Pres T (newSince T a b) b e) : ReadsIn T s e n k m := by
  intro s3 hp hasc f hf
  apply h s3 _ hasc f hf
  refine hbe.andThen (hp.weaken ?_)
  intro t o ⟨ow, h1, h2, h3, h4⟩
  exact ⟨ow, h1, h2, hbe.ids h2 h3, fun hc => h4 (hsa ow h2 o hc)⟩

theorem storedSingular.wider {T : List (String × Option String)} {a b s e : Store}
    {p : FieldDescriptor × Value} {v : SqlValue} (h : storedSingular T a b p v)
    (hsa : ∀ ow, (ow, none) ∈ T → ∀ o ∈ s.ids ow, o ∈ a.ids ow)
    (hbe : Pres T (newSince T a b) b e) : storedSingular T s e p v := by
  unfold storedSingular at h ⊢
  split at h
  · exact h
  · obtain ⟨k, hk, hr⟩ := h
    exact ⟨k, hk, hr.widen hsa hbe⟩
  · exact h

theorem Pres.newSince_of_existing {T : List (String × Option String)} {a b e : Store}
    (h : Pres T (existing T b) b e) : Pres T (newSince T a b) b e :=
  h.weaken (fun _ _ hn => existing_of_newSince hn)

theorem forall2_join {α β γ : Type} {P : α → β → Prop} {Q : γ → β → Prop} :
    ∀ {as : List α} {bs : List β} {cs : List γ}, List.Forall₂ P as bs → List.Forall₂ Q cs bs →
      List.Forall₂ (fun a c => ∃ b, P a b ∧ Q c b) as cs := by
  intro as bs cs h1
  induction h1 generalizing cs with
  | nil => intro h2; cases h2; exact List.Forall₂.nil
  | cons hab _ ih =>
    intro h2
    cases h2 with
    | cons hcb hrest => exact List.Forall₂.cons ⟨_, hab, hcb⟩ (ih hrest)

theorem bindScalars_forall2 {t : CppType} : ∀ {xs : List Scalar} {vals : List SqlValue},
    bindScalars t xs = .ok vals → List.Forall₂ (fun x v => bindScalar t x = .ok v) xs vals := by
  intro xs
  induction xs with
  | nil =>
    intro vals h
    rw [bindScalars] at h
    simp only [Except.ok.injEq] at h
    subst h
    exact List.Forall₂.nil
  | cons x rest ih =>
    intro vals h
    rw [bindScalars] at h
    cases hb : bindScalar t x with
    | error e => simp [hb] at h
    | ok v =>
      cases hr : bindScalars t rest with
      | error e => simp [hb, hr] at h
      | ok vs =>
        simp only [hb, hr, Except.ok.injEq] at h
        subst h
        exact List.Forall₂.cons hb (ih hr)

theorem Value.allScalarsList_mem {p : Scalar → Bool} : ∀ {vs : List Value},
    Value.allScalarsList p vs = true → ∀ v ∈ vs, Value.allScalars p v = true := by
  intro vs
  induction vs with
  | nil => intro _ v hv; simp at hv
  | cons a rest ih =>
    intro h v hv
    rw [Value.allScalarsList, Bool.and_eq_true] at h
    rcases List.mem_cons.mp hv with rfl | hv
    · exact h.1
    · exact ih h.2 v hv

theorem Value.allScalars_of_mem {p : Scalar → Bool} {m : Message}
    (h : Message.allScalars p m = true) {v : Value} (hv : v ∈ m.fields) :
    Value.allScalars p v = true := by
  cases m with
  | mk vs =>
    rw [Message.allScalars] at h
    exact Value.allScalarsList_mem h v hv

theorem Message.allScalarsAll_mem {p : Scalar → Bool} : ∀ {ms : List Message},
    Message.allScalarsAll p ms = true → ∀ m ∈ ms, Message.allScalars p m = true := by
  intro ms
  induction ms with
  | nil => intro _ m hm; simp at hm
  | cons a rest ih =>
    intro h m hm
    rw [Message.allScalarsAll, Bool.and_eq_true] at h
    rcases List.mem_cons.mp hm with rfl | hm
    · exact h.1
    · exact ih h.2 m hm

/-- The values `insertMessageFields` binds for singular fields: each nested message is
written to a row that reads back as the message, and what the store held stays. -/
theorem insertMessageFields_reads {sc : List Table × List Trigger}
    {T : List (String × Option String)} {write : Descriptor → Message → Exec Int}
    (hw : WriteReads sc T write)
    {find : Descriptor → Message → Store → Except Err (Option Int)} {owner : String} :
    ∀ (ps : List (FieldDescriptor × Value)) (s sA : Store) (vals : List SqlValue),
      (∀ p ∈ ps, FieldOk sc T owner p.1 ∧ FieldDescriptor.conformsValue p.1 p.2 = true ∧
        Value.allScalars Scalar.readsBack p.2 = true) →
      s.schema = sc → s.ascending →
      insertMessageFields write find true ps s = (.ok vals, sA) →
      Pres T (existing T s) s sA ∧ List.Forall₂ (storedSingular T s sA) ps vals := by
  intro ps
  induction ps with
  | nil =>
    intro s sA vals _ _ _ h
    rw [insertMessageFields] at h
    simp only [Exec.pure, Prod.mk.injEq, Except.ok.injEq] at h
    rw [← h.1, ← h.2]
    exact ⟨Pres.same _ _ _, List.Forall₂.nil⟩
  | cons p rest ih =>
    intro s sA vals hps hs hasc h
    obtain ⟨f, v⟩ := p
    obtain ⟨hfok, hconf, hbelow⟩ := hps (f, v) (List.mem_cons_self _ _)
    have hrest : ∀ p ∈ rest, FieldOk sc T owner p.1 ∧
        FieldDescriptor.conformsValue p.1 p.2 = true ∧
        Value.allScalars Scalar.readsBack p.2 = true :=
      fun p hp => hps p (List.mem_cons_of_mem _ hp)
    rw [insertMessageFields] at h
    split at h
    · simp [Exec.throw] at h
    · rename_i hsing
      simp only [Bool.or_eq_true, not_or, Bool.not_eq_true] at hsing
      have hl : f.label = .singular := FieldDescriptor.label_of_not_repeated hsing.1
      obtain ⟨v1, s1, hb, h1⟩ := Exec.bind_ok.mp h
      obtain ⟨vs, s2, hr, h2⟩ := Exec.bind_ok.mp h1
      simp only [Exec.pure, Prod.mk.injEq, Except.ok.injEq] at h2
      obtain ⟨hv, hs2⟩ := h2
      subst hv hs2
      rw [FieldDescriptor.conformsValue_eq, hl] at hconf
      unfold bindField at hb
      cases hty : f.type with
      | scalar t =>
        rw [hty] at hb hconf
        cases v with
        | scalar has x =>
          simp only [Exec.ofExcept, Prod.mk.injEq] at hb
          obtain ⟨hb1, hb2⟩ := hb
          subst hb2
          obtain ⟨hp, hf2⟩ := ih s s2 vs hrest hs hasc hr
          refine ⟨hp, List.Forall₂.cons ?_ hf2⟩
          unfold storedSingular
          simp only [hty]
          exact hb1
        | message _ _ => simp [FieldType.conformsValue] at hconf
        | repeated _ => simp [FieldType.conformsValue] at hconf
        | repeatedMessage _ => simp [FieldType.conformsValue] at hconf
      | message n =>
        rw [hty] at hb hconf
        cases v with
        | message has mm =>
          simp only [if_true] at hb
          obtain ⟨k, s1b, hwr, hpure⟩ := Exec.bind_ok.mp hb
          simp only [Exec.pure, Prod.mk.injEq, Except.ok.injEq] at hpure
          obtain ⟨hk, hs1⟩ := hpure
          subst hk hs1
          rw [FieldType.conformsValue] at hconf
          rw [Value.allScalars] at hbelow
          obtain ⟨hp1, _, _, hread⟩ := hw n mm s s1b k (hfok.nested hl hty) hs hasc
            hconf hbelow hwr
          obtain ⟨hp2, hf2⟩ := ih s1b s2 vs hrest (hp1.schema.trans hs) (hp1.ascending hasc) hr
          refine ⟨hp1.step hp2, List.Forall₂.cons ?_ ?_⟩
          · unfold storedSingular
            simp only [hty]
            exact ⟨k, rfl, hread.widen (fun _ _ _ ho => ho) hp2.newSince_of_existing⟩
          · exact hf2.imp (fun p v hst =>
              hst.wider (fun ow how o ho => hp1.ids how ho) (Pres.same _ _ _))
        | scalar _ _ => simp [FieldType.conformsValue] at hconf
        | repeated _ => simp [FieldType.conformsValue] at hconf
        | repeatedMessage _ => simp [FieldType.conformsValue] at hconf

/-- The ids `writeElements` returns: each element is written to a row that reads back
as the element, and what the store held stays. -/
theorem writeElements_reads {sc : List Table × List Trigger}
    {T : List (String × Option String)} {write : Descriptor → Message → Exec Int}
    (hw : WriteReads sc T write) {n : Descriptor} (hn : TypeOk sc T n) :
    ∀ (ms : List Message) (s s2 : Store) (vals : List SqlValue),
      (∀ m ∈ ms, Descriptor.conforms n m = true ∧
        Message.allScalars Scalar.readsBack m = true) →
      s.schema = sc → s.ascending →
      writeElements write n ms s = (.ok vals, s2) →
      Pres T (existing T s) s s2 ∧
      List.Forall₂ (fun m v => ∃ k, v = .integer k ∧ ReadsIn T s s2 n k (Message.present m))
        ms vals := by
  intro ms
  induction ms with
  | nil =>
    intro s s2 vals _ _ _ h
    rw [writeElements] at h
    simp only [Exec.pure, Prod.mk.injEq, Except.ok.injEq] at h
    rw [← h.1, ← h.2]
    exact ⟨Pres.same _ _ _, List.Forall₂.nil⟩
  | cons m rest ih =>
    intro s s2 vals hms hs hasc h
    rw [writeElements] at h
    obtain ⟨k, s1, hwr, h1⟩ := Exec.bind_ok.mp h
    obtain ⟨vs, s3, hr, h2⟩ := Exec.bind_ok.mp h1
    simp only [Exec.pure, Prod.mk.injEq, Except.ok.injEq] at h2
    obtain ⟨hv, hs3⟩ := h2
    subst hv hs3
    obtain ⟨hc, hb⟩ := hms m (List.mem_cons_self _ _)
    obtain ⟨hp1, _, _, hread⟩ := hw n m s s1 k hn hs hasc hc hb hwr
    obtain ⟨hp2, hf2⟩ := ih s1 s3 vs (fun q hq => hms q (List.mem_cons_of_mem _ hq))
      (hp1.schema.trans hs) (hp1.ascending hasc) hr
    refine ⟨hp1.step hp2, List.Forall₂.cons ?_ ?_⟩
    · exact ⟨k, rfl, hread.widen (fun _ _ _ ho => ho) hp2.newSince_of_existing⟩
    · exact hf2.imp (fun q v ⟨k2, hk2, hr2⟩ =>
        ⟨k2, hk2, hr2.widen (fun ow how o ho => hp1.ids how ho) (Pres.same _ _ _)⟩)

/-- The rows `writeEntries` binds: for each entry its key and its value, a nested
value being written to a row that reads back as the value. -/
theorem writeEntries_reads {sc : List Table × List Trigger}
    {T : List (String × Option String)} {write : Descriptor → Message → Exec Int}
    (hw : WriteReads sc T write) {k v : FieldDescriptor} (hk : FieldOk sc T "" k)
    (hv : FieldOk sc T "" v) :
    ∀ (es : List Message) (s s2 : Store) (rows : List (List SqlValue)),
      (∀ e ∈ es, FieldDescriptor.conformsList [k, v] e.fields = true ∧
        Message.allScalars Scalar.readsBack e = true) →
      s.schema = sc → s.ascending →
      writeEntries write k v es s = (.ok rows, s2) →
      Pres T (existing T s) s s2 ∧
      List.Forall₂ (fun e kv => List.Forall₂ (storedSingular T s s2) ([k, v].zip e.fields) kv)
        es rows := by
  intro es
  induction es with
  | nil =>
    intro s s2 rows _ _ _ h
    rw [writeEntries] at h
    simp only [Exec.pure, Prod.mk.injEq, Except.ok.injEq] at h
    rw [← h.1, ← h.2]
    exact ⟨Pres.same _ _ _, List.Forall₂.nil⟩
  | cons e rest ih =>
    intro s s2 rows hes hs hasc h
    rw [writeEntries] at h
    split at h
    · simp [Exec.throw] at h
    · obtain ⟨kv, s1, hkv, h1⟩ := Exec.bind_ok.mp h
      obtain ⟨rs, s3, hr, h2⟩ := Exec.bind_ok.mp h1
      simp only [Exec.pure, Prod.mk.injEq, Except.ok.injEq] at h2
      obtain ⟨hrows, hs3⟩ := h2
      subst hrows hs3
      obtain ⟨hc, hb⟩ := hes e (List.mem_cons_self _ _)
      obtain ⟨_, hcv⟩ := FieldDescriptor.conformsList_spec hc
      have hfields : ∀ p ∈ [k, v].zip e.fields, FieldOk sc T "" p.1 ∧
          FieldDescriptor.conformsValue p.1 p.2 = true ∧
          Value.allScalars Scalar.readsBack p.2 = true := by
        intro p hp
        refine ⟨?_, hcv p hp, ?_⟩
        · have := (List.of_mem_zip hp).1
          simp only [List.mem_cons, List.mem_singleton, List.not_mem_nil, or_false] at this
          rcases this with h | h <;> rw [h] <;> assumption
        · exact Value.allScalars_of_mem hb (List.of_mem_zip hp).2
      obtain ⟨hp1, hf1⟩ := insertMessageFields_reads hw _ s s1 kv hfields hs hasc hkv
      obtain ⟨hp2, hf2⟩ := ih s1 s3 rs (fun q hq => hes q (List.mem_cons_of_mem _ hq))
        (hp1.schema.trans hs) (hp1.ascending hasc) hr
      refine ⟨hp1.step hp2, List.Forall₂.cons ?_ ?_⟩
      · exact hf1.imp (fun p x hst =>
          hst.wider (fun _ _ _ ho => ho) hp2.newSince_of_existing)
      · exact hf2.imp (fun q row hq => hq.imp (fun p x hst =>
          hst.wider (fun ow how o ho => hp1.ids how ho) (Pres.same _ _ _)))

end ProtoDatabase

namespace ProtoDatabase

/-! ## Reading the cells and the side tables that were written -/

theorem getFieldType_message {f : FieldDescriptor} {n : Descriptor} (h : f.type = .message n) :
    getFieldType f = .INTEGER := by
  unfold getFieldType
  rw [h]

/-- The cell of a singular field reads back as the value of the field, in every store
that keeps the rows written for it. -/
theorem singularRead_of_stored {T : List (String × Option String)} {a b s3 : Store}
    {p : FieldDescriptor × Value} {val : SqlValue} (h : storedSingular T a b p val)
    (hl : p.1.label = .singular)
    (hconf : FieldDescriptor.conformsValue p.1 p.2 = true)
    (hbelow : Value.allScalars Scalar.readsBack p.2 = true)
    (hp : Pres T (newSince T a b) b s3) (hasc : s3.ascending) {fu : Nat}
    (hfu : FieldDescriptor.depth p.1 ≤ fu) :
    singularRead (findMessageById fu s3) p (applyAffinity (getFieldType p.1).affinity val) := by
  obtain ⟨f, v⟩ := p
  simp only [] at hl hconf hbelow hfu ⊢
  rw [FieldDescriptor.conformsValue_eq, hl] at hconf
  unfold storedSingular at h
  unfold singularRead
  simp only [] at h ⊢
  cases hty : f.type with
  | scalar t =>
    rw [hty] at h hconf
    cases v with
    | scalar has x =>
      simp only [] at h ⊢
      simp only [FieldType.conformsValue, Bool.and_eq_true, decide_eq_true_eq] at hconf
      rw [Value.allScalars] at hbelow
      exact readScalar_bindScalar h hconf.2 hbelow f hty
    | message _ _ => simp [FieldType.conformsValue] at hconf
    | repeated _ => simp [FieldType.conformsValue] at hconf
    | repeatedMessage _ => simp [FieldType.conformsValue] at hconf
  | message n =>
    rw [hty] at h hconf
    cases v with
    | message has mm =>
      simp only [] at h ⊢
      obtain ⟨k, hk, hr⟩ := h
      rw [hk, getFieldType_message hty]
      simp only [SqlType.affinity, applyAffinity, SqlValue.getInt64]
      exact hr s3 hp hasc fu (by rw [← FieldDescriptor.depth_message hty]; exact hfu)
    | scalar _ _ => simp [FieldType.conformsValue] at hconf
    | repeated _ => simp [FieldType.conformsValue] at hconf
    | repeatedMessage _ => simp [FieldType.conformsValue] at hconf

theorem singularRead_forall2 {T : List (String × Option String)} {a b s3 : Store}
    (hp : Pres T (newSince T a b) b s3) (hasc : s3.ascending) {fu : Nat} :
    ∀ {ps : List (FieldDescriptor × Value)} {vals : List SqlValue},
      List.Forall₂ (storedSingular T a b) ps vals →
      (∀ p ∈ ps, p.1.label = .singular ∧ FieldDescriptor.conformsValue p.1 p.2 = true ∧
        Value.allScalars Scalar.readsBack p.2 = true ∧ FieldDescriptor.depth p.1 ≤ fu) →
      List.Forall₂ (singularRead (findMessageById fu s3)) ps
        (List.zipWith (fun c v => applyAffinity c.2.affinity v)
          (ps.map (fun p => (getColumnName p.1.name, getFieldType p.1))) vals) := by
  intro ps vals h
  induction h with
  | nil => intro _; exact List.Forall₂.nil
  | @cons p v ps2 vs2 hst _ ih =>
    intro hall
    obtain ⟨h1, h2, h3, h4⟩ := hall p (List.mem_cons_self _ _)
    rw [List.map_cons, List.zipWith_cons_cons]
    exact List.Forall₂.cons (singularRead_of_stored hst h1 h2 h3 hp hasc h4)
      (ih (fun q hq => hall q (List.mem_cons_of_mem _ hq)))

theorem Store.selectColumnById_eq {s : Store} {t col : String} {tb : Table}
    (htb : s.table? t = some tb) (hcol : tb.hasColumn col = true) {r : Row}
    (hr : (s.rows t).find? (fun x => x.id == r.id) = some r) :
    s.selectColumnById t col r.id = .ok (some (tb.cell r.cells col)) := by
  unfold Store.selectColumnById
  rw [htb]
  simp only [hcol, if_true, hr, Option.map_some']

theorem readArrayScalars_spec {s : Store} {t col : String} {tb : Table} {ty : CppType}
    (htb : s.table? t = some tb) (hcol : tb.hasColumn col = true) :
    ∀ (R : List Row) (xs : List Scalar),
      (∀ r ∈ R, (s.rows t).find? (fun x => x.id == r.id) = some r) →
      List.Forall₂ (fun r x => readScalar ty (tb.cell r.cells col) = x) R xs →
      readArrayScalars s t col ty (R.map (fun r => r.id)) = .ok xs := by
  intro R xs hfind h
  induction h with
  | nil => rfl
  | @cons r x R2 xs2 hrx _ ih =>
    rw [List.map_cons, readArrayScalars,
      Store.selectColumnById_eq htb hcol (hfind r (List.mem_cons_self _ _))]
    simp only []
    rw [ih (fun q hq => hfind q (List.mem_cons_of_mem _ hq)), hrx]

theorem readArrayMessages_spec {find : String → Descriptor → Int → Except Err Message}
    {s : Store} {t col : String} {tb : Table} {n : Descriptor}
    (htb : s.table? t = some tb) (hcol : tb.hasColumn col = true) :
    ∀ (R : List Row) (ms : List Message),
      (∀ r ∈ R, (s.rows t).find? (fun x => x.id == r.id) = some r) →
      List.Forall₂ (fun r m => find n.name n (tb.cell r.cells col).getInt64 =
        .ok (Message.present m)) R ms →
      readArrayMessages find s t col n (R.map (fun r => r.id)) =
        .ok (Message.presentAll ms) := by
  intro R ms hfind h
  induction h with
  | nil => rfl
  | @cons r x R2 xs2 hrx _ ih =>
    rw [List.map_cons, readArrayMessages,
      Store.selectColumnById_eq htb hcol (hfind r (List.mem_cons_self _ _))]
    simp only []
    rw [hrx]
    simp only []
    rw [ih (fun q hq => hfind q (List.mem_cons_of_mem _ hq)), Message.presentAll]

theorem readMapEntries_spec {find : String → Descriptor → Int → Except Err Message}
    {t : String} {entry : Descriptor} :
    ∀ (R : List Row) (es : List Message),
      List.Forall₂ (fun r e => find t entry r.id = .ok (Message.present e)) R es →
      readMapEntries find t entry (R.map (fun r => r.id)) = .ok (Message.presentAll es) := by
  intro R es h
  induction h with
  | nil => rfl
  | cons hrx _ ih =>
    rw [List.map_cons, readMapEntries, hrx]
    simp only []
    rw [ih, Message.presentAll]

end ProtoDatabase

namespace ProtoDatabase

/-! ## A repeated field, written and read back -/

theorem forall2_mem_left {α β : Type} {P : α → β → Prop} :
    ∀ {as : List α} {bs : List β}, List.Forall₂ P as bs →
      List.Forall₂ (fun a b => P a b ∧ a ∈ as) as bs := by
  intro as bs h
  induction h with
  | nil => exact List.Forall₂.nil
  | cons hab _ ih =>
    exact List.Forall₂.cons ⟨hab, List.mem_cons_self _ _⟩
      (ih.imp (fun a b hx => ⟨hx.1, List.mem_cons_of_mem _ hx.2⟩))

/-- The statement of `removeArray` on a side table: the owner `id` has no rows left
and the rows of every other owner stay. -/
theorem removeArray_pres {sc : List Table × List Trigger} (T : List (String × Option String))
    {d : Descriptor} {f : FieldDescriptor} {id : Int} {s s1 : Store} {tb : Table}
    {cs : List (String × SqlType)} (hs : s.schema = sc)
    (htb : tableOf sc.1 (getFieldTableName d f) = some tb) (hside : SideTable tb cs)
    (htr : ∀ trg ∈ sc.2, trg.table ≠ getFieldTableName d f)
    (hmain : (getFieldTableName d f, none) ∉ T)
    (h : removeArray d f id s = (.ok (), s1)) :
    Pres T (fun t o => ¬ (t = getFieldTableName d f ∧ o = id)) s s1 ∧
      ownerRows s1 (getFieldTableName d f) id = [] := by
  unfold removeArray at h
  obtain ⟨_, s0, hprep, hdel⟩ := Exec.bind_ok.mp h
  have := Store.prepare_state hprep
  subst this
  have htb2 : s0.table? (getFieldTableName d f) = some tb := by
    rw [Store.table?_of_schema hs]; exact htb
  have htr2 : ∀ trg ∈ s0.triggers, trg.table ≠ getFieldTableName d f := by
    rw [show s0.triggers = sc.2 from congrArg Prod.snd hs]; exact htr
  exact Store.delete_side T _ htb2 hside htr2 hmain (fun o hq ho => hq ⟨rfl, ho⟩) hdel

/-- The multi-row `INSERT` of `writeArray` and `writeMap`: the rows of the owner `id`
are the new rows and the rows of every other owner stay. -/
theorem insertMany_side {sc : List Table × List Trigger} (T : List (String × Option String))
    {tn : String} {id : Int} {s s2 : Store} {tb : Table} {cs : List (String × SqlType)}
    {cols : List String} {rows kvs : List (List SqlValue)} {n : Nat}
    (hs : s.schema = sc) (htb : tableOf sc.1 tn = some tb) (hside : SideTable tb cs)
    (hcols : cols = tb.columns.map (fun c => c.1))
    (hrows : rows = kvs.map (fun kv => kv ++ [.integer id]))
    (hlen : ∀ kv ∈ kvs, kv.length = cs.length) (hempty : ownerRows s tn id = [])
    (h : Store.insertMany tn cols rows s = (.ok n, s2)) :
    Pres T (fun t o => ¬ (t = tn ∧ o = id)) s s2 ∧ ∃ R : List Row,
      List.Forall₂ (fun r kv => r.cells =
        tb.buildCells (tb.columns.map (fun c => c.1)) (kv ++ [.integer id])) R kvs ∧
      ownerRows s2 tn id = R := by
  subst hcols hrows
  have htb2 : s.table? tn = some tb := by rw [Store.table?_of_schema hs]; exact htb
  obtain ⟨hp, R, _, hR2, hR3⟩ := Store.insertRows_side T (fun t o => ¬ (t = tn ∧ o = id)) id
    hside (fun o hq ho => hq ⟨rfl, ho⟩) kvs s s2 n htb2 hlen (Store.insertMany_ok h)
  exact ⟨hp, R, hR2, by rw [hR3, hempty, List.nil_append]⟩

/-- The rows of the owner `id` in a store that keeps them: each is the row of its id. -/
theorem side_future {T : List (String × Option String)} {tn : String} {id : Int}
    {a s2 s3 : Store} {R : List Row} (hR : ownerRows s2 tn id = R)
    (hp : Pres T (ownOr T tn id a s2) s2 s3) (hasc : s3.ascending) :
    ownerRows s3 tn id = R ∧
      ∀ r ∈ R, (s3.rows tn).find? (fun x => x.id == r.id) = some r := by
  have h1 : ownerRows s3 tn id = R := by
    rw [hp.side tn id (Or.inl ⟨rfl, rfl⟩), hR]
  refine ⟨h1, fun r hr => ?_⟩
  rw [← h1] at hr
  exact find_by_id (hasc tn) (ownerRows_subset hr)

theorem writeArray_ok {write : Descriptor → Message → Exec Int} {d : Descriptor}
    {f : FieldDescriptor} {v : Value} {id : Int} {s s2 : Store}
    (h : writeArray write d f v id s = (.ok (), s2)) :
    ∃ s1, removeArray d f id s = (.ok (), s1) ∧
      ((v.fieldSize = 0 ∧ s2 = s1) ∨
        ∃ vals s3 n, insertMessageRepeatedField write f v s1 = (.ok vals, s3) ∧
          Store.insertMany (getFieldTableName d f) [getColumnName f.name, "owner_id"]
            (vals.map (fun x => [x, .integer id])) s3 = (.ok n, s2)) := by
  unfold writeArray at h
  obtain ⟨_, s1, hrem, h1⟩ := Exec.bind_ok.mp h
  refine ⟨s1, hrem, ?_⟩
  simp only [] at h1
  split at h1
  · rename_i hz
    simp only [Exec.pure, Prod.mk.injEq, true_and] at h1
    exact Or.inl ⟨by simpa using hz, h1.symm⟩
  · obtain ⟨_, s3, hprep, h2⟩ := Exec.bind_ok.mp h1
    have := Store.prepare_state hprep
    subst this
    obtain ⟨vals, s4, hvals, h3⟩ := Exec.bind_ok.mp h2
    obtain ⟨n, s5, hmany, h4⟩ := Exec.bind_ok.mp h3
    split at h4
    · simp [Exec.throw] at h4
    · simp only [Exec.pure, Prod.mk.injEq, true_and] at h4
      subst h4
      exact Or.inr ⟨vals, s4, n, hvals, hmany⟩

theorem array_cell {tb : Table} {cn : String} {ty : SqlType}
    (hst : SideTable tb [(cn, ty)]) (v : SqlValue) (id : Int) :
    tb.cell (tb.buildCells (tb.columns.map (fun c => c.1)) ([v] ++ [.integer id])) cn =
      applyAffinity ty.affinity v := by
  rw [hst.cells [v] id rfl]
  unfold Table.cell Table.columnIndex?
  rw [hst.columns]
  simp [List.findIdx?_cons]

theorem array_hasColumn {tb : Table} {cn : String} {ty : SqlType}
    (hst : SideTable tb [(cn, ty)]) : tb.hasColumn cn = true := by
  unfold Table.hasColumn
  rw [hst.columns]
  simp

/-- The function `writeArray` on a repeated field of the record `id`: the rows of the
other owners and of the other side tables stay, and the side table reads back, for
`id`, as the elements of the field. -/
theorem writeArray_reads {sc : List Table × List Trigger} {T : List (String × Option String)}
    (hT : namesAgree T) {write : Descriptor → Message → Exec Int} (hw : WriteReads sc T write)
    {d : Descriptor} {f : FieldDescriptor} {v : Value} {id : Int}
    (hf : FieldOk sc T d.name f) (hl : f.label = .repeated) (hmain : (d.name, none) ∈ T)
    (hconf : FieldDescriptor.conformsValue f v = true)
    (hbelow : Value.allScalars Scalar.readsBack v = true)
    {s s2 : Store} (hs : s.schema = sc) (hasc : s.ascending) (hid : id ∈ s.ids d.name)
    (h : writeArray write d f v id s = (.ok (), s2)) :
    Pres T (fun t o => existing T s t o ∧ ¬ (t = getFieldTableName d f ∧ o = id)) s s2 ∧
    ∀ s3, Pres T (ownOr T (getFieldTableName d f) id s s2) s2 s3 → s3.ascending →
      ∀ fu, FieldDescriptor.depth f ≤ fu →
        arrayRead (findMessageById fu s3) s3 d id (f, v) := by
  obtain ⟨hrole, htype⟩ := hf.repeatedRole hl
  obtain ⟨hsideIs, _, _⟩ := hf.fieldIn.repeated hl
  obtain ⟨tb, htb, hcols, hnd, _, htr⟩ := sideIs_spec hsideIs
  have hst : SideTable tb [(getColumnName f.name, getFieldType f)] :=
    ⟨hcols, by rw [hcols]; exact hnd⟩
  have hnm : (getFieldTableName d f, none) ∉ T := not_main_of_side hT hrole
  obtain ⟨s1, hrem, hcase⟩ := writeArray_ok h
  obtain ⟨hp1, hempty1⟩ := removeArray_pres T hs htb hst htr hnm hrem
  have hid1 : id ∈ s1.ids d.name := hp1.ids hmain hid
  have hs1 : s1.schema = sc := hp1.schema.trans hs
  have hcolnames : [getColumnName f.name, "owner_id"] = tb.columns.map (fun c => c.1) := by
    rw [hcols]; rfl
  have hread : ∀ (R : List Row) (s3 : Store), ownerRows s2 (getFieldTableName d f) id = R →
      Pres T (ownOr T (getFieldTableName d f) id s s2) s2 s3 → s3.ascending →
      s2.schema = sc →
      s3.table? (getFieldTableName d f) = some tb ∧
      findAssociatedMessages s3 (getFieldTableName d f) id = .ok (R.map (fun r => r.id)) ∧
      ∀ r ∈ R, (s3.rows (getFieldTableName d f)).find? (fun x => x.id == r.id) = some r := by
    intro R s3 hR hp3 hasc3 hs2
    obtain ⟨hR3, hfind⟩ := side_future hR hp3 hasc3
    have htb3 : s3.table? (getFieldTableName d f) = some tb := by
      rw [Store.table?_of_schema (hp3.schema.trans hs2)]; exact htb
    exact ⟨htb3, by rw [findAssociatedMessages_eq htb3 hst.hasOwner, hR3], hfind⟩
  rw [FieldDescriptor.conformsValue_eq, hl] at hconf
  cases hty : f.type with
  | scalar t =>
    rw [hty] at hconf
    cases v with
    | repeated xs =>
      simp only [FieldType.conformsValue] at hconf
      rw [Value.allScalars] at hbelow
      rcases hcase with ⟨hz, hs2⟩ | ⟨vals, s3, n, hvals, hmany⟩
      · subst hs2
        simp only [Value.fieldSize, List.length_eq_zero] at hz
        subst hz
        refine ⟨hp1.weaken (fun _ _ hq => hq.2), ?_⟩
        intro s3 hp3 hasc3 fu _
        obtain ⟨_, hfa, _⟩ := hread [] s3 hempty1 hp3 hasc3 hs1
        unfold arrayRead
        simp only [hty]
        exact ⟨[], hfa, rfl⟩
      · unfold insertMessageRepeatedField at hvals
        rw [hty] at hvals
        simp only [Exec.ofExcept, Prod.mk.injEq] at hvals
        obtain ⟨hb, hs3⟩ := hvals
        subst hs3
        obtain ⟨hp2, R, hR2, hR3⟩ := @insertMany_side _ T _ _ _ _ _ _ _ _ (vals.map (fun x => [x])) _ hs1 htb
          hst hcolnames (by rw [List.map_map]; rfl)
          (by intro kv hkv; obtain ⟨x, _, rfl⟩ := List.mem_map.mp hkv; rfl) hempty1 hmany
        refine ⟨(hp1.andThen hp2).weaken (fun _ _ hq => hq.2), ?_⟩
        intro s4 hp4 hasc4 fu _
        obtain ⟨htb4, hfa, hfind⟩ := hread R s4 hR3 hp4 hasc4 (hp2.schema.trans hs1)
        unfold arrayRead
        simp only [hty]
        refine ⟨_, hfa, readArrayScalars_spec htb4 (array_hasColumn hst) R xs hfind ?_⟩
        rw [List.forall₂_map_right_iff] at hR2
        refine (forall2_join hR2 (forall2_mem_left (bindScalars_forall2 hb))).imp ?_
        intro r x ⟨val, hcells, hbind, hx⟩
        rw [hcells, array_cell hst]
        have hcx := List.all_eq_true.mp hconf x hx
        simp only [Bool.and_eq_true, decide_eq_true_eq] at hcx
        exact readScalar_bindScalar hbind hcx.2 (List.all_eq_true.mp hbelow x hx) f hty
    | scalar _ _ => simp [FieldType.conformsValue] at hconf
    | message _ _ => simp [FieldType.conformsValue] at hconf
    | repeatedMessage _ => simp [FieldType.conformsValue] at hconf
  | message n =>
    rw [hty] at hconf
    cases v with
    | repeatedMessage ms =>
      simp only [FieldType.conformsValue] at hconf
      rw [Value.allScalars] at hbelow
      rcases hcase with ⟨hz, hs2⟩ | ⟨vals, s3, n2, hvals, hmany⟩
      · subst hs2
        simp only [Value.fieldSize, List.length_eq_zero] at hz
        subst hz
        refine ⟨hp1.weaken (fun _ _ hq => hq.2), ?_⟩
        intro s3 hp3 hasc3 fu _
        obtain ⟨_, hfa, _⟩ := hread [] s3 hempty1 hp3 hasc3 hs1
        unfold arrayRead
        simp only [hty]
        exact ⟨[], hfa, rfl⟩
      · unfold insertMessageRepeatedField at hvals
        rw [hty] at hvals
        simp only [] at hvals
        obtain ⟨hpE, hfE⟩ := writeElements_reads hw (htype n hty) ms s1 s3 vals
          (fun m hm => ⟨List.all_eq_true.mp hconf m hm, Message.allScalarsAll_mem hbelow m hm⟩)
          hs1 (hp1.ascending hasc) hvals
        have hs3 : s3.schema = sc := hpE.schema.trans hs1
        have hempty3 : ownerRows s3 (getFieldTableName d f) id = [] := by
          rw [hpE.side (getFieldTableName d f) id ⟨d.name, hrole, hmain, hid1⟩, hempty1]
        obtain ⟨hp2, R, hR2, hR3⟩ := @insertMany_side _ T _ _ _ _ _ _ _ _ (vals.map (fun x => [x])) _ hs3 htb
          hst hcolnames (by rw [List.map_map]; rfl)
          (by intro kv hkv; obtain ⟨x, _, rfl⟩ := List.mem_map.mp hkv; rfl) hempty3 hmany
        refine ⟨((hp1.weaken (fun _ _ hq => hq.2)).andThen
          (hpE.weaken (fun _ _ hq => existing_mono hp1 hq.1))).andThen
          (hp2.weaken (fun _ _ hq => hq.2)), ?_⟩
        intro s4 hp4 hasc4 fu hfu
        obtain ⟨htb4, hfa, hfind⟩ := hread R s4 hR3 hp4 hasc4 (hp2.schema.trans hs3)
        unfold arrayRead
        simp only [hty]
        refine ⟨_, hfa, readArrayMessages_spec htb4 (array_hasColumn hst) R ms hfind ?_⟩
        rw [List.forall₂_map_right_iff] at hR2
        refine (forall2_join hR2 hfE).imp ?_
        intro r m ⟨val, hcells, k, hk, hrd⟩
        rw [hcells, array_cell hst, hk, getFieldType_message hty]
        simp only [SqlType.affinity, applyAffinity, SqlValue.getInt64]
        apply hrd s4 _ hasc4 fu (by rw [← FieldDescriptor.depth_message hty]; exact hfu)
        refine (hp2.weaken ?_).andThen (hp4.weaken ?_)
        · intro t o hn hc
          rw [hc.1, hc.2] at hn
          exact (newSince_owner hT hrole hn).2 hid1
        · intro t o ⟨ow, h1, h2, h3, h4⟩
          exact Or.inr ⟨ow, h1, h2, hp2.ids h2 h3, fun hc => h4 (hp1.ids h2 hc)⟩
    | scalar _ _ => simp [FieldType.conformsValue] at hconf
    | message _ _ => simp [FieldType.conformsValue] at hconf
    | repeated _ => simp [FieldType.conformsValue] at hconf

end ProtoDatabase

namespace ProtoDatabase

/-! ## A map field, written and read back -/

theorem Store.selectById_eq {s : Store} {t : String} {tb : Table} (htb : s.table? t = some tb)
    (hasc : s.ascending) {r : Row} (hr : r ∈ s.rows t) : s.selectById t r.id = .ok [r] := by
  unfold Store.selectById
  rw [htb]
  simp only []
  rw [filter_by_id (hasc t) hr]

theorem Message.present_mk (e : Message) : Message.present e = .mk (Value.presentList e.fields) := by
  cases e with
  | mk vs => rw [Message.present]; rfl

/-- A row of the side table of a map field reads back as the entry it was written
for. -/
theorem entry_read {T : List (String × Option String)} {a b s3 : Store} {tn : String}
    {tb : Table} {en : String} {k v : FieldDescriptor} {e : Message} {kv : List SqlValue}
    {r : Row} {id : Int} {fu : Nat}
    (hst : SideTable tb [(getColumnName k.name, getFieldType k),
      (getColumnName v.name, getFieldType v)])
    (hshape : isEntryShape [k, v] = true) (htb3 : s3.table? tn = some tb)
    (hr : r ∈ s3.rows tn) (hasc : s3.ascending)
    (hcells : r.cells = tb.buildCells (tb.columns.map (fun c => c.1)) (kv ++ [.integer id]))
    (hstored : List.Forall₂ (storedSingular T a b) ([k, v].zip e.fields) kv)
    (hconf : FieldDescriptor.conformsList [k, v] e.fields = true)
    (hbelow : Message.allScalars Scalar.readsBack e = true)
    (hp : Pres T (newSince T a b) b s3)
    (hfu : Descriptor.depth (.mk en [k, v]) ≤ fu) :
    findMessageById fu s3 tn (.mk en [k, v]) r.id = .ok (Message.present e) := by
  obtain ⟨hlen, hcv⟩ := FieldDescriptor.conformsList_spec hconf
  obtain ⟨hlk, hlv⟩ := isEntryShape_labels hshape
  cases fu with
  | zero =>
    rw [Descriptor.depth] at hfu
    omega
  | succ fu =>
    rw [findMessageById, Store.selectById_eq htb3 hasc hr]
    simp only [Descriptor.fields]
    have hkvlen : kv.length = 2 := by
      have := hstored.length_eq
      rw [List.length_zip, ← hlen] at this
      simpa using this.symm
    have hall : ∀ p ∈ [k, v].zip e.fields, p.1.label = .singular ∧
        FieldDescriptor.conformsValue p.1 p.2 = true ∧
        Value.allScalars Scalar.readsBack p.2 = true ∧ FieldDescriptor.depth p.1 ≤ fu := by
      intro p hp2
      have hmem := (List.of_mem_zip hp2).1
      have hdep : FieldDescriptor.depth p.1 ≤ fu := by
        have := FieldDescriptor.depthList_mem hmem
        rw [Descriptor.depth] at hfu
        omega
      refine ⟨?_, hcv p hp2, Value.allScalars_of_mem hbelow (List.of_mem_zip hp2).2, hdep⟩
      simp only [List.mem_cons, List.mem_singleton, List.not_mem_nil, or_false] at hmem
      rcases hmem with h | h <;> rw [h] <;> assumption
    have hsing := singularRead_forall2 hp hasc hstored hall
    have hfilter : ([k, v].zip e.fields).filter (fun p => !p.1.is_map && !p.1.is_repeated) =
        [k, v].zip e.fields := by
      rw [List.filter_eq_self]
      intro p hp2
      have := (hall p hp2).1
      simp [FieldDescriptor.is_map, FieldDescriptor.is_repeated, this]
    have hmap1 : ([k, v].zip e.fields).map (fun p => p.1) = [k, v] := by
      rw [← List.unzip_fst, List.unzip_zip_left (by rw [← hlen])]
    have hmap2 : ([k, v].zip e.fields).map (fun p => p.2) = e.fields := by
      rw [← List.unzip_snd, List.unzip_zip_right (by rw [← hlen])]
    have hcols2 : ([k, v].zip e.fields).map
        (fun p => (getColumnName p.1.name, getFieldType p.1)) =
        [(getColumnName k.name, getFieldType k), (getColumnName v.name, getFieldType v)] := by
      have : ([k, v].zip e.fields).map (fun p => (getColumnName p.1.name, getFieldType p.1)) =
          (([k, v].zip e.fields).map (fun p => p.1)).map
            (fun f => (getColumnName f.name, getFieldType f)) := by
        rw [List.map_map]; rfl
      rw [this, hmap1]
      rfl
    rw [hcols2] at hsing
    have hloop := readFieldsLoop_spec (findMessageById fu s3) s3 (.mk en [k, v]) r
      ([k, v].zip e.fields) 0 _ [.integer id]
      (by rw [List.drop_zero, hcells, hst.cells kv id (by rw [hkvlen]; rfl)])
      (by rw [hfilter]; exact hsing)
      (by
        intro p hp2 hm
        have := (hall p hp2).1
        simp [FieldDescriptor.is_map, this] at hm)
      (by
        intro p hp2 _ hrp
        have := (hall p hp2).1
        simp [FieldDescriptor.is_repeated, this] at hrp)
    rw [hmap1, hmap2] at hloop
    rw [hloop, Message.present_mk]

theorem writeMap_ok {write : Descriptor → Message → Exec Int} {d : Descriptor}
    {f : FieldDescriptor} {v : Value} {id : Int} {s s2 : Store}
    (h : writeMap write d f v id s = (.ok (), s2)) :
    ∃ s1, removeArray d f id s = (.ok (), s1) ∧
      ((v.fieldSize = 0 ∧ s2 = s1) ∨
        ∃ entry k vf rows s3 n, f.message_type = some entry ∧ entry.map_key = some k ∧
          entry.map_value = some vf ∧
          writeEntries write k vf v.entries s1 = (.ok rows, s3) ∧
          Store.insertMany (getFieldTableName d f)
            [getColumnName k.name, getColumnName vf.name, "owner_id"]
            (rows.map (fun kv => kv ++ [.integer id])) s3 = (.ok n, s2)) := by
  unfold writeMap at h
  obtain ⟨_, s1, hrem, h1⟩ := Exec.bind_ok.mp h
  refine ⟨s1, hrem, ?_⟩
  simp only [] at h1
  split at h1
  · rename_i hz
    simp only [Exec.pure, Prod.mk.injEq, true_and] at h1
    exact Or.inl ⟨by simpa using hz, h1.symm⟩
  · cases hentry : f.message_type with
    | none => simp [hentry, Exec.throw] at h1
    | some entry =>
      simp only [hentry] at h1
      cases hk : entry.map_key with
      | none => simp [hk, Exec.throw] at h1
      | some k =>
        cases hvf : entry.map_value with
        | none => simp [hk, hvf, Exec.throw] at h1
        | some vf =>
          simp only [hk, hvf] at h1
          obtain ⟨_, s3, hprep, h2⟩ := Exec.bind_ok.mp h1
          have := Store.prepare_state hprep
          subst this
          obtain ⟨rows, s4, hrows, h3⟩ := Exec.bind_ok.mp h2
          obtain ⟨n, s5, hmany, h4⟩ := Exec.bind_ok.mp h3
          split at h4
          · simp [Exec.throw] at h4
          · simp only [Exec.pure, Prod.mk.injEq, true_and] at h4
            subst h4
            exact Or.inr ⟨entry, k, vf, rows, s4, n, rfl, hk, hvf, hrows, hmany⟩

theorem forall2_right_mem {α β : Type} {P : α → β → Prop} :
    ∀ {as : List α} {bs : List β}, List.Forall₂ P as bs → ∀ b ∈ bs, ∃ a ∈ as, P a b := by
  intro as bs h
  induction h with
  | nil => intro b hb; simp at hb
  | @cons a b as2 bs2 hab _ ih =>
    intro x hx
    rcases List.mem_cons.mp hx with rfl | hx
    · exact ⟨a, List.mem_cons_self _ _, hab⟩
    · obtain ⟨y, hy, hp⟩ := ih x hx
      exact ⟨y, List.mem_cons_of_mem _ hy, hp⟩

/-- The function `writeMap` on a map field of the record `id`: the rows of the other
owners and of the other side tables stay, and the side table reads back, for `id`, as
the entries of the field. -/
theorem writeMap_reads {sc : List Table × List Trigger} {T : List (String × Option String)}
    (hT : namesAgree T) {write : Descriptor → Message → Exec Int} (hw : WriteReads sc T write)
    {d : Descriptor} {f : FieldDescriptor} {v : Value} {id : Int}
    (hf : FieldOk sc T d.name f) (hl : f.label = .map) (hmain : (d.name, none) ∈ T)
    (hconf : FieldDescriptor.conformsValue f v = true)
    (hbelow : Value.allScalars Scalar.readsBack v = true)
    {s s2 : Store} (hs : s.schema = sc) (hasc : s.ascending) (hid : id ∈ s.ids d.name)
    (h : writeMap write d f v id s = (.ok (), s2)) :
    Pres T (fun t o => existing T s t o ∧ ¬ (t = getFieldTableName d f ∧ o = id)) s s2 ∧
    ∀ s3, Pres T (ownOr T (getFieldTableName d f) id s s2) s2 s3 → s3.ascending →
      ∀ fu, FieldDescriptor.depth f ≤ fu →
        mapRead (findMessageById fu s3) s3 d id (f, v) := by
  obtain ⟨hrole, hentryOk⟩ := hf.mapRole hl
  obtain ⟨en, k, vf, hty, hshape, hsideIs, _, _, _⟩ := hf.fieldIn.map hl
  obtain ⟨hkOk, hvOk⟩ := hentryOk en k vf hty
  obtain ⟨tb, htb, hcols, hnd, _, htr⟩ := sideIs_spec hsideIs
  have hst : SideTable tb [(getColumnName k.name, getFieldType k),
      (getColumnName vf.name, getFieldType vf)] := ⟨hcols, by rw [hcols]; exact hnd⟩
  have hnm : (getFieldTableName d f, none) ∉ T := not_main_of_side hT hrole
  obtain ⟨s1, hrem, hcase⟩ := writeMap_ok h
  obtain ⟨hp1, hempty1⟩ := removeArray_pres T hs htb hst htr hnm hrem
  have hid1 : id ∈ s1.ids d.name := hp1.ids hmain hid
  have hs1 : s1.schema = sc := hp1.schema.trans hs
  have hread : ∀ (R : List Row) (s3 : Store), ownerRows s2 (getFieldTableName d f) id = R →
      Pres T (ownOr T (getFieldTableName d f) id s s2) s2 s3 → s3.ascending →
      s2.schema = sc →
      s3.table? (getFieldTableName d f) = some tb ∧
      findAssociatedMessages s3 (getFieldTableName d f) id = .ok (R.map (fun r => r.id)) ∧
      ∀ r ∈ R, r ∈ s3.rows (getFieldTableName d f) := by
    intro R s3 hR hp3 hasc3 hs2
    obtain ⟨hR3, _⟩ := side_future hR hp3 hasc3
    have htb3 : s3.table? (getFieldTableName d f) = some tb := by
      rw [Store.table?_of_schema (hp3.schema.trans hs2)]; exact htb
    refine ⟨htb3, by rw [findAssociatedMessages_eq htb3 hst.hasOwner, hR3], fun r hr => ?_⟩
    rw [← hR3] at hr
    exact ownerRows_subset hr
  rw [FieldDescriptor.conformsValue_eq, hl, hty] at hconf
  cases v with
  | repeatedMessage es =>
    simp only [FieldType.conformsValue] at hconf
    rw [Value.allScalars] at hbelow
    rcases hcase with ⟨hz, hs2⟩ | ⟨entry, k2, vf2, rows, s3, n, hentry, hk2, hvf2, hrows, hmany⟩
    · subst hs2
      simp only [Value.fieldSize, List.length_eq_zero] at hz
      subst hz
      refine ⟨hp1.weaken (fun _ _ hq => hq.2), ?_⟩
      intro s3 hp3 hasc3 fu _
      obtain ⟨_, hfa, _⟩ := hread [] s3 hempty1 hp3 hasc3 hs1
      unfold mapRead
      simp only [hty]
      exact ⟨[], hfa, rfl⟩
    · unfold FieldDescriptor.message_type at hentry
      rw [hty] at hentry
      simp only [Option.some.injEq] at hentry
      subst hentry
      simp only [Descriptor.map_key, Descriptor.map_value, Descriptor.fields, List.get?_cons_zero,
        List.get?_cons_succ, Option.some.injEq] at hk2 hvf2
      subst hk2 hvf2
      simp only [Value.entries] at hrows
      obtain ⟨hpE, hfE⟩ := writeEntries_reads hw hkOk hvOk es s1 s3 rows
        (fun e he => ⟨by
          have := List.all_eq_true.mp hconf e he
          rw [Descriptor.conforms] at this
          exact this, Message.allScalarsAll_mem hbelow e he⟩)
        hs1 (hp1.ascending hasc) hrows
      have hs3 : s3.schema = sc := hpE.schema.trans hs1
      have hempty3 : ownerRows s3 (getFieldTableName d f) id = [] := by
        rw [hpE.side (getFieldTableName d f) id ⟨d.name, hrole, hmain, hid1⟩, hempty1]
      have hlens : ∀ kv ∈ rows, kv.length = 2 := by
        intro kv hkv
        obtain ⟨e, he, hst2⟩ := forall2_right_mem hfE kv hkv
        have hc := List.all_eq_true.mp hconf e he
        rw [Descriptor.conforms] at hc
        obtain ⟨hl2, _⟩ := FieldDescriptor.conformsList_spec hc
        have := hst2.length_eq
        rw [List.length_zip, ← hl2] at this
        simpa using this.symm
      obtain ⟨hp2, R, hR2, hR3⟩ := @insertMany_side _ T _ _ _ _ _ _ _ _ rows _ hs3 htb
        hst (by rw [hcols]; rfl) rfl hlens hempty3 hmany
      refine ⟨((hp1.weaken (fun _ _ hq => hq.2)).andThen
        (hpE.weaken (fun _ _ hq => existing_mono hp1 hq.1))).andThen
        (hp2.weaken (fun _ _ hq => hq.2)), ?_⟩
      intro s4 hp4 hasc4 fu hfu
      obtain ⟨htb4, hfa, hmem⟩ := hread R s4 hR3 hp4 hasc4 (hp2.schema.trans hs3)
      unfold mapRead
      simp only [hty]
      refine ⟨_, hfa, readMapEntries_spec R es ?_⟩
      have hpres : Pres T (newSince T s1 s3) s3 s4 := by
        refine (hp2.weaken ?_).andThen (hp4.weaken ?_)
        · intro t o hn hc
          rw [hc.1, hc.2] at hn
          exact (newSince_owner hT hrole hn).2 hid1
        · intro t o ⟨ow, h1, h2, h3, h4⟩
          exact Or.inr ⟨ow, h1, h2, hp2.ids h2 h3, fun hc => h4 (hp1.ids h2 hc)⟩
      refine (forall2_join (forall2_mem_left hR2) (forall2_mem_left hfE)).imp ?_
      intro r e ⟨kv, ⟨hcells, hrR⟩, hstored, he⟩
      have hc := List.all_eq_true.mp hconf e he
      rw [Descriptor.conforms] at hc
      exact entry_read hst hshape htb4 (hmem r hrR) hasc4 hcells hstored hc
        (Message.allScalarsAll_mem hbelow e he) hpres
        (by rw [← FieldDescriptor.depth_message hty]; exact hfu)
  | scalar _ _ => simp [FieldType.conformsValue] at hconf
  | message _ _ => simp [FieldType.conformsValue] at hconf
  | repeated _ => simp [FieldType.conformsValue] at hconf

end ProtoDatabase

namespace ProtoDatabase

/-! ## The side tables of one record -/

/-- A loop over repeated or map fields of the record `id`, each step of which rewrites
the rows of `id` in the side table of its field: the rows of the other owners stay, and
what each step left to read is still there after the loop. -/
theorem fields_phase {sc : List Table × List Trigger} {T : List (String × Option String)}
    (hT : namesAgree T) {d : Descriptor} {id : Int} (hmain : (d.name, none) ∈ T)
    (step : FieldDescriptor → Value → Exec Unit)
    (loop : List (FieldDescriptor × Value) → Exec Unit)
    (hnil : loop [] = Exec.pure ())
    (hcons : ∀ f v rest, loop ((f, v) :: rest) = Exec.bind (step f v) (fun _ => loop rest))
    (fact : Store → Nat → FieldDescriptor × Value → Prop)
    (good : FieldDescriptor × Value → Prop)
    (hrole : ∀ p, good p → (getFieldTableName d p.1, some d.name) ∈ T)
    (hstep : ∀ p, good p → ∀ s s2, s.schema = sc → s.ascending → id ∈ s.ids d.name →
      step p.1 p.2 s = (.ok (), s2) →
      Pres T (fun t o => existing T s t o ∧ ¬ (t = getFieldTableName d p.1 ∧ o = id)) s s2 ∧
      ∀ s3, Pres T (ownOr T (getFieldTableName d p.1) id s s2) s2 s3 → s3.ascending →
        ∀ fu, FieldDescriptor.depth p.1 ≤ fu → fact s3 fu p) :
    ∀ (ps : List (FieldDescriptor × Value)) (s s2 : Store),
      (∀ p ∈ ps, good p) → (ps.map (fun p => p.1.name)).Nodup →
      s.schema = sc → s.ascending → id ∈ s.ids d.name →
      loop ps s = (.ok (), s2) →
      Pres T (fun t o => existing T s t o ∧
        ¬ (o = id ∧ t ∈ ps.map (fun p => getFieldTableName d p.1))) s s2 ∧
      ∀ p ∈ ps, ∀ s3, Pres T (ownOr T (getFieldTableName d p.1) id s s2) s2 s3 →
        s3.ascending → ∀ fu, FieldDescriptor.depth p.1 ≤ fu → fact s3 fu p := by
  intro ps
  induction ps with
  | nil =>
    intro s s2 _ _ _ _ _ h
    rw [hnil] at h
    simp only [Exec.pure, Prod.mk.injEq, true_and] at h
    subst h
    exact ⟨Pres.same _ _ _, fun p hp => by simp at hp⟩
  | cons p rest ih =>
    intro s s2 hgood hnd hs hasc hid h
    obtain ⟨f, v⟩ := p
    rw [hcons] at h
    obtain ⟨_, s1, h1, h2⟩ := Exec.bind_ok.mp h
    rw [List.map_cons, List.nodup_cons] at hnd
    have hg := hgood (f, v) (List.mem_cons_self _ _)
    obtain ⟨hpA, hfactA⟩ := hstep (f, v) hg s s1 hs hasc hid h1
    have hid1 : id ∈ s1.ids d.name := hpA.ids hmain hid
    obtain ⟨hpB, hfactB⟩ := ih s1 s2 (fun q hq => hgood q (List.mem_cons_of_mem _ hq)) hnd.2
      (hpA.schema.trans hs) (hpA.ascending hasc) hid1 h2
    have hnot : ∀ t, t ∈ rest.map (fun p => getFieldTableName d p.1) →
        (t, some d.name) ∈ T := by
      intro t ht
      obtain ⟨q, hq, rfl⟩ := List.mem_map.mp ht
      exact hrole q (hgood q (List.mem_cons_of_mem _ hq))
    refine ⟨(hpA.weaken ?_).andThen (hpB.weaken ?_), ?_⟩
    · intro t o ⟨he, hn⟩
      exact ⟨he, fun hc => hn ⟨hc.2, by rw [hc.1]; exact List.mem_cons_self _ _⟩⟩
    · intro t o ⟨he, hn⟩
      exact ⟨existing_mono hpA he, fun hc => hn ⟨hc.1, List.mem_cons_of_mem _ hc.2⟩⟩
    · intro q hq s3 hp3 hasc3 fu hfu
      rcases List.mem_cons.mp hq with rfl | hq
      · apply hfactA s3 _ hasc3 fu hfu
        refine (hpB.weaken ?_).andThen (hp3.weaken ?_)
        · intro t o ho
          rcases ho with ⟨rfl, rfl⟩ | hn
          · refine ⟨⟨d.name, hrole _ hg, hmain, hid1⟩, fun hc => ?_⟩
            obtain ⟨q, hq, he⟩ := List.mem_map.mp hc.2
            have hname : q.1.name = f.name := fieldTableName_injective he
            exact hnd.1 (List.mem_map.mpr ⟨q, hq, hname⟩)
          · refine ⟨existing_of_newSince hn, fun hc => ?_⟩
            rw [hc.1] at hn
            exact (newSince_owner hT (hnot t hc.2) hn).2 hid
        · intro t o ho
          rcases ho with h | ⟨ow, h1, h2, h3, h4⟩
          · exact Or.inl h
          · exact Or.inr ⟨ow, h1, h2, hpB.ids h2 h3, h4⟩
      · apply hfactB q hq s3 _ hasc3 fu hfu
        refine hp3.weaken ?_
        intro t o ho
        rcases ho with h | ⟨ow, h1, h2, h3, h4⟩
        · exact Or.inl h
        · exact Or.inr ⟨ow, h1, h2, h3, fun hc => h4 (hpA.ids h2 hc)⟩

end ProtoDatabase

namespace ProtoDatabase

/-! ## A message, written and read back -/

theorem zip_fst_sublist {α β : Type} : ∀ (l1 : List α) (l2 : List β),
    ((l1.zip l2).map (fun p => p.1)).Sublist l1 := by
  intro l1
  induction l1 with
  | nil => intro l2; simp
  | cons a as ih =>
    intro l2
    cases l2 with
    | nil => simp
    | cons b bs =>
      rw [List.zip_cons_cons, List.map_cons]
      exact (ih bs).cons₂ a

theorem names_nodup_filter {fs : List FieldDescriptor} {vs : List Value}
    (q : FieldDescriptor × Value → Bool) (hnd : (fs.map (fun f => f.name)).Nodup) :
    (((fs.zip vs).filter q).map (fun p => p.1.name)).Nodup := by
  have h1 : (((fs.zip vs).filter q).map (fun p => p.1)).Sublist fs :=
    ((List.filter_sublist _).map _).trans (zip_fst_sublist fs vs)
  have h2 := h1.map (fun f => f.name)
  rw [List.map_map] at h2
  exact List.Nodup.sublist h2 hnd

theorem mainColumns_dataFields {d : Descriptor} {m : Message}
    (hlen : d.fields.length = m.fields.length) :
    mainColumns d.fields =
      (dataFields d m).map (fun p => (getColumnName p.1.name, getFieldType p.1)) := by
  unfold mainColumns
  rw [← dataFields_fst hlen, List.map_map]
  rfl

/-- One level of `writeMessageImpl`, the nested messages being written by a function
that leaves them to read: the row it inserts reads back as the message. -/
theorem writeMessageImpl_reads {sc : List Table × List Trigger}
    {T : List (String × Option String)} (hT : namesAgree T) {fuel : Nat}
    (hw : WriteReads sc T (writeNested fuel)) {d : Descriptor} {m : Message} {hc : Bool}
    {s s2 : Store} {id : Int} (hd : TypeOk sc T d) (hs : s.schema = sc) (hasc : s.ascending)
    (hconf : Descriptor.conforms d m = true)
    (hbelow : Message.allScalars Scalar.readsBack m = true)
    (hins : hc = false ∨ (s.rows d.name = [] ∧ d.name ∉ d.childTables))
    (h : writeMessageImpl (fuel + 1) d m hc s = (.ok id, s2)) :
    Pres T (existing T s) s s2 ∧ id ∈ s2.ids d.name ∧ id ∉ s.ids d.name ∧
      ReadsIn T s s2 d id (Message.present m) := by
  obtain ⟨hlen, vals, sA, n, sM, sB, _, hvals, hinsert, hid, hmaps, harr⟩ :=
    writeMessageImpl_ok h
  have hmain : (d.name, none) ∈ T := hd.main
  obtain ⟨_, hcv⟩ := Descriptor.conforms_spec hconf
  have hfield : ∀ p ∈ d.fields.zip m.fields, FieldOk sc T d.name p.1 ∧
      FieldDescriptor.conformsValue p.1 p.2 = true ∧
      Value.allScalars Scalar.readsBack p.2 = true :=
    fun p hp => ⟨hd.fieldOk p.1 (List.of_mem_zip hp).1, hcv p hp,
      Value.allScalars_of_mem hbelow (List.of_mem_zip hp).2⟩
  obtain ⟨⟨tb, htb, hcols, hcnd⟩, hnames⟩ := Descriptor.schemaOk_spec hd.1
  -- the singular fields
  obtain ⟨hpA, hfA⟩ := insertMessageFields_reads hw (dataFields d m) s sA vals
    (fun p hp => hfield p (mem_dataFields hp).1) hs hasc hvals
  have hsA : sA.schema = sc := hpA.schema.trans hs
  have htbA : sA.table? d.name = some tb := by rw [Store.table?_of_schema hsA]; exact htb
  -- the row of the main table
  have hup : (hc && !(fieldNames d m).isEmpty) = false ∨ sA.rows d.name = [] := by
    rcases hins with h1 | ⟨h1, h2⟩
    · left; rw [h1]; rfl
    · right
      have hsch : Descriptor.schemaOk s.schema d = true := by rw [hs]; exact hd.1
      have t1 : Touches d.childTables s sA :=
        insertMessageFields_touchesIf true (writeNested_touches s.schema d.childTables fuel)
          (dataFields d m) (fun p hp => fieldIn_children hsch p.1 (mem_dataFields hp).2.1)
          s _ sA rfl hvals
      rw [t1.2 _ h2, h1]
  have hsM := Store.insert_new htbA hup hinsert
  have hidM : id = nextId (sA.rows d.name) := by rw [hid, hsM]
  subst hidM
  have hpM : Pres T (fun t _ => t ≠ d.name) sA sM := by
    rw [hsM]
    exact Pres.of_append T _ sA d.name _ _ (fun _ _ _ hq => absurd rfl hq)
  have hrow : (Row.mk (nextId (sA.rows d.name)) (tb.buildCells (fieldNames d m) vals)) ∈
      sM.rows d.name := by
    rw [hsM]
    simp [Store.setRows]
  have hidnotA : nextId (sA.rows d.name) ∉ sA.ids d.name := nextId_not_mem _
  have hidnot : nextId (sA.rows d.name) ∉ s.ids d.name := fun hc => hidnotA (hpA.ids hmain hc)
  have hidin : nextId (sA.rows d.name) ∈ sM.ids d.name := List.mem_map.mpr ⟨_, hrow, rfl⟩
  have hpAM : Pres T (existing T s) s sM :=
    hpA.andThen (hpM.weaken (fun t o he ht => not_existing_main hT hmain o (ht ▸ he)))
  have hsM2 : sM.schema = sc := hpAM.schema.trans hs
  -- the map fields
  obtain ⟨hpB, hfB⟩ := fields_phase hT hmain
    (fun f v => writeMap (writeNested fuel) d f v (nextId (sA.rows d.name)))
    (writeMaps (writeNested fuel) d (nextId (sA.rows d.name)))
    (by rw [writeMaps]) (fun f v rest => by rw [writeMaps])
    (fun s3 fu p => mapRead (findMessageById fu s3) s3 d (nextId (sA.rows d.name)) p)
    (fun p => FieldOk sc T d.name p.1 ∧ p.1.label = .map ∧
      FieldDescriptor.conformsValue p.1 p.2 = true ∧
      Value.allScalars Scalar.readsBack p.2 = true)
    (fun p hg => (hg.1.mapRole hg.2.1).1)
    (fun p hg s s2 hs hasc hid h =>
      writeMap_reads hT hw hg.1 hg.2.1 hmain hg.2.2.1 hg.2.2.2 hs hasc hid h)
    (mapFields d m) sM sB
    (fun p hp => ⟨(hfield p (mem_mapFields hp).1).1, (mem_mapFields hp).2.2,
      (hfield p (mem_mapFields hp).1).2⟩)
    (names_nodup_filter _ hnames) hsM2 (hpAM.ascending hasc) hidin hmaps
  have hroleM : ∀ t ∈ (mapFields d m).map (fun p => getFieldTableName d p.1),
      (t, some d.name) ∈ T := by
    intro t ht
    obtain ⟨q, hq, rfl⟩ := List.mem_map.mp ht
    exact ((hfield q (mem_mapFields hq).1).1.mapRole (mem_mapFields hq).2.2).1
  have hpAB : Pres T (existing T s) s sB := by
    refine hpAM.andThen (hpB.weaken ?_)
    intro t o he
    refine ⟨existing_mono hpAM he, fun hc => ?_⟩
    have := existing_owner hT (hroleM t hc.2) he
    rw [hc.1] at this
    exact hidnot this
  have hidinB : nextId (sA.rows d.name) ∈ sB.ids d.name := hpB.ids hmain hidin
  -- the repeated fields
  obtain ⟨hpC, hfC⟩ := fields_phase hT hmain
    (fun f v => writeArray (writeNested fuel) d f v (nextId (sA.rows d.name)))
    (writeArrays (writeNested fuel) d (nextId (sA.rows d.name)))
    (by rw [writeArrays]) (fun f v rest => by rw [writeArrays])
    (fun s3 fu p => arrayRead (findMessageById fu s3) s3 d (nextId (sA.rows d.name)) p)
    (fun p => FieldOk sc T d.name p.1 ∧ p.1.label = .repeated ∧
      FieldDescriptor.conformsValue p.1 p.2 = true ∧
      Value.allScalars Scalar.readsBack p.2 = true)
    (fun p hg => (hg.1.repeatedRole hg.2.1).1)
    (fun p hg s s2 hs hasc hid h =>
      writeArray_reads hT hw hg.1 hg.2.1 hmain hg.2.2.1 hg.2.2.2 hs hasc hid h)
    (repeatedFields d m) sB s2
    (fun p hp => ⟨(hfield p (mem_repeatedFields hp).1).1, (mem_repeatedFields hp).2.2,
      (hfield p (mem_repeatedFields hp).1).2⟩)
    (names_nodup_filter _ hnames) (hpAB.schema.trans hs) (hpAB.ascending hasc) hidinB harr
  have hroleR : ∀ t ∈ (repeatedFields d m).map (fun p => getFieldTableName d p.1),
      (t, some d.name) ∈ T := by
    intro t ht
    obtain ⟨q, hq, rfl⟩ := List.mem_map.mp ht
    exact ((hfield q (mem_repeatedFields hq).1).1.repeatedRole (mem_repeatedFields hq).2.2).1
  have hpAC : Pres T (existing T s) s s2 := by
    refine hpAB.andThen (hpC.weaken ?_)
    intro t o he
    refine ⟨existing_mono hpAB he, fun hc => ?_⟩
    have := existing_owner hT (hroleR t hc.2) he
    rw [hc.1] at this
    exact hidnot this
  have hidin2 : nextId (sA.rows d.name) ∈ s2.ids d.name := hpC.ids hmain hidinB
  refine ⟨hpAC, hidin2, hidnot, ?_⟩
  -- reading the row back
  intro s3 hp3 hasc3 fu hfu
  cases fu with
  | zero =>
    have := Descriptor.depth_pos d
    omega
  | succ fu =>
    have hs2 : s2.schema = sc := hpAC.schema.trans hs
    have htb3 : s3.table? d.name = some tb := by
      rw [Store.table?_of_schema (hp3.schema.trans hs2)]; exact htb
    have hrow3 : (Row.mk (nextId (sA.rows d.name)) (tb.buildCells (fieldNames d m) vals)) ∈
        s3.rows d.name :=
      hp3.main _ hmain _ (hpC.main _ hmain _ (hpB.main _ hmain _ hrow))
    have hsel : s3.selectById d.name (nextId (sA.rows d.name)) =
        .ok [Row.mk (nextId (sA.rows d.name)) (tb.buildCells (fieldNames d m) vals)] :=
      Store.selectById_eq htb3 hasc3 hrow3
    have hdepth : ∀ p ∈ d.fields.zip m.fields, FieldDescriptor.depth p.1 ≤ fu :=
      fun p hp => Descriptor.depth_fields hfu p.1 (List.of_mem_zip hp).1
    -- the rows written for the singular fields are kept
    have hpresA : Pres T (newSince T s sA) sA s3 := by
      refine (hpM.weaken ?_).andThen ((hpB.weaken ?_).andThen ((hpC.weaken ?_).andThen (hp3.weaken ?_)))
      · intro t o hn ht
        exact not_existing_main hT hmain o (ht ▸ existing_of_newSince hn)
      · intro t o hn
        refine ⟨existing_mono hpM (existing_of_newSince hn), fun hc => ?_⟩
        have := (newSince_owner hT (hroleM t hc.2) hn).1
        rw [hc.1] at this
        exact hidnotA this
      · intro t o hn
        refine ⟨existing_mono hpB (existing_mono hpM (existing_of_newSince hn)), fun hc => ?_⟩
        have := (newSince_owner hT (hroleR t hc.2) hn).1
        rw [hc.1] at this
        exact hidnotA this
      · intro t o ⟨ow, h1, h2, h3, h4⟩
        exact ⟨ow, h1, h2, hpC.ids h2 (hpB.ids h2 (hpM.ids h2 h3)), h4⟩
    have hsing := @singularRead_forall2 _ _ _ _ hpresA hasc3 fu _ _ hfA
      (fun p hp => ⟨FieldDescriptor.label_of_not_repeated (mem_dataFields hp).2.2.2,
        (hfield p (mem_dataFields hp).1).2.1, (hfield p (mem_dataFields hp).1).2.2,
        hdepth p (mem_dataFields hp).1⟩)
    have hcells : (Row.mk (nextId (sA.rows d.name))
        (tb.buildCells (fieldNames d m) vals)).cells.drop 0 =
        List.zipWith (fun c v => applyAffinity c.2.affinity v)
          ((dataFields d m).map (fun p => (getColumnName p.1.name, getFieldType p.1))) vals
          ++ [] := by
      rw [List.drop_zero, List.append_nil]
      show tb.buildCells (fieldNames d m) vals = _
      rw [fieldNames_eq hlen, ← hcols, Table.buildCells_eq tb vals (by rw [hcols]; exact hcnd)
        (by rw [hcols, mainColumns_dataFields hlen, List.length_map]; exact hfA.length_eq.symm),
        hcols, mainColumns_dataFields hlen]
    have hloop := readFieldsLoop_spec (findMessageById fu s3) s3 d
      (Row.mk (nextId (sA.rows d.name)) (tb.buildCells (fieldNames d m) vals))
      (d.fields.zip m.fields) 0 _ [] hcells hsing
      (by
        intro p hp hm
        have hpm : p ∈ mapFields d m := List.mem_filter.mpr ⟨hp, hm⟩
        apply hfB p hpm s3 _ hasc3 fu (hdepth p hp)
        refine (hpC.weaken ?_).andThen (hp3.weaken ?_)
        · intro t o ho
          rcases ho with ⟨rfl, rfl⟩ | hn
          · refine ⟨⟨d.name, hroleM _ (List.mem_map.mpr ⟨p, hpm, rfl⟩), hmain, hidinB⟩,
              fun hc => ?_⟩
            obtain ⟨q, hq, he⟩ := List.mem_map.mp hc.2
            have hname : q.1.name = p.1.name := fieldTableName_injective he
            have hqp : q.1 = p.1 := List.inj_on_of_nodup_map hnames
              (mem_repeatedFields hq).2.1 (List.of_mem_zip hp).1 hname
            have hq2 := (mem_repeatedFields hq).2.2
            rw [hqp] at hq2
            simp [FieldDescriptor.is_map, hq2] at hm
          · refine ⟨existing_of_newSince hn, fun hc => ?_⟩
            have := (newSince_owner hT (hroleR t hc.2) hn).2
            rw [hc.1] at this
            exact this hidin
        · intro t o ho
          rcases ho with ⟨rfl, rfl⟩ | ⟨ow, h1, h2, h3, h4⟩
          · exact ⟨d.name, hroleM _ (List.mem_map.mpr ⟨p, hpm, rfl⟩), hmain, hidin2, hidnot⟩
          · exact ⟨ow, h1, h2, hpC.ids h2 h3, fun hc => h4 (hpAM.ids h2 hc)⟩)
      (by
        intro p hp hm hr
        have hpr : p ∈ repeatedFields d m :=
          List.mem_filter.mpr ⟨hp, by simp [hm, hr]⟩
        apply hfC p hpr s3 _ hasc3 fu (hdepth p hp)
        refine hp3.weaken ?_
        intro t o ho
        rcases ho with ⟨rfl, rfl⟩ | ⟨ow, h1, h2, h3, h4⟩
        · exact ⟨d.name, hroleR _ (List.mem_map.mpr ⟨p, hpr, rfl⟩), hmain, hidin2, hidnot⟩
        · exact ⟨ow, h1, h2, h3, fun hc => h4 (hpAB.ids h2 hc)⟩)
    have hmap1 : (d.fields.zip m.fields).map (fun p => p.1) = d.fields := by
      rw [← List.unzip_fst, List.unzip_zip_left (by rw [hlen])]
    have hmap2 : (d.fields.zip m.fields).map (fun p => p.2) = m.fields := by
      rw [← List.unzip_snd, List.unzip_zip_right (by rw [hlen])]
    rw [hmap1, hmap2] at hloop
    rw [findMessageById, hsel]
    simp only []
    rw [hloop, Message.present_mk]

end ProtoDatabase

namespace ProtoDatabase

/-! ## The round trip -/

/-- Nested messages are written by `writeMessageImpl` without upsert: every row it
inserts reads back as the message it was given. -/
theorem writeNested_reads {sc : List Table × List Trigger} {T : List (String × Option String)}
    (hT : namesAgree T) : ∀ fuel, WriteReads sc T (writeNested fuel) := by
  intro fuel
  induction fuel with
  | zero =>
    intro d m s s2 id _ _ _ _ _ h
    unfold writeNested at h
    rw [writeMessageImpl] at h
    simp [Exec.throw] at h
  | succ fuel ih =>
    intro d m s s2 id hd hs hasc hc hb h
    exact writeMessageImpl_reads hT ih hd hs hasc hc hb (Or.inl rfl) h

theorem Store.selectWhere_all {s : Store} {t : String} {tb : Table} (htb : s.table? t = some tb) :
    s.selectWhere t [] = .ok (s.rows t) := by
  unfold Store.selectWhere
  rw [htb]
  simp

/-- A store without rows is in ascending order. -/
theorem ascending_of_rows_nil {s : Store} (h : s.rows = fun _ => []) : s.ascending := by
  intro t
  rw [h]
  exact List.Pairwise.nil

end ProtoDatabase

namespace ProtoDatabase

/-! ## The claims -/

/-- Claim C4 (atomicity of writes): when `insertMessage` or `writeMessage` throws, at
whatever point of `writeMessageImpl`, the store it leaves has the tables, the
triggers and the rows of every table of the store before the call. -/
theorem failed_write_leaves_store (fuel : Nat) (d : Descriptor) (m : Message) (s s2 : Store)
    (e : Err)
    (h : insertMessage fuel d m s = (.error e, s2) ∨ writeMessage fuel d m s = (.error e, s2)) :
    s2.tables = s.tables ∧ s2.triggers = s.triggers ∧ s2.rows = s.rows := by
  have key : ∀ body : Exec Int, transaction body s = (.error e, s2) →
      s2.tables = s.tables ∧ s2.triggers = s.triggers ∧ s2.rows = s.rows := by
    intro body hb
    unfold transaction at hb
    split at hb
    · simp at hb
    · simp only [Prod.mk.injEq] at hb
      rw [← hb.2]
      exact ⟨rfl, rfl, rfl⟩
  rcases h with h | h
  · exact key _ h
  · exact key _ h

/-- Witness of C4: writing `Bag{values: [1, 1]}` fails in `writeArray`, after the main
row was inserted (the store `writeMessageImpl` leaves has one row in `Bag`), and the
store `writeMessage` leaves has the rows of the store before the call. -/
theorem failed_write_leaves_store_witness :
    (writeMessageImpl 2 Examples.Bag (.mk [.repeated [.int32 1, .int32 1]]) true
        (Examples.created 2 Examples.Bag)).2.rows "Bag" = [⟨1, []⟩] ∧
    (Examples.created 2 Examples.Bag).rows "Bag" = [] ∧
    (writeMessage 2 Examples.Bag (.mk [.repeated [.int32 1, .int32 1]])
        (Examples.created 2 Examples.Bag)).1 = .error .constraint ∧
    (writeMessage 2 Examples.Bag (.mk [.repeated [.int32 1, .int32 1]])
        (Examples.created 2 Examples.Bag)).2.rows = (Examples.created 2 Examples.Bag).rows :=
  ⟨by rfl, by rfl, by rfl,
    (failed_write_leaves_store 2 Examples.Bag (.mk [.repeated [.int32 1, .int32 1]])
      (Examples.created 2 Examples.Bag) _ .constraint (Or.inr (by rfl))).2.2⟩

/-- Claim C10 (code defect): a singular `UInt64` field written with `2 ^ 31` is stored as
the text `2147483648` and read back through `atoi`, an `int`, as
`2 ^ 64 - 2 ^ 31`. -/
theorem uint64_read_back_through_atoi :
    getAllMessages 2 Examples.Counter
      (writeMessage 2 Examples.Counter (.mk [.scalar true (.uint64 2147483648)])
        (Examples.created 2 Examples.Counter)).2 =
      .ok [.mk [.scalar true (.uint64 18446744071562067968)]] := by
  rfl

/-- Claim C2 (code defect): `Item` uses `Pos` as a plain field before it uses it as its
key, so `createTableImpl` creates the table `Pos` without a `UNIQUE` constraint and the
later `CREATE TABLE IF NOT EXISTS` for the key changes nothing.  Two records with the
same key `Pos{x: 4, y: 2}` are then both inserted: the key is stored twice in `Pos`, as
rows 2 and 4, and `Item` holds two rows. -/
theorem key_inserted_twice_when_key_table_exists :
    Option.map Table.uniques ((Examples.created 3 Examples.Item).table? "Pos") = some [] ∧
    (insertMessage 3 Examples.Item
      (Examples.item (Examples.pos 0 0) (Examples.pos 4 2) "a")
      (Examples.created 3 Examples.Item)).1 = .ok 1 ∧
    (insertMessage 3 Examples.Item
      (Examples.item (Examples.pos 9 9) (Examples.pos 4 2) "b")
      (Examples.inserted 3 Examples.Item
        (Examples.item (Examples.pos 0 0) (Examples.pos 4 2) "a")
        (Examples.created 3 Examples.Item))).1 = .ok 2 ∧
    (Examples.inserted 3 Examples.Item
      (Examples.item (Examples.pos 9 9) (Examples.pos 4 2) "b")
      (Examples.inserted 3 Examples.Item
        (Examples.item (Examples.pos 0 0) (Examples.pos 4 2) "a")
        (Examples.created 3 Examples.Item))).rows "Item" =
      [⟨1, [.integer 1, .integer 2, .text "a"]⟩, ⟨2, [.integer 3, .integer 4, .text "b"]⟩] :=
  ⟨by rfl, by rfl, by rfl, by rfl⟩

end ProtoDatabase

namespace ProtoDatabase

/-! ## Deletion -/

/-- Claim C18 (code defect): for `Pos{x: 4, y: 8}`, whose type declares no key,
`getMessageKeys` hands `deleteMessageImpl` both fields, so the check for an empty list
of keys passes and `deleteMessage` fails when the text is compiled, with the error of
the SQL engine and not with the missing-key error; the same holds for a type with a
single field.  The row stays. -/
theorem delete_by_record_without_key_is_sql_error :
    getMessageKeys Examples.Pos (Examples.pos 4 8) false =
      .ok (Examples.Pos.fields.zip (Examples.pos 4 8).fields) ∧
    (deleteMessage 2 Examples.Pos (Examples.pos 4 8)
      (Examples.inserted 2 Examples.Pos (Examples.pos 4 8)
        (Examples.created 2 Examples.Pos))).1 = .error .sqlError ∧
    (deleteMessage 2 Examples.Pos (Examples.pos 4 8)
      (Examples.inserted 2 Examples.Pos (Examples.pos 4 8)
        (Examples.created 2 Examples.Pos))).2.rows "Pos" = [⟨1, [.integer 4, .integer 8]⟩] ∧
    (deleteMessage 2 Examples.Counter (.mk [.scalar true (.uint64 5)])
      (Examples.inserted 2 Examples.Counter (.mk [.scalar true (.uint64 5)])
        (Examples.created 2 Examples.Counter))).1 = .error .sqlError := by
  refine ⟨by rfl, by rfl, by rfl, by rfl⟩

/-- Claim C19 (code defect): with `Tag{k: 1}` stored, `deleteMessage(Tag{k: 1})` fails,
because the text names the column `k` and the table has `field_k`; where the text does
compile (`Entity`, whose key field is named `id`), the statement that runs has no bound
parameter and `deleteMessage` returns with the row still in the table. -/
theorem delete_by_record_removes_no_row :
    (Examples.inserted 2 Examples.Tag (Examples.tag 1)
      (Examples.created 2 Examples.Tag)).rows "Tag" = [⟨1, [.integer 1]⟩] ∧
    (deleteMessage 2 Examples.Tag (Examples.tag 1)
      (Examples.inserted 2 Examples.Tag (Examples.tag 1)
        (Examples.created 2 Examples.Tag))).1 = .error .sqlError ∧
    (deleteMessage 2 Examples.Tag (Examples.tag 1)
      (Examples.inserted 2 Examples.Tag (Examples.tag 1)
        (Examples.created 2 Examples.Tag))).2.rows "Tag" = [⟨1, [.integer 1]⟩] ∧
    (deleteMessage 2 Examples.Entity (Examples.tag 1)
      (Examples.inserted 2 Examples.Entity (Examples.tag 1)
        (Examples.created 2 Examples.Entity))).1 = .ok () ∧
    (deleteMessage 2 Examples.Entity (Examples.tag 1)
      (Examples.inserted 2 Examples.Entity (Examples.tag 1)
        (Examples.created 2 Examples.Entity))).2.rows "Entity" = [⟨1, [.integer 1]⟩] := by
  refine ⟨by rfl, by rfl, by rfl, by rfl, by rfl⟩

/-- Claim C13 (code defect): after `writeMessage(Shelf{k: 1, items: [10, 20]})`, the
connection's `last_insert_rowid` is 2, the id of the last side row.
`writeMessage(Shelf{k: 1, items: [30]})` rewrites main row 1 and returns 2: the
elements of the first record stay attached to row 1 and the element of the second is
attached to owner id 2, which is no row of `Shelf`. -/
theorem upsert_attaches_elements_to_stale_id :
    (writeMessage 2 Examples.Shelf (Examples.shelf 1 [30])
      (Examples.written 2 Examples.Shelf (Examples.shelf 1 [10, 20])
        (Examples.created 2 Examples.Shelf))).1 = .ok 2 ∧
    (writeMessage 2 Examples.Shelf (Examples.shelf 1 [30])
      (Examples.written 2 Examples.Shelf (Examples.shelf 1 [10, 20])
        (Examples.created 2 Examples.Shelf))).2.rows "Shelf" = [⟨1, [.integer 1]⟩] ∧
    (writeMessage 2 Examples.Shelf (Examples.shelf 1 [30])
      (Examples.written 2 Examples.Shelf (Examples.shelf 1 [10, 20])
        (Examples.created 2 Examples.Shelf))).2.rows "field_table_Shelf_items" =
      [⟨1, [.integer 10, .integer 1]⟩, ⟨2, [.integer 20, .integer 1]⟩,
       ⟨3, [.integer 30, .integer 2]⟩] := by
  refine ⟨by rfl, by rfl, by rfl⟩

/-- Claim C6 (code defect): the owner type `A_B` has the key `k`, one singular nested
field `c` of the type `C` and the repeated field `items`; `C` nests `A`, which nests
`B_C`.  `createTableImpl` names a cascade trigger `on_delete_<owner>_<nested type>`: the
trigger of the field `b` of `A`, created first, is `on_delete_A_B_C`, and so is the one of
the field `c` of `A_B`, which `CREATE TRIGGER IF NOT EXISTS` then skips.  With
`A_B{k: 1, c: C{..7..}, items: [10, 20]}` and `A_B{k: 2, c: C{..8..}, items: [30]}`
stored, `deleteMessage<A_B>(k, 1)` removes the owner row 1 and leaves the other owner row
and the side-table rows, but it also leaves row 1 of `C`, the nested row the deleted
owner referred to. -/
theorem nested_row_survives_delete :
    (Examples.created 4 Examples.Tour).triggers =
      [⟨"on_delete_A_B_C", "A", "B_C", "field_b"⟩, ⟨"on_delete_C_A", "C", "A", "field_a"⟩] ∧
    (Examples.written 4 Examples.Tour (Examples.tour 2 8 [30])
      (Examples.written 4 Examples.Tour (Examples.tour 1 7 [10, 20])
        (Examples.created 4 Examples.Tour))).rows "A_B" =
      [⟨1, [.integer 1, .integer 1]⟩, ⟨2, [.integer 2, .integer 2]⟩] ∧
    (Examples.written 4 Examples.Tour (Examples.tour 2 8 [30])
      (Examples.written 4 Examples.Tour (Examples.tour 1 7 [10, 20])
        (Examples.created 4 Examples.Tour))).rows "C" =
      [⟨1, [.integer 1]⟩, ⟨2, [.integer 2]⟩] ∧
    (deleteMessageByKey 4 Examples.Tour (.mk "k" .singular (.scalar .INT32) (some true))
      (.scalar (.integer 1))
      (Examples.written 4 Examples.Tour (Examples.tour 2 8 [30])
        (Examples.written 4 Examples.Tour (Examples.tour 1 7 [10, 20])
          (Examples.created 4 Examples.Tour)))).1 = .ok () ∧
    (deleteMessageByKey 4 Examples.Tour (.mk "k" .singular (.scalar .INT32) (some true))
      (.scalar (.integer 1))
      (Examples.written 4 Examples.Tour (Examples.tour 2 8 [30])
        (Examples.written 4 Examples.Tour (Examples.tour 1 7 [10, 20])
          (Examples.created 4 Examples.Tour)))).2.rows "A_B" =
      [⟨2, [.integer 2, .integer 2]⟩] ∧
    (deleteMessageByKey 4 Examples.Tour (.mk "k" .singular (.scalar .INT32) (some true))
      (.scalar (.integer 1))
      (Examples.written 4 Examples.Tour (Examples.tour 2 8 [30])
        (Examples.written 4 Examples.Tour (Examples.tour 1 7 [10, 20])
          (Examples.created 4 Examples.Tour)))).2.rows "C" =
      [⟨1, [.integer 1]⟩, ⟨2, [.integer 2]⟩] ∧
    (deleteMessageByKey 4 Examples.Tour (.mk "k" .singular (.scalar .INT32) (some true))
      (.scalar (.integer 1))
      (Examples.written 4 Examples.Tour (Examples.tour 2 8 [30])
        (Examples.written 4 Examples.Tour (Examples.tour 1 7 [10, 20])
          (Examples.created 4 Examples.Tour)))).2.rows "field_table_A_B_items" =
      [⟨1, [.integer 10, .integer 1]⟩, ⟨2, [.integer 20, .integer 1]⟩,
       ⟨3, [.integer 30, .integer 2]⟩] := by
  refine ⟨by decide!, by decide!, by decide!, by decide!, by decide!, by decide!, by decide!⟩

end ProtoDatabase

namespace ProtoDatabase

/-! ## The key check of the lookup and deletion by key -/

lemma Store.selectWhere_err {s : Store} {t : String} {conds : List (String × SqlValue)}
    {e : Err} (h : s.selectWhere t conds = .error e) : e = .sqlError := by
  unfold Store.selectWhere at h
  split at h
  · cases h; rfl
  · split at h
    · cases h
    · cases h; rfl

lemma Store.selectById_err {s : Store} {t : String} {id : Int} {e : Err}
    (h : s.selectById t id = .error e) : e = .sqlError := by
  unfold Store.selectById at h
  split at h
  · cases h; rfl
  · cases h

lemma Store.selectColumnById_err {s : Store} {t c : String} {id : Int} {e : Err}
    (h : s.selectColumnById t c id = .error e) : e = .sqlError := by
  unfold Store.selectColumnById at h
  split at h
  · cases h; rfl
  · split at h
    · cases h
    · cases h; rfl

lemma Row.getColumn_err {row : Row} {i : Nat} {e : Err}
    (h : row.getColumn i = .error e) : e = .sqlError := by
  unfold Row.getColumn at h
  split at h
  · cases h
  · split at h
    · cases h
    · cases h; rfl

lemma Store.prepare_err {t : String} {cols : List String} {s s1 : Store} {e : Err}
    (h : Store.prepare t cols s = (.error e, s1)) : e = .sqlError := by
  unfold Store.prepare at h
  split at h
  · cases h; rfl
  · split at h
    · cases h
    · cases h; rfl

lemma findAssociatedMessages_err {s : Store} {t : String} {owner : Int} {e : Err}
    (h : findAssociatedMessages s t owner = .error e) : e = .sqlError := by
  unfold findAssociatedMessages at h
  cases h1 : s.selectWhere t [("owner_id", .integer owner)] with
  | error e1 =>
    rw [h1] at h
    cases h
    exact Store.selectWhere_err h1
  | ok rows => rw [h1] at h; cases h

lemma readArrayScalars_err (s : Store) (tn cn : String) (t : CppType) :
    ∀ (ids : List Int) (e : Err), readArrayScalars s tn cn t ids = .error e →
      e ≠ .notAKey := by
  intro ids
  induction ids with
  | nil => intro e h; simp [readArrayScalars] at h
  | cons id rest ih =>
    intro e h
    unfold readArrayScalars at h
    cases h1 : s.selectColumnById tn cn id with
    | error e1 =>
      rw [h1] at h
      cases h
      rw [Store.selectColumnById_err h1]
      decide
    | ok c =>
      rw [h1] at h
      cases c with
      | none => cases h; decide
      | some cell =>
        cases h2 : readArrayScalars s tn cn t rest with
        | error e2 => rw [h2] at h; cases h; exact ih _ h2
        | ok vs => rw [h2] at h; cases h

lemma readArrayMessages_err (find : String → Descriptor → Int → Except Err Message)
    (hfind : ∀ t d i e, find t d i = .error e → e ≠ .notAKey)
    (s : Store) (tn cn : String) (nested : Descriptor) :
    ∀ (ids : List Int) (e : Err), readArrayMessages find s tn cn nested ids = .error e →
      e ≠ .notAKey := by
  intro ids
  induction ids with
  | nil => intro e h; simp [readArrayMessages] at h
  | cons id rest ih =>
    intro e h
    unfold readArrayMessages at h
    cases h1 : s.selectColumnById tn cn id with
    | error e1 =>
      rw [h1] at h
      cases h
      rw [Store.selectColumnById_err h1]
      decide
    | ok c =>
      rw [h1] at h
      cases c with
      | none => cases h; decide
      | some cell =>
        simp only at h
        cases h3 : find nested.name nested cell.getInt64 with
        | error e3 => rw [h3] at h; cases h; exact hfind _ _ _ _ h3
        | ok m =>
          rw [h3] at h
          cases h2 : readArrayMessages find s tn cn nested rest with
          | error e2 => rw [h2] at h; cases h; exact ih _ h2
          | ok vs => rw [h2] at h; cases h

lemma readMapEntries_err (find : String → Descriptor → Int → Except Err Message)
    (hfind : ∀ t d i e, find t d i = .error e → e ≠ .notAKey)
    (tn : String) (entry : Descriptor) :
    ∀ (ids : List Int) (e : Err), readMapEntries find tn entry ids = .error e →
      e ≠ .notAKey := by
  intro ids
  induction ids with
  | nil => intro e h; simp [readMapEntries] at h
  | cons id rest ih =>
    intro e h
    unfold readMapEntries at h
    cases h3 : find tn entry id with
    | error e3 => rw [h3] at h; cases h; exact hfind _ _ _ _ h3
    | ok m =>
      rw [h3] at h
      cases h2 : readMapEntries find tn entry rest with
      | error e2 => rw [h2] at h; cases h; exact ih _ h2
      | ok vs => rw [h2] at h; cases h

lemma readFieldsLoop_err (find : String → Descriptor → Int → Except Err Message)
    (hfind : ∀ t d i e, find t d i = .error e → e ≠ .notAKey)
    (s : Store) (descriptor : Descriptor) (row : Row) :
    ∀ (fs : List FieldDescriptor) (column : Nat) (e : Err),
      readFieldsLoop find s descriptor row fs column = .error e → e ≠ .notAKey := by
  intro fs
  induction fs with
  | nil => intro column e h; simp [readFieldsLoop] at h
  | cons field rest ih =>
    intro column e h
    unfold readFieldsLoop at h
    split at h
    · cases h1 : findAssociatedMessages s (getFieldTableName descriptor field) row.id with
      | error e1 =>
        simp only [h1] at h
        cases h
        rw [findAssociatedMessages_err h1]
        decide
      | ok messages =>
        simp only [h1] at h
        cases hty : field.type with
        | scalar t =>
          simp only [hty] at h
          cases h2 : readArrayScalars s (getFieldTableName descriptor field)
              (getColumnName field.name) t messages with
          | error e2 => simp only [h2] at h; cases h; exact readArrayScalars_err _ _ _ _ _ _ h2
          | ok vs =>
            simp only [h2] at h
            cases h3 : readFieldsLoop find s descriptor row rest column with
            | error e3 => simp only [h3] at h; cases h; exact ih _ _ h3
            | ok ws => simp only [h3] at h; cases h
        | message nested =>
          simp only [hty] at h
          cases h2 : readArrayMessages find s (getFieldTableName descriptor field)
              (getColumnName field.name) nested messages with
          | error e2 =>
            simp only [h2] at h; cases h
            exact readArrayMessages_err find hfind _ _ _ _ _ _ h2
          | ok vs =>
            simp only [h2] at h
            cases h3 : readFieldsLoop find s descriptor row rest column with
            | error e3 => simp only [h3] at h; cases h; exact ih _ _ h3
            | ok ws => simp only [h3] at h; cases h
    · cases hty : field.type with
      | scalar t =>
        simp only [hty] at h
        cases h1 : row.getColumn column with
        | error e1 => simp only [h1] at h; cases h; rw [Row.getColumn_err h1]; decide
        | ok cell =>
          simp only [h1] at h
          cases h3 : readFieldsLoop find s descriptor row rest (column + 1) with
          | error e3 => simp only [h3] at h; cases h; exact ih _ _ h3
          | ok ws => simp only [h3] at h; cases h
      | message nested =>
        simp only [hty] at h
        split at h
        · cases h1 : findAssociatedMessages s (getFieldTableName descriptor field) row.id with
          | error e1 =>
            simp only [h1] at h
            cases h
            rw [findAssociatedMessages_err h1]
            decide
          | ok messages =>
            simp only [h1] at h
            cases h2 : readMapEntries find (getFieldTableName descriptor field) nested
                messages with
            | error e2 =>
              simp only [h2] at h; cases h
              exact readMapEntries_err find hfind _ _ _ _ h2
            | ok ms =>
              simp only [h2] at h
              cases h3 : readFieldsLoop find s descriptor row rest column with
              | error e3 => simp only [h3] at h; cases h; exact ih _ _ h3
              | ok ws => simp only [h3] at h; cases h
        · cases h1 : row.getColumn column with
          | error e1 => simp only [h1] at h; cases h; rw [Row.getColumn_err h1]; decide
          | ok cell =>
            simp only [h1] at h
            cases h2 : find nested.name nested cell.getInt64 with
            | error e2 => simp only [h2] at h; cases h; exact hfind _ _ _ _ h2
            | ok m =>
              simp only [h2] at h
              cases h3 : readFieldsLoop find s descriptor row rest (column + 1) with
              | error e3 => simp only [h3] at h; cases h; exact ih _ _ h3
              | ok ws => simp only [h3] at h; cases h

lemma findMessageById_err (s : Store) :
    ∀ (fuel : Nat) (t : String) (d : Descriptor) (i : Int) (e : Err),
      findMessageById fuel s t d i = .error e → e ≠ .notAKey := by
  intro fuel
  induction fuel with
  | zero => intro t d i e h; simp [findMessageById] at h; rw [← h]; decide
  | succ fuel ih =>
    intro t d i e h
    unfold findMessageById at h
    cases h1 : s.selectById t i with
    | error e1 => simp only [h1] at h; cases h; rw [Store.selectById_err h1]; decide
    | ok rows =>
      simp only [h1] at h
      cases rows with
      | nil => simp only at h; cases h; decide
      | cons row rest =>
        simp only at h
        cases h2 : readFieldsLoop (findMessageById fuel s) s d row d.fields 1 with
        | error e2 =>
          simp only [h2] at h; cases h
          exact readFieldsLoop_err _ ih s d row _ _ _ h2
        | ok vs => simp only [h2] at h; cases h

lemma readFields_err {fuel : Nat} {s : Store} {d : Descriptor} {row : Row} {e : Err}
    (h : readFields fuel s d row = .error e) : e ≠ .notAKey := by
  unfold readFields at h
  cases h2 : readFieldsLoop (findMessageById fuel s) s d row d.fields 1 with
  | error e2 =>
    simp only [h2] at h; cases h
    exact readFieldsLoop_err _ (findMessageById_err s fuel) s d row _ _ _ h2
  | ok vs => simp only [h2] at h; cases h

lemma declaredKeys_err : ∀ (ps : List (FieldDescriptor × Value)) (e : Err),
    declaredKeys ps = .error e → e ≠ .notAKey := by
  intro ps
  induction ps with
  | nil => intro e h; simp [declaredKeys] at h
  | cons p rest ih =>
    intro e h
    obtain ⟨field, value⟩ := p
    unfold declaredKeys at h
    split at h
    · cases hv : value.hasField with
      | error e1 =>
        simp only [hv] at h; cases h
        unfold Value.hasField at hv
        split at hv
        · cases hv
        · cases hv
        · cases hv; decide
      | ok b =>
        simp only [hv] at h
        cases b with
        | false => simp only at h; cases h; decide
        | true =>
          simp only at h
          cases h2 : declaredKeys rest with
          | error e2 => simp only [h2] at h; cases h; exact ih _ h2
          | ok res => simp only [h2] at h; cases h
    · exact ih _ h

lemma getMessageKeys_err {d : Descriptor} {m : Message} {strict : Bool} {e : Err}
    (h : getMessageKeys d m strict = .error e) : e ≠ .notAKey := by
  unfold getMessageKeys at h
  split at h
  · cases h; decide
  · cases h2 : declaredKeys (d.fields.zip m.fields) with
    | error e2 => simp only [h2] at h; cases h; exact declaredKeys_err _ _ h2
    | ok res =>
      simp only [h2] at h
      split at h
      · cases h
      · cases h

lemma bindScalar_err {t : CppType} {x : Scalar} {e : Err} (h : bindScalar t x = .error e) :
    e = .unexpectedType := by
  unfold bindScalar at h
  split at h <;> first | (cases h; rfl) | cases h

lemma findMessage_err : ∀ (fuel : Nat) (d : Descriptor) (m : Message) (s : Store) (e : Err),
    findMessage fuel d m s = .error e → e ≠ .notAKey := by
  intro fuel
  induction fuel with
  | zero => intro d m s e h; simp [findMessage] at h; rw [← h]; decide
  | succ fuel ih =>
    have hfields : ∀ (ps : List (FieldDescriptor × Value)) (s s1 : Store) (e : Err),
        insertMessageFields (fun _ _ => Exec.throw .unexpectedType) (findMessage fuel) false
          ps s = (.error e, s1) → e ≠ .notAKey := by
      intro ps
      induction ps with
      | nil => intro s s1 e h; simp [insertMessageFields, Exec.pure] at h
      | cons p rest ihp =>
        intro s s1 e h
        obtain ⟨field, value⟩ := p
        unfold insertMessageFields at h
        split at h
        · simp only [Exec.throw, Prod.mk.injEq, Except.error.injEq] at h
          rw [← h.1]; decide
        · rcases Exec.bind_cases h with ⟨v, s2, h1, h2⟩ | ⟨e1, h1, h2⟩
          · rcases Exec.bind_cases h2 with ⟨vs, s3, h3, h4⟩ | ⟨e3, h3, h4⟩
            · simp [Exec.pure] at h4
            · cases h4; exact ihp _ _ _ h3
          · cases h2
            unfold bindField at h1
            cases hty : field.type with
            | scalar t =>
              cases value with
              | scalar has x =>
                simp only [hty, Exec.ofExcept, Prod.mk.injEq] at h1
                rw [bindScalar_err h1.1]; decide
              | message has x =>
                simp only [hty, Exec.throw, Prod.mk.injEq, Except.error.injEq] at h1
                rw [← h1.1]; decide
              | repeated x =>
                simp only [hty, Exec.throw, Prod.mk.injEq, Except.error.injEq] at h1
                rw [← h1.1]; decide
              | repeatedMessage x =>
                simp only [hty, Exec.throw, Prod.mk.injEq, Except.error.injEq] at h1
                rw [← h1.1]; decide
            | message nd =>
              cases value with
              | message has x =>
                simp only [hty, Bool.false_eq_true, if_false] at h1
                rcases Exec.bind_cases h1 with ⟨k, s3, h3, h4⟩ | ⟨e3, h3, h4⟩
                · cases k with
                  | none =>
                    simp only [Exec.throw, Prod.mk.injEq, Except.error.injEq] at h4
                    rw [← h4.1]; decide
                  | some k => simp [Exec.pure] at h4
                · cases h4
                  simp only [Exec.ofStore, Prod.mk.injEq] at h3
                  exact ih _ _ _ _ h3.1
              | scalar has x =>
                simp only [hty, Exec.throw, Prod.mk.injEq, Except.error.injEq] at h1
                rw [← h1.1]; decide
              | repeated x =>
                simp only [hty, Exec.throw, Prod.mk.injEq, Except.error.injEq] at h1
                rw [← h1.1]; decide
              | repeatedMessage x =>
                simp only [hty, Exec.throw, Prod.mk.injEq, Except.error.injEq] at h1
                rw [← h1.1]; decide
    intro d m s e h
    unfold findMessage at h
    cases h1 : getMessageKeys d m false with
    | error e1 => simp only [h1] at h; cases h; exact getMessageKeys_err h1
    | ok keys =>
      simp only [h1] at h
      cases h2 : Store.prepare d.name (keys.map (fun k => getColumnName k.1.name)) s with
      | mk r2 s2 =>
        cases r2 with
        | error e2 =>
          simp only [h2] at h; cases h
          rw [Store.prepare_err h2]; decide
        | ok u =>
          simp only [h2] at h
          cases h3 : insertMessageFields (fun _ _ => Exec.throw .unexpectedType)
              (findMessage fuel) false keys s with
          | mk r3 s3 =>
            cases r3 with
            | error e3 => simp only [h3] at h; cases h; exact hfields _ _ _ _ h3
            | ok vals =>
              simp only [h3] at h
              cases h4 : s.selectWhere d.name
                  ((keys.map (fun k => getColumnName k.1.name)).zip vals) with
              | error e4 =>
                simp only [h4] at h; cases h
                rw [Store.selectWhere_err h4]; decide
              | ok rows => simp only [h4] at h; cases h

lemma fireRow_err (del : String → SqlValue → Exec Unit)
    (hdel : ∀ t v s e s1, del t v s = (.error e, s1) → e = .sqlError) (tb : Table) (old : Row) :
    ∀ (trgs : List Trigger) (s s1 : Store) (e : Err),
      fireRow del tb old trgs s = (.error e, s1) → e = .sqlError := by
  intro trgs
  induction trgs with
  | nil => intro s s1 e h; simp [fireRow, Exec.pure] at h
  | cons trg rest ih =>
    intro s s1 e h
    unfold fireRow at h
    rcases Exec.bind_cases h with ⟨v, s2, h1, h2⟩ | ⟨e1, h1, h2⟩
    · exact ih _ _ _ h2
    · cases h2; exact hdel _ _ _ _ _ h1

lemma fireRows_err (del : String → SqlValue → Exec Unit)
    (hdel : ∀ t v s e s1, del t v s = (.error e, s1) → e = .sqlError) (tb : Table)
    (trgs : List Trigger) :
    ∀ (rows : List Row) (s s1 : Store) (e : Err),
      fireRows del tb trgs rows s = (.error e, s1) → e = .sqlError := by
  intro rows
  induction rows with
  | nil => intro s s1 e h; simp [fireRows, Exec.pure] at h
  | cons r rest ih =>
    intro s s1 e h
    unfold fireRows at h
    rcases Exec.bind_cases h with ⟨v, s2, h1, h2⟩ | ⟨e1, h1, h2⟩
    · exact ih _ _ _ h2
    · cases h2; exact fireRow_err del hdel tb r _ _ _ _ h1

lemma deleteCascade_err : ∀ (depth : Nat) (t : String) (p : Table → Row → Bool)
    (s s1 : Store) (e : Err), deleteCascade depth t p s = (.error e, s1) → e = .sqlError := by
  intro depth
  induction depth with
  | zero =>
    intro t p s s1 e h
    simp only [deleteCascade, Exec.throw, Prod.mk.injEq, Except.error.injEq] at h
    exact h.1.symm
  | succ depth ih =>
    intro t p s s1 e h
    unfold deleteCascade at h
    cases htb : s.table? t with
    | none => simp only [htb] at h; cases h; rfl
    | some tb =>
      simp only [htb] at h
      exact fireRows_err _ (fun t v s e s1 h1 => ih _ _ _ _ _ h1) tb _ _ _ _ _ h

lemma Store.delete_err {t : String} {p : Table → Row → Bool} {s s1 : Store} {e : Err}
    (h : Store.delete t p s = (.error e, s1)) : e = .sqlError := by
  unfold Store.delete at h
  cases h1 : deleteCascade 1000 t p s with
  | mk r s2 =>
    cases r with
    | error e1 =>
      simp only [h1] at h
      cases h
      exact deleteCascade_err _ _ _ _ _ _ h1
    | ok u => simp only [h1] at h; cases h

/-- A `DELETE` whose condition holds for no row of the table leaves the store as it
is, whatever the triggers. -/
lemma Store.delete_none {t : String} {p : Table → Row → Bool} {s : Store} {tb : Table}
    (htb : s.table? t = some tb) (hno : ∀ r ∈ s.rows t, p tb r = false) :
    Store.delete t p s = (.ok (), s) := by
  have hf : (s.rows t).filter (p tb) = [] := by
    rw [List.filter_eq_nil_iff]
    intro r hr
    simp [hno r hr]
  have hk : (s.rows t).filter (fun r => !p tb r) = s.rows t := by
    rw [List.filter_eq_self]
    intro r hr
    simp [hno r hr]
  have hs : s.setRows t (s.rows t) = s := by
    unfold Store.setRows
    have : (fun x => if x = t then s.rows t else s.rows x) = s.rows := by
      funext x
      split
      · rename_i hx; rw [hx]
      · rfl
    rw [this]
  have h1 : deleteCascade (999 + 1) t p s = (.ok (), s) := by
    rw [deleteCascade]
    simp only [htb, hf, hk, hs, fireRows, Exec.pure]
  unfold Store.delete
  rw [show (1000 : Nat) = 999 + 1 from rfl, h1]

lemma isKey_iff (field : FieldDescriptor) :
    isKey field = true ↔ field.objectKeyField = some true := by
  unfold isKey
  cases field.objectKeyField with
  | none => simp
  | some b => simp

/-- Claim C16 (lookup and deletion by key reject a field that is no key): when the key
option of the field is not present and set, `findMessage<T>(field, key)` and
`deleteMessage<T>(field, key)` throw the not-a-key error and the store is the one
before the call; when it is, neither of them throws that error, whatever else
happens. -/
theorem key_check_guards_lookup_and_delete (fuel : Nat) (T : Descriptor)
    (field : FieldDescriptor) (key : Key) (s : Store) :
    if field.objectKeyField = some true then
      findMessageByKey fuel T field key s ≠ .error .notAKey ∧
      (deleteMessageByKey fuel T field key s).1 ≠ .error .notAKey
    else
      findMessageByKey fuel T field key s = .error .notAKey ∧
      deleteMessageByKey fuel T field key s = (.error .notAKey, s) := by
  have hbound : ∀ e : Err, ((match key with
        | .message kd km =>
          match findMessage fuel kd km s with
          | .error e => .error e
          | .ok none => .ok none
          | .ok (some keyId) => .ok (some (.integer keyId))
        | .scalar v => .ok (some v)) : Except Err (Option SqlValue)) = .error e →
      e ≠ .notAKey := by
    intro e h
    cases key with
    | scalar v => cases h
    | message kd km =>
      simp only at h
      cases h1 : findMessage fuel kd km s with
      | error e1 => simp only [h1] at h; cases h; exact findMessage_err _ _ _ _ _ h1
      | ok o => cases o <;> simp [h1] at h
  split
  · rename_i hk
    have hk1 : isKey field = true := (isKey_iff field).2 hk
    constructor
    · intro h
      unfold findMessageByKey at h
      simp only [hk1, Bool.not_true, Bool.false_eq_true, if_false] at h
      cases h1 : Store.prepare T.name [getColumnName field.name] s with
      | mk r1 s1 =>
        cases r1 with
        | error e1 =>
          simp only [h1] at h
          cases h
          have := Store.prepare_err h1
          cases this
        | ok u =>
          simp only [h1] at h
          split at h
          · rename_i e2 hb
            cases h
            exact hbound _ hb rfl
          · cases h
          · rename_i v hb
            cases h2 : s.selectWhere T.name [(getColumnName field.name, v)] with
            | error e2 =>
              simp only [h2] at h; cases h
              have := Store.selectWhere_err h2
              cases this
            | ok rows =>
              simp only [h2] at h
              cases rows with
              | nil => cases h
              | cons row rest =>
                simp only at h
                cases h3 : readFields fuel s T row with
                | error e3 => simp only [h3] at h; cases h; exact readFields_err h3 rfl
                | ok m => simp only [h3] at h; cases h
    · intro h
      unfold deleteMessageByKey at h
      simp only [hk1, Bool.not_true, Bool.false_eq_true, if_false] at h
      cases h1 : Store.prepare T.name [getColumnName field.name] s with
      | mk r1 s1 =>
        cases r1 with
        | error e1 =>
          simp only [h1] at h
          cases h
          have := Store.prepare_err h1
          cases this
        | ok u =>
          simp only [h1] at h
          split at h
          · rename_i e2 hb
            cases h
            exact hbound _ hb rfl
          · cases h
          · rename_i v hb
            cases h2 : Store.delete T.name
                (fun tb r => tb.matches (getColumnName field.name) v r) s with
            | mk r2 s2 =>
              rw [h2] at h
              simp only at h
              cases h
              have := Store.delete_err h2
              cases this
  · rename_i hk
    have hk1 : isKey field = false := by
      cases hb : isKey field with
      | false => rfl
      | true => exact absurd ((isKey_iff field).1 hb) hk
    constructor
    · unfold findMessageByKey
      simp [hk1]
    · unfold deleteMessageByKey
      simp [hk1]

/-- Claim C17, as amended (deletion by key without a match): on a store that holds the
main table of `T` as `createTableImpl` lays it out, under names SQLite reads as they are
written, let `field` be a singular key field of `T` and `key` a key of its type.
`deleteMessage<T>(field, key)` with a scalar key that matches no row of the table, or
with a record key for which `findMessage` returns no row or the id of a row that no
owner row refers to, returns and leaves the store as it is. -/
theorem delete_without_match_is_noop (fuel : Nat) (T : Descriptor) (field : FieldDescriptor)
    (key : Key) (s : Store) (tb : Table)
    (hnamed : T.sqlNamed = true) (hschema : Descriptor.schemaOk s.schema T = true)
    (hfield : field ∈ T.fields) (hsing : field.label = .singular)
    (hkey : field.objectKeyField = some true) (htb : s.table? T.name = some tb)
    (htyped : Key.typed field key)
    (hno : match key with
      | .scalar v => ∀ r ∈ s.rows T.name, tb.matches (getColumnName field.name) v r = false
      | .message kd km =>
        findMessage fuel kd km s = .ok none ∨
        ∃ k, findMessage fuel kd km s = .ok (some k) ∧
          ∀ r ∈ s.rows T.name,
            tb.matches (getColumnName field.name) (.integer k) r = false) :
    deleteMessageByKey fuel T field key s = (.ok (), s) := by
  have hk1 : isKey field = true := (isKey_iff field).2 hkey
  have hcol : tb.hasColumn (getColumnName field.name) = true := by
    obtain ⟨⟨tb2, htb2, hcols, _⟩, hnd⟩ := Descriptor.schemaOk_spec hschema
    have htbeq : tb2 = tb := by
      rw [← Store.table?_of_schema rfl, htb] at htb2
      simpa using htb2.symm
    subst htbeq
    have h1 : field.is_map = false := by simp [FieldDescriptor.is_map, hsing]
    have h2 : field.is_repeated = false := by simp [FieldDescriptor.is_repeated, hsing]
    have hfind := mainColumns_find hnd hfield h1 h2
    unfold Table.hasColumn
    rw [hcols, List.any_eq_true]
    exact ⟨_, List.mem_of_find?_eq_some hfind, by simp⟩
  have hprep : Store.prepare T.name [getColumnName field.name] s = (.ok (), s) := by
    unfold Store.prepare
    simp [htb, hcol]
  unfold deleteMessageByKey
  simp only [hk1, Bool.not_true, Bool.false_eq_true, if_false, hprep]
  cases key with
  | scalar v =>
    simp only at hno ⊢
    exact Store.delete_none htb hno
  | message kd km =>
    simp only at hno ⊢
    rcases hno with h | ⟨k, h, hrows⟩
    · simp only [h]
    · simp only [h]
      exact Store.delete_none htb hrows

/-- Witness of C17 as amended: with `Tag{k: 1}` stored, deleting by the key 7 leaves the
store as it is. -/
theorem delete_without_match_is_noop_witness :
    deleteMessageByKey 2 Examples.Tag (.mk "k" .singular (.scalar .INT32) (some true))
      (.scalar (.integer 7))
      (Examples.inserted 2 Examples.Tag (Examples.tag 1) (Examples.created 2 Examples.Tag)) =
    (.ok (), Examples.inserted 2 Examples.Tag (Examples.tag 1)
      (Examples.created 2 Examples.Tag)) :=
  delete_without_match_is_noop 2 Examples.Tag (.mk "k" .singular (.scalar .INT32) (some true))
    (.scalar (.integer 7))
    (Examples.inserted 2 Examples.Tag (Examples.tag 1) (Examples.created 2 Examples.Tag))
    ⟨"Tag", [("field_k", .INTEGER)], [["field_k"]], []⟩ (by decide) (by rfl)
    (List.mem_cons_self _ _) (by rfl) (by rfl) (by rfl)
    ⟨.int32 7, by decide, by rfl, by rfl⟩
    (by
      intro r hr
      have hr2 : r ∈ [(⟨1, [.integer 1]⟩ : Row)] := hr
      simp only [List.mem_singleton] at hr2
      subst hr2
      rfl)

/-- Counterexample to C17 as stated: the key field `pos` of the type `Item` of the
specification is a record of the type `Pos`, which declares the key `x`.  With
`Item{pos: Pos{4, 8}, data: "a"}` stored, the key `Pos{y: 9}`, its `x` left unset, is the
key of no row, and `deleteMessage<Item>(pos, Pos{y: 9})` throws the missing-key error
instead of returning; the tables are left as they were. -/
theorem delete_with_unset_nested_key_raises :
    (deleteMessageByKey 2 Examples.Slot
      (.mk "pos" .singular (.message Examples.KPos) (some true))
      (.message Examples.KPos (.mk [.scalar false (.int32 0), .scalar true (.int32 9)]))
      (Examples.inserted 2 Examples.Slot (Examples.slot (Examples.pos 4 8) "a")
        (Examples.created 2 Examples.Slot))).1 = .error .noKeyValue ∧
    (deleteMessageByKey 2 Examples.Slot
      (.mk "pos" .singular (.message Examples.KPos) (some true))
      (.message Examples.KPos (.mk [.scalar false (.int32 0), .scalar true (.int32 9)]))
      (Examples.inserted 2 Examples.Slot (Examples.slot (Examples.pos 4 8) "a")
        (Examples.created 2 Examples.Slot))).2.rows "Item" = [⟨1, [.integer 1, .text "a"]⟩] ∧
    (Examples.inserted 2 Examples.Slot (Examples.slot (Examples.pos 4 8) "a")
      (Examples.created 2 Examples.Slot)).rows "Pos" = [⟨1, [.integer 4, .integer 8]⟩] := by
  refine ⟨by rfl, by rfl, by rfl⟩

end ProtoDatabase

namespace ProtoDatabase

/-! ## The errors of the write path -/

lemma Exec.raisesOnly_bind {α β : Type} {E : Err → Bool} {m : Exec α} {f : α → Exec β}
    (hm : Exec.raisesOnly E m) (hf : ∀ a, Exec.raisesOnly E (f a)) :
    Exec.raisesOnly E (Exec.bind m f) := by
  intro s e s1 h
  rcases Exec.bind_cases h with ⟨a, s2, h1, h2⟩ | ⟨e1, h1, h2⟩
  · exact hf a _ _ _ h2
  · cases h2; exact hm _ _ _ h1

lemma Exec.raisesOnly_pure {α : Type} {E : Err → Bool} (a : α) :
    Exec.raisesOnly E (Exec.pure a) := by
  intro s e s1 h
  simp [Exec.pure] at h

lemma Exec.raisesOnly_throw {α : Type} {E : Err → Bool} {e : Err} (h : E e = true) :
    Exec.raisesOnly E (Exec.throw e : Exec α) := by
  intro s e1 s1 h1
  simp only [Exec.throw, Prod.mk.injEq, Except.error.injEq] at h1
  rw [← h1.1]; exact h

lemma Exec.raisesOnly_ofExcept {α : Type} {E : Err → Bool} {r : Except Err α}
    (h : ∀ e, r = .error e → E e = true) : Exec.raisesOnly E (Exec.ofExcept r) := by
  intro s e s1 h1
  simp only [Exec.ofExcept, Prod.mk.injEq] at h1
  exact h e h1.1

lemma Store.prepare_raises (t : String) (cols : List String) :
    Exec.raisesOnly Err.ofWrite (Store.prepare t cols) := by
  intro s e s1 h
  rw [Store.prepare_err h]; rfl

lemma Store.insert_raises (t : String) (cols : List String) (vals : List SqlValue)
    (upsert : Bool) : Exec.raisesOnly Err.ofWrite (Store.insert t cols vals upsert) := by
  intro s e s1 h
  unfold Store.insert at h
  split at h
  · cases h; rfl
  · split at h
    · cases h; rfl
    · simp only at h
      split at h
      · cases h
      · split at h
        · split at h
          · cases h; rfl
          · cases h
        · cases h; rfl

lemma Store.insertRows_raises (t : String) (cols : List String) :
    ∀ rows : List (List SqlValue), Exec.raisesOnly Err.ofWrite (Store.insertRows t cols rows) := by
  intro rows
  induction rows with
  | nil => unfold Store.insertRows; exact Exec.raisesOnly_pure _
  | cons vals rest ih =>
    unfold Store.insertRows
    exact Exec.raisesOnly_bind (Store.insert_raises _ _ _ _)
      (fun n => Exec.raisesOnly_bind ih (fun k => Exec.raisesOnly_pure _))

lemma Store.insertMany_raises (t : String) (cols : List String) (rows : List (List SqlValue)) :
    Exec.raisesOnly Err.ofWrite (Store.insertMany t cols rows) := by
  intro s e s1 h
  unfold Store.insertMany at h
  cases h1 : Store.insertRows t cols rows s with
  | mk r s2 =>
    cases r with
    | error e1 =>
      simp only [h1] at h
      cases h
      exact Store.insertRows_raises t cols rows _ _ _ h1
    | ok n => simp only [h1] at h; cases h

lemma Store.delete_raises (t : String) (p : Table → Row → Bool) :
    Exec.raisesOnly Err.ofWrite (Store.delete t p) := by
  intro s e s1 h
  rw [Store.delete_err h]; rfl

lemma bindScalars_err (t : CppType) : ∀ (xs : List Scalar) (e : Err),
    bindScalars t xs = .error e → e = .unexpectedType := by
  intro xs
  induction xs with
  | nil => intro e h; simp [bindScalars] at h
  | cons x rest ih =>
    intro e h
    unfold bindScalars at h
    cases h1 : bindScalar t x with
    | error e1 => simp only [h1] at h; cases h; exact bindScalar_err h1
    | ok v =>
      simp only [h1] at h
      cases h2 : bindScalars t rest with
      | error e2 => simp only [h2] at h; cases h; exact ih _ h2
      | ok vs => simp only [h2] at h; cases h

lemma bindField_raises {write : Descriptor → Message → Exec Int}
    (hw : ∀ d m, Exec.raisesOnly Err.ofWrite (write d m)) (field : FieldDescriptor)
    (value : Value) : Exec.raisesOnly Err.ofWrite (bindField write noFind true field value) := by
  unfold bindField
  cases hty : field.type with
  | scalar t =>
    cases value with
    | scalar has x =>
      simp only
      exact Exec.raisesOnly_ofExcept (fun e h => by rw [bindScalar_err h]; rfl)
    | message has x => exact Exec.raisesOnly_throw rfl
    | repeated x => exact Exec.raisesOnly_throw rfl
    | repeatedMessage x => exact Exec.raisesOnly_throw rfl
  | message nd =>
    cases value with
    | message has x =>
      simp only [if_true]
      exact Exec.raisesOnly_bind (hw _ _) (fun k => Exec.raisesOnly_pure _)
    | scalar has x => exact Exec.raisesOnly_throw rfl
    | repeated x => exact Exec.raisesOnly_throw rfl
    | repeatedMessage x => exact Exec.raisesOnly_throw rfl

lemma insertMessageFields_raises {write : Descriptor → Message → Exec Int}
    (hw : ∀ d m, Exec.raisesOnly Err.ofWrite (write d m)) :
    ∀ ps : List (FieldDescriptor × Value),
      Exec.raisesOnly Err.ofWrite (insertMessageFields write noFind true ps) := by
  intro ps
  induction ps with
  | nil => unfold insertMessageFields; exact Exec.raisesOnly_pure _
  | cons p rest ih =>
    obtain ⟨field, value⟩ := p
    unfold insertMessageFields
    split
    · exact Exec.raisesOnly_throw rfl
    · exact Exec.raisesOnly_bind (bindField_raises hw field value)
        (fun v => Exec.raisesOnly_bind ih (fun vs => Exec.raisesOnly_pure _))

lemma writeElements_raises {write : Descriptor → Message → Exec Int}
    (hw : ∀ d m, Exec.raisesOnly Err.ofWrite (write d m)) (d : Descriptor) :
    ∀ ms : List Message, Exec.raisesOnly Err.ofWrite (writeElements write d ms) := by
  intro ms
  induction ms with
  | nil => unfold writeElements; exact Exec.raisesOnly_pure _
  | cons m rest ih =>
    unfold writeElements
    exact Exec.raisesOnly_bind (hw _ _)
      (fun k => Exec.raisesOnly_bind ih (fun vs => Exec.raisesOnly_pure _))

lemma insertMessageRepeatedField_raises {write : Descriptor → Message → Exec Int}
    (hw : ∀ d m, Exec.raisesOnly Err.ofWrite (write d m)) (field : FieldDescriptor)
    (value : Value) :
    Exec.raisesOnly Err.ofWrite (insertMessageRepeatedField write field value) := by
  unfold insertMessageRepeatedField
  cases hty : field.type with
  | scalar t =>
    cases value with
    | repeated xs =>
      simp only
      exact Exec.raisesOnly_ofExcept (fun e h => by rw [bindScalars_err _ _ _ h]; rfl)
    | message has x => exact Exec.raisesOnly_throw rfl
    | scalar has x => exact Exec.raisesOnly_throw rfl
    | repeatedMessage x => exact Exec.raisesOnly_throw rfl
  | message nd =>
    cases value with
    | repeatedMessage ms => exact writeElements_raises hw _ _
    | scalar has x => exact Exec.raisesOnly_throw rfl
    | repeated x => exact Exec.raisesOnly_throw rfl
    | message has x => exact Exec.raisesOnly_throw rfl

lemma removeArray_raises (d : Descriptor) (field : FieldDescriptor) (id : Int) :
    Exec.raisesOnly Err.ofWrite (removeArray d field id) := by
  unfold removeArray
  exact Exec.raisesOnly_bind (Store.prepare_raises _ _) (fun _ => Store.delete_raises _ _)

lemma writeArray_raises {write : Descriptor → Message → Exec Int}
    (hw : ∀ d m, Exec.raisesOnly Err.ofWrite (write d m)) (d : Descriptor)
    (field : FieldDescriptor) (value : Value) (id : Int) :
    Exec.raisesOnly Err.ofWrite (writeArray write d field value id) := by
  unfold writeArray
  refine Exec.raisesOnly_bind (removeArray_raises _ _ _) (fun _ => ?_)
  simp only
  split
  · exact Exec.raisesOnly_pure _
  · refine Exec.raisesOnly_bind (Store.prepare_raises _ _) (fun _ => ?_)
    refine Exec.raisesOnly_bind (insertMessageRepeatedField_raises hw _ _) (fun vals => ?_)
    refine Exec.raisesOnly_bind (Store.insertMany_raises _ _ _) (fun n => ?_)
    split
    · exact Exec.raisesOnly_throw rfl
    · exact Exec.raisesOnly_pure _

lemma writeEntries_raises {write : Descriptor → Message → Exec Int}
    (hw : ∀ d m, Exec.raisesOnly Err.ofWrite (write d m)) (keyField valueField : FieldDescriptor) :
    ∀ ms : List Message,
      Exec.raisesOnly Err.ofWrite (writeEntries write keyField valueField ms) := by
  intro ms
  induction ms with
  | nil => unfold writeEntries; exact Exec.raisesOnly_pure _
  | cons m rest ih =>
    unfold writeEntries
    split
    · exact Exec.raisesOnly_throw rfl
    · exact Exec.raisesOnly_bind (insertMessageFields_raises hw _)
        (fun kv => Exec.raisesOnly_bind ih (fun rows => Exec.raisesOnly_pure _))

lemma writeMap_raises {write : Descriptor → Message → Exec Int}
    (hw : ∀ d m, Exec.raisesOnly Err.ofWrite (write d m)) (d : Descriptor)
    (field : FieldDescriptor) (value : Value) (id : Int) :
    Exec.raisesOnly Err.ofWrite (writeMap write d field value id) := by
  unfold writeMap
  refine Exec.raisesOnly_bind (removeArray_raises _ _ _) (fun _ => ?_)
  simp only
  split
  · exact Exec.raisesOnly_pure _
  · cases hentry : field.message_type with
    | none => exact Exec.raisesOnly_throw rfl
    | some entry =>
      dsimp only
      cases hk : entry.map_key with
      | none =>
        show Exec.raisesOnly Err.ofWrite (Exec.throw .unexpectedType)
        exact Exec.raisesOnly_throw rfl
      | some keyField =>
        cases hv : entry.map_value with
        | none =>
          show Exec.raisesOnly Err.ofWrite (Exec.throw .unexpectedType)
          exact Exec.raisesOnly_throw rfl
        | some valueField =>
          show Exec.raisesOnly Err.ofWrite
            (Exec.bind (Store.prepare (getFieldTableName d field) _) _)
          refine Exec.raisesOnly_bind (Store.prepare_raises _ _) (fun _ => ?_)
          refine Exec.raisesOnly_bind (writeEntries_raises hw _ _ _) (fun rows => ?_)
          refine Exec.raisesOnly_bind (Store.insertMany_raises _ _ _) (fun n => ?_)
          split
          · exact Exec.raisesOnly_throw rfl
          · exact Exec.raisesOnly_pure _

lemma writeMaps_raises {write : Descriptor → Message → Exec Int}
    (hw : ∀ d m, Exec.raisesOnly Err.ofWrite (write d m)) (d : Descriptor) (id : Int) :
    ∀ ps : List (FieldDescriptor × Value),
      Exec.raisesOnly Err.ofWrite (writeMaps write d id ps) := by
  intro ps
  induction ps with
  | nil => unfold writeMaps; exact Exec.raisesOnly_pure _
  | cons p rest ih =>
    obtain ⟨field, value⟩ := p
    unfold writeMaps
    exact Exec.raisesOnly_bind (writeMap_raises hw _ _ _ _) (fun _ => ih)

lemma writeArrays_raises {write : Descriptor → Message → Exec Int}
    (hw : ∀ d m, Exec.raisesOnly Err.ofWrite (write d m)) (d : Descriptor) (id : Int) :
    ∀ ps : List (FieldDescriptor × Value),
      Exec.raisesOnly Err.ofWrite (writeArrays write d id ps) := by
  intro ps
  induction ps with
  | nil => unfold writeArrays; exact Exec.raisesOnly_pure _
  | cons p rest ih =>
    obtain ⟨field, value⟩ := p
    unfold writeArrays
    exact Exec.raisesOnly_bind (writeArray_raises hw _ _ _ _) (fun _ => ih)

/-- Whatever the record and the store, `writeMessageImpl` throws only the errors of the
SQL engine and of a record that does not fit its descriptor. -/
lemma writeMessageImpl_raises : ∀ (fuel : Nat) (d : Descriptor) (m : Message) (hc : Bool),
    Exec.raisesOnly Err.ofWrite (writeMessageImpl fuel d m hc) := by
  intro fuel
  induction fuel with
  | zero =>
    intro d m hc
    unfold writeMessageImpl
    exact Exec.raisesOnly_throw rfl
  | succ fuel ih =>
    intro d m hc
    have hw : ∀ d m, Exec.raisesOnly Err.ofWrite (writeMessageImpl fuel d m false) :=
      fun d m => ih d m false
    unfold writeMessageImpl
    split
    · exact Exec.raisesOnly_throw rfl
    · simp only
      refine Exec.raisesOnly_bind (Store.prepare_raises _ _) (fun _ => ?_)
      refine Exec.raisesOnly_bind (insertMessageFields_raises hw _) (fun vals => ?_)
      refine Exec.raisesOnly_bind (Store.insert_raises _ _ _ _) (fun n => ?_)
      split
      · exact Exec.raisesOnly_throw rfl
      · refine Exec.raisesOnly_bind ?_ (fun id => ?_)
        · intro s e s1 h
          simp [getLastInsertRowid] at h
        · refine Exec.raisesOnly_bind (writeMaps_raises hw _ _ _) (fun _ => ?_)
          exact Exec.raisesOnly_bind (writeArrays_raises hw _ _ _) (fun _ =>
            Exec.raisesOnly_pure _)

lemma transaction_raises {α : Type} {E : Err → Bool} {body : Exec α}
    (h : Exec.raisesOnly E body) : Exec.raisesOnly E (transaction body) := by
  intro s e s1 ht
  unfold transaction at ht
  cases hb : body s with
  | mk r s2 =>
    cases r with
    | error e1 =>
      simp only [hb] at ht
      cases ht
      exact h _ _ _ hb
    | ok a => simp only [hb] at ht; cases ht

/-- Claim C20, as amended (writes do not check the key): whatever the type, the record
and the store, neither `insertMessage` nor `writeMessage` throws the missing-key
error (nor the not-a-key error, nor the no-keys error): they throw only the errors of
the SQL engine and of a record that does not fit its descriptor. -/
theorem writes_never_raise_missing_key (fuel : Nat) (T : Descriptor) (r : Message)
    (s : Store) :
    (insertMessage fuel T r s).1 ≠ .error .noKeyValue ∧
    (writeMessage fuel T r s).1 ≠ .error .noKeyValue ∧
    (match (insertMessage fuel T r s).1 with
      | .ok _ => True
      | .error e => Err.ofWrite e = true) ∧
    (match (writeMessage fuel T r s).1 with
      | .ok _ => True
      | .error e => Err.ofWrite e = true) := by
  have key : ∀ hc e, (transaction (writeMessageImpl fuel T r hc) s).1 = .error e →
      Err.ofWrite e = true := by
    intro hc e h
    exact transaction_raises (writeMessageImpl_raises fuel T r hc) s e
      (transaction (writeMessageImpl fuel T r hc) s).2 (Prod.ext h rfl)
  refine ⟨?_, ?_, ?_, ?_⟩
  · intro h
    have := key false _ h
    simp [Err.ofWrite] at this
  · intro h
    have := key true _ h
    simp [Err.ofWrite] at this
  · unfold insertMessage
    cases h : (transaction (writeMessageImpl fuel T r false) s).1 with
    | ok a => trivial
    | error e => exact key false e h
  · unfold writeMessage
    cases h : (transaction (writeMessageImpl fuel T r true) s).1 with
    | ok a => trivial
    | error e => exact key true e h

/-- Counterexample to C20 as stated: `Tag` declares the key `k`, and the record leaves
it unset (`getMessageKeys` throws the missing-key error for it); `insertMessage` and
`writeMessage` return row id 1 and store the row, its key column holding 0. -/
theorem unset_key_is_stored :
    getMessageKeys Examples.Tag (.mk [.scalar false (.int32 0)]) false = .error .noKeyValue ∧
    (Examples.created 2 Examples.Tag).rows "Tag" = [] ∧
    (insertMessage 2 Examples.Tag (.mk [.scalar false (.int32 0)])
      (Examples.created 2 Examples.Tag)).1 = .ok 1 ∧
    (insertMessage 2 Examples.Tag (.mk [.scalar false (.int32 0)])
      (Examples.created 2 Examples.Tag)).2.rows "Tag" = [⟨1, [.integer 0]⟩] ∧
    (writeMessage 2 Examples.Tag (.mk [.scalar false (.int32 0)])
      (Examples.created 2 Examples.Tag)).1 = .ok 1 ∧
    (writeMessage 2 Examples.Tag (.mk [.scalar false (.int32 0)])
      (Examples.created 2 Examples.Tag)).2.rows "Tag" = [⟨1, [.integer 0]⟩] := by
  refine ⟨by rfl, by rfl, by rfl, by rfl, by rfl, by rfl⟩

end ProtoDatabase

namespace ProtoDatabase

/-! ## A nested record that collides with a stored row -/

lemma insertMessageFields_append {write : Descriptor → Message → Exec Int}
    {find : Descriptor → Message → Store → Except Err (Option Int)} {ins : Bool} :
    ∀ (ps qs : List (FieldDescriptor × Value)) (s sA : Store) (vals : List SqlValue),
      insertMessageFields write find ins (ps ++ qs) s = (.ok vals, sA) →
      ∃ v1 v2 sX, insertMessageFields write find ins ps s = (.ok v1, sX) ∧
        insertMessageFields write find ins qs sX = (.ok v2, sA) ∧ vals = v1 ++ v2 := by
  intro ps
  induction ps with
  | nil =>
    intro qs s sA vals h
    exact ⟨[], vals, s, by simp [insertMessageFields, Exec.pure], h, rfl⟩
  | cons p rest ih =>
    intro qs s sA vals h
    obtain ⟨field, value⟩ := p
    rw [List.cons_append, insertMessageFields] at h
    rw [insertMessageFields]
    split at h
    · simp [Exec.throw] at h
    · rename_i hrep
      simp only [hrep, if_false]
      rcases Exec.bind_cases h with ⟨v, s1, h1, h2⟩ | ⟨e, _, he⟩
      · rcases Exec.bind_cases h2 with ⟨vs, s2, h3, h4⟩ | ⟨e, _, he⟩
        · simp only [Exec.pure, Prod.mk.injEq, Except.ok.injEq] at h4
          obtain ⟨v1, v2, sX, hA, hB, hv⟩ := ih qs s1 s2 vs h3
          refine ⟨v :: v1, v2, sX, ?_, ?_, ?_⟩
          · simp only [Bool.false_eq_true, if_false]
            exact Exec.bind_ok.mpr ⟨v, s1, h1, Exec.bind_ok.mpr ⟨v1, sX, hA, rfl⟩⟩
          · rw [← h4.2]; exact hB
          · rw [← h4.1, hv]; rfl
        · cases he
      · cases he

lemma insertMessageFields_message {write : Descriptor → Message → Exec Int}
    {find : Descriptor → Message → Store → Except Err (Option Int)}
    {f : FieldDescriptor} {N : Descriptor} {has : Bool} {p : Message}
    {qs : List (FieldDescriptor × Value)} {s sA : Store} {vals : List SqlValue}
    (hty : f.type = .message N)
    (h : insertMessageFields write find true ((f, .message has p) :: qs) s = (.ok vals, sA)) :
    ∃ k sY v2, write N p s = (.ok k, sY) ∧
      insertMessageFields write find true qs sY = (.ok v2, sA) := by
  rw [insertMessageFields] at h
  split at h
  · simp [Exec.throw] at h
  · rcases Exec.bind_cases h with ⟨v, s1, h1, h2⟩ | ⟨e, _, he⟩
    · rcases Exec.bind_cases h2 with ⟨vs, s2, h3, h4⟩ | ⟨e, _, he⟩
      · simp only [Exec.pure, Prod.mk.injEq, Except.ok.injEq] at h4
        unfold bindField at h1
        simp only [hty, if_true] at h1
        rcases Exec.bind_cases h1 with ⟨k, sY, h5, h6⟩ | ⟨e, _, he⟩
        · simp only [Exec.pure, Prod.mk.injEq, Except.ok.injEq] at h6
          refine ⟨k, sY, vs, h5, ?_⟩
          rw [h6.2, ← h4.2]; exact h3
        · cases he
      · cases he
    · cases he

/-- One level of `writeMessageImpl` without conflict resolution: the row it inserts,
with the cells bound for the record, is in the main table at the end, and so is every
row the main tables held once the singular fields were bound. -/
lemma writeMessageImpl_stored {sc : List Table × List Trigger}
    {T : List (String × Option String)} (hT : namesAgree T) {fuel : Nat}
    (hw : WriteReads sc T (writeNested fuel)) {d : Descriptor} {m : Message}
    {s s2 : Store} {id : Int} (hd : TypeOk sc T d) (hs : s.schema = sc) (hasc : s.ascending)
    (hconf : Descriptor.conforms d m = true)
    (hbelow : Message.allScalars Scalar.readsBack m = true)
    (h : writeMessageImpl (fuel + 1) d m false s = (.ok id, s2)) :
    ∃ vals sA tb, tableOf sc.1 d.name = some tb ∧
      insertMessageFields (writeNested fuel) noFind true (dataFields d m) s = (.ok vals, sA) ∧
      Pres T (existing T s) s s2 ∧
      (∀ t, (t, none) ∈ T → ∀ r ∈ sA.rows t, r ∈ s2.rows t) ∧
      Row.mk id (tb.buildCells (fieldNames d m) vals) ∈ s2.rows d.name := by
  obtain ⟨hlen, vals, sA, n, sM, sB, _, hvals, hinsert, hid, hmaps, harr⟩ :=
    writeMessageImpl_ok h
  have hmain : (d.name, none) ∈ T := hd.main
  obtain ⟨_, hcv⟩ := Descriptor.conforms_spec hconf
  have hfield : ∀ p ∈ d.fields.zip m.fields, FieldOk sc T d.name p.1 ∧
      FieldDescriptor.conformsValue p.1 p.2 = true ∧
      Value.allScalars Scalar.readsBack p.2 = true :=
    fun p hp => ⟨hd.fieldOk p.1 (List.of_mem_zip hp).1, hcv p hp,
      Value.allScalars_of_mem hbelow (List.of_mem_zip hp).2⟩
  obtain ⟨⟨tb, htb, hcols, hcnd⟩, hnames⟩ := Descriptor.schemaOk_spec hd.1
  -- the singular fields
  obtain ⟨hpA, hfA⟩ := insertMessageFields_reads hw (dataFields d m) s sA vals
    (fun p hp => hfield p (mem_dataFields hp).1) hs hasc hvals
  have hsA : sA.schema = sc := hpA.schema.trans hs
  have htbA : sA.table? d.name = some tb := by rw [Store.table?_of_schema hsA]; exact htb
  -- the row of the main table
  have hup : (false && !(fieldNames d m).isEmpty) = false ∨ sA.rows d.name = [] := by
    left; rfl
  have hsM := Store.insert_new htbA hup hinsert
  have hidM : id = nextId (sA.rows d.name) := by rw [hid, hsM]
  subst hidM
  have hpM : Pres T (fun t _ => t ≠ d.name) sA sM := by
    rw [hsM]
    exact Pres.of_append T _ sA d.name _ _ (fun _ _ _ hq => absurd rfl hq)
  have hrow : (Row.mk (nextId (sA.rows d.name)) (tb.buildCells (fieldNames d m) vals)) ∈
      sM.rows d.name := by
    rw [hsM]
    simp [Store.setRows]
  have hidnotA : nextId (sA.rows d.name) ∉ sA.ids d.name := nextId_not_mem _
  have hidnot : nextId (sA.rows d.name) ∉ s.ids d.name := fun hc => hidnotA (hpA.ids hmain hc)
  have hidin : nextId (sA.rows d.name) ∈ sM.ids d.name := List.mem_map.mpr ⟨_, hrow, rfl⟩
  have hpAM : Pres T (existing T s) s sM :=
    hpA.andThen (hpM.weaken (fun t o he ht => not_existing_main hT hmain o (ht ▸ he)))
  have hsM2 : sM.schema = sc := hpAM.schema.trans hs
  -- the map fields
  obtain ⟨hpB, hfB⟩ := fields_phase hT hmain
    (fun f v => writeMap (writeNested fuel) d f v (nextId (sA.rows d.name)))
    (writeMaps (writeNested fuel) d (nextId (sA.rows d.name)))
    (by rw [writeMaps]) (fun f v rest => by rw [writeMaps])
    (fun s3 fu p => mapRead (findMessageById fu s3) s3 d (nextId (sA.rows d.name)) p)
    (fun p => FieldOk sc T d.name p.1 ∧ p.1.label = .map ∧
      FieldDescriptor.conformsValue p.1 p.2 = true ∧
      Value.allScalars Scalar.readsBack p.2 = true)
    (fun p hg => (hg.1.mapRole hg.2.1).1)
    (fun p hg s s2 hs hasc hid h =>
      writeMap_reads hT hw hg.1 hg.2.1 hmain hg.2.2.1 hg.2.2.2 hs hasc hid h)
    (mapFields d m) sM sB
    (fun p hp => ⟨(hfield p (mem_mapFields hp).1).1, (mem_mapFields hp).2.2,
      (hfield p (mem_mapFields hp).1).2⟩)
    (names_nodup_filter _ hnames) hsM2 (hpAM.ascending hasc) hidin hmaps
  have hroleM : ∀ t ∈ (mapFields d m).map (fun p => getFieldTableName d p.1),
      (t, some d.name) ∈ T := by
    intro t ht
    obtain ⟨q, hq, rfl⟩ := List.mem_map.mp ht
    exact ((hfield q (mem_mapFields hq).1).1.mapRole (mem_mapFields hq).2.2).1
  have hpAB : Pres T (existing T s) s sB := by
    refine hpAM.andThen (hpB.weaken ?_)
    intro t o he
    refine ⟨existing_mono hpAM he, fun hc => ?_⟩
    have := existing_owner hT (hroleM t hc.2) he
    rw [hc.1] at this
    exact hidnot this
  have hidinB : nextId (sA.rows d.name) ∈ sB.ids d.name := hpB.ids hmain hidin
  -- the repeated fields
  obtain ⟨hpC, hfC⟩ := fields_phase hT hmain
    (fun f v => writeArray (writeNested fuel) d f v (nextId (sA.rows d.name)))
    (writeArrays (writeNested fuel) d (nextId (sA.rows d.name)))
    (by rw [writeArrays]) (fun f v rest => by rw [writeArrays])
    (fun s3 fu p => arrayRead (findMessageById fu s3) s3 d (nextId (sA.rows d.name)) p)
    (fun p => FieldOk sc T d.name p.1 ∧ p.1.label = .repeated ∧
      FieldDescriptor.conformsValue p.1 p.2 = true ∧
      Value.allScalars Scalar.readsBack p.2 = true)
    (fun p hg => (hg.1.repeatedRole hg.2.1).1)
    (fun p hg s s2 hs hasc hid h =>
      writeArray_reads hT hw hg.1 hg.2.1 hmain hg.2.2.1 hg.2.2.2 hs hasc hid h)
    (repeatedFields d m) sB s2
    (fun p hp => ⟨(hfield p (mem_repeatedFields hp).1).1, (mem_repeatedFields hp).2.2,
      (hfield p (mem_repeatedFields hp).1).2⟩)
    (names_nodup_filter _ hnames) (hpAB.schema.trans hs) (hpAB.ascending hasc) hidinB harr
  have hroleR : ∀ t ∈ (repeatedFields d m).map (fun p => getFieldTableName d p.1),
      (t, some d.name) ∈ T := by
    intro t ht
    obtain ⟨q, hq, rfl⟩ := List.mem_map.mp ht
    exact ((hfield q (mem_repeatedFields hq).1).1.repeatedRole (mem_repeatedFields hq).2.2).1
  have hpAC : Pres T (existing T s) s s2 := by
    refine hpAB.andThen (hpC.weaken ?_)
    intro t o he
    refine ⟨existing_mono hpAB he, fun hc => ?_⟩
    have := existing_owner hT (hroleR t hc.2) he
    rw [hc.1] at this
    exact hidnot this
  exact ⟨vals, sA, tb, htb, hvals, hpAC,
    fun t ht r hr => hpC.main t ht r (hpB.main t ht r (hpM.main t ht r hr)),
    hpC.main _ hmain _ (hpB.main _ hmain _ hrow)⟩

lemma conforms_nested {f : FieldDescriptor} {N : Descriptor} {has : Bool} {p : Message}
    (hty : f.type = .message N) (hl : f.label = .singular)
    (h : FieldDescriptor.conformsValue f (.message has p) = true) :
    Descriptor.conforms N p = true := by
  rw [FieldDescriptor.conformsValue_eq, hty, hl] at h
  simpa [FieldType.conformsValue] using h

lemma label_of_conforms_message {f : FieldDescriptor} {N : Descriptor} {has : Bool}
    {p : Message} (hty : f.type = .message N)
    (h : FieldDescriptor.conformsValue f (.message has p) = true) : f.label = .singular := by
  rw [FieldDescriptor.conformsValue_eq, hty] at h
  cases hlab : f.label with
  | singular => rfl
  | repeated => rw [hlab] at h; simp [FieldType.conformsValue] at h
  | map => rw [hlab] at h; simp [FieldType.conformsValue] at h

lemma allScalars_nested {q : Scalar → Bool} {has : Bool} {p : Message}
    (h : Value.allScalars q (.message has p) = true) : Message.allScalars q p = true := by
  simpa [Value.allScalars] using h

/-- The nested record of a singular field that a successful `insertMessageFields`
went through was written by `write`, in a store that keeps what the first one held. -/
lemma nested_write_of_mem {sc : List Table × List Trigger}
    {T : List (String × Option String)} {write : Descriptor → Message → Exec Int}
    (hw : WriteReads sc T write) {owner : String} {ps : List (FieldDescriptor × Value)}
    {s sA : Store} {vals : List SqlValue} {f : FieldDescriptor} {N : Descriptor} {has : Bool}
    {p : Message}
    (hps : ∀ q ∈ ps, FieldOk sc T owner q.1 ∧ FieldDescriptor.conformsValue q.1 q.2 = true ∧
      Value.allScalars Scalar.readsBack q.2 = true)
    (hs : s.schema = sc) (hasc : s.ascending)
    (h : insertMessageFields write noFind true ps s = (.ok vals, sA))
    (hf : (f, Value.message has p) ∈ ps) (hty : f.type = .message N) :
    ∃ sX sY k, Pres T (existing T s) s sX ∧ write N p sX = (.ok k, sY) ∧
      Pres T (existing T sY) sY sA ∧ sY.schema = sc ∧ sY.ascending := by
  obtain ⟨pre, post, hsplit⟩ := List.append_of_mem hf
  subst hsplit
  obtain ⟨v1, v2, sX, hpre, hrest, _⟩ := insertMessageFields_append pre _ s sA vals h
  obtain ⟨k, sY, v3, hnest, hpost⟩ := insertMessageFields_message hty hrest
  obtain ⟨hpX, _⟩ := insertMessageFields_reads hw pre s sX v1
    (fun q hq => hps q (List.mem_append_left _ hq)) hs hasc hpre
  have hfok := hps _ (List.mem_append_right pre (List.mem_cons_self _ post))
  have hl : f.label = .singular := label_of_conforms_message hty hfok.2.1
  have hN : TypeOk sc T N := hfok.1.nested hl hty
  obtain ⟨hpXY, _, _, _⟩ := hw N p sX sY k hN (hpX.schema.trans hs) (hpX.ascending hasc)
    (conforms_nested hty hl hfok.2.1) (allScalars_nested hfok.2.2) hnest
  have hsY : sY.schema = sc := hpXY.schema.trans (hpX.schema.trans hs)
  have hascY : sY.ascending := hpXY.ascending (hpX.ascending hasc)
  obtain ⟨hpYA, _⟩ := insertMessageFields_reads hw post sY sA v3
    (fun q hq => hps q (List.mem_append_right pre (List.mem_cons_of_mem _ hq))) hsY hascY hpost
  exact ⟨sX, sY, k, hpX, hnest, hpYA, hsY, hascY⟩

lemma dataFields_ready {sc : List Table × List Trigger} {T : List (String × Option String)}
    {d : Descriptor} {m : Message} (hd : TypeOk sc T d)
    (hconf : Descriptor.conforms d m = true)
    (hbelow : Message.allScalars Scalar.readsBack m = true) :
    ∀ q ∈ dataFields d m, FieldOk sc T d.name q.1 ∧
      FieldDescriptor.conformsValue q.1 q.2 = true ∧
      Value.allScalars Scalar.readsBack q.2 = true := by
  intro q hq
  obtain ⟨_, hcv⟩ := Descriptor.conforms_spec hconf
  exact ⟨hd.fieldOk q.1 (mem_dataFields hq).2.1, hcv q (mem_dataFields hq).1,
    Value.allScalars_of_mem hbelow (List.of_mem_zip (mem_dataFields hq).1).2⟩

/-- After a record was inserted, the write of a record whose nested record under the
field `f` has the same values in the columns of one `UNIQUE` constraint of the nested
table throws the constraint error: the nested record is inserted without conflict
resolution. -/
lemma second_write_collides {fuel : Nat} {d N : Descriptor} {f : FieldDescriptor}
    {r1 r2 p1 p2 : Message} {b1 b2 : Bool} {s0 s1 : Store} {id1 : Int} {tbN : Table}
    {u : List String} (hc : Bool)
    (hT : namesAgree d.tables) (hschema : Descriptor.schemaOk s0.schema d = true)
    (hasc : s0.ascending) (hdepth : d.depth ≤ fuel)
    (hconf1 : Descriptor.conforms d r1 = true) (hconf2 : Descriptor.conforms d r2 = true)
    (hbelow1 : Message.allScalars Scalar.readsBack r1 = true)
    (hbelow2 : Message.allScalars Scalar.readsBack r2 = true)
    (hf1 : (f, Value.message b1 p1) ∈ dataFields d r1)
    (hf2 : (f, Value.message b2 p2) ∈ dataFields d r2)
    (hty : f.type = .message N) (htb : s0.table? N.name = some tbN) (hu : u ∈ tbN.uniques)
    (hcols : ∀ c ∈ u, ∃ kf t x c1 c2, c = getColumnName kf.name ∧ kf.type = .scalar t ∧
      (kf, Value.scalar c1 x) ∈ dataFields N p1 ∧ (kf, Value.scalar c2 x) ∈ dataFields N p2)
    (hfirst : writeMessageImpl fuel d r1 false s0 = (.ok id1, s1)) :
    ∃ s2, writeMessageImpl fuel d r2 hc s1 = (.error .constraint, s2) := by
  obtain ⟨fuel1, rfl⟩ := writeMessageImpl_fuel hfirst
  have hd : TypeOk s0.schema d.tables d := ⟨hschema, fun x hx => hx⟩
  have hw := @writeNested_reads s0.schema _ hT fuel1
  have hfield1 := dataFields_ready hd hconf1 hbelow1
  have hfield2 := dataFields_ready hd hconf2 hbelow2
  have hl : f.label = .singular := label_of_conforms_message hty (hfield1 _ hf1).2.1
  have hN : TypeOk s0.schema d.tables N := (hfield1 _ hf1).1.nested hl hty
  have hNmain : (N.name, none) ∈ d.tables := hN.main
  have hconfN1 := conforms_nested hty hl (hfield1 _ hf1).2.1
  have hconfN2 := conforms_nested hty hl (hfield2 _ hf2).2.1
  have hbelowN1 := allScalars_nested (hfield1 _ hf1).2.2
  have hbelowN2 := allScalars_nested (hfield2 _ hf2).2.2
  have htbN : tableOf s0.schema.1 N.name = some tbN := by
    rw [← Store.table?_of_schema rfl]; exact htb
  -- the first write stores the row of the nested record
  obtain ⟨vals, sA, tbd, _, hvals, hp01, hmainA, _⟩ :=
    writeMessageImpl_stored hT hw hd rfl hasc hconf1 hbelow1 hfirst
  obtain ⟨sX, sY, k, hpX, hnest, hpYA, hsY, hascY⟩ :=
    nested_write_of_mem hw hfield1 rfl hasc hvals hf1 hty
  unfold writeNested at hnest
  obtain ⟨fuel2, rfl⟩ := writeMessageImpl_fuel hnest
  have hw2 := @writeNested_reads s0.schema _ hT fuel2
  have hsX : sX.schema = s0.schema := hpX.schema
  obtain ⟨valsN, sAN, tbN1, htbN1, hvalsN, _, _, hrowN⟩ :=
    writeMessageImpl_stored hT hw2 hN hsX (hpX.ascending hasc) hconfN1 hbelowN1 hnest
  rw [htbN] at htbN1
  simp only [Option.some.injEq] at htbN1
  subst htbN1
  have hrow1 : Row.mk k (tbN.buildCells (fieldNames N p1) valsN) ∈ s1.rows N.name :=
    hmainA _ hNmain _ (hpYA.main _ hNmain _ hrowN)
  have hs1 : s1.schema = s0.schema := hp01.schema
  have hasc1 : s1.ascending := hp01.ascending hasc
  -- the second write returns or throws the constraint error
  cases hres : writeMessageImpl (fuel2 + 1 + 1) d r2 hc s1 with
  | mk res s2 =>
    obtain ⟨_, hyield⟩ := writeMessageImpl_yields s0.schema (d.tables.map (fun x => x.1))
      (fuel2 + 1 + 1) d r2 hc hdepth (TypeIn.self hschema) hconf2 s1 res s2 hs1 hres
    rcases hyield with ⟨a, ha, _⟩ | hcon
    · exfalso
      subst ha
      obtain ⟨_, vals2, sA2, _, _, _, _, hvals2, _, _, _, _⟩ := writeMessageImpl_ok hres
      obtain ⟨sX2, sY2, k2, hpX2, hnest2, _, _, _⟩ :=
        nested_write_of_mem hw hfield2 hs1 hasc1 hvals2 hf2 hty
      unfold writeNested at hnest2
      have hsX2 : sX2.schema = s0.schema := hpX2.schema.trans hs1
      obtain ⟨hlenN2, valsN2, sAN2, n, sM, sB, _, hvalsN2, hinsN2, _, _, _⟩ :=
        writeMessageImpl_ok hnest2
      obtain ⟨hpN2, _⟩ := insertMessageFields_reads hw2 (dataFields N p2) sX2 sAN2 valsN2
        (dataFields_ready hN hconfN2 hbelowN2) hsX2 (hpX2.ascending hasc1) hvalsN2
      have hrow2 : Row.mk k (tbN.buildCells (fieldNames N p1) valsN) ∈ sAN2.rows N.name :=
        hpN2.main _ hNmain _ (hpX2.main _ hNmain _ hrow1)
      obtain ⟨tb2, htb2, _, _, hcase⟩ := Store.insert_ok hinsN2
      have htb2eq : tb2 = tbN := by
        rw [Store.table?_of_schema (hpN2.schema.trans hsX2), htbN] at htb2
        simpa using htb2.symm
      subst htb2eq
      rcases hcase with ⟨hnone, _⟩ | ⟨hup, _⟩
      · have hno := Table.conflictRow?_none hnone u hu _ hrow2
        have hyes : tb2.conflictsOn (tb2.buildCells (fieldNames N p2) valsN2) u
            (Row.mk k (tb2.buildCells (fieldNames N p1) valsN)) = true := by
          unfold Table.conflictsOn
          rw [List.all_eq_true]
          intro c hcu
          obtain ⟨kf, t, x, c1, c2, rfl, hkt, hk1, hk2⟩ := hcols c hcu
          have hschN1 : Descriptor.schemaOk sX.schema N = true := by rw [hsX]; exact hN.1
          have hschN2 : Descriptor.schemaOk sX2.schema N = true := by rw [hsX2]; exact hN.1
          have htX : sX.table? N.name = some tb2 := by
            rw [Store.table?_of_schema hsX]; exact htbN
          have htX2 : sX2.table? N.name = some tb2 := by
            rw [Store.table?_of_schema hsX2]; exact htbN
          obtain ⟨_, x1, v1, hx1, hb1, hcell1⟩ := stored_scalar_cell hschN1 htX
            (Descriptor.conforms_spec hconfN1).1 hvalsN hk1 hkt
          obtain ⟨_, x2, v2, hx2, hb2, hcell2⟩ := stored_scalar_cell hschN2 htX2
            hlenN2 hvalsN2 hk2 hkt
          simp only [Value.scalar.injEq] at hx1 hx2
          rw [← hx1.2] at hb1
          rw [← hx2.2, hb1] at hb2
          simp only [Except.ok.injEq] at hb2
          subst hb2
          rw [hcell2, hcell1]
          simp only [Bool.and_eq_true, bne_iff_ne, ne_eq, beq_self_eq_true, and_true]
          have hxn : x.isNaN = false := Scalar.isNaN_of_readsBack (by
            have := (dataFields_ready hN hconfN1 hbelowN1 _ hk1).2.2
            simpa [Value.allScalars] using this)
          exact applyAffinity_ne_null _ _ (bindScalar_ne_null hb1 hxn)
        rw [hyes] at hno
        cases hno
      · simp at hup
    · exact ⟨s2, by rw [hcon]⟩

end ProtoDatabase

namespace ProtoDatabase

/-! ## Statements that run -/

theorem FieldDescriptor.tables_eq (owner : String) (f : FieldDescriptor) :
    FieldDescriptor.tables owner f = FieldType.tables owner f.name f.label f.type := by
  cases f with
  | mk n l t k => rw [FieldDescriptor.tables]; rfl

end ProtoDatabase

namespace ProtoDatabase

/-! ## Records with the same nested key -/

/-- On a store that holds the tables of `T`, let `pos` be a singular field of `T` whose
type `N` has a scalar field `kf` with a `UNIQUE` constraint on its column (a key of
`N`).  After `insertMessage` of a conforming record, `writeMessage` of a conforming
record whose nested record under `pos` has the same value of `kf` throws the constraint
error and leaves the schema and the rows of every table as they were: the nested record
is inserted without conflict resolution before the owner row is upserted. -/
lemma write_with_stored_nested_key_fails (fuel : Nat) (T N : Descriptor)
    (pos kf : FieldDescriptor) (t : CppType) (x : Scalar) (r1 r2 p1 p2 : Message)
    (b1 b2 c1 c2 : Bool) (s0 s1 : Store) (id1 : Int) (tbN : Table)
    (hT : namesAgree T.tables) (hschema : Descriptor.schemaOk s0.schema T = true)
    (hasc : s0.ascending) (hdepth : T.depth ≤ fuel)
    (hconf1 : Descriptor.conforms T r1 = true) (hconf2 : Descriptor.conforms T r2 = true)
    (hbelow1 : Message.allScalars Scalar.readsBack r1 = true)
    (hbelow2 : Message.allScalars Scalar.readsBack r2 = true)
    (hpos1 : (pos, Value.message b1 p1) ∈ dataFields T r1)
    (hpos2 : (pos, Value.message b2 p2) ∈ dataFields T r2)
    (hty : pos.type = .message N) (hkt : kf.type = .scalar t)
    (hk1 : (kf, Value.scalar c1 x) ∈ dataFields N p1)
    (hk2 : (kf, Value.scalar c2 x) ∈ dataFields N p2)
    (htb : s0.table? N.name = some tbN) (hu : [getColumnName kf.name] ∈ tbN.uniques)
    (hfirst : insertMessage fuel T r1 s0 = (.ok id1, s1)) :
    (writeMessage fuel T r2 s1).1 = .error .constraint ∧
    (writeMessage fuel T r2 s1).2.schema = s1.schema ∧
    (writeMessage fuel T r2 s1).2.rows = s1.rows := by
  obtain ⟨s2, h2⟩ := second_write_collides true hT hschema hasc hdepth hconf1 hconf2
    hbelow1 hbelow2 hpos1 hpos2 hty htb hu
    (fun c hc => by
      rw [List.mem_singleton] at hc
      exact ⟨kf, t, x, c1, c2, hc, hkt, hk1, hk2⟩)
    (transaction_ok hfirst)
  have ht : writeMessage fuel T r2 s1 =
      (.error .constraint, { s1 with lastInsertRowid := s2.lastInsertRowid }) := by
    unfold writeMessage transaction
    rw [h2]
  rw [ht]
  exact ⟨rfl, rfl, rfl⟩

/-- Claim C11 (code defect): in the scenario of the specification,
`insertMessage(Item{pos: Pos{4, 8}, data: "a"})` returns row id 1;
`writeMessage(Item{pos: Pos{4, 8}, data: "b"})` then throws the constraint error instead
of updating the row, `insertMessageFields` having inserted the nested `Pos{4, 8}` without
conflict resolution; the tables are left as they were, and the lookup by the key
`Pos{4, 8}` returns the record with the data `"a"`. -/
theorem write_on_nested_key_is_rejected :
    (insertMessage 2 Examples.Slot (Examples.slot (Examples.pos 4 8) "a")
      (Examples.created 2 Examples.Slot)).1 = .ok 1 ∧
    (writeMessage 2 Examples.Slot (Examples.slot (Examples.pos 4 8) "b")
      (Examples.inserted 2 Examples.Slot (Examples.slot (Examples.pos 4 8) "a")
        (Examples.created 2 Examples.Slot))).1 = .error .constraint ∧
    findMessageByKey 2 Examples.Slot (.mk "pos" .singular (.message Examples.KPos) (some true))
      (.message Examples.KPos (Examples.pos 4 8))
      (writeMessage 2 Examples.Slot (Examples.slot (Examples.pos 4 8) "b")
        (Examples.inserted 2 Examples.Slot (Examples.slot (Examples.pos 4 8) "a")
          (Examples.created 2 Examples.Slot))).2 =
      .ok (some (Examples.slot (Examples.pos 4 8) "a")) ∧
    (writeMessage 2 Examples.Slot (Examples.slot (Examples.pos 4 8) "b")
      (Examples.inserted 2 Examples.Slot (Examples.slot (Examples.pos 4 8) "a")
        (Examples.created 2 Examples.Slot))).2.rows "Item" = [⟨1, [.integer 1, .text "a"]⟩] ∧
    (writeMessage 2 Examples.Slot (Examples.slot (Examples.pos 4 8) "b")
      (Examples.inserted 2 Examples.Slot (Examples.slot (Examples.pos 4 8) "a")
        (Examples.created 2 Examples.Slot))).2.rows "Pos" = [⟨1, [.integer 4, .integer 8]⟩] := by
  refine ⟨by rfl, by rfl, by rfl, by rfl, by rfl⟩

/-- In a record that conforms to a type, a singular scalar field has a scalar value. -/
lemma scalar_dataField {N : Descriptor} {p : Message} (hconf : Descriptor.conforms N p = true)
    {kf : FieldDescriptor} (hkf : kf ∈ N.fields) (hl : kf.label = .singular) {t : CppType}
    (ht : kf.type = .scalar t) : ∃ c x, (kf, Value.scalar c x) ∈ dataFields N p := by
  obtain ⟨hlen, hcv⟩ := Descriptor.conforms_spec hconf
  have h1 : kf.is_map = false := by simp [FieldDescriptor.is_map, hl]
  have h2 : kf.is_repeated = false := by simp [FieldDescriptor.is_repeated, hl]
  obtain ⟨v, hv⟩ := exists_dataField hlen hkf h1 h2
  have hc := hcv _ (mem_dataFields hv).1
  rw [FieldDescriptor.conformsValue_eq] at hc
  simp only [hl, ht] at hc
  cases v with
  | scalar c x => exact ⟨c, x, hv⟩
  | message c m => simp [FieldType.conformsValue] at hc
  | repeated xs => simp [FieldType.conformsValue] at hc
  | repeatedMessage ms => simp [FieldType.conformsValue] at hc

end ProtoDatabase

namespace ProtoDatabase

/-! ## Creating the tables of a type twice -/

lemma Store.within_refl (s : Store) : s.within s := ⟨fun _ h => h, fun _ h => h⟩

lemma Store.within_trans {s1 s2 s3 : Store} (h1 : s1.within s2) (h2 : s2.within s3) :
    s1.within s3 :=
  ⟨fun n h => h2.1 n (h1.1 n h), fun n h => h2.2 n (h1.2 n h)⟩

lemma tableOf_isSome (tables : List Table) (n : String) :
    (tableOf tables n).isSome = true ↔ n ∈ tables.map (fun t => t.name) := by
  unfold tableOf
  rw [List.find?_isSome]
  simp only [beq_iff_eq, List.mem_map]

lemma Exec.settles_bind {α β : Type} {m : Exec α} {f : α → Exec β}
    (hm : Exec.settles m) (hf : ∀ a, Exec.settles (f a)) : Exec.settles (Exec.bind m f) := by
  intro s r s1 h
  rcases Exec.bind_cases h with ⟨a, sm, h1, h2⟩ | ⟨e, h1, hr⟩
  · obtain ⟨hr1, hl1, hok1⟩ := hm s _ sm h1
    obtain ⟨hr2, hl2, hok2⟩ := hf a sm r s1 h2
    obtain ⟨hw1, hre1⟩ := hok1 a rfl
    refine ⟨hr2.trans hr1, hl2.trans hl1, fun b hb => ?_⟩
    obtain ⟨hw2, hre2⟩ := hok2 b hb
    refine ⟨Store.within_trans hw1 hw2, fun s2 hs2 => ?_⟩
    exact Exec.bind_ok.mpr ⟨a, s2, hre1 s2 (Store.within_trans hw2 hs2), hre2 s2 hs2⟩
  · obtain ⟨hr1, hl1, _⟩ := hm s _ s1 h1
    refine ⟨hr1, hl1, fun b hb => ?_⟩
    rw [hr] at hb
    cases hb

lemma Exec.settles_pure {α : Type} (a : α) : Exec.settles (Exec.pure a) := by
  intro s r s1 h
  simp only [Exec.pure, Prod.mk.injEq] at h
  obtain ⟨hr, hs⟩ := h
  subst hs
  refine ⟨rfl, rfl, fun b hb => ⟨Store.within_refl _, fun s2 _ => ?_⟩⟩
  rw [← hr] at hb
  simp only [Except.ok.injEq] at hb
  rw [← hb]
  rfl

lemma Exec.settles_throw {α : Type} (e : Err) : Exec.settles (Exec.throw e : Exec α) := by
  intro s r s1 h
  simp only [Exec.throw, Prod.mk.injEq] at h
  obtain ⟨hr, hs⟩ := h
  subst hs
  refine ⟨rfl, rfl, fun b hb => ?_⟩
  rw [← hr] at hb
  cases hb

lemma Store.createTable_settles (name : String) (columns : List (String × SqlType))
    (uniques : List (List String)) (foreignKeys : List (String × String)) :
    Exec.settles (Store.createTable name columns uniques foreignKeys) := by
  intro s r s1 h
  unfold Store.createTable at h
  split at h
  · simp only [Prod.mk.injEq] at h
    obtain ⟨hr, hs⟩ := h
    subst hs
    exact ⟨rfl, rfl, fun b hb => by rw [← hr] at hb; cases hb⟩
  · rename_i hu
    split at h
    · simp only [Prod.mk.injEq] at h
      obtain ⟨hr, hs⟩ := h
      subst hs
      exact ⟨rfl, rfl, fun b hb => by rw [← hr] at hb; cases hb⟩
    · rename_i hc
      have hrerun : ∀ s2 : Store, (s2.table? name).isSome = true →
          Store.createTable name columns uniques foreignKeys s2 = (.ok (), s2) := by
        intro s2 h2
        unfold Store.createTable
        rw [if_neg hu, if_neg hc]
        cases h3 : s2.table? name with
        | none => rw [h3] at h2; cases h2
        | some tb => rfl
      split at h
      · rename_i tb htb
        simp only [Prod.mk.injEq] at h
        obtain ⟨hr, hs⟩ := h
        subst hs
        refine ⟨rfl, rfl, fun b hb => ⟨Store.within_refl _, fun s2 hs2 => ?_⟩⟩
        exact hrerun s2 (hs2.1 name (by rw [htb]; rfl))
      · rename_i htb
        simp only [Prod.mk.injEq] at h
        obtain ⟨hr, hs⟩ := h
        subst hs
        refine ⟨rfl, rfl, fun b hb => ⟨⟨fun n hn => ?_, fun n hn => hn⟩, fun s2 hs2 => ?_⟩⟩
        · unfold Store.table? at hn ⊢
          rw [tableOf_isSome] at hn ⊢
          simp only [List.map_append, List.mem_append]
          exact Or.inl hn
        · refine hrerun s2 (hs2.1 name ?_)
          unfold Store.table?
          rw [tableOf_isSome]
          simp

lemma Store.createTrigger_settles (trg : Trigger) : Exec.settles (Store.createTrigger trg) := by
  intro s r s1 h
  unfold Store.createTrigger at h
  split at h
  · simp only [Prod.mk.injEq] at h
    obtain ⟨hr, hs⟩ := h
    subst hs
    exact ⟨rfl, rfl, fun b hb => by rw [← hr] at hb; cases hb⟩
  · rename_i tb htb
    have hrerun : ∀ s2 : Store, (s2.table? trg.table).isSome = true →
        s2.triggers.any (fun x => x.name == trg.name) = true →
        Store.createTrigger trg s2 = (.ok (), s2) := by
      intro s2 h2 h3
      unfold Store.createTrigger
      cases h4 : s2.table? trg.table with
      | none => rw [h4] at h2; cases h2
      | some tb2 => simp only [h3, if_true]
    split at h
    · rename_i hany
      simp only [Prod.mk.injEq] at h
      obtain ⟨hr, hs⟩ := h
      subst hs
      refine ⟨rfl, rfl, fun b hb => ⟨Store.within_refl _, fun s2 hs2 => ?_⟩⟩
      exact hrerun s2 (hs2.1 _ (by rw [htb]; rfl)) (hs2.2 _ hany)
    · simp only [Prod.mk.injEq] at h
      obtain ⟨hr, hs⟩ := h
      subst hs
      refine ⟨rfl, rfl, fun b hb => ⟨⟨fun n hn => hn, fun n hn => ?_⟩, fun s2 hs2 => ?_⟩⟩
      · simp only [List.any_append, Bool.or_eq_true]
        exact Or.inl hn
      · refine hrerun s2 (hs2.1 _ (by show (s.table? trg.table).isSome = true; rw [htb]; rfl))
          (hs2.2 _ ?_)
        simp

lemma createMapTable_settles {create : Descriptor → Bool → Exec Unit}
    (hc : ∀ d u, Exec.settles (create d u)) (descriptor : Descriptor)
    (field : FieldDescriptor) : Exec.settles (createMapTable create descriptor field) := by
  unfold createMapTable
  cases hentry : field.message_type with
  | none => exact Exec.settles_throw _
  | some entry =>
    dsimp only
    cases hk : entry.map_key with
    | none =>
      show Exec.settles (Exec.throw .notMessageType)
      exact Exec.settles_throw _
    | some keyField =>
      cases hv : entry.map_value with
      | none =>
        show Exec.settles (Exec.throw .notMessageType)
        exact Exec.settles_throw _
      | some valueField =>
        dsimp only
        cases hty : valueField.type with
        | message typeDesc =>
          exact Exec.settles_bind (hc _ _) (fun _ => Store.createTable_settles _ _ _ _)
        | scalar t => exact Store.createTable_settles _ _ _ _

lemma createArrayTable_settles {create : Descriptor → Bool → Exec Unit}
    (hc : ∀ d u, Exec.settles (create d u)) (descriptor : Descriptor)
    (field : FieldDescriptor) : Exec.settles (createArrayTable create descriptor field) := by
  unfold createArrayTable
  dsimp only
  cases hty : field.type with
  | message nested =>
    exact Exec.settles_bind (hc _ _) (fun _ => Store.createTable_settles _ _ _ _)
  | scalar t => exact Store.createTable_settles _ _ _ _

lemma createTableLoop_settles {create : Descriptor → Bool → Exec Unit}
    (hc : ∀ d u, Exec.settles (create d u)) (descriptor : Descriptor) :
    ∀ (fs : List FieldDescriptor) (acc : CreateAcc),
      Exec.settles (createTableLoop create descriptor fs acc) := by
  intro fs
  induction fs with
  | nil => intro acc; unfold createTableLoop; exact Exec.settles_pure _
  | cons field rest ih =>
    intro acc
    unfold createTableLoop
    dsimp only
    split
    · exact Exec.settles_bind (createMapTable_settles hc _ _) (fun _ => ih _)
    · split
      · exact Exec.settles_bind (createArrayTable_settles hc _ _) (fun _ => ih _)
      · cases hty : field.type with
        | message nested => exact Exec.settles_bind (hc _ _) (fun _ => ih _)
        | scalar t => exact ih _

lemma createTriggers_settles (descriptor : Descriptor) :
    ∀ keys : List (String × String), Exec.settles (createTriggers descriptor keys) := by
  intro keys
  induction keys with
  | nil => unfold createTriggers; exact Exec.settles_pure _
  | cons key rest ih =>
    unfold createTriggers
    exact Exec.settles_bind (Store.createTrigger_settles _) (fun _ => ih)

/-- Whatever the type and the store, `createTableImpl` changes no row; where it returns,
it returns again, changing nothing, in every store that has the tables and triggers
it leaves. -/
lemma createTableImpl_settles : ∀ (fuel : Nat) (d : Descriptor) (u : Bool),
    Exec.settles (createTableImpl fuel d u) := by
  intro fuel
  induction fuel with
  | zero => intro d u; unfold createTableImpl; exact Exec.settles_throw _
  | succ fuel ih =>
    intro d u
    unfold createTableImpl
    exact Exec.settles_bind (createTableLoop_settles ih _ _ _) (fun acc =>
      Exec.settles_bind (Store.createTable_settles _ _ _ _)
        (fun _ => createTriggers_settles _ _))

/-- Claim C14 (the schema is created once): whatever the type and the store, a second
`createTable` of the type, on the store the first call left, returns what the first
call returned and leaves that store as it is: the tables, their count and the triggers
are those after one call, and the second call fails only where the first one did. -/
theorem createTable_twice (fuel : Nat) (T : Descriptor) (s : Store) :
    createTable fuel T (createTable fuel T s).2 = createTable fuel T s := by
  unfold createTable
  cases h : createTableImpl fuel T false s with
  | mk r s1 =>
    obtain ⟨hrows, hlast, hok⟩ := createTableImpl_settles fuel T false s r s1 h
    cases r with
    | ok a =>
      obtain ⟨_, hre⟩ := hok a rfl
      have h1 : transaction (createTableImpl fuel T false) s = (.ok a, s1) := by
        unfold transaction; rw [h]
      rw [h1]
      unfold transaction
      rw [hre s1 (Store.within_refl _)]
    | error e =>
      have h1 : transaction (createTableImpl fuel T false) s = (.error e, s) := by
        unfold transaction
        rw [h]
        simp only [hlast]
      rw [h1]
      exact h1

end ProtoDatabase

namespace ProtoDatabase

/-! ## The tables `createTable` creates -/

lemma Descriptor.creatable_mk (name : String) (fs : List FieldDescriptor) (u : Bool) :
    Descriptor.creatable (.mk name fs) u =
      (decide ((fs.map (fun f => f.name)).Nodup) &&
        (fs.any (fun f => !f.is_map && !f.is_repeated && isKey f) || !u ||
          fs.any (fun f => !f.is_map && !f.is_repeated)) &&
        FieldDescriptor.creatableList fs) := by
  rw [Descriptor.creatable]

lemma FieldDescriptor.creatableList_mem : ∀ {fs : List FieldDescriptor},
    FieldDescriptor.creatableList fs = true → ∀ f ∈ fs, FieldDescriptor.creatable f = true := by
  intro fs
  induction fs with
  | nil => intro _ f hf; simp at hf
  | cons g gs ih =>
    intro h f hf
    rw [FieldDescriptor.creatableList, Bool.and_eq_true] at h
    rcases List.mem_cons.mp hf with rfl | hf
    · exact h.1
    · exact ih h.2 f hf

lemma FieldDescriptor.creatable_eq (f : FieldDescriptor) :
    FieldDescriptor.creatable f = FieldType.creatable f.label (isKey f) f.type := by
  cases f with
  | mk n l t k => rfl

end ProtoDatabase

namespace ProtoDatabase

/-! ## Lookup by key -/

/-- Where no row collides with the new one, `INSERT ... ON CONFLICT DO UPDATE` is the
plain `INSERT`. -/
lemma Store.insert_upsert_eq {t : String} {cols : List String} {vals : List SqlValue}
    {s : Store}
    (h : ∀ tb, s.table? t = some tb → tb.conflictRow? (tb.buildCells cols vals) (s.rows t) = none)
    (up : Bool) : Store.insert t cols vals up s = Store.insert t cols vals false s := by
  unfold Store.insert
  cases htb : s.table? t with
  | none => rfl
  | some tb =>
    simp only [h tb htb]

/-- Where the row of the record collides with no row of the main table,
`writeMessageImpl` does with conflict resolution what it does without. -/
lemma writeMessageImpl_insert_eq {fuel : Nat} {d : Descriptor} {m : Message} {s : Store}
    (hno : ∀ vals sA, insertMessageFields (writeNested fuel) noFind true (dataFields d m) s
        = (.ok vals, sA) → ∀ tb, sA.table? d.name = some tb →
      tb.conflictRow? (tb.buildCells (fieldNames d m) vals) (sA.rows d.name) = none) :
    writeMessageImpl (fuel + 1) d m true s = writeMessageImpl (fuel + 1) d m false s := by
  rw [writeMessageImpl, writeMessageImpl]
  split
  · rfl
  · simp only []
    unfold Exec.bind
    cases hprep : Store.prepare d.name
        (List.map (fun p => getColumnName p.1.name)
          (List.filter (fun p => !p.1.is_map && !p.1.is_repeated) (d.fields.zip m.fields))) s with
    | mk r1 s1 =>
      have hs1 := Store.prepare_state hprep
      subst hs1
      cases r1 with
      | error e => rfl
      | ok u =>
        simp only []
        cases hvals : insertMessageFields (fun d m => writeMessageImpl fuel d m false)
            (fun _ _ _ => Except.error Err.unexpectedType) true
            (List.filter (fun p => !p.1.is_map && !p.1.is_repeated) (d.fields.zip m.fields)) s1 with
        | mk r2 sA =>
          cases r2 with
          | error e => rfl
          | ok vals =>
            have e1 := Store.insert_upsert_eq (hno vals sA hvals)
              (true && !(fieldNames d m).isEmpty)
            unfold fieldNames dataFields at e1
            simp only [Bool.false_and]
            rw [e1]

lemma scalar_of_conforms {f : FieldDescriptor} {c : Bool} {x : Scalar} {t : CppType}
    (ht : f.type = .scalar t) (h : FieldDescriptor.conformsValue f (.scalar c x) = true) :
    x.cppType = t ∧ x.inRange = true := by
  rw [FieldDescriptor.conformsValue_eq, ht] at h
  cases hl : f.label with
  | singular =>
    rw [hl] at h
    simpa [FieldType.conformsValue] using h
  | repeated => rw [hl] at h; simp [FieldType.conformsValue] at h
  | map => rw [hl] at h; simp [FieldType.conformsValue] at h

/-- Two conforming scalars of a field that are stored as the same cell are equal. -/
lemma stored_injective {f : FieldDescriptor} {t : CppType} {x y : Scalar} {v w : SqlValue}
    (ht : f.type = .scalar t) (hx : bindScalar t x = .ok v) (hy : bindScalar t y = .ok w)
    (hxr : x.inRange = true) (hyr : y.inRange = true) (hxa : x.readsBack = true)
    (hya : y.readsBack = true)
    (h : applyAffinity (getFieldType f).affinity v = applyAffinity (getFieldType f).affinity w) :
    x = y := by
  rw [← readScalar_bindScalar hx hxr hxa f ht, ← readScalar_bindScalar hy hyr hya f ht, h]

/-- The value of a scalar field of a conforming record, with what is bound for it. -/
lemma scalar_field_value {d : Descriptor} {m : Message}
    (hconf : Descriptor.conforms d m = true)
    (hbelow : Message.allScalars Scalar.readsBack m = true) {kf : FieldDescriptor} {c : Bool}
    {x : Scalar} {t : CppType} (hf : (kf, Value.scalar c x) ∈ dataFields d m)
    (ht : kf.type = .scalar t) :
    ∃ v, bindScalar t x = .ok v ∧ x.inRange = true ∧ x.readsBack = true := by
  obtain ⟨_, hcv⟩ := Descriptor.conforms_spec hconf
  obtain ⟨h1, h2⟩ := scalar_of_conforms ht (hcv _ (mem_dataFields hf).1)
  obtain ⟨v, hv⟩ := bindScalar_of_type h1
  have h3 := Value.allScalars_of_mem hbelow (List.of_mem_zip (mem_dataFields hf).1).2
  exact ⟨v, hv, h2, by simpa [Value.allScalars] using h3⟩

/-- One `writeMessage` of a record whose keys no row holds: the main table gets one more
row, which holds what was bound for the record and reads back as the record. -/
lemma write_new_key {fuel : Nat} {d : Descriptor} {m : Message} {s s2 : Store} {id : Int}
    {tb : Table} (hT : namesAgree d.tables) (hschema : Descriptor.schemaOk s.schema d = true)
    (hasc : s.ascending) (hself : d.name ∉ d.childTables)
    (hconf : Descriptor.conforms d m = true)
    (hbelow : Message.allScalars Scalar.readsBack m = true)
    (htb : s.table? d.name = some tb) (huniq : tb.uniques = keyUniques d)
    (hkeys : ∀ kf ∈ d.fields, isKey kf = true → ∃ t, kf.type = .scalar t)
    (hnew : ∀ old ∈ s.rows d.name, keysDiffer tb d m old)
    (h : writeMessageImpl (fuel + 1) d m true s = (.ok id, s2)) :
    ∃ row, row.id = id ∧ s2.rows d.name = s.rows d.name ++ [row] ∧ rowOf tb d m row ∧
      Pres d.tables (existing d.tables s) s s2 ∧
      ReadsIn d.tables s s2 d id (Message.present m) := by
  have hlen := (Descriptor.conforms_spec hconf).1
  have htouch : ∀ vals sA, insertMessageFields (writeNested fuel) noFind true (dataFields d m) s
      = (.ok vals, sA) → sA.schema = s.schema ∧ sA.rows d.name = s.rows d.name := by
    intro vals sA hvals
    have t1 : Touches d.childTables s sA :=
      insertMessageFields_touchesIf true (writeNested_touches s.schema d.childTables fuel)
        (dataFields d m) (fun p hp => fieldIn_children hschema p.1 (mem_dataFields hp).2.1)
        s _ sA rfl hvals
    exact ⟨t1.1, t1.2 _ hself⟩
  have hno : ∀ vals sA, insertMessageFields (writeNested fuel) noFind true (dataFields d m) s
      = (.ok vals, sA) → ∀ tb2, sA.table? d.name = some tb2 →
      tb2.conflictRow? (tb2.buildCells (fieldNames d m) vals) (sA.rows d.name) = none := by
    intro vals sA hvals tb2 htb2
    obtain ⟨hsch, hrows⟩ := htouch vals sA hvals
    have : tb2 = tb := by
      rw [Store.table?_of_schema hsch, ← Store.table?_of_schema rfl, htb] at htb2
      simpa using htb2.symm
    subst this
    unfold Table.conflictRow?
    rw [List.findSome?_eq_none_iff, huniq, hrows]
    intro u hu
    unfold keyUniques at hu
    obtain ⟨kf, hkf, rfl⟩ := List.mem_map.mp hu
    obtain ⟨hkf1, hkf2⟩ := List.mem_filter.mp hkf
    simp only [Bool.and_eq_true, Bool.not_eq_true'] at hkf2
    obtain ⟨t, ht⟩ := hkeys kf hkf1 hkf2.2
    obtain ⟨value, hvalue⟩ := exists_dataField hlen hkf1 hkf2.1.1 hkf2.1.2
    obtain ⟨c, x, v, hval, hbind, hcell⟩ := stored_scalar_cell hschema htb hlen hvals hvalue ht
    subst hval
    rw [List.find?_eq_none]
    intro old hold
    have hd := hnew old hold kf c x t v hkf2.2 hvalue ht hbind
    unfold Table.conflictsOn
    simp only [List.all_cons, List.all_nil, Bool.and_true, Bool.and_eq_true, bne_iff_ne, ne_eq,
      beq_iff_eq, not_and]
    intro _ heq
    rw [hcell] at heq
    exact hd heq.symm
  rw [writeMessageImpl_insert_eq hno] at h
  have hd : TypeOk s.schema d.tables d := ⟨hschema, fun x hx => hx⟩
  obtain ⟨hp, _, _, hread⟩ := writeMessageImpl_reads hT (writeNested_reads hT fuel) hd rfl hasc
    hconf hbelow (Or.inl rfl) h
  obtain ⟨_, vals, sA, n, sM, hvals, hsA, hrowsA, hins, hid, _, hrows2⟩ :=
    writeMessageImpl_main_rows hschema hself h
  have htbA : sA.table? d.name = some tb := by
    rw [Store.table?_of_schema hsA, ← Store.table?_of_schema rfl]; exact htb
  have hsM := Store.insert_new htbA (Or.inl rfl) hins
  refine ⟨⟨nextId (sA.rows d.name), tb.buildCells (fieldNames d m) vals⟩, ?_, ?_, ?_, hp, hread⟩
  · rw [hid, hsM]
  · rw [hrows2, hsM, ← hrowsA]
    simp [Store.setRows]
  · intro kf c x t v hf ht hb
    obtain ⟨c2, x2, v2, hval, hbind, hcell⟩ := stored_scalar_cell hschema htb hlen hvals hf ht
    simp only [Value.scalar.injEq] at hval
    rw [← hval.2, hb] at hbind
    simp only [Except.ok.injEq] at hbind
    rw [hcell, ← hbind]

/-- The row of a record holds none of the keys of a record with other keys. -/
lemma keysDiffer_of_distinct {tb : Table} {d : Descriptor} {r r2 : Message} {row : Row}
    (hconf : Descriptor.conforms d r = true)
    (hbelow : Message.allScalars Scalar.readsBack r = true)
    (hconf2 : Descriptor.conforms d r2 = true)
    (hbelow2 : Message.allScalars Scalar.readsBack r2 = true)
    (hrow : rowOf tb d r row) (hdist : distinctKeys d r r2) : keysDiffer tb d r2 row := by
  intro kf c x t v hkey hf ht hb heq
  have hkf := mem_dataFields hf
  have hl := FieldDescriptor.label_of_not_repeated hkf.2.2.2
  obtain ⟨c1, x1, hf1⟩ := scalar_dataField hconf hkf.2.1 hl ht
  obtain ⟨v1, hb1, hr1, ha1⟩ := scalar_field_value hconf hbelow hf1 ht
  obtain ⟨v2, hb2, hr2, ha2⟩ := scalar_field_value hconf2 hbelow2 hf ht
  rw [hb] at hb2
  simp only [Except.ok.injEq] at hb2
  subst hb2
  rw [hrow kf c1 x1 t v1 hf1 ht hb1] at heq
  exact hdist kf c1 x1 c x hkey hf1 hf (stored_injective ht hb1 hb hr1 hr2 ha1 ha2 heq)

end ProtoDatabase

namespace ProtoDatabase

/-! ## The names of the side tables -/

/-- Two texts with the separator between their halves are equal only half by half, when
the first halves do not contain the separator. -/
lemma split_at_separator (x : Char) : ∀ (a c b d : List Char), x ∉ a → x ∉ c →
    a ++ x :: b = c ++ x :: d → a = c ∧ b = d := by
  intro a
  induction a with
  | nil =>
    intro c b d _ hc h
    cases c with
    | nil => simp only [List.nil_append, List.cons.injEq, true_and] at h; exact ⟨rfl, h⟩
    | cons y ys =>
      simp only [List.nil_append, List.cons_append, List.cons.injEq] at h
      exact absurd (by rw [← h.1]; simp) hc
  | cons z zs ih =>
    intro c b d ha hc h
    cases c with
    | nil =>
      simp only [List.nil_append, List.cons_append, List.cons.injEq] at h
      exact absurd (by rw [h.1]; simp) ha
    | cons y ys =>
      simp only [List.cons_append, List.cons.injEq] at h
      obtain ⟨h1, h2⟩ := ih ys b d (fun hm => ha (List.mem_cons_of_mem _ hm))
        (fun hm => hc (List.mem_cons_of_mem _ hm)) h.2
      exact ⟨by rw [h.1, h1], h2⟩

/-- Two texts with the separator between their halves are equal only half by half, when
the second halves do not contain the separator. -/
lemma split_at_last_separator (x : Char) (a c b d : List Char) (hb : x ∉ b) (hd : x ∉ d)
    (h : a ++ x :: b = c ++ x :: d) : a = c ∧ b = d := by
  have h2 := congrArg List.reverse h
  simp only [List.reverse_append, List.reverse_cons, List.append_assoc,
    List.singleton_append] at h2
  obtain ⟨h3, h4⟩ := split_at_separator x b.reverse d.reverse a.reverse c.reverse
    (by simpa using hb) (by simpa using hd) h2
  exact ⟨List.reverse_injective h4, List.reverse_injective h3⟩

/-- The name of a side table, as a list of characters. -/
lemma fieldTableName_data (owner fieldName : String) :
    (fieldTableName owner fieldName).data =
      "field_table_".data ++ (owner.data ++ '_' :: fieldName.data) := by
  unfold fieldTableName
  simp only [String.data_append, List.append_assoc]
  rfl

/-- Claim C30 (amended): `getFieldTableName` gives two fields the same side table only
if they are the same field of the same owner, provided the two owners have the same
name, or no owner name contains an underscore, or no field name contains one. -/
theorem side_table_name_unambiguous (d1 d2 : Descriptor) (f1 f2 : FieldDescriptor)
    (h : getFieldTableName d1 f1 = getFieldTableName d2 f2)
    (hsep : d1.name = d2.name ∨ ('_' ∉ d1.name.data ∧ '_' ∉ d2.name.data) ∨
      ('_' ∉ f1.name.data ∧ '_' ∉ f2.name.data)) :
    d1.name = d2.name ∧ f1.name = f2.name := by
  unfold getFieldTableName at h
  have h2 := congrArg String.data h
  rw [fieldTableName_data, fieldTableName_data] at h2
  have h3 := List.append_cancel_left h2
  rcases hsep with heq | ⟨ha, hc⟩ | ⟨hb, hd⟩
  · rw [heq] at h3
    have h4 := List.append_cancel_left h3
    simp only [List.cons.injEq, true_and] at h4
    exact ⟨heq, String.ext h4⟩
  · obtain ⟨h4, h5⟩ := split_at_separator '_' _ _ _ _ ha hc h3
    exact ⟨String.ext h4, String.ext h5⟩
  · obtain ⟨h4, h5⟩ := split_at_last_separator '_' _ _ _ _ hb hd h3
    exact ⟨String.ext h4, String.ext h5⟩

/-- Witness of C30 as amended: two fields named `items` of the owner `Shelf`. -/
theorem side_table_name_unambiguous_witness :
    getFieldTableName Examples.Shelf (.mk "items" .repeated (.scalar .INT32) none) =
      getFieldTableName Examples.Shelf (.mk "items" .repeated (.scalar .INT64) none) ∧
    Examples.Shelf.name = Examples.Shelf.name ∧
    (FieldDescriptor.mk "items" .repeated (.scalar .INT32) none).name =
      (FieldDescriptor.mk "items" .repeated (.scalar .INT64) none).name :=
  ⟨rfl, side_table_name_unambiguous Examples.Shelf Examples.Shelf
    (.mk "items" .repeated (.scalar .INT32) none) (.mk "items" .repeated (.scalar .INT64) none)
    rfl (Or.inr (Or.inl ⟨by decide, by decide⟩))⟩

/-- Claim C30 (counterexample): the field `c` of the type `A_B` and the field `B_c` of
the type `A` are different fields of different owners, and `getFieldTableName` gives
both the side table `field_table_A_B_c`. -/
theorem side_table_name_of_two_fields :
    getFieldTableName (.mk "A_B" [.mk "c" .repeated (.scalar .INT32) none])
      (.mk "c" .repeated (.scalar .INT32) none) = "field_table_A_B_c" ∧
    getFieldTableName (.mk "A" [.mk "B_c" .repeated (.scalar .INT32) none])
      (.mk "B_c" .repeated (.scalar .INT32) none) = "field_table_A_B_c" ∧
    (Descriptor.mk "A_B" [.mk "c" .repeated (.scalar .INT32) none]).name ≠
      (Descriptor.mk "A" [.mk "B_c" .repeated (.scalar .INT32) none]).name ∧
    (FieldDescriptor.mk "c" .repeated (.scalar .INT32) none).name ≠
      (FieldDescriptor.mk "B_c" .repeated (.scalar .INT32) none).name := by
  refine ⟨by decide, by decide, by decide, by decide⟩

end ProtoDatabase

namespace ProtoDatabase

/-! ## Schema creation as a list of statements -/

lemma Store.run_append (s : Store) (a b : List Statement) :
    s.run (a ++ b) = (s.run a).run b := by
  induction a generalizing s with
  | nil => rfl
  | cons x rest ih =>
    cases x with
    | table tb => simp only [List.cons_append, Store.run]; exact ih _
    | trigger trg => simp only [List.cons_append, Store.run]; exact ih _

lemma Store.createTable_run (name : String) (columns : List (String × SqlType))
    (uniques : List (List String)) (foreignKeys : List (String × String))
    (hu : uniques.any (fun u => u.isEmpty) = false)
    (hc : (columns.map (fun c => c.1)).Nodup) (s : Store) :
    Store.createTable name columns uniques foreignKeys s =
      (.ok (), s.addTable ⟨name, columns, uniques, foreignKeys⟩) := by
  unfold Store.createTable Store.addTable
  simp only [hu, Bool.false_eq_true, if_false, hc, decide_True, Bool.not_true]
  cases s.table? name <;> rfl

lemma Store.createTrigger_run (trg : Trigger) (s : Store)
    (h : (s.table? trg.table).isSome = true) :
    Store.createTrigger trg s = (.ok (), s.addTrigger trg) := by
  unfold Store.createTrigger Store.addTrigger
  cases htb : s.table? trg.table with
  | none => rw [htb] at h; cases h
  | some tb =>
    simp only
    split <;> rfl

lemma Store.addTrigger_tables (s : Store) (trg : Trigger) :
    (s.addTrigger trg).tables = s.tables := by
  unfold Store.addTrigger
  split <;> rfl

lemma Store.addTable_isSome (s : Store) (tb : Table) :
    ((s.addTable tb).table? tb.name).isSome = true := by
  unfold Store.addTable
  cases h : s.table? tb.name with
  | some x => simp only [h]; rfl
  | none =>
    simp only
    unfold Store.table?
    rw [tableOf_isSome]
    simp

lemma createTriggers_run (descriptor : Descriptor) :
    ∀ (keys : List (String × String)) (s : Store), (s.table? descriptor.name).isSome = true →
      createTriggers descriptor keys s =
        (.ok (), s.run (keys.map (fun key => Statement.trigger
          (cascadeTrigger descriptor.name key)))) := by
  intro keys
  induction keys with
  | nil => intro s _; rfl
  | cons key rest ih =>
    intro s hs
    unfold createTriggers
    have h1 := Store.createTrigger_run (cascadeTrigger descriptor.name key) s hs
    have hs1 : ((s.addTrigger (cascadeTrigger descriptor.name key)).table?
        descriptor.name).isSome = true := by
      unfold Store.table? at hs ⊢
      rw [Store.addTrigger_tables]; exact hs
    simp only [List.map_cons, Store.run]
    rw [← ih _ hs1]
    unfold Exec.bind
    unfold cascadeTrigger at h1
    rw [h1]
    rfl

lemma FieldDescriptor.statements_eq (owner : String) (f : FieldDescriptor) :
    FieldDescriptor.statements owner f =
      FieldType.statements owner f.name f.label (isKey f) f.type := by
  cases f with
  | mk n l t k => rfl

lemma Exec.bind_run {α β : Type} {m : Exec α} {f : α → Exec β} {s s1 : Store} {a : α}
    (h : m s = (.ok a, s1)) : Exec.bind m f s = f a s1 := by
  unfold Exec.bind
  rw [h]

lemma createArrayTable_run {create : Descriptor → Bool → Exec Unit} {fuel : Nat}
    (hc : ∀ d u, d.depth ≤ fuel → Descriptor.creatable d u = true →
      ∀ s, create d u s = (.ok (), s.run (d.statements u)))
    (descriptor : Descriptor) (field : FieldDescriptor) (hl : field.label = .repeated)
    (hcre : FieldDescriptor.creatable field = true) (hdepth : FieldDescriptor.depth field ≤ fuel)
    (s : Store) :
    createArrayTable create descriptor field s =
      (.ok (), s.run (FieldDescriptor.statements descriptor.name field)) := by
  have hcols : ∀ ty1 ty2 : SqlType,
      (([(getColumnName field.name, ty1), ("owner_id", ty2)] : List (String × SqlType)).map
        (fun c => c.1)).Nodup := by
    intro ty1 ty2
    simp only [List.map_cons, List.map_nil, List.nodup_cons, List.mem_singleton,
      List.not_mem_nil, not_false_eq_true, List.nodup_nil, and_true]
    exact getColumnName_ne_owner _
  rw [FieldDescriptor.statements_eq, hl]
  rw [FieldDescriptor.creatable_eq, hl] at hcre
  unfold createArrayTable
  cases hty : field.type with
  | scalar t =>
    rw [FieldType.statements]
    have hft : getFieldType field =
        getFieldType (.mk field.name .repeated (.scalar t) none) := by
      unfold getFieldType
      rw [hty]
      rfl
    simp only [Store.run]
    rw [Store.createTable_run _ _ _ _ (by simp) (hcols _ _), hft]
    rfl
  | message nested =>
    rw [hty] at hcre
    rw [FieldType.creatable] at hcre
    rw [FieldType.statements]
    have hd : nested.depth ≤ fuel := by
      rw [FieldDescriptor.depth_message hty] at hdepth; exact hdepth
    have hft : getFieldType field = .INTEGER := by
      simp only [getFieldType, hty]
    dsimp only
    rw [Store.run_append, Exec.bind_run (hc nested false hd hcre s)]
    simp only [Store.run]
    rw [Store.createTable_run _ _ _ _ (by simp) (hcols _ _), hft]
    rfl

lemma createMapTable_run {create : Descriptor → Bool → Exec Unit} {fuel : Nat}
    (hc : ∀ d u, d.depth ≤ fuel → Descriptor.creatable d u = true →
      ∀ s, create d u s = (.ok (), s.run (d.statements u)))
    (descriptor : Descriptor) (field : FieldDescriptor) (hl : field.label = .map)
    (hcre : FieldDescriptor.creatable field = true) (hdepth : FieldDescriptor.depth field ≤ fuel)
    (s : Store) :
    createMapTable create descriptor field s =
      (.ok (), s.run (FieldDescriptor.statements descriptor.name field)) := by
  rw [FieldDescriptor.statements_eq, hl]
  rw [FieldDescriptor.creatable_eq, hl] at hcre
  cases hty : field.type with
  | scalar t =>
    rw [hty] at hcre
    simp [FieldType.creatable] at hcre
  | message entry =>
    rw [hty] at hcre
    rw [FieldDescriptor.depth_message hty] at hdepth
    cases entry with
    | mk en efs =>
      rw [FieldType.creatable, Bool.and_eq_true] at hcre
      obtain ⟨hshape, hentry⟩ := hcre
      cases efs with
      | nil => simp [isEntryShape] at hshape
      | cons k r1 =>
        cases r1 with
        | nil => simp [isEntryShape] at hshape
        | cons v r2 =>
          cases r2 with
          | cons w r3 => simp [isEntryShape] at hshape
          | nil =>
            obtain ⟨hkl, hvl⟩ := isEntryShape_labels hshape
            cases k with
            | mk kn kl kt kk =>
              cases v with
              | mk vn vl vt vk =>
                simp only [FieldDescriptor.label] at hkl hvl
                subst hkl hvl
                have hkt : ∃ t, kt = .scalar t := by
                  cases kt with
                  | scalar t => exact ⟨t, rfl⟩
                  | message d => simp [isEntryShape, FieldDescriptor.label, FieldDescriptor.type] at hshape
                obtain ⟨t, rfl⟩ := hkt
                have hne : kn ≠ vn := by
                  cases vt with
                  | scalar t2 => simpa [FieldDescriptor.creatableEntry] using hentry
                  | message td =>
                    rw [FieldDescriptor.creatableEntry, Bool.and_eq_true] at hentry
                    simpa using hentry.1
                have hcols : ∀ ty1 ty2 ty3 : SqlType,
                    (([(getColumnName kn, ty1), (getColumnName vn, ty2), ("owner_id", ty3)] :
                      List (String × SqlType)).map (fun c => c.1)).Nodup := by
                  intro ty1 ty2 ty3
                  simp only [List.map_cons, List.map_nil, List.nodup_cons, List.mem_cons,
                    List.mem_singleton, List.not_mem_nil, not_false_eq_true, List.nodup_nil,
                    and_true, not_or, or_false]
                  exact ⟨⟨fun h => hne (getColumnName_injective h), getColumnName_ne_owner _⟩,
                    getColumnName_ne_owner _⟩
                have hu : ∀ a b : String,
                    ([[a, b]] : List (List String)).any (fun u => u.isEmpty) = false := by
                  intro a b; rfl
                have hmt : field.message_type = some (.mk en
                    [.mk kn .singular (.scalar t) kk, .mk vn .singular vt vk]) := by
                  unfold FieldDescriptor.message_type
                  rw [hty]
                unfold createMapTable
                rw [hmt]
                simp only [getFieldTableName]
                generalize field.name = fname
                simp only [Descriptor.map_key, Descriptor.map_value, Descriptor.fields, List.get?,
                  FieldDescriptor.name, FieldDescriptor.type]
                cases vt with
                | scalar t2 =>
                  simp only [FieldType.statements, FieldDescriptor.statementsEntry, Store.run]
                  rw [Store.createTable_run _ _ _ _ (hu _ _) (hcols _ _ _)]
                | message td =>
                  rw [FieldDescriptor.creatableEntry, Bool.and_eq_true] at hentry
                  have hd : td.depth ≤ fuel := by
                    simp only [Descriptor.depth, FieldDescriptor.depthList, FieldDescriptor.depth,
                      FieldType.depth] at hdepth
                    omega
                  simp only [FieldType.statements, FieldDescriptor.statementsEntry]
                  rw [Store.run_append, Exec.bind_run (hc td false hd hentry.2 s)]
                  simp only [Store.run]
                  rw [Store.createTable_run _ _ _ _ (hu _ _) (hcols _ _ _)]
                  simp only [getFieldType, FieldDescriptor.type]

/-- The local variables of `createTableImpl` after its loop over the fields `fs`. -/
lemma createTableLoop_run {create : Descriptor → Bool → Exec Unit} {fuel : Nat}
    (hc : ∀ d u, d.depth ≤ fuel → Descriptor.creatable d u = true →
      ∀ s, create d u s = (.ok (), s.run (d.statements u)))
    (descriptor : Descriptor) :
    ∀ (fs : List FieldDescriptor) (acc : CreateAcc),
      (∀ f ∈ fs, FieldDescriptor.creatable f = true ∧ FieldDescriptor.depth f ≤ fuel) →
      ∀ s, createTableLoop create descriptor fs acc s =
        (.ok ⟨acc.fields ++ mainColumns fs,
            acc.uniqueFields ++ (fs.filter (fun f => !f.is_map && !f.is_repeated && isKey f)).map
              (fun f => [getColumnName f.name]),
            acc.foreignKeys ++ mainForeignKeys fs,
            acc.fieldList ++ (mainColumns fs).map (fun c => c.1),
            acc.uniqueObjects || fs.any (fun f => !f.is_map && !f.is_repeated && isKey f)⟩,
          s.run (FieldDescriptor.statementsList descriptor.name fs)) := by
  intro fs
  induction fs with
  | nil =>
    intro acc _ s
    unfold createTableLoop
    simp [Exec.pure, mainColumns, mainForeignKeys, FieldDescriptor.statementsList, Store.run]
  | cons f rest ih =>
    intro acc hfs s
    obtain ⟨hcre, hdep⟩ := hfs f (List.mem_cons_self _ _)
    have hrest : ∀ g ∈ rest, FieldDescriptor.creatable g = true ∧
        FieldDescriptor.depth g ≤ fuel := fun g hg => hfs g (List.mem_cons_of_mem _ hg)
    unfold createTableLoop
    dsimp only
    rw [FieldDescriptor.statementsList, Store.run_append]
    cases hm : f.is_map with
    | true =>
      simp only [if_true]
      rw [Exec.bind_run (createMapTable_run hc descriptor f (FieldDescriptor.label_of_map hm)
        hcre hdep s), ih acc hrest]
      simp [mainColumns, mainForeignKeys, List.filter_cons, hm]
    | false =>
      simp only [Bool.false_eq_true, if_false]
      cases hr : f.is_repeated with
      | true =>
        simp only [if_true]
        rw [Exec.bind_run (createArrayTable_run hc descriptor f
          (FieldDescriptor.label_of_repeated hm hr) hcre hdep s), ih acc hrest]
        simp [mainColumns, mainForeignKeys, List.filter_cons, hm, hr]
      | false =>
        simp only [Bool.false_eq_true, if_false]
        have hl := FieldDescriptor.label_of_not_repeated hr
        rw [FieldDescriptor.statements_eq, hl]
        rw [FieldDescriptor.creatable_eq, hl] at hcre
        cases hty : f.type with
        | scalar t =>
          simp only [FieldType.statements, Store.run]
          rw [ih _ hrest]
          cases hk : isKey f <;>
            simp [mainColumns, mainForeignKeys, List.filter_cons, hm, hr, hk, hty,
              List.append_assoc]
        | message nested =>
          rw [hty, FieldType.creatable] at hcre
          have hd : nested.depth ≤ fuel := by
            rw [FieldDescriptor.depth_message hty] at hdep; exact hdep
          simp only [FieldType.statements]
          rw [Exec.bind_run (hc nested (isKey f) hd hcre s), ih _ hrest]
          cases hk : isKey f <;>
            simp [mainColumns, mainForeignKeys, List.filter_cons, hm, hr, hk, hty,
              List.append_assoc]

/-- A well-formed type has a well-formed `CREATE TABLE` statement: no column name
occurs twice and no `UNIQUE` constraint is empty. -/
lemma main_statement_ok {name : String} {fs : List FieldDescriptor} {u : Bool}
    (hcre : Descriptor.creatable (.mk name fs) u = true) :
    (mainUniques fs u).any (fun x => x.isEmpty) = false ∧
      ((mainColumns fs).map (fun c => c.1)).Nodup := by
  rw [Descriptor.creatable_mk, Bool.and_eq_true, Bool.and_eq_true] at hcre
  obtain ⟨⟨hnames, huniq⟩, _⟩ := hcre
  have hnd : (fs.map (fun f => f.name)).Nodup := of_decide_eq_true hnames
  constructor
  · unfold mainUniques
    split
    · rename_i hcond
      rw [Bool.and_eq_true] at hcond
      obtain ⟨hemp, hu1⟩ := hcond
      have hnokey : fs.filter (fun f => !f.is_map && !f.is_repeated && isKey f) = [] := by
        simpa using hemp
      have hany : fs.any (fun f => !f.is_map && !f.is_repeated && isKey f) = false := by
        rw [Bool.eq_false_iff]
        intro h
        rw [List.any_eq_true] at h
        obtain ⟨x, hx, hxp⟩ := h
        have : x ∈ fs.filter (fun f => !f.is_map && !f.is_repeated && isKey f) :=
          List.mem_filter.mpr ⟨hx, hxp⟩
        rw [hnokey] at this
        cases this
      simp only [hany, hu1, Bool.not_true, Bool.or_false, Bool.false_or] at huniq
      rw [List.any_eq_true] at huniq
      obtain ⟨x, hx, hxp⟩ := huniq
      have hxm : getColumnName x.name ∈ (mainColumns fs).map (fun c => c.1) := by
        unfold mainColumns
        rw [List.map_map]
        exact List.mem_map.mpr ⟨x, List.mem_filter.mpr ⟨hx, hxp⟩, rfl⟩
      simp only [List.any_cons, List.any_nil, Bool.or_false]
      cases hfl : (mainColumns fs).map (fun c => c.1) with
      | nil => rw [hfl] at hxm; cases hxm
      | cons a b => rfl
    · rw [Bool.eq_false_iff]
      intro h
      rw [List.any_eq_true] at h
      obtain ⟨x, hx, hxp⟩ := h
      obtain ⟨g, _, rfl⟩ := List.mem_map.mp hx
      simp at hxp
  · unfold mainColumns
    rw [List.map_map]
    have h2 : ((fs.filter (fun f => !f.is_map && !f.is_repeated)).map
        (fun f => f.name)).Nodup := (List.Nodup.sublist ((List.filter_sublist _).map _) hnd)
    have h3 := List.Nodup.map (f := getColumnName)
      (fun a b h => getColumnName_injective h) h2
    rw [List.map_map] at h3
    exact h3

/-- With enough fuel, `createTableImpl` of a type whose statements are well formed
returns, and the store it leaves is the one its statements build, each taking effect
unless a table or trigger of that name exists. -/
lemma createTableImpl_run : ∀ (fuel : Nat) (d : Descriptor) (u : Bool),
    d.depth ≤ fuel → Descriptor.creatable d u = true →
    ∀ s, createTableImpl fuel d u s = (.ok (), s.run (d.statements u)) := by
  intro fuel
  induction fuel with
  | zero =>
    intro d u hd
    have := Descriptor.depth_pos d
    omega
  | succ fuel ih =>
    intro d u hd hcre s
    cases d with
    | mk name fs =>
      obtain ⟨hu, hnd⟩ := main_statement_ok hcre
      rw [Descriptor.creatable_mk, Bool.and_eq_true, Bool.and_eq_true] at hcre
      obtain ⟨_, hlist⟩ := hcre
      have hfs : ∀ f ∈ fs, FieldDescriptor.creatable f = true ∧
          FieldDescriptor.depth f ≤ fuel := fun f hf =>
        ⟨FieldDescriptor.creatableList_mem hlist f hf,
          Descriptor.depth_fields hd f (by simpa [Descriptor.fields] using hf)⟩
      have h1 := createTableLoop_run ih (.mk name fs) fs ⟨[], [], [], [], u⟩ hfs s
      simp only [List.nil_append] at h1
      unfold createTableImpl
      simp only [Descriptor.fields]
      rw [Exec.bind_run h1]
      simp only
      have huf : (if ((fs.filter (fun f => !f.is_map && !f.is_repeated && isKey f)).map
            (fun f => [getColumnName f.name])).isEmpty &&
            (u || fs.any (fun f => !f.is_map && !f.is_repeated && isKey f)) then
            [(mainColumns fs).map (fun c => c.1)]
          else (fs.filter (fun f => !f.is_map && !f.is_repeated && isKey f)).map
            (fun f => [getColumnName f.name])) = mainUniques fs u := by
        unfold mainUniques
        cases hk : (fs.filter (fun f => !f.is_map && !f.is_repeated && isKey f)) with
        | nil =>
          have hany : fs.any (fun f => !f.is_map && !f.is_repeated && isKey f) = false := by
            rw [Bool.eq_false_iff]
            intro h
            rw [List.any_eq_true] at h
            obtain ⟨x, hx, hxp⟩ := h
            have : x ∈ fs.filter (fun f => !f.is_map && !f.is_repeated && isKey f) :=
              List.mem_filter.mpr ⟨hx, hxp⟩
            rw [hk] at this
            cases this
          simp [hany]
        | cons a b => simp
      rw [huf]
      have hname : (Descriptor.mk name fs).name = name := rfl
      rw [hname]
      have h2 := Store.createTable_run name (mainColumns fs) (mainUniques fs u)
        (mainForeignKeys fs) hu hnd (s.run (FieldDescriptor.statementsList name fs))
      rw [Exec.bind_run h2]
      have h3 := createTriggers_run (.mk name fs) (mainForeignKeys fs)
        ((s.run (FieldDescriptor.statementsList name fs)).addTable
          ⟨name, mainColumns fs, mainUniques fs u, mainForeignKeys fs⟩)
        (Store.addTable_isSome _ _)
      rw [h3]
      rw [Descriptor.statements, Store.run_append]
      simp only [Store.run, hname]

end ProtoDatabase

namespace ProtoDatabase

/-! ## The schema a list of statements builds -/

lemma tablesOf_append (a b : List Statement) : tablesOf (a ++ b) = tablesOf a ++ tablesOf b := by
  induction a with
  | nil => rfl
  | cons x rest ih =>
    cases x with
    | table tb => rw [List.cons_append]; simp only [tablesOf, ih, List.cons_append]
    | trigger trg => rw [List.cons_append]; simp only [tablesOf, ih]

lemma triggersOf_append (a b : List Statement) :
    triggersOf (a ++ b) = triggersOf a ++ triggersOf b := by
  induction a with
  | nil => rfl
  | cons x rest ih =>
    cases x with
    | table tb => rw [List.cons_append]; simp only [triggersOf, ih]
    | trigger trg => rw [List.cons_append]; simp only [triggersOf, ih, List.cons_append]

lemma tablesOf_triggers {α : Type} (f : α → Trigger) (l : List α) :
    tablesOf (l.map (fun x => Statement.trigger (f x))) = [] := by
  induction l with
  | nil => rfl
  | cons x rest ih => simp only [List.map_cons, tablesOf, ih]

lemma triggersOf_triggers {α : Type} (f : α → Trigger) (l : List α) :
    triggersOf (l.map (fun x => Statement.trigger (f x))) = l.map f := by
  induction l with
  | nil => rfl
  | cons x rest ih => simp only [List.map_cons, triggersOf, ih]

lemma Store.addTable_rows (s : Store) (tb : Table) : (s.addTable tb).rows = s.rows := by
  unfold Store.addTable
  split <;> rfl

lemma Store.addTrigger_rows (s : Store) (trg : Trigger) : (s.addTrigger trg).rows = s.rows := by
  unfold Store.addTrigger
  split <;> rfl

/-- The statements of the schema creation change no row. -/
lemma Store.run_rows (l : List Statement) : ∀ s : Store,
    (s.run l).rows = s.rows ∧ (s.run l).lastInsertRowid = s.lastInsertRowid := by
  induction l with
  | nil => intro s; exact ⟨rfl, rfl⟩
  | cons x rest ih =>
    intro s
    cases x with
    | table tb =>
      simp only [Store.run]
      obtain ⟨h1, h2⟩ := ih (s.addTable tb)
      rw [h1, h2]
      unfold Store.addTable
      split <;> exact ⟨rfl, rfl⟩
    | trigger trg =>
      simp only [Store.run]
      obtain ⟨h1, h2⟩ := ih (s.addTrigger trg)
      rw [h1, h2]
      unfold Store.addTrigger
      split <;> exact ⟨rfl, rfl⟩

lemma tableOf_append (a b : List Table) (n : String) :
    tableOf (a ++ b) n = (tableOf a n).or (tableOf b n) := by
  unfold tableOf
  rw [List.find?_append]

lemma Store.addTable_table? (s : Store) (tb : Table) (n : String) :
    (s.addTable tb).table? n = tableOf (s.tables ++ [tb]) n := by
  unfold Store.addTable
  cases h : s.table? tb.name with
  | none => rfl
  | some x =>
    simp only
    unfold Store.table? at h ⊢
    rw [tableOf_append]
    cases hn : tableOf s.tables n with
    | some y => rfl
    | none =>
      simp only [Option.or]
      unfold tableOf
      simp only [List.find?_cons, List.find?_nil]
      split
      · rename_i heq
        have : tb.name = n := by simpa using heq
        rw [this] at h
        rw [h] at hn
        cases hn
      · rfl

/-- A table is looked up in the store the statements build as it is in the list of the
tables the store had, followed by the tables of all the statements: the first
definition of a name is the one that counts. -/
lemma Store.run_table? (l : List Statement) : ∀ (s : Store) (n : String),
    (s.run l).table? n = tableOf (s.tables ++ tablesOf l) n := by
  induction l with
  | nil => intro s n; simp [Store.run, tablesOf, Store.table?]
  | cons x rest ih =>
    intro s n
    cases x with
    | table tb =>
      simp only [Store.run, tablesOf]
      rw [ih, tableOf_append, tableOf_append]
      have h1 := Store.addTable_table? s tb n
      unfold Store.table? at h1
      rw [h1, tableOf_append]
      have hcons : tableOf (tb :: tablesOf rest) n =
          (tableOf [tb] n).or (tableOf (tablesOf rest) n) := by
        rw [← tableOf_append]; rfl
      rw [hcons]
      cases tableOf s.tables n <;> cases tableOf [tb] n <;> rfl
    | trigger trg =>
      simp only [Store.run, tablesOf]
      rw [ih, Store.addTrigger_tables]

/-- Every table of the store the statements build was in the store or is the table of
one of the statements. -/
lemma Store.run_tables_mem (l : List Statement) : ∀ (s : Store) (tb : Table),
    tb ∈ (s.run l).tables → tb ∈ s.tables ∨ tb ∈ tablesOf l := by
  induction l with
  | nil => intro s tb h; exact Or.inl h
  | cons x rest ih =>
    intro s tb h
    cases x with
    | table t =>
      simp only [Store.run] at h
      rcases ih _ tb h with h1 | h1
      · unfold Store.addTable at h1
        split at h1
        · exact Or.inl h1
        · simp only [List.mem_append, List.mem_singleton] at h1
          rcases h1 with h1 | h1
          · exact Or.inl h1
          · exact Or.inr (by simp [tablesOf, h1])
      · exact Or.inr (by simp [tablesOf, h1])
    | trigger trg =>
      simp only [Store.run] at h
      rcases ih _ tb h with h1 | h1
      · rw [Store.addTrigger_tables] at h1; exact Or.inl h1
      · exact Or.inr (by simpa [tablesOf] using h1)

lemma FieldDescriptor.statementsList_mem {owner : String} :
    ∀ {fs : List FieldDescriptor} {x : Statement},
      x ∈ FieldDescriptor.statementsList owner fs →
      ∃ f ∈ fs, x ∈ FieldDescriptor.statements owner f := by
  intro fs
  induction fs with
  | nil => intro x hx; simp [FieldDescriptor.statementsList] at hx
  | cons g gs ih =>
    intro x hx
    rw [FieldDescriptor.statementsList, List.mem_append] at hx
    rcases hx with hx | hx
    · exact ⟨g, List.mem_cons_self _ _, hx⟩
    · obtain ⟨f, hf, hxf⟩ := ih hx
      exact ⟨f, List.mem_cons_of_mem _ hf, hxf⟩

lemma mem_tablesOf {l : List Statement} {tb : Table} :
    tb ∈ tablesOf l ↔ Statement.table tb ∈ l := by
  induction l with
  | nil => simp [tablesOf]
  | cons x rest ih =>
    cases x with
    | table t => simp [tablesOf, ih]
    | trigger t => simp [tablesOf, ih]

lemma Descriptor.statements_mk (name : String) (fs : List FieldDescriptor) (u : Bool) :
    Descriptor.statements (.mk name fs) u =
      FieldDescriptor.statementsList name fs ++
        (Statement.table ⟨name, mainColumns fs, mainUniques fs u, mainForeignKeys fs⟩ ::
          (mainForeignKeys fs).map (fun key => Statement.trigger (cascadeTrigger name key))) := by
  rw [Descriptor.statements]

/-- The tables of the statements of a well-formed field are among the tables of the
field, if this holds of the types below it. -/
lemma field_statements_names {n : Nat}
    (ih : ∀ (d : Descriptor) (u : Bool), d.depth ≤ n → Descriptor.creatable d u = true →
      ∀ tb ∈ tablesOf (d.statements u), tb.name ∈ d.tables.map (fun x => x.1))
    (name : String) (f : FieldDescriptor) (hfc : FieldDescriptor.creatable f = true)
    (hfd : FieldDescriptor.depth f ≤ n) (tb : Table)
    (hxf : Statement.table tb ∈ FieldDescriptor.statements name f) :
    tb.name ∈ (FieldDescriptor.tables name f).map (fun x => x.1) := by
    rw [FieldDescriptor.statements_eq] at hxf
    rw [FieldDescriptor.creatable_eq] at hfc
    rw [FieldDescriptor.tables_eq]
    cases hl : f.label with
    | singular =>
      rw [hl] at hxf hfc
      cases hty : f.type with
      | scalar t => rw [hty] at hxf; simp [FieldType.statements] at hxf
      | message nd =>
        rw [hty] at hxf hfc
        rw [FieldType.statements] at hxf
        rw [FieldType.creatable] at hfc
        rw [FieldType.tables]
        exact ih nd _ (by rw [FieldDescriptor.depth_message hty] at hfd; exact hfd) hfc tb
          (mem_tablesOf.mpr hxf)
    | repeated =>
      rw [hl] at hxf hfc
      cases hty : f.type with
      | scalar t =>
        rw [hty] at hxf
        simp only [FieldType.statements, List.mem_singleton, Statement.table.injEq] at hxf
        rw [FieldType.tables, hxf]
        simp
      | message nd =>
        rw [hty] at hxf hfc
        rw [FieldType.statements, List.mem_append] at hxf
        rw [FieldType.creatable] at hfc
        rw [FieldType.tables]
        rcases hxf with hxf | hxf
        · have := ih nd _ (by rw [FieldDescriptor.depth_message hty] at hfd; exact hfd)
            hfc tb (mem_tablesOf.mpr hxf)
          simp only [List.map_cons, List.mem_cons]
          exact Or.inr this
        · simp only [List.mem_singleton, Statement.table.injEq] at hxf
          rw [hxf]
          simp
    | map =>
      rw [hl] at hxf hfc
      cases hty : f.type with
      | scalar t => rw [hty] at hxf; simp [FieldType.statements] at hxf
      | message entry =>
        rw [hty] at hxf hfc
        rw [FieldDescriptor.depth_message hty] at hfd
        cases entry with
        | mk en efs =>
          rw [FieldType.statements] at hxf
          rw [FieldType.creatable, Bool.and_eq_true] at hfc
          obtain ⟨hshape, hentry⟩ := hfc
          rw [FieldType.tables]
          cases efs with
          | nil => simp [isEntryShape] at hshape
          | cons k r1 =>
            cases r1 with
            | nil => simp [isEntryShape] at hshape
            | cons v r2 =>
              cases r2 with
              | cons w r3 => simp [isEntryShape] at hshape
              | nil =>
                obtain ⟨hkl, hvl⟩ := isEntryShape_labels hshape
                cases k with
                | mk kn kl kt kk =>
                  cases v with
                  | mk vn vl vt vk =>
                    simp only [FieldDescriptor.label] at hkl hvl
                    subst hkl hvl
                    cases vt with
                    | scalar t2 =>
                      simp only [FieldDescriptor.statementsEntry, List.mem_singleton,
                        Statement.table.injEq] at hxf
                      rw [hxf]
                      simp
                    | message td =>
                      rw [FieldDescriptor.creatableEntry, Bool.and_eq_true] at hentry
                      have hd2 : td.depth ≤ n := by
                        simp only [Descriptor.depth, FieldDescriptor.depthList,
                          FieldDescriptor.depth, FieldType.depth] at hfd
                        omega
                      simp only [FieldDescriptor.statementsEntry, List.mem_append,
                        List.mem_singleton, Statement.table.injEq] at hxf
                      rcases hxf with hxf | hxf
                      · have := ih td _ hd2 hentry.2 tb (mem_tablesOf.mpr hxf)
                        simp only [List.map_cons, List.mem_cons,
                          FieldDescriptor.tablesList, FieldDescriptor.tables,
                          FieldType.tables, List.map_append, List.mem_append,
                          List.append_nil]
                        cases kt with
                        | scalar kt2 =>
                          simp only [FieldType.tables, List.map_nil, List.not_mem_nil,
                            false_or]
                          exact Or.inr this
                        | message kd =>
                          simp only [FieldType.tables]
                          exact Or.inr (Or.inr this)
                      · rw [hxf]
                        simp

/-- The tables of the statements of a well-formed type are among the tables of the
type. -/
lemma statements_names : ∀ (n : Nat) (d : Descriptor) (u : Bool), d.depth ≤ n →
    Descriptor.creatable d u = true →
    ∀ tb ∈ tablesOf (d.statements u), tb.name ∈ d.tables.map (fun x => x.1) := by
  intro n
  induction n with
  | zero =>
    intro d u hd
    have := Descriptor.depth_pos d
    omega
  | succ n ih =>
    intro d u hd hcre tb htb
    cases d with
    | mk name fs =>
      rw [Descriptor.creatable_mk, Bool.and_eq_true, Bool.and_eq_true] at hcre
      obtain ⟨_, hlist⟩ := hcre
      rw [Descriptor.statements_mk, tablesOf_append] at htb
      rw [Descriptor.tables_mk]
      simp only [tablesOf, tablesOf_triggers, List.mem_append, List.mem_cons,
        List.not_mem_nil, or_false] at htb
      rcases htb with htb | htb
      · rw [mem_tablesOf] at htb
        obtain ⟨f, hf, hxf⟩ := FieldDescriptor.statementsList_mem htb
        have hfc := FieldDescriptor.creatableList_mem hlist f hf
        have hfd : FieldDescriptor.depth f ≤ n :=
          Descriptor.depth_fields hd f (by simpa [Descriptor.fields] using hf)
        have hin := field_statements_names ih name f hfc hfd tb hxf
        simp only [List.map_cons, List.mem_cons]
        right
        obtain ⟨x, hx, hxn⟩ := List.mem_map.mp hin
        exact List.mem_map.mpr ⟨x, FieldDescriptor.tablesList_mem hf x hx, hxn⟩
      · rw [htb]
        simp

end ProtoDatabase

namespace ProtoDatabase

/-! ## The `UNIQUE` constraints of a main table -/

/-- The local variables of `createTableImpl` after its loop, whenever the loop returns,
whatever the nested calls do. -/
lemma createTableLoop_acc {create : Descriptor → Bool → Exec Unit} (descriptor : Descriptor) :
    ∀ (fs : List FieldDescriptor) (acc acc2 : CreateAcc) (s s1 : Store),
      createTableLoop create descriptor fs acc s = (.ok acc2, s1) →
      acc2 = ⟨acc.fields ++ mainColumns fs,
        acc.uniqueFields ++ (fs.filter (fun f => !f.is_map && !f.is_repeated && isKey f)).map
          (fun f => [getColumnName f.name]),
        acc.foreignKeys ++ mainForeignKeys fs,
        acc.fieldList ++ (mainColumns fs).map (fun c => c.1),
        acc.uniqueObjects || fs.any (fun f => !f.is_map && !f.is_repeated && isKey f)⟩ := by
  intro fs
  induction fs with
  | nil =>
    intro acc acc2 s s1 h
    unfold createTableLoop at h
    simp only [Exec.pure, Prod.mk.injEq, Except.ok.injEq] at h
    rw [← h.1]
    simp [mainColumns, mainForeignKeys]
  | cons f rest ih =>
    intro acc acc2 s s1 h
    unfold createTableLoop at h
    dsimp only at h
    cases hm : f.is_map with
    | true =>
      simp only [hm, if_true] at h
      obtain ⟨_, s2, _, h2⟩ := Exec.bind_ok.mp h
      rw [ih _ _ _ _ h2]
      simp [mainColumns, mainForeignKeys, List.filter_cons, hm]
    | false =>
      simp only [hm, Bool.false_eq_true, if_false] at h
      cases hr : f.is_repeated with
      | true =>
        simp only [hr, if_true] at h
        obtain ⟨_, s2, _, h2⟩ := Exec.bind_ok.mp h
        rw [ih _ _ _ _ h2]
        simp [mainColumns, mainForeignKeys, List.filter_cons, hm, hr]
      | false =>
        simp only [hr, Bool.false_eq_true, if_false] at h
        cases hty : f.type with
        | scalar t =>
          simp only [hty] at h
          rw [ih _ _ _ _ h]
          cases hk : isKey f <;>
            simp [mainColumns, mainForeignKeys, List.filter_cons, hm, hr, hk, hty,
              List.append_assoc]
        | message nested =>
          simp only [hty] at h
          obtain ⟨_, s2, _, h2⟩ := Exec.bind_ok.mp h
          rw [ih _ _ _ _ h2]
          cases hk : isKey f <;>
            simp [mainColumns, mainForeignKeys, List.filter_cons, hm, hr, hk, hty,
              List.append_assoc]

lemma keyUniques_eq (d : Descriptor) :
    keyUniques d = (d.fields.filter (fun f => !f.is_map && !f.is_repeated && isKey f)).map
      (fun f => [getColumnName f.name]) := rfl

/-- The three cases of the `UNIQUE` constraints of a main table. -/
lemma mainUniques_cases (d : Descriptor) (u : Bool) :
    (keyUniques d ≠ [] → mainUniques d.fields u = keyUniques d) ∧
    (keyUniques d = [] → u = true →
      mainUniques d.fields u = [(mainColumns d.fields).map (fun c => c.1)]) ∧
    (keyUniques d = [] → u = false → mainUniques d.fields u = []) := by
  rw [keyUniques_eq]
  unfold mainUniques
  refine ⟨fun h => ?_, fun h hu => ?_, fun h hu => ?_⟩
  · cases hk : (d.fields.filter (fun f => !f.is_map && !f.is_repeated && isKey f)).map
        (fun f => [getColumnName f.name]) with
    | nil => exact absurd hk h
    | cons a b => simp
  · rw [h, hu]; rfl
  · rw [h, hu]; rfl

/-- No table of the statements for the fields of a well-formed type has a name outside
the names of the tables below the type. -/
lemma statementsList_names {n : Nat} {name : String} {fs : List FieldDescriptor} {u : Bool}
    (hd : (Descriptor.mk name fs).depth ≤ n)
    (hcre : Descriptor.creatable (.mk name fs) u = true) :
    ∀ tb ∈ tablesOf (FieldDescriptor.statementsList name fs),
      tb.name ∈ (Descriptor.mk name fs).childTables := by
  intro tb htb
  have hfuel : ∃ k, n = k + 1 := by
    have := Descriptor.depth_pos (.mk name fs)
    exact ⟨n - 1, by omega⟩
  obtain ⟨k, rfl⟩ := hfuel
  rw [Descriptor.creatable_mk, Bool.and_eq_true, Bool.and_eq_true] at hcre
  obtain ⟨⟨hnames, _⟩, hlist⟩ := hcre
  rw [mem_tablesOf] at htb
  obtain ⟨f, hf, hxf⟩ := FieldDescriptor.statementsList_mem htb
  have hfc := FieldDescriptor.creatableList_mem hlist f hf
  have hfd : FieldDescriptor.depth f ≤ k :=
    Descriptor.depth_fields hd f (by simpa [Descriptor.fields] using hf)
  have h1 := field_statements_names (statements_names k) name f hfc hfd tb hxf
  unfold Descriptor.childTables
  simp only [Descriptor.name, Descriptor.fields]
  obtain ⟨x, hx, hxn⟩ := List.mem_map.mp h1
  exact List.mem_map.mpr ⟨x, FieldDescriptor.tablesList_mem hf x hx, hxn⟩

/-- The table `createTableImpl` creates for a well-formed type, in a store that has no
table of that name. -/
lemma createTableImpl_table (fuel : Nat) (d : Descriptor) (u : Bool) (s : Store)
    (hdepth : d.depth ≤ fuel) (hcre : Descriptor.creatable d u = true)
    (hnew : s.table? d.name = none) (hself : d.name ∉ d.childTables) :
    createTableImpl fuel d u s = (.ok (), s.run (d.statements u)) ∧
    (s.run (d.statements u)).table? d.name =
      some ⟨d.name, mainColumns d.fields, mainUniques d.fields u, mainForeignKeys d.fields⟩ := by
  refine ⟨createTableImpl_run fuel d u hdepth hcre s, ?_⟩
  rw [Store.run_table?]
  cases d with
  | mk name fs =>
    have hnames := statementsList_names hdepth hcre
    rw [Descriptor.statements_mk, tablesOf_append]
    simp only [tablesOf, tablesOf_triggers, Descriptor.name, Descriptor.fields]
    rw [tableOf_append, tableOf_append]
    have h1 : tableOf s.tables name = none := hnew
    have h2 : tableOf (tablesOf (FieldDescriptor.statementsList name fs)) name = none := by
      cases h : tableOf (tablesOf (FieldDescriptor.statementsList name fs)) name with
      | none => rfl
      | some tb =>
        exfalso
        unfold tableOf at h
        have hm := List.mem_of_find?_eq_some h
        have hn := List.find?_some h
        have hname : tb.name = name := by simpa using hn
        have hin := hnames tb hm
        rw [hname] at hin
        exact hself hin
    rw [h1, h2]
    simp [tableOf, Option.or]

/-- Claim C24 (the `UNIQUE` constraints of a main table).  For every type and flag
`uniqueObjects`: once the loop over the fields has returned, the next statement of
`createTableImpl` is `CREATE TABLE IF NOT EXISTS` of the main table with one column per
singular field and with `UNIQUE` constraints `U` such that (a) with key fields, `U` has
one constraint per key field, over the column of that field alone, whatever the flag;
(b) without key fields and with the flag set, `U` is the one constraint over the columns
of all singular fields in declaration order; (c) without key fields and without the flag,
`U` is empty.  And for a type whose statements are well formed, in a store that has no
table of its name (nor gets one from a type below it), `createTableImpl` returns and the
table of the type carries exactly these constraints. -/
theorem unique_constraints_of_main_table (fuel : Nat) (d : Descriptor) (u : Bool) (s : Store) :
    (∀ acc s1, createTableLoop (createTableImpl fuel) d d.fields ⟨[], [], [], [], u⟩ s =
        (.ok acc, s1) →
      ∃ U, createTableImpl (fuel + 1) d u s =
          Exec.bind (Store.createTable d.name (mainColumns d.fields) U acc.foreignKeys)
            (fun _ => createTriggers d acc.foreignKeys) s1 ∧
        (keyUniques d ≠ [] → U = keyUniques d) ∧
        (keyUniques d = [] → u = true → U = [(mainColumns d.fields).map (fun c => c.1)]) ∧
        (keyUniques d = [] → u = false → U = [])) ∧
    (d.depth ≤ fuel → Descriptor.creatable d u = true → s.table? d.name = none →
      d.name ∉ d.childTables →
      ∃ s1 tb, createTableImpl fuel d u s = (.ok (), s1) ∧ s1.table? d.name = some tb ∧
        tb.columns = mainColumns d.fields ∧
        (keyUniques d ≠ [] → tb.uniques = keyUniques d) ∧
        (keyUniques d = [] → u = true →
          tb.uniques = [(mainColumns d.fields).map (fun c => c.1)]) ∧
        (keyUniques d = [] → u = false → tb.uniques = [])) := by
  constructor
  · intro acc s1 h
    have hacc := createTableLoop_acc d d.fields _ acc s s1 h
    simp only [List.nil_append] at hacc
    refine ⟨mainUniques d.fields u, ?_, mainUniques_cases d u⟩
    unfold createTableImpl
    rw [Exec.bind_run h, hacc]
    simp only
    have huf : (if ((d.fields.filter (fun f => !f.is_map && !f.is_repeated && isKey f)).map
          (fun f => [getColumnName f.name])).isEmpty &&
          (u || d.fields.any (fun f => !f.is_map && !f.is_repeated && isKey f)) then
          [(mainColumns d.fields).map (fun c => c.1)]
        else (d.fields.filter (fun f => !f.is_map && !f.is_repeated && isKey f)).map
          (fun f => [getColumnName f.name])) = mainUniques d.fields u := by
      unfold mainUniques
      cases hk : (d.fields.filter (fun f => !f.is_map && !f.is_repeated && isKey f)) with
      | nil =>
        have hany : d.fields.any (fun f => !f.is_map && !f.is_repeated && isKey f) = false := by
          rw [Bool.eq_false_iff]
          intro h
          rw [List.any_eq_true] at h
          obtain ⟨x, hx, hxp⟩ := h
          have : x ∈ d.fields.filter (fun f => !f.is_map && !f.is_repeated && isKey f) :=
            List.mem_filter.mpr ⟨hx, hxp⟩
          rw [hk] at this
          cases this
        simp [hany]
      | cons a b => simp
    rw [huf]
  · intro hdepth hcre hnew hself
    obtain ⟨h1, h2⟩ := createTableImpl_table fuel d u s hdepth hcre hnew hself
    exact ⟨_, _, h1, h2, rfl, mainUniques_cases d u⟩

/-- Witness of C24: the type `Tag`, whose one field is its key, on the empty database. -/
theorem unique_constraints_of_main_table_witness :
    Examples.Tag.depth ≤ 1 ∧ Descriptor.creatable Examples.Tag false = true ∧
    Store.empty.table? Examples.Tag.name = none ∧
    Examples.Tag.name ∉ Examples.Tag.childTables ∧
    ∃ s1 tb, createTableImpl 1 Examples.Tag false Store.empty = (.ok (), s1) ∧
      s1.table? Examples.Tag.name = some tb ∧
      tb.columns = mainColumns Examples.Tag.fields ∧
      (keyUniques Examples.Tag ≠ [] → tb.uniques = keyUniques Examples.Tag) ∧
      (keyUniques Examples.Tag = [] → false = true →
        tb.uniques = [(mainColumns Examples.Tag.fields).map (fun c => c.1)]) ∧
      (keyUniques Examples.Tag = [] → false = false → tb.uniques = []) :=
  ⟨by decide, by decide, by rfl, by decide,
    (unique_constraints_of_main_table 1 Examples.Tag false Store.empty).2
      (by decide) (by decide) (by rfl) (by decide)⟩

end ProtoDatabase

namespace ProtoDatabase

/-! ## The first definition of a table or trigger is the one that counts -/

/-- Claim C25 (code defect): `Pos` declares no key and is the type of the key field of
`Item`, `Route` and `Chart`, but each of them reaches `Pos` first through another field
(a singular field that is no key, a repeated field, the value of a map), where
`createTableImpl(Pos, false)` creates the table without a `UNIQUE` constraint; the later
`CREATE TABLE IF NOT EXISTS` with the constraint changes nothing.  Where the key field
comes first (`Spot`), the table has the constraint over all its columns.  Without it,
two `Route` records with the same key are both stored, in two rows of `Pos` with the
same content. -/
theorem keyless_key_type_created_without_unique :
    ((Examples.created 3 Examples.Item).table? "Pos").map (fun tb => tb.uniques) = some [] ∧
    ((Examples.created 3 Examples.Route).table? "Pos").map (fun tb => tb.uniques) = some [] ∧
    ((Examples.created 3 Examples.Chart).table? "Pos").map (fun tb => tb.uniques) = some [] ∧
    ((Examples.created 3 Examples.Spot).table? "Pos").map (fun tb => tb.uniques) =
      some [["field_x", "field_y"]] ∧
    (insertMessage 3 Examples.Route (Examples.route [] (Examples.pos 4 2))
      (Examples.inserted 3 Examples.Route (Examples.route [] (Examples.pos 4 2))
        (Examples.created 3 Examples.Route))).1 = .ok 2 ∧
    (insertMessage 3 Examples.Route (Examples.route [] (Examples.pos 4 2))
      (Examples.inserted 3 Examples.Route (Examples.route [] (Examples.pos 4 2))
        (Examples.created 3 Examples.Route))).2.rows "Pos" =
      [⟨1, [.integer 4, .integer 2]⟩, ⟨2, [.integer 4, .integer 2]⟩] := by
  refine ⟨by rfl, by rfl, by rfl, by rfl, by rfl, by rfl⟩

/-- Claim C26 (code defect): the two fields `a` and `b` of `Pair` have the nested type
`Tag`, so `createTableImpl` builds the name `on_delete_Pair_Tag` for both triggers and
`CREATE TRIGGER IF NOT EXISTS` registers only the one of `a`.  With
`Pair{a: Tag{5}, b: Tag{6}}` stored, `clearTable<Pair>()` removes the row of `Pair` and
the row of `Tag` that `a` refers to; the row that `b` refers to stays. -/
theorem one_trigger_for_two_nested_fields :
    (Examples.created 2 Examples.Pair).triggers =
      [⟨"on_delete_Pair_Tag", "Pair", "Tag", "field_a"⟩] ∧
    (Examples.inserted 2 Examples.Pair (Examples.pair 5 6)
      (Examples.created 2 Examples.Pair)).rows "Pair" = [⟨1, [.integer 1, .integer 2]⟩] ∧
    (Examples.inserted 2 Examples.Pair (Examples.pair 5 6)
      (Examples.created 2 Examples.Pair)).rows "Tag" = [⟨1, [.integer 5]⟩, ⟨2, [.integer 6]⟩] ∧
    (clearTable "Pair" (Examples.inserted 2 Examples.Pair (Examples.pair 5 6)
      (Examples.created 2 Examples.Pair))).1 = .ok () ∧
    (clearTable "Pair" (Examples.inserted 2 Examples.Pair (Examples.pair 5 6)
      (Examples.created 2 Examples.Pair))).2.rows "Pair" = [] ∧
    (clearTable "Pair" (Examples.inserted 2 Examples.Pair (Examples.pair 5 6)
      (Examples.created 2 Examples.Pair))).2.rows "Tag" = [⟨2, [.integer 6]⟩] := by
  refine ⟨by rfl, by rfl, by rfl, by rfl, by rfl, by rfl⟩

end ProtoDatabase

namespace ProtoDatabase

/-! ## The recursion is bounded by the depth of the type -/

lemma FieldDescriptor.depth_get? {fs : List FieldDescriptor} {i : Nat} {f : FieldDescriptor}
    (h : fs.get? i = some f) : FieldDescriptor.depth f ≤ FieldDescriptor.depthList fs :=
  FieldDescriptor.depthList_mem (List.get?_mem h)

lemma Descriptor.depth_succ_fields (d : Descriptor) :
    d.depth = FieldDescriptor.depthList d.fields + 1 := by
  cases d with
  | mk n fs => simp only [Descriptor.depth, Descriptor.fields]

/-- The depth of the value type of a map field is below the depth of the field. -/
lemma depth_map_value {field : FieldDescriptor} {entry : Descriptor} {v : FieldDescriptor}
    {td : Descriptor} {n : Nat} (hd : FieldDescriptor.depth field ≤ n)
    (hty : field.type = .message entry) (hv : entry.fields.get? 1 = some v)
    (hvt : v.type = .message td) : td.depth ≤ n := by
  rw [FieldDescriptor.depth_message hty, Descriptor.depth_succ_fields] at hd
  have h1 := FieldDescriptor.depth_get? hv
  rw [FieldDescriptor.depth_message hvt] at h1
  omega

/-! ### Schema creation -/

lemma createMapTable_congr {c1 c2 : Descriptor → Bool → Exec Unit} {n : Nat}
    (hc : ∀ d u, d.depth ≤ n → c1 d u = c2 d u) (descriptor : Descriptor)
    (field : FieldDescriptor) (hd : FieldDescriptor.depth field ≤ n) :
    createMapTable c1 descriptor field = createMapTable c2 descriptor field := by
  unfold createMapTable
  cases hmt : field.message_type with
  | none => rfl
  | some entry =>
    have hty : field.type = .message entry := by
      unfold FieldDescriptor.message_type at hmt
      cases h : field.type with
      | scalar t => rw [h] at hmt; cases hmt
      | message d => rw [h] at hmt; cases hmt; rfl
    simp only
    cases hk : entry.map_key with
    | none => rfl
    | some k =>
      cases hv : entry.map_value with
      | none => rfl
      | some v =>
        simp only
        cases hvt : v.type with
        | scalar t => rfl
        | message td =>
          simp only
          rw [hc td false (depth_map_value hd hty hv hvt)]

lemma createArrayTable_congr {c1 c2 : Descriptor → Bool → Exec Unit} {n : Nat}
    (hc : ∀ d u, d.depth ≤ n → c1 d u = c2 d u) (descriptor : Descriptor)
    (field : FieldDescriptor) (hd : FieldDescriptor.depth field ≤ n) :
    createArrayTable c1 descriptor field = createArrayTable c2 descriptor field := by
  unfold createArrayTable
  cases hty : field.type with
  | scalar t => rfl
  | message nested =>
    simp only
    rw [hc nested false (by rw [FieldDescriptor.depth_message hty] at hd; exact hd)]

lemma createTableLoop_congr {c1 c2 : Descriptor → Bool → Exec Unit} {n : Nat}
    (hc : ∀ d u, d.depth ≤ n → c1 d u = c2 d u) (descriptor : Descriptor) :
    ∀ (fs : List FieldDescriptor) (acc : CreateAcc),
      (∀ f ∈ fs, FieldDescriptor.depth f ≤ n) →
      createTableLoop c1 descriptor fs acc = createTableLoop c2 descriptor fs acc := by
  intro fs
  induction fs with
  | nil => intro acc _; rfl
  | cons f rest ih =>
    intro acc hfs
    have hf := hfs f (List.mem_cons_self _ _)
    have hrest : ∀ g ∈ rest, FieldDescriptor.depth g ≤ n :=
      fun g hg => hfs g (List.mem_cons_of_mem _ hg)
    unfold createTableLoop
    dsimp only
    rw [createMapTable_congr hc descriptor f hf, createArrayTable_congr hc descriptor f hf]
    have ih1 : ∀ acc, createTableLoop c1 descriptor rest acc =
        createTableLoop c2 descriptor rest acc := fun acc => ih acc hrest
    simp only [ih1]
    cases hty : f.type with
    | scalar t => rfl
    | message nested =>
      simp only
      rw [hc nested (isKey f) (by rw [FieldDescriptor.depth_message hty] at hf; exact hf)]

/-- One more unit of fuel than the depth of the type changes nothing in
`createTableImpl`. -/
lemma createTableImpl_succ : ∀ (fuel : Nat) (d : Descriptor) (u : Bool), d.depth ≤ fuel →
    createTableImpl fuel d u = createTableImpl (fuel + 1) d u := by
  intro fuel
  induction fuel with
  | zero =>
    intro d u hd
    have := Descriptor.depth_pos d
    omega
  | succ fuel ih =>
    intro d u hd
    rw [createTableImpl, createTableImpl]
    rw [createTableLoop_congr (fun nd nu hnd => ih nd nu hnd) d d.fields _
      (Descriptor.depth_fields hd)]

/-- With fuel of at least the depth of the type, `createTableImpl` runs as it does with
the depth of the type as fuel. -/
lemma createTableImpl_stable (d : Descriptor) (u : Bool) : ∀ (k : Nat),
    createTableImpl (d.depth + k) d u = createTableImpl d.depth d u := by
  intro k
  induction k with
  | zero => rfl
  | succ k ih =>
    rw [← ih]
    exact (createTableImpl_succ (d.depth + k) d u (by omega)).symm

/-! ### The write path -/

lemma bindField_congr {w1 w2 : Descriptor → Message → Exec Int} {n : Nat}
    (hw : ∀ d m, d.depth ≤ n → w1 d m = w2 d m)
    (find : Descriptor → Message → Store → Except Err (Option Int)) (ins : Bool)
    (field : FieldDescriptor) (value : Value) (hd : FieldDescriptor.depth field ≤ n) :
    bindField w1 find ins field value = bindField w2 find ins field value := by
  unfold bindField
  cases hty : field.type with
  | scalar t => cases value <;> rfl
  | message d =>
    cases value with
    | message has m =>
      simp only
      rw [hw d m (by rw [FieldDescriptor.depth_message hty] at hd; exact hd)]
    | scalar has x => rfl
    | repeated xs => rfl
    | repeatedMessage ms => rfl

lemma insertMessageFields_congr {w1 w2 : Descriptor → Message → Exec Int} {n : Nat}
    (hw : ∀ d m, d.depth ≤ n → w1 d m = w2 d m)
    (find : Descriptor → Message → Store → Except Err (Option Int)) (ins : Bool) :
    ∀ ps : List (FieldDescriptor × Value), (∀ p ∈ ps, FieldDescriptor.depth p.1 ≤ n) →
      insertMessageFields w1 find ins ps = insertMessageFields w2 find ins ps := by
  intro ps
  induction ps with
  | nil => intro _; rfl
  | cons p rest ih =>
    intro hps
    obtain ⟨field, value⟩ := p
    unfold insertMessageFields
    rw [bindField_congr hw find ins field value (hps (field, value) (List.mem_cons_self _ _)),
      ih (fun q hq => hps q (List.mem_cons_of_mem _ hq))]

lemma writeElements_congr {w1 w2 : Descriptor → Message → Exec Int} {n : Nat}
    (hw : ∀ d m, d.depth ≤ n → w1 d m = w2 d m) (d : Descriptor) (hd : d.depth ≤ n) :
    ∀ ms : List Message, writeElements w1 d ms = writeElements w2 d ms := by
  intro ms
  induction ms with
  | nil => rfl
  | cons m rest ih =>
    unfold writeElements
    rw [hw d m hd, ih]

lemma insertMessageRepeatedField_congr {w1 w2 : Descriptor → Message → Exec Int} {n : Nat}
    (hw : ∀ d m, d.depth ≤ n → w1 d m = w2 d m) (field : FieldDescriptor) (value : Value)
    (hd : FieldDescriptor.depth field ≤ n) :
    insertMessageRepeatedField w1 field value = insertMessageRepeatedField w2 field value := by
  unfold insertMessageRepeatedField
  cases hty : field.type with
  | scalar t => cases value <;> rfl
  | message d =>
    cases value with
    | repeatedMessage ms =>
      simp only
      exact writeElements_congr hw d (by rw [FieldDescriptor.depth_message hty] at hd; exact hd)
        ms
    | scalar has x => rfl
    | repeated xs => rfl
    | message has m => rfl

lemma writeArray_congr {w1 w2 : Descriptor → Message → Exec Int} {n : Nat}
    (hw : ∀ d m, d.depth ≤ n → w1 d m = w2 d m) (descriptor : Descriptor)
    (field : FieldDescriptor) (value : Value) (id : Int)
    (hd : FieldDescriptor.depth field ≤ n) :
    writeArray w1 descriptor field value id = writeArray w2 descriptor field value id := by
  unfold writeArray
  rw [insertMessageRepeatedField_congr hw field value hd]

lemma writeArrays_congr {w1 w2 : Descriptor → Message → Exec Int} {n : Nat}
    (hw : ∀ d m, d.depth ≤ n → w1 d m = w2 d m) (descriptor : Descriptor) (id : Int) :
    ∀ ps : List (FieldDescriptor × Value), (∀ p ∈ ps, FieldDescriptor.depth p.1 ≤ n) →
      writeArrays w1 descriptor id ps = writeArrays w2 descriptor id ps := by
  intro ps
  induction ps with
  | nil => intro _; rfl
  | cons p rest ih =>
    intro hps
    obtain ⟨field, value⟩ := p
    unfold writeArrays
    rw [writeArray_congr hw descriptor field value id
      (hps (field, value) (List.mem_cons_self _ _)),
      ih (fun q hq => hps q (List.mem_cons_of_mem _ hq))]

lemma writeEntries_congr {w1 w2 : Descriptor → Message → Exec Int} {n : Nat}
    (hw : ∀ d m, d.depth ≤ n → w1 d m = w2 d m) (keyField valueField : FieldDescriptor)
    (hk : FieldDescriptor.depth keyField ≤ n) (hv : FieldDescriptor.depth valueField ≤ n) :
    ∀ ms : List Message,
      writeEntries w1 keyField valueField ms = writeEntries w2 keyField valueField ms := by
  intro ms
  induction ms with
  | nil => rfl
  | cons m rest ih =>
    unfold writeEntries
    rw [ih]
    rw [insertMessageFields_congr hw _ true ([keyField, valueField].zip m.fields) (by
      intro p hp
      have h1 := (List.of_mem_zip hp).1
      simp only [List.mem_cons, List.mem_singleton, List.not_mem_nil, or_false] at h1
      rcases h1 with h1 | h1 <;> rw [h1] <;> assumption)]

lemma writeMap_congr {w1 w2 : Descriptor → Message → Exec Int} {n : Nat}
    (hw : ∀ d m, d.depth ≤ n → w1 d m = w2 d m) (descriptor : Descriptor)
    (field : FieldDescriptor) (value : Value) (id : Int)
    (hd : FieldDescriptor.depth field ≤ n) :
    writeMap w1 descriptor field value id = writeMap w2 descriptor field value id := by
  unfold writeMap
  cases hmt : field.message_type with
  | none => rfl
  | some entry =>
    have hty : field.type = .message entry := by
      unfold FieldDescriptor.message_type at hmt
      cases h : field.type with
      | scalar t => rw [h] at hmt; cases hmt
      | message d => rw [h] at hmt; cases hmt; rfl
    have hed : FieldDescriptor.depthList entry.fields + 1 ≤ n := by
      rw [FieldDescriptor.depth_message hty, Descriptor.depth_succ_fields] at hd; exact hd
    simp only
    cases hk : entry.map_key with
    | none => rfl
    | some k =>
      cases hv : entry.map_value with
      | none => rfl
      | some v =>
        simp only
        have hkd : FieldDescriptor.depth k ≤ n := by
          have := FieldDescriptor.depth_get? (i := 0) hk
          omega
        have hvd : FieldDescriptor.depth v ≤ n := by
          have := FieldDescriptor.depth_get? (i := 1) hv
          omega
        simp only [writeEntries_congr hw k v hkd hvd]

lemma writeMaps_congr {w1 w2 : Descriptor → Message → Exec Int} {n : Nat}
    (hw : ∀ d m, d.depth ≤ n → w1 d m = w2 d m) (descriptor : Descriptor) (id : Int) :
    ∀ ps : List (FieldDescriptor × Value), (∀ p ∈ ps, FieldDescriptor.depth p.1 ≤ n) →
      writeMaps w1 descriptor id ps = writeMaps w2 descriptor id ps := by
  intro ps
  induction ps with
  | nil => intro _; rfl
  | cons p rest ih =>
    intro hps
    obtain ⟨field, value⟩ := p
    unfold writeMaps
    rw [writeMap_congr hw descriptor field value id
      (hps (field, value) (List.mem_cons_self _ _)),
      ih (fun q hq => hps q (List.mem_cons_of_mem _ hq))]

/-- The fields of a type of depth at most `fuel + 1`, paired with the values of a
message, have types of depth at most `fuel`. -/
lemma depth_of_zip {d : Descriptor} {fuel : Nat} (hd : d.depth ≤ fuel + 1) (vs : List Value)
    (q : FieldDescriptor × Value → Bool) :
    ∀ p ∈ (d.fields.zip vs).filter q, FieldDescriptor.depth p.1 ≤ fuel := by
  intro p hp
  exact Descriptor.depth_fields hd p.1 (List.of_mem_zip (List.mem_filter.mp hp).1).1

/-- One more unit of fuel than the depth of the type changes nothing in
`writeMessageImpl`. -/
lemma writeMessageImpl_succ : ∀ (fuel : Nat) (d : Descriptor) (m : Message) (hc : Bool),
    d.depth ≤ fuel → writeMessageImpl fuel d m hc = writeMessageImpl (fuel + 1) d m hc := by
  intro fuel
  induction fuel with
  | zero =>
    intro d m hc hd
    have := Descriptor.depth_pos d
    omega
  | succ fuel ih =>
    intro d m hc hd
    have hw : ∀ (nd : Descriptor) (nm : Message), nd.depth ≤ fuel →
        (fun d m => writeMessageImpl fuel d m false) nd nm =
          (fun d m => writeMessageImpl (fuel + 1) d m false) nd nm :=
      fun nd nm hnd => ih nd nm false hnd
    rw [writeMessageImpl, writeMessageImpl]
    dsimp only
    rw [insertMessageFields_congr hw _ true _ (depth_of_zip hd m.fields _)]
    simp only [writeMaps_congr hw d _ _ (depth_of_zip hd m.fields _),
      writeArrays_congr hw d _ _ (depth_of_zip hd m.fields _)]

/-- With fuel of at least the depth of the type, `writeMessageImpl` runs as it does with
the depth of the type as fuel. -/
lemma writeMessageImpl_stable (d : Descriptor) (m : Message) (hc : Bool) : ∀ (k : Nat),
    writeMessageImpl (d.depth + k) d m hc = writeMessageImpl d.depth d m hc := by
  intro k
  induction k with
  | zero => rfl
  | succ k ih =>
    rw [← ih]
    exact (writeMessageImpl_succ (d.depth + k) d m hc (by omega)).symm

/-! ### The read path -/

lemma readArrayMessages_congr {f1 f2 : String → Descriptor → Int → Except Err Message}
    {n : Nat} (hf : ∀ t d i, d.depth ≤ n → f1 t d i = f2 t d i) (s : Store)
    (tn cn : String) (nested : Descriptor) (hd : nested.depth ≤ n) :
    ∀ ids : List Int, readArrayMessages f1 s tn cn nested ids =
      readArrayMessages f2 s tn cn nested ids := by
  intro ids
  induction ids with
  | nil => rfl
  | cons i rest ih =>
    unfold readArrayMessages
    rw [ih]
    simp only [hf _ nested _ hd]

lemma readMapEntries_congr {f1 f2 : String → Descriptor → Int → Except Err Message}
    {n : Nat} (hf : ∀ t d i, d.depth ≤ n → f1 t d i = f2 t d i)
    (tn : String) (entry : Descriptor) (hd : entry.depth ≤ n) :
    ∀ ids : List Int, readMapEntries f1 tn entry ids = readMapEntries f2 tn entry ids := by
  intro ids
  induction ids with
  | nil => rfl
  | cons i rest ih =>
    unfold readMapEntries
    rw [ih, hf tn entry i hd]

lemma readFieldsLoop_congr {f1 f2 : String → Descriptor → Int → Except Err Message}
    {n : Nat} (hf : ∀ t d i, d.depth ≤ n → f1 t d i = f2 t d i) (s : Store)
    (descriptor : Descriptor) (row : Row) :
    ∀ (fs : List FieldDescriptor) (column : Nat), (∀ f ∈ fs, FieldDescriptor.depth f ≤ n) →
      readFieldsLoop f1 s descriptor row fs column =
        readFieldsLoop f2 s descriptor row fs column := by
  intro fs
  induction fs with
  | nil => intro column _; rfl
  | cons f rest ih =>
    intro column hfs
    have hfd := hfs f (List.mem_cons_self _ _)
    have ih1 : ∀ c, readFieldsLoop f1 s descriptor row rest c =
        readFieldsLoop f2 s descriptor row rest c :=
      fun c => ih c (fun g hg => hfs g (List.mem_cons_of_mem _ hg))
    unfold readFieldsLoop
    simp only [ih1]
    cases hty : f.type with
    | scalar t => rfl
    | message nested =>
      have hnd : nested.depth ≤ n := by
        rw [FieldDescriptor.depth_message hty] at hfd; exact hfd
      simp only [readArrayMessages_congr hf s _ _ nested hnd,
        readMapEntries_congr hf _ nested hnd, hf _ nested _ hnd]

/-- One more unit of fuel than the depth of the type changes nothing in
`findMessage(type, id, message)`. -/
lemma findMessageById_succ (s : Store) : ∀ (fuel : Nat) (t : String) (d : Descriptor)
    (i : Int), d.depth ≤ fuel →
    findMessageById fuel s t d i = findMessageById (fuel + 1) s t d i := by
  intro fuel
  induction fuel with
  | zero =>
    intro t d i hd
    have := Descriptor.depth_pos d
    omega
  | succ fuel ih =>
    intro t d i hd
    rw [findMessageById, findMessageById]
    simp only [readFieldsLoop_congr (fun t nd i hnd => ih t nd i hnd) s d _ d.fields 1
      (Descriptor.depth_fields hd)]

/-- One more unit of fuel than the depth of the type changes nothing in `readFields`. -/
lemma readFields_succ (s : Store) (fuel : Nat) (d : Descriptor) (row : Row)
    (hd : d.depth ≤ fuel) : readFields fuel s d row = readFields (fuel + 1) s d row := by
  unfold readFields
  have hfs : ∀ f ∈ d.fields, FieldDescriptor.depth f ≤ fuel := fun f hf =>
    Descriptor.depth_fields (Nat.le_succ_of_le hd) f hf
  rw [readFieldsLoop_congr (fun t nd i hnd => findMessageById_succ s fuel t nd i hnd) s d row
    d.fields 1 hfs]

/-- With fuel of at least the depth of the type, `readFields` runs as it does with the
depth of the type as fuel. -/
lemma readFields_stable (s : Store) (d : Descriptor) (row : Row) : ∀ (k : Nat),
    readFields (d.depth + k) s d row = readFields d.depth s d row := by
  intro k
  induction k with
  | zero => rfl
  | succ k ih =>
    rw [← ih]
    exact (readFields_succ s (d.depth + k) d row (by omega)).symm

end ProtoDatabase

namespace ProtoDatabase

/-! ## Enough fuel is never used up -/

/-! ### Schema creation -/

lemma Store.createTable_thrown (name : String) (columns : List (String × SqlType))
    (uniques : List (List String)) (foreignKeys : List (String × String)) :
    Exec.raisesOnly Err.thrown (Store.createTable name columns uniques foreignKeys) := by
  intro s e s1 h
  unfold Store.createTable at h
  split at h
  · cases h; rfl
  · split at h
    · cases h; rfl
    · split at h <;> cases h

lemma Store.createTrigger_thrown (trg : Trigger) :
    Exec.raisesOnly Err.thrown (Store.createTrigger trg) := by
  intro s e s1 h
  unfold Store.createTrigger at h
  split at h
  · cases h; rfl
  · split at h <;> cases h

lemma createTriggers_thrown (descriptor : Descriptor) :
    ∀ keys : List (String × String),
      Exec.raisesOnly Err.thrown (createTriggers descriptor keys) := by
  intro keys
  induction keys with
  | nil => unfold createTriggers; exact Exec.raisesOnly_pure _
  | cons key rest ih =>
    unfold createTriggers
    exact Exec.raisesOnly_bind (Store.createTrigger_thrown _) (fun _ => ih)

lemma createMapTable_thrown {create : Descriptor → Bool → Exec Unit} {n : Nat}
    (hc : ∀ d u, d.depth ≤ n → Exec.raisesOnly Err.thrown (create d u))
    (descriptor : Descriptor) (field : FieldDescriptor)
    (hd : FieldDescriptor.depth field ≤ n) :
    Exec.raisesOnly Err.thrown (createMapTable create descriptor field) := by
  unfold createMapTable
  cases hmt : field.message_type with
  | none => exact Exec.raisesOnly_throw rfl
  | some entry =>
    have hty : field.type = .message entry := by
      unfold FieldDescriptor.message_type at hmt
      cases h : field.type with
      | scalar t => rw [h] at hmt; cases hmt
      | message d => rw [h] at hmt; cases hmt; rfl
    dsimp only
    cases hk : entry.map_key with
    | none =>
      show Exec.raisesOnly Err.thrown (Exec.throw .notMessageType)
      exact Exec.raisesOnly_throw rfl
    | some k =>
      cases hv : entry.map_value with
      | none =>
        show Exec.raisesOnly Err.thrown (Exec.throw .notMessageType)
        exact Exec.raisesOnly_throw rfl
      | some v =>
        dsimp only
        cases hvt : v.type with
        | scalar t => exact Store.createTable_thrown _ _ _ _
        | message td =>
          exact Exec.raisesOnly_bind (hc td false (depth_map_value hd hty hv hvt))
            (fun _ => Store.createTable_thrown _ _ _ _)

lemma createArrayTable_thrown {create : Descriptor → Bool → Exec Unit} {n : Nat}
    (hc : ∀ d u, d.depth ≤ n → Exec.raisesOnly Err.thrown (create d u))
    (descriptor : Descriptor) (field : FieldDescriptor)
    (hd : FieldDescriptor.depth field ≤ n) :
    Exec.raisesOnly Err.thrown (createArrayTable create descriptor field) := by
  unfold createArrayTable
  cases hty : field.type with
  | scalar t => exact Store.createTable_thrown _ _ _ _
  | message nested =>
    exact Exec.raisesOnly_bind
      (hc nested false (by rw [FieldDescriptor.depth_message hty] at hd; exact hd))
      (fun _ => Store.createTable_thrown _ _ _ _)

lemma createTableLoop_thrown {create : Descriptor → Bool → Exec Unit} {n : Nat}
    (hc : ∀ d u, d.depth ≤ n → Exec.raisesOnly Err.thrown (create d u))
    (descriptor : Descriptor) :
    ∀ (fs : List FieldDescriptor) (acc : CreateAcc),
      (∀ f ∈ fs, FieldDescriptor.depth f ≤ n) →
      Exec.raisesOnly Err.thrown (createTableLoop create descriptor fs acc) := by
  intro fs
  induction fs with
  | nil => intro acc _; unfold createTableLoop; exact Exec.raisesOnly_pure _
  | cons f rest ih =>
    intro acc hfs
    have hf := hfs f (List.mem_cons_self _ _)
    have hrest : ∀ g ∈ rest, FieldDescriptor.depth g ≤ n :=
      fun g hg => hfs g (List.mem_cons_of_mem _ hg)
    unfold createTableLoop
    dsimp only
    split
    · exact Exec.raisesOnly_bind (createMapTable_thrown hc descriptor f hf)
        (fun _ => ih _ hrest)
    · split
      · exact Exec.raisesOnly_bind (createArrayTable_thrown hc descriptor f hf)
          (fun _ => ih _ hrest)
      · cases hty : f.type with
        | scalar t => exact ih _ hrest
        | message nested =>
          exact Exec.raisesOnly_bind
            (hc nested _ (by rw [FieldDescriptor.depth_message hty] at hf; exact hf))
            (fun _ => ih _ hrest)

/-- With fuel of at least the depth of the type, `createTableImpl` does not run out of
fuel: it returns or throws an exception of the C++ code. -/
lemma createTableImpl_thrown : ∀ (fuel : Nat) (d : Descriptor) (u : Bool), d.depth ≤ fuel →
    Exec.raisesOnly Err.thrown (createTableImpl fuel d u) := by
  intro fuel
  induction fuel with
  | zero =>
    intro d u hd
    have := Descriptor.depth_pos d
    omega
  | succ fuel ih =>
    intro d u hd
    unfold createTableImpl
    exact Exec.raisesOnly_bind
      (createTableLoop_thrown ih d d.fields _ (Descriptor.depth_fields hd))
      (fun acc => Exec.raisesOnly_bind (Store.createTable_thrown _ _ _ _)
        (fun _ => createTriggers_thrown _ _))

/-! ### The read path -/

lemma readArrayScalars_thrown (s : Store) (tn cn : String) (t : CppType) :
    ∀ (ids : List Int) (e : Err), readArrayScalars s tn cn t ids = .error e →
      Err.thrown e = true := by
  intro ids
  induction ids with
  | nil => intro e h; simp [readArrayScalars] at h
  | cons i rest ih =>
    intro e h
    unfold readArrayScalars at h
    cases h1 : s.selectColumnById tn cn i with
    | error e1 =>
      simp only [h1] at h
      cases h
      rw [Store.selectColumnById_err h1]; rfl
    | ok o =>
      cases o with
      | none => simp only [h1] at h; cases h; rfl
      | some cell =>
        simp only [h1] at h
        cases h2 : readArrayScalars s tn cn t rest with
        | error e2 => simp only [h2] at h; cases h; exact ih _ h2
        | ok vs => simp only [h2] at h; cases h

lemma readArrayMessages_thrown {find : String → Descriptor → Int → Except Err Message}
    {n : Nat} (hfind : ∀ t d i e, d.depth ≤ n → find t d i = .error e → Err.thrown e = true)
    (s : Store) (tn cn : String) (nested : Descriptor) (hd : nested.depth ≤ n) :
    ∀ (ids : List Int) (e : Err), readArrayMessages find s tn cn nested ids = .error e →
      Err.thrown e = true := by
  intro ids
  induction ids with
  | nil => intro e h; simp [readArrayMessages] at h
  | cons i rest ih =>
    intro e h
    unfold readArrayMessages at h
    cases h1 : s.selectColumnById tn cn i with
    | error e1 =>
      simp only [h1] at h
      cases h
      rw [Store.selectColumnById_err h1]; rfl
    | ok o =>
      cases o with
      | none => simp only [h1] at h; cases h; rfl
      | some cell =>
        simp only [h1] at h
        cases h3 : find nested.name nested cell.getInt64 with
        | error e3 => simp only [h3] at h; cases h; exact hfind _ _ _ _ hd h3
        | ok m =>
          simp only [h3] at h
          cases h2 : readArrayMessages find s tn cn nested rest with
          | error e2 => simp only [h2] at h; cases h; exact ih _ h2
          | ok vs => simp only [h2] at h; cases h

lemma readMapEntries_thrown {find : String → Descriptor → Int → Except Err Message}
    {n : Nat} (hfind : ∀ t d i e, d.depth ≤ n → find t d i = .error e → Err.thrown e = true)
    (tn : String) (entry : Descriptor) (hd : entry.depth ≤ n) :
    ∀ (ids : List Int) (e : Err), readMapEntries find tn entry ids = .error e →
      Err.thrown e = true := by
  intro ids
  induction ids with
  | nil => intro e h; simp [readMapEntries] at h
  | cons i rest ih =>
    intro e h
    unfold readMapEntries at h
    cases h3 : find tn entry i with
    | error e3 => simp only [h3] at h; cases h; exact hfind _ _ _ _ hd h3
    | ok m =>
      simp only [h3] at h
      cases h2 : readMapEntries find tn entry rest with
      | error e2 => simp only [h2] at h; cases h; exact ih _ h2
      | ok vs => simp only [h2] at h; cases h

lemma readFieldsLoop_thrown {find : String → Descriptor → Int → Except Err Message}
    {n : Nat} (hfind : ∀ t d i e, d.depth ≤ n → find t d i = .error e → Err.thrown e = true)
    (s : Store) (descriptor : Descriptor) (row : Row) :
    ∀ (fs : List FieldDescriptor) (column : Nat) (e : Err),
      (∀ f ∈ fs, FieldDescriptor.depth f ≤ n) →
      readFieldsLoop find s descriptor row fs column = .error e → Err.thrown e = true := by
  intro fs
  induction fs with
  | nil => intro column e _ h; simp [readFieldsLoop] at h
  | cons field rest ih =>
    intro column e hfs h
    have hfd := hfs field (List.mem_cons_self _ _)
    have hrest : ∀ g ∈ rest, FieldDescriptor.depth g ≤ n :=
      fun g hg => hfs g (List.mem_cons_of_mem _ hg)
    unfold readFieldsLoop at h
    split at h
    · cases h1 : findAssociatedMessages s (getFieldTableName descriptor field) row.id with
      | error e1 =>
        simp only [h1] at h
        cases h
        rw [findAssociatedMessages_err h1]
        rfl
      | ok messages =>
        simp only [h1] at h
        cases hty : field.type with
        | scalar t =>
          simp only [hty] at h
          cases h2 : readArrayScalars s (getFieldTableName descriptor field)
              (getColumnName field.name) t messages with
          | error e2 => simp only [h2] at h; cases h; exact readArrayScalars_thrown _ _ _ _ _ _ h2
          | ok vs =>
            simp only [h2] at h
            cases h3 : readFieldsLoop find s descriptor row rest column with
            | error e3 => simp only [h3] at h; cases h; exact ih _ _ hrest h3
            | ok ws => simp only [h3] at h; cases h
        | message nested =>
          have hnd : nested.depth ≤ n := by
            rw [FieldDescriptor.depth_message hty] at hfd; exact hfd
          simp only [hty] at h
          cases h2 : readArrayMessages find s (getFieldTableName descriptor field)
              (getColumnName field.name) nested messages with
          | error e2 =>
            simp only [h2] at h; cases h
            exact readArrayMessages_thrown hfind _ _ _ _ hnd _ _ h2
          | ok vs =>
            simp only [h2] at h
            cases h3 : readFieldsLoop find s descriptor row rest column with
            | error e3 => simp only [h3] at h; cases h; exact ih _ _ hrest h3
            | ok ws => simp only [h3] at h; cases h
    · cases hty : field.type with
      | scalar t =>
        simp only [hty] at h
        cases h1 : row.getColumn column with
        | error e1 => simp only [h1] at h; cases h; rw [Row.getColumn_err h1]; rfl
        | ok cell =>
          simp only [h1] at h
          cases h3 : readFieldsLoop find s descriptor row rest (column + 1) with
          | error e3 => simp only [h3] at h; cases h; exact ih _ _ hrest h3
          | ok ws => simp only [h3] at h; cases h
      | message nested =>
        have hnd : nested.depth ≤ n := by
          rw [FieldDescriptor.depth_message hty] at hfd; exact hfd
        simp only [hty] at h
        split at h
        · cases h1 : findAssociatedMessages s (getFieldTableName descriptor field) row.id with
          | error e1 =>
            simp only [h1] at h
            cases h
            rw [findAssociatedMessages_err h1]
            rfl
          | ok messages =>
            simp only [h1] at h
            cases h2 : readMapEntries find (getFieldTableName descriptor field) nested
                messages with
            | error e2 =>
              simp only [h2] at h; cases h
              exact readMapEntries_thrown hfind _ _ hnd _ _ h2
            | ok ms =>
              simp only [h2] at h
              cases h3 : readFieldsLoop find s descriptor row rest column with
              | error e3 => simp only [h3] at h; cases h; exact ih _ _ hrest h3
              | ok ws => simp only [h3] at h; cases h
        · cases h1 : row.getColumn column with
          | error e1 => simp only [h1] at h; cases h; rw [Row.getColumn_err h1]; rfl
          | ok cell =>
            simp only [h1] at h
            cases h2 : find nested.name nested cell.getInt64 with
            | error e2 => simp only [h2] at h; cases h; exact hfind _ _ _ _ hnd h2
            | ok m =>
              simp only [h2] at h
              cases h3 : readFieldsLoop find s descriptor row rest (column + 1) with
              | error e3 => simp only [h3] at h; cases h; exact ih _ _ hrest h3
              | ok ws => simp only [h3] at h; cases h

/-- With fuel of at least the depth of the type, `findMessage(type, id, message)` does
not run out of fuel. -/
lemma findMessageById_thrown (s : Store) :
    ∀ (fuel : Nat) (t : String) (d : Descriptor) (i : Int) (e : Err), d.depth ≤ fuel →
      findMessageById fuel s t d i = .error e → Err.thrown e = true := by
  intro fuel
  induction fuel with
  | zero =>
    intro t d i e hd
    have := Descriptor.depth_pos d
    omega
  | succ fuel ih =>
    intro t d i e hd h
    unfold findMessageById at h
    cases h1 : s.selectById t i with
    | error e1 => simp only [h1] at h; cases h; rw [Store.selectById_err h1]; rfl
    | ok rows =>
      simp only [h1] at h
      cases rows with
      | nil => simp only at h; cases h; rfl
      | cons row rest =>
        simp only at h
        cases h2 : readFieldsLoop (findMessageById fuel s) s d row d.fields 1 with
        | error e2 =>
          simp only [h2] at h; cases h
          exact readFieldsLoop_thrown ih s d row _ _ _ (Descriptor.depth_fields hd) h2
        | ok vs => simp only [h2] at h; cases h

/-- With fuel of at least the depth of the type, `readFields` does not run out of
fuel. -/
lemma readFields_thrown {fuel : Nat} {s : Store} {d : Descriptor} {row : Row} {e : Err}
    (hd : d.depth ≤ fuel) (h : readFields fuel s d row = .error e) : Err.thrown e = true := by
  unfold readFields at h
  cases h2 : readFieldsLoop (findMessageById fuel s) s d row d.fields 1 with
  | error e2 =>
    simp only [h2] at h; cases h
    have hfs : ∀ f ∈ d.fields, FieldDescriptor.depth f ≤ fuel := fun f hf =>
      Descriptor.depth_fields (Nat.le_succ_of_le hd) f hf
    exact readFieldsLoop_thrown (findMessageById_thrown s fuel) s d row _ _ _ hfs h2
  | ok vs => simp only [h2] at h; cases h

/-! ### The write path -/

lemma Store.prepare_thrown (t : String) (cols : List String) :
    Exec.raisesOnly Err.thrown (Store.prepare t cols) := by
  intro s e s1 h
  rw [Store.prepare_err h]; rfl

lemma Store.insert_thrown (t : String) (cols : List String) (vals : List SqlValue)
    (upsert : Bool) : Exec.raisesOnly Err.thrown (Store.insert t cols vals upsert) := by
  intro s e s1 h
  unfold Store.insert at h
  split at h
  · cases h; rfl
  · split at h
    · cases h; rfl
    · simp only at h
      split at h
      · cases h
      · split at h
        · split at h
          · cases h; rfl
          · cases h
        · cases h; rfl

lemma Store.insertRows_thrown (t : String) (cols : List String) :
    ∀ rows : List (List SqlValue), Exec.raisesOnly Err.thrown (Store.insertRows t cols rows) := by
  intro rows
  induction rows with
  | nil => unfold Store.insertRows; exact Exec.raisesOnly_pure _
  | cons vals rest ih =>
    unfold Store.insertRows
    exact Exec.raisesOnly_bind (Store.insert_thrown _ _ _ _)
      (fun n => Exec.raisesOnly_bind ih (fun k => Exec.raisesOnly_pure _))

lemma Store.insertMany_thrown (t : String) (cols : List String) (rows : List (List SqlValue)) :
    Exec.raisesOnly Err.thrown (Store.insertMany t cols rows) := by
  intro s e s1 h
  unfold Store.insertMany at h
  cases h1 : Store.insertRows t cols rows s with
  | mk r s2 =>
    cases r with
    | error e1 =>
      simp only [h1] at h
      cases h
      exact Store.insertRows_thrown t cols rows _ _ _ h1
    | ok n => simp only [h1] at h; cases h

lemma Store.delete_thrown (t : String) (p : Table → Row → Bool) :
    Exec.raisesOnly Err.thrown (Store.delete t p) := by
  intro s e s1 h
  rw [Store.delete_err h]; rfl

lemma removeArray_thrown (d : Descriptor) (field : FieldDescriptor) (id : Int) :
    Exec.raisesOnly Err.thrown (removeArray d field id) := by
  unfold removeArray
  exact Exec.raisesOnly_bind (Store.prepare_thrown _ _) (fun _ => Store.delete_thrown _ _)

lemma FieldDescriptor.entriesOk_eq (f : FieldDescriptor) :
    FieldDescriptor.entriesOk f = FieldType.entriesOk f.label f.type := by
  cases f with
  | mk n l t k => rfl

lemma FieldDescriptor.entriesOkList_mem : ∀ {fs : List FieldDescriptor},
    FieldDescriptor.entriesOkList fs = true → ∀ f ∈ fs, FieldDescriptor.entriesOk f = true := by
  intro fs
  induction fs with
  | nil => intro _ f hf; simp at hf
  | cons g gs ih =>
    intro h f hf
    rw [FieldDescriptor.entriesOkList, Bool.and_eq_true] at h
    rcases List.mem_cons.mp hf with rfl | hf
    · exact h.1
    · exact ih h.2 f hf

lemma Descriptor.entriesOk_fields {d : Descriptor} (h : Descriptor.entriesOk d = true) :
    ∀ f ∈ d.fields, FieldDescriptor.entriesOk f = true := by
  cases d with
  | mk n fs =>
    rw [Descriptor.entriesOk] at h
    exact FieldDescriptor.entriesOkList_mem h

lemma bindField_thrown {write : Descriptor → Message → Exec Int} {n : Nat}
    (hw : WriteThrown n write) (field : FieldDescriptor) (value : Value)
    (hl : field.label = .singular) (hp : FieldFits n (field, value)) :
    Exec.raisesOnly Err.thrown (bindField write noFind true field value) := by
  obtain ⟨hconf, hok, hd⟩ := hp
  simp only at hconf hok hd
  rw [FieldDescriptor.conformsValue_eq, hl] at hconf
  rw [FieldDescriptor.entriesOk_eq, hl] at hok
  unfold bindField
  cases hty : field.type with
  | scalar t =>
    rw [hty] at hconf
    cases value with
    | scalar has x =>
      simp only
      rw [FieldType.conformsValue, Bool.and_eq_true] at hconf
      obtain ⟨v, hv⟩ := bindScalar_of_type (of_decide_eq_true hconf.1)
      rw [hv]
      exact Exec.raisesOnly_ofExcept (fun e h => by cases h)
    | message has x => simp [FieldType.conformsValue] at hconf
    | repeated x => simp [FieldType.conformsValue] at hconf
    | repeatedMessage x => simp [FieldType.conformsValue] at hconf
  | message nd =>
    rw [hty] at hconf hok
    cases value with
    | message has x =>
      simp only [if_true]
      rw [FieldType.conformsValue] at hconf
      rw [FieldType.entriesOk] at hok
      exact Exec.raisesOnly_bind
        (hw nd x (by rw [FieldDescriptor.depth_message hty] at hd; exact hd) hok hconf)
        (fun k => Exec.raisesOnly_pure _)
    | scalar has x => simp [FieldType.conformsValue] at hconf
    | repeated x => simp [FieldType.conformsValue] at hconf
    | repeatedMessage x => simp [FieldType.conformsValue] at hconf

lemma insertMessageFields_thrown {write : Descriptor → Message → Exec Int} {n : Nat}
    (hw : WriteThrown n write) :
    ∀ ps : List (FieldDescriptor × Value), (∀ p ∈ ps, FieldFits n p) →
      Exec.raisesOnly Err.thrown (insertMessageFields write noFind true ps) := by
  intro ps
  induction ps with
  | nil => intro _; unfold insertMessageFields; exact Exec.raisesOnly_pure _
  | cons p rest ih =>
    intro hps
    obtain ⟨field, value⟩ := p
    unfold insertMessageFields
    split
    · exact Exec.raisesOnly_throw rfl
    · rename_i hlab
      have hl : field.label = .singular := by
        cases hr : field.is_repeated with
        | true => simp [hr] at hlab
        | false => exact FieldDescriptor.label_of_not_repeated hr
      exact Exec.raisesOnly_bind
        (bindField_thrown hw field value hl (hps (field, value) (List.mem_cons_self _ _)))
        (fun v => Exec.raisesOnly_bind (ih (fun q hq => hps q (List.mem_cons_of_mem _ hq)))
          (fun vs => Exec.raisesOnly_pure _))

lemma writeElements_thrown {write : Descriptor → Message → Exec Int} {n : Nat}
    (hw : WriteThrown n write) (d : Descriptor) (hd : d.depth ≤ n)
    (hok : Descriptor.entriesOk d = true) :
    ∀ ms : List Message, (∀ m ∈ ms, Descriptor.conforms d m = true) →
      Exec.raisesOnly Err.thrown (writeElements write d ms) := by
  intro ms
  induction ms with
  | nil => intro _; unfold writeElements; exact Exec.raisesOnly_pure _
  | cons m rest ih =>
    intro hms
    unfold writeElements
    exact Exec.raisesOnly_bind (hw d m hd hok (hms m (List.mem_cons_self _ _)))
      (fun k => Exec.raisesOnly_bind (ih (fun x hx => hms x (List.mem_cons_of_mem _ hx)))
        (fun vs => Exec.raisesOnly_pure _))

lemma insertMessageRepeatedField_thrown {write : Descriptor → Message → Exec Int} {n : Nat}
    (hw : WriteThrown n write) (field : FieldDescriptor) (value : Value)
    (hl : field.label = .repeated) (hp : FieldFits n (field, value)) :
    Exec.raisesOnly Err.thrown (insertMessageRepeatedField write field value) := by
  obtain ⟨hconf, hok, hd⟩ := hp
  simp only at hconf hok hd
  rw [FieldDescriptor.conformsValue_eq, hl] at hconf
  rw [FieldDescriptor.entriesOk_eq, hl] at hok
  unfold insertMessageRepeatedField
  cases hty : field.type with
  | scalar t =>
    rw [hty] at hconf
    cases value with
    | repeated xs =>
      simp only
      rw [FieldType.conformsValue] at hconf
      obtain ⟨vals, hv, _⟩ := bindScalars_of_conforms t xs hconf
      rw [hv]
      exact Exec.raisesOnly_ofExcept (fun e h => by cases h)
    | message has x => simp [FieldType.conformsValue] at hconf
    | scalar has x => simp [FieldType.conformsValue] at hconf
    | repeatedMessage x => simp [FieldType.conformsValue] at hconf
  | message nd =>
    rw [hty] at hconf hok
    cases value with
    | repeatedMessage ms =>
      rw [FieldType.conformsValue, List.all_eq_true] at hconf
      rw [FieldType.entriesOk] at hok
      exact writeElements_thrown hw nd
        (by rw [FieldDescriptor.depth_message hty] at hd; exact hd) hok ms hconf
    | scalar has x => simp [FieldType.conformsValue] at hconf
    | repeated x => simp [FieldType.conformsValue] at hconf
    | message has x => simp [FieldType.conformsValue] at hconf

lemma writeArray_thrown {write : Descriptor → Message → Exec Int} {n : Nat}
    (hw : WriteThrown n write) (d : Descriptor) (field : FieldDescriptor) (value : Value)
    (id : Int) (hl : field.label = .repeated) (hp : FieldFits n (field, value)) :
    Exec.raisesOnly Err.thrown (writeArray write d field value id) := by
  unfold writeArray
  refine Exec.raisesOnly_bind (removeArray_thrown _ _ _) (fun _ => ?_)
  simp only
  split
  · exact Exec.raisesOnly_pure _
  · refine Exec.raisesOnly_bind (Store.prepare_thrown _ _) (fun _ => ?_)
    refine Exec.raisesOnly_bind (insertMessageRepeatedField_thrown hw _ _ hl hp) (fun vals => ?_)
    refine Exec.raisesOnly_bind (Store.insertMany_thrown _ _ _) (fun n => ?_)
    split
    · exact Exec.raisesOnly_throw rfl
    · exact Exec.raisesOnly_pure _

lemma writeArrays_thrown {write : Descriptor → Message → Exec Int} {n : Nat}
    (hw : WriteThrown n write) (d : Descriptor) (id : Int) :
    ∀ ps : List (FieldDescriptor × Value),
      (∀ p ∈ ps, p.1.label = .repeated ∧ FieldFits n p) →
      Exec.raisesOnly Err.thrown (writeArrays write d id ps) := by
  intro ps
  induction ps with
  | nil => intro _; unfold writeArrays; exact Exec.raisesOnly_pure _
  | cons p rest ih =>
    intro hps
    obtain ⟨field, value⟩ := p
    obtain ⟨hl, hp⟩ := hps (field, value) (List.mem_cons_self _ _)
    unfold writeArrays
    exact Exec.raisesOnly_bind (writeArray_thrown hw _ _ _ _ hl hp)
      (fun _ => ih (fun q hq => hps q (List.mem_cons_of_mem _ hq)))

lemma writeEntries_thrown {write : Descriptor → Message → Exec Int} {n : Nat}
    (hw : WriteThrown n write) (en : String) (k v : FieldDescriptor)
    (hk : FieldDescriptor.entriesOk k = true ∧ FieldDescriptor.depth k ≤ n)
    (hv : FieldDescriptor.entriesOk v = true ∧ FieldDescriptor.depth v ≤ n) :
    ∀ ms : List Message, (∀ m ∈ ms, Descriptor.conforms (.mk en [k, v]) m = true) →
      Exec.raisesOnly Err.thrown (writeEntries write k v ms) := by
  intro ms
  induction ms with
  | nil => intro _; unfold writeEntries; exact Exec.raisesOnly_pure _
  | cons m rest ih =>
    intro hms
    have hm := Descriptor.conforms_spec (hms m (List.mem_cons_self _ _))
    simp only [Descriptor.fields] at hm
    unfold writeEntries
    split
    · rename_i hlen
      exfalso
      have := hm.1
      simp only [List.length_cons, List.length_nil] at this
      simp [← this] at hlen
    · refine Exec.raisesOnly_bind (insertMessageFields_thrown hw _ ?_)
        (fun kv => Exec.raisesOnly_bind
          (ih (fun x hx => hms x (List.mem_cons_of_mem _ hx)))
          (fun rows => Exec.raisesOnly_pure _))
      intro p hp
      refine ⟨hm.2 p hp, ?_⟩
      have h1 := (List.of_mem_zip hp).1
      simp only [List.mem_cons, List.mem_singleton, List.not_mem_nil, or_false] at h1
      rcases h1 with h1 | h1 <;> rw [h1] <;> assumption

lemma writeMap_thrown {write : Descriptor → Message → Exec Int} {n : Nat}
    (hw : WriteThrown n write) (d : Descriptor) (field : FieldDescriptor) (value : Value)
    (id : Int) (hl : field.label = .map) (hp : FieldFits n (field, value)) :
    Exec.raisesOnly Err.thrown (writeMap write d field value id) := by
  obtain ⟨hconf, hok, hd⟩ := hp
  simp only at hconf hok hd
  rw [FieldDescriptor.conformsValue_eq, hl] at hconf
  rw [FieldDescriptor.entriesOk_eq, hl] at hok
  unfold writeMap
  refine Exec.raisesOnly_bind (removeArray_thrown _ _ _) (fun _ => ?_)
  simp only
  split
  · exact Exec.raisesOnly_pure _
  · cases hty : field.type with
    | scalar t => rw [hty] at hok; simp [FieldType.entriesOk] at hok
    | message entry =>
      rw [hty] at hok hconf
      rw [FieldDescriptor.depth_message hty] at hd
      cases entry with
      | mk en efs =>
        rw [FieldType.entriesOk, Bool.and_eq_true] at hok
        obtain ⟨hlen, hlist⟩ := hok
        have hlen2 : efs.length = 2 := of_decide_eq_true hlen
        cases efs with
        | nil => simp at hlen2
        | cons k r1 =>
          cases r1 with
          | nil => simp at hlen2
          | cons v r2 =>
            cases r2 with
            | cons w r3 => simp at hlen2
            | nil =>
              have hmt : field.message_type = some (.mk en [k, v]) := by
                unfold FieldDescriptor.message_type
                rw [hty]
              rw [hmt]
              simp only [Descriptor.map_key, Descriptor.map_value, Descriptor.fields, List.get?]
              have hkd : FieldDescriptor.depth k ≤ n := by
                simp only [Descriptor.depth, FieldDescriptor.depthList] at hd
                omega
              have hvd : FieldDescriptor.depth v ≤ n := by
                simp only [Descriptor.depth, FieldDescriptor.depthList] at hd
                omega
              have hentries : ∀ m ∈ value.entries,
                  Descriptor.conforms (.mk en [k, v]) m = true := by
                cases value with
                | repeatedMessage ms =>
                  rw [FieldType.conformsValue, List.all_eq_true] at hconf
                  exact hconf
                | scalar has x => simp [FieldType.conformsValue] at hconf
                | repeated x => simp [FieldType.conformsValue] at hconf
                | message has x => simp [FieldType.conformsValue] at hconf
              refine Exec.raisesOnly_bind (Store.prepare_thrown _ _) (fun _ => ?_)
              refine Exec.raisesOnly_bind (writeEntries_thrown hw en k v
                ⟨FieldDescriptor.entriesOkList_mem hlist k (by simp), hkd⟩
                ⟨FieldDescriptor.entriesOkList_mem hlist v (by simp), hvd⟩ _ hentries)
                (fun rows => ?_)
              refine Exec.raisesOnly_bind (Store.insertMany_thrown _ _ _) (fun n => ?_)
              split
              · exact Exec.raisesOnly_throw rfl
              · exact Exec.raisesOnly_pure _

lemma writeMaps_thrown {write : Descriptor → Message → Exec Int} {n : Nat}
    (hw : WriteThrown n write) (d : Descriptor) (id : Int) :
    ∀ ps : List (FieldDescriptor × Value),
      (∀ p ∈ ps, p.1.label = .map ∧ FieldFits n p) →
      Exec.raisesOnly Err.thrown (writeMaps write d id ps) := by
  intro ps
  induction ps with
  | nil => intro _; unfold writeMaps; exact Exec.raisesOnly_pure _
  | cons p rest ih =>
    intro hps
    obtain ⟨field, value⟩ := p
    obtain ⟨hl, hp⟩ := hps (field, value) (List.mem_cons_self _ _)
    unfold writeMaps
    exact Exec.raisesOnly_bind (writeMap_thrown hw _ _ _ _ hl hp)
      (fun _ => ih (fun q hq => hps q (List.mem_cons_of_mem _ hq)))

/-- The fields of a conforming message of a type of depth at most `n + 1` fit. -/
lemma fields_fit {d : Descriptor} {m : Message} {n : Nat} (hd : d.depth ≤ n + 1)
    (hok : Descriptor.entriesOk d = true) (hconf : Descriptor.conforms d m = true) :
    ∀ p ∈ d.fields.zip m.fields, FieldFits n p := by
  intro p hp
  have hmem := (List.of_mem_zip hp).1
  exact ⟨(Descriptor.conforms_spec hconf).2 p hp, Descriptor.entriesOk_fields hok p.1 hmem,
    Descriptor.depth_fields hd p.1 hmem⟩

/-- With fuel of at least the depth of the type, `writeMessageImpl` of a conforming
message does not run out of fuel: it returns or throws an exception of the C++ code. -/
lemma writeMessageImpl_thrown : ∀ (fuel : Nat) (hc : Bool),
    WriteThrown fuel (fun d m => writeMessageImpl fuel d m hc) := by
  intro fuel
  induction fuel with
  | zero =>
    intro hc d m hd
    have := Descriptor.depth_pos d
    omega
  | succ fuel ih =>
    intro hc d m hd hok hconf
    have hfit := fields_fit hd hok hconf
    have hlen := (Descriptor.conforms_spec hconf).1
    show Exec.raisesOnly Err.thrown (writeMessageImpl (fuel + 1) d m hc)
    unfold writeMessageImpl
    simp only [hlen, bne_self_eq_false, Bool.false_eq_true, if_false]
    refine Exec.raisesOnly_bind (Store.prepare_thrown _ _) (fun _ => ?_)
    refine Exec.raisesOnly_bind (insertMessageFields_thrown (ih false) _
      (fun p hp => hfit p (List.mem_filter.mp hp).1)) (fun vals => ?_)
    refine Exec.raisesOnly_bind (Store.insert_thrown _ _ _ _) (fun k => ?_)
    split
    · exact Exec.raisesOnly_throw rfl
    · refine Exec.raisesOnly_bind (fun s e s1 h => by cases h) (fun id => ?_)
      refine Exec.raisesOnly_bind (writeMaps_thrown (ih false) _ _ _ (fun p hp => ?_))
        (fun _ => Exec.raisesOnly_bind (writeArrays_thrown (ih false) _ _ _ (fun p hp => ?_))
          (fun _ => Exec.raisesOnly_pure _))
      · obtain ⟨hmem, hq⟩ := List.mem_filter.mp hp
        exact ⟨FieldDescriptor.label_of_map hq, hfit p hmem⟩
      · obtain ⟨hmem, hq⟩ := List.mem_filter.mp hp
        simp only [Bool.and_eq_true, Bool.not_eq_true'] at hq
        exact ⟨FieldDescriptor.label_of_repeated hq.1 hq.2, hfit p hmem⟩

end ProtoDatabase

namespace ProtoDatabase

/-! ## Termination -/

/-- Claim C28 (termination on acyclic type graphs).  A descriptor of the embedding holds
its nested types by value, so a type graph is acyclic.  For such a type and any fuel of
at least its depth, `createTableImpl`, `writeMessageImpl` and `readFields` run exactly as
they do with the depth of the type as fuel, and they never reach the end of the fuel:
`createTableImpl` and `readFields` never end with the error that stands for it, whatever
the store, and `writeMessageImpl` never does for a record of the type (a message that
conforms to a descriptor whose map fields have entry types of two fields).  So the
depth of the recursion is at most the depth of the type graph. -/
theorem recursion_bounded_by_depth (fuel : Nat) (T : Descriptor) (hfuel : T.depth ≤ fuel) :
    (∀ u s, createTableImpl fuel T u s = createTableImpl T.depth T u s ∧
      (createTableImpl fuel T u s).1 ≠ .error .unexpectedType) ∧
    (∀ r hc s, writeMessageImpl fuel T r hc s = writeMessageImpl T.depth T r hc s ∧
      (Descriptor.entriesOk T = true → Descriptor.conforms T r = true →
        (writeMessageImpl fuel T r hc s).1 ≠ .error .unexpectedType)) ∧
    (∀ s row, readFields fuel s T row = readFields T.depth s T row ∧
      readFields fuel s T row ≠ .error .unexpectedType) := by
  obtain ⟨k, rfl⟩ : ∃ k, fuel = T.depth + k := ⟨fuel - T.depth, by omega⟩
  refine ⟨fun u s => ⟨?_, ?_⟩, fun r hc s => ⟨?_, fun hok hconf => ?_⟩, fun s row => ⟨?_, ?_⟩⟩
  · rw [createTableImpl_stable]
  · intro h
    cases hr : createTableImpl (T.depth + k) T u s with
    | mk res s1 =>
      rw [hr] at h
      simp only at h
      subst h
      have := createTableImpl_thrown _ T u hfuel s _ s1 hr
      cases this
  · rw [writeMessageImpl_stable]
  · intro h
    cases hr : writeMessageImpl (T.depth + k) T r hc s with
    | mk res s1 =>
      rw [hr] at h
      simp only at h
      subst h
      have := writeMessageImpl_thrown _ hc T r hfuel hok hconf s _ s1 hr
      cases this
  · rw [readFields_stable]
  · intro h
    have := readFields_thrown hfuel h
    cases this

/-- Witness of C28: the type `Note`, of depth 2, with fuel 3. -/
theorem recursion_bounded_by_depth_witness :
    Examples.Note.depth ≤ 3 ∧
    (∀ u s, createTableImpl 3 Examples.Note u s =
        createTableImpl Examples.Note.depth Examples.Note u s ∧
      (createTableImpl 3 Examples.Note u s).1 ≠ .error .unexpectedType) ∧
    (∀ r hc s, writeMessageImpl 3 Examples.Note r hc s =
        writeMessageImpl Examples.Note.depth Examples.Note r hc s ∧
      (Descriptor.entriesOk Examples.Note = true → Descriptor.conforms Examples.Note r = true →
        (writeMessageImpl 3 Examples.Note r hc s).1 ≠ .error .unexpectedType)) ∧
    (∀ s row, readFields 3 s Examples.Note row =
        readFields Examples.Note.depth s Examples.Note row ∧
      readFields 3 s Examples.Note row ≠ .error .unexpectedType) :=
  ⟨by decide, recursion_bounded_by_depth 3 Examples.Note (by decide)⟩

end ProtoDatabase

namespace ProtoDatabase

/-! ## The positions of the columns -/

end ProtoDatabase

namespace ProtoDatabase

/-! ## The scan of a main table -/

/-- The rows that successive calls of `writeMessage` add to the main table, for records
whose keys differ from each other and from those of the rows in the table: one row per
record, in the order of the calls, each reading back as its record. -/
lemma writeMessages_order {d : Descriptor} {tb : Table} (hT : namesAgree d.tables)
    (hself : d.name ∉ d.childTables) (huniq : tb.uniques = keyUniques d)
    (hkeys : ∀ kf ∈ d.fields, isKey kf = true → ∃ t, kf.type = .scalar t) (fuel : Nat) :
    ∀ (rs : List Message) (s sn : Store) (ids : List Int),
      Descriptor.schemaOk s.schema d = true → s.ascending → s.table? d.name = some tb →
      (∀ r ∈ rs, Descriptor.conforms d r = true ∧
        Message.allScalars Scalar.readsBack r = true) →
      (∀ r ∈ rs, ∀ old ∈ s.rows d.name, keysDiffer tb d r old) →
      rs.Pairwise (distinctKeys d) →
      writeMessages fuel d rs s = (.ok ids, sn) →
      Pres d.tables (existing d.tables s) s sn ∧
      ∃ rows, sn.rows d.name = s.rows d.name ++ rows ∧ rows.map (fun r => r.id) = ids ∧
        List.Forall₂ (fun r row => rowOf tb d r row ∧
          readsAs d.tables sn d row.id (Message.present r)) rs rows := by
  intro rs
  induction rs with
  | nil =>
    intro s sn ids _ _ _ _ _ _ h
    simp only [writeMessages, Exec.pure, Prod.mk.injEq, Except.ok.injEq] at h
    rw [← h.2, ← h.1]
    exact ⟨Pres.same _ _ _, [], by simp, rfl, List.Forall₂.nil⟩
  | cons r rest ih =>
    intro s sn ids hschema hasc htb hconf hnew hdist h
    rw [writeMessages] at h
    obtain ⟨id, s1, hw, h2⟩ := Exec.bind_ok.mp h
    obtain ⟨ids2, s2, hrest, h3⟩ := Exec.bind_ok.mp h2
    simp only [Exec.pure, Prod.mk.injEq, Except.ok.injEq] at h3
    obtain ⟨hids, hs2⟩ := h3
    subst hs2
    unfold writeMessage at hw
    have hw2 := transaction_ok hw
    obtain ⟨f, hf⟩ := writeMessageImpl_fuel hw2
    subst hf
    obtain ⟨hconfr, hbelowr⟩ := hconf r (List.mem_cons_self _ _)
    obtain ⟨row, hrowid, hrows1, hrowOf, hp1, hread1⟩ := write_new_key hT hschema hasc hself
      hconfr hbelowr htb huniq hkeys (hnew r (List.mem_cons_self _ _)) hw2
    rw [List.pairwise_cons] at hdist
    have hschema1 : Descriptor.schemaOk s1.schema d = true := by rw [hp1.schema]; exact hschema
    have htb1 : s1.table? d.name = some tb := by rw [hp1.tableEq]; exact htb
    obtain ⟨hp2, rows, hrows2, hidsr, hall⟩ := ih s1 s2 ids2 hschema1 (hp1.ascending hasc) htb1
      (fun r2 hr2 => hconf r2 (List.mem_cons_of_mem _ hr2))
      (by
        intro r2 hr2 old hold
        rw [hrows1, List.mem_append, List.mem_singleton] at hold
        rcases hold with hold | rfl
        · exact hnew r2 (List.mem_cons_of_mem _ hr2) old hold
        · exact keysDiffer_of_distinct hconfr hbelowr
            (hconf r2 (List.mem_cons_of_mem _ hr2)).1 (hconf r2 (List.mem_cons_of_mem _ hr2)).2
            hrowOf (hdist.1 r2 hr2))
      hdist.2 hrest
    have hreads : readsAs d.tables s2 d row.id (Message.present r) := by
      intro s3 hp3 hasc3 fu hfu
      rw [hrowid]
      exact hread1 s3 (Pres.newSince_of_existing (hp2.step hp3)) hasc3 fu hfu
    refine ⟨hp1.step hp2, row :: rows, ?_, ?_, List.Forall₂.cons ⟨hrowOf, hreads⟩ hall⟩
    · rw [hrows2, hrows1, List.append_assoc]
      rfl
    · rw [← hids, List.map_cons, hidsr, hrowid]

/-- The records `readRows` returns: one per row, in the order of the rows. -/
lemma readRows_forall₂ (fuel : Nat) (s : Store) (d : Descriptor) :
    ∀ (rows : List Row) (ms : List Message),
      readRows fuel s d rows = .ok ms ↔
        List.Forall₂ (fun row m => readFields fuel s d row = .ok m) rows ms := by
  intro rows
  induction rows with
  | nil =>
    intro ms
    simp only [readRows, Except.ok.injEq]
    constructor
    · intro h; rw [← h]; exact List.Forall₂.nil
    · intro h; cases h; rfl
  | cons row rest ih =>
    intro ms
    rw [readRows]
    constructor
    · intro h
      cases h1 : readFields fuel s d row with
      | error e => simp only [h1] at h; cases h
      | ok m =>
        simp only [h1] at h
        cases h2 : readRows fuel s d rest with
        | error e => simp only [h2] at h; cases h
        | ok ms2 =>
          simp only [h2, Except.ok.injEq] at h
          rw [← h]
          exact List.Forall₂.cons h1 ((ih ms2).mp h2)
    · intro h
      cases h with
      | cons h1 h2 =>
        rw [h1]
        simp only
        rw [(ih _).mpr h2]

/-- A relation between two lists, element by element, turned round and carried along a
map, for the elements of the second list. -/
lemma forall₂_flip_map {α β γ : Type} {P : α → β → Prop} {Q : β → γ → Prop} (g : α → γ) :
    ∀ {as : List α} {bs : List β}, List.Forall₂ P as bs →
      (∀ a b, b ∈ bs → P a b → Q b (g a)) → List.Forall₂ Q bs (as.map g) := by
  intro as bs h
  induction h with
  | nil => intro _; exact List.Forall₂.nil
  | cons hab _ ih =>
    intro hpq
    exact List.Forall₂.cons (hpq _ _ (List.mem_cons_self _ _) hab)
      (ih (fun a b hb hp => hpq a b (List.mem_cons_of_mem _ hb) hp))

/-- Claim C23 (`getAllMessages`).  The function reads and does not write: as a step it
leaves the store as it is.  On a store that has the main table of the type, it returns
a list of records exactly when `readFields` returns for every row of the table, and
the list holds one record per row, the record read from that row, in the order of the
rows, which in a store in rowid order is the ascending order of `id`.  And records
written by successive calls of `writeMessage` (conforming records with different keys,
on a store that holds the tables of the type, with an empty main table) come back in
the order in which they were written, each equal to the record written, the ids the
calls returned being the ids of the rows, in ascending order. -/
theorem getAllMessages_scans_in_id_order (fuel : Nat) (T : Descriptor) :
    (∀ s : Store, (Exec.ofStore (getAllMessages fuel T) s).2 = s) ∧
    (∀ (s : Store) (tb : Table) (ms : List Message), s.table? T.name = some tb →
      (getAllMessages fuel T s = .ok ms ↔
        List.Forall₂ (fun row m => readFields fuel s T row = .ok m) (s.rows T.name) ms)) ∧
    (∀ s : Store, s.ascending →
      ((s.rows T.name).map (fun r => r.id)).Pairwise (fun a b => a < b)) ∧
    (∀ (rs : List Message) (s0 sn : Store) (ids : List Int) (tb : Table),
      namesAgree T.tables → Descriptor.schemaOk s0.schema T = true → s0.ascending →
      s0.rows T.name = [] → T.name ∉ T.childTables → T.depth ≤ fuel →
      s0.table? T.name = some tb → tb.uniques = keyUniques T →
      (∀ kf ∈ T.fields, isKey kf = true → ∃ t, kf.type = .scalar t) →
      (∀ r ∈ rs, Descriptor.conforms T r = true ∧
        Message.allScalars Scalar.readsBack r = true) →
      rs.Pairwise (distinctKeys T) →
      writeMessages fuel T rs s0 = (.ok ids, sn) →
      getAllMessages fuel T sn = .ok (rs.map Message.present) ∧
      (sn.rows T.name).map (fun r => r.id) = ids ∧
      ids.Pairwise (fun a b => a < b)) := by
  refine ⟨fun s => rfl, ?_, fun s hasc => hasc T.name, ?_⟩
  · intro s tb ms htb
    unfold getAllMessages
    rw [Store.selectWhere_all htb]
    exact readRows_forall₂ fuel s T _ ms
  · intro rs s0 sn ids tb hT hschema hasc hempty hself hdepth htb huniq hkeys hconf hdist hwrite
    obtain ⟨hp, rows, hrows, hids, hall⟩ := writeMessages_order hT hself huniq hkeys fuel rs s0
      sn ids hschema hasc htb hconf (fun r _ old hold => by rw [hempty] at hold; cases hold)
      hdist hwrite
    rw [hempty, List.nil_append] at hrows
    have htbn : sn.table? T.name = some tb := by rw [hp.tableEq]; exact htb
    have hascn := hp.ascending hasc
    refine ⟨?_, by rw [hrows, hids], by rw [← hids, ← hrows]; exact hascn T.name⟩
    unfold getAllMessages
    rw [Store.selectWhere_all htbn, hrows, readRows_forall₂]
    refine forall₂_flip_map Message.present hall ?_
    intro r row hrow hP
    have hmem : row ∈ sn.rows T.name := by rw [hrows]; exact hrow
    have hfind := hP.2 sn (Pres.same _ _ _) hascn (fuel + 1) (by omega)
    rw [findMessageById, Store.selectById_eq htbn hascn hmem] at hfind
    simp only [] at hfind
    simp only [readFields]
    rw [hfind]

/-- Witness of C23: `Shelf{k: 1, items: [10]}` and `Shelf{k: 2, items: [20, 30]}` written
in turn come back in that order, from the rows 1 and 2. -/
theorem getAllMessages_scans_in_id_order_witness :
    getAllMessages 2 Examples.Shelf
      (writeMessages 2 Examples.Shelf [Examples.shelf 1 [10], Examples.shelf 2 [20, 30]]
        (Examples.created 2 Examples.Shelf)).2 =
      .ok ([Examples.shelf 1 [10], Examples.shelf 2 [20, 30]].map Message.present) ∧
    ((writeMessages 2 Examples.Shelf [Examples.shelf 1 [10], Examples.shelf 2 [20, 30]]
        (Examples.created 2 Examples.Shelf)).2.rows Examples.Shelf.name).map (fun r => r.id) =
      [1, 2] ∧
    ([1, 2] : List Int).Pairwise (fun a b => a < b) := by
  have hmem : ∀ r, r ∈ [Examples.shelf 1 [10], Examples.shelf 2 [20, 30]] →
      r = Examples.shelf 1 [10] ∨ r = Examples.shelf 2 [20, 30] := by
    intro r hr
    simpa using hr
  have hkeyOf : ∀ (n : Int) (items : List Int) (kf : FieldDescriptor) (c : Bool) (x : Scalar),
      (kf, Value.scalar c x) ∈ dataFields Examples.Shelf (Examples.shelf n items) →
      x = .int32 n := by
    intro n items kf c x h
    have h2 : (kf, Value.scalar c x) ∈
        [(FieldDescriptor.mk "k" .singular (.scalar .INT32) (some true),
          Value.scalar true (.int32 n))] := h
    simp only [List.mem_singleton, Prod.mk.injEq, Value.scalar.injEq] at h2
    exact h2.2.2
  exact (getAllMessages_scans_in_id_order 2 Examples.Shelf).2.2.2
    [Examples.shelf 1 [10], Examples.shelf 2 [20, 30]]
    (Examples.created 2 Examples.Shelf)
    (writeMessages 2 Examples.Shelf [Examples.shelf 1 [10], Examples.shelf 2 [20, 30]]
      (Examples.created 2 Examples.Shelf)).2 [1, 2]
    ⟨"Shelf", [("field_k", .INTEGER)], [["field_k"]], []⟩
    (by unfold namesAgree; decide) (by rfl) (ascending_of_rows_nil (by rfl)) (by rfl)
    (by decide) (by decide) (by rfl) (by rfl)
    (by
      intro kf hkf _
      have h2 : kf ∈ [FieldDescriptor.mk "k" .singular (.scalar .INT32) (some true),
          FieldDescriptor.mk "items" .repeated (.scalar .INT32) none] := hkf
      simp only [List.mem_cons, List.mem_singleton, List.not_mem_nil, or_false] at h2
      rcases h2 with rfl | rfl
      · exact ⟨.INT32, rfl⟩
      · exact ⟨.INT32, rfl⟩)
    (by
      intro r hr
      rcases hmem r hr with rfl | rfl
      · exact ⟨by rfl, by rfl⟩
      · exact ⟨by rfl, by rfl⟩)
    (by
      rw [List.pairwise_cons]
      refine ⟨?_, List.pairwise_singleton _ _⟩
      intro r hr kf c1 x1 c2 x2 _ h1 h2
      rw [List.mem_singleton] at hr
      subst hr
      rw [hkeyOf 1 [10] kf c1 x1 h1, hkeyOf 2 [20, 30] kf c2 x2 h2]
      simp)
    (Prod.ext (by rfl) (by rfl))

end ProtoDatabase

namespace ProtoDatabase

/-! ## The cascade of a `DELETE` -/

lemma Shrinks.setRows {C : String → Prop} (s : Store) (t : String) (q : Row → Bool)
    (hC : C t) : Shrinks C s (s.setRows t ((s.rows t).filter q)) := by
  refine ⟨rfl, rfl, fun x => ?_, fun x hx => ?_⟩
  · by_cases h : x = t
    · subst h
      rw [Store.setRows_rows_eq]
      exact List.filter_sublist _
    · rw [Store.setRows_rows_ne _ _ _ _ h]
  · have h : x ≠ t := fun h => hx (h ▸ hC)
    rw [Store.setRows_rows_ne _ _ _ _ h]

end ProtoDatabase

namespace ProtoDatabase

/-! ## The identity lookup -/

/-- The first of the rows that satisfy a condition, in a list in ascending order of
`id`: the one with the lowest id among them. -/
lemma head?_filter_lowest (q : Row → Bool) : ∀ (rows : List Row),
    (rows.map (fun r => r.id)).Pairwise (fun a b => a < b) →
    match (rows.filter q).head? with
    | none => ∀ row ∈ rows, q row = false
    | some row => row ∈ rows ∧ q row = true ∧ ∀ other ∈ rows, q other = true →
        row.id ≤ other.id := by
  intro rows
  induction rows with
  | nil => intro _; simp
  | cons r rest ih =>
    intro hasc
    rw [List.map_cons, List.pairwise_cons] at hasc
    have ih2 := ih hasc.2
    cases hq : q r with
    | true =>
      have hf : (r :: rest).filter q = r :: rest.filter q := by
        simp [List.filter_cons, hq]
      rw [hf, List.head?_cons]
      refine ⟨List.mem_cons_self _ _, hq, ?_⟩
      intro other hother _
      rcases List.mem_cons.mp hother with rfl | hother
      · exact le_refl _
      · exact le_of_lt (hasc.1 other.id (List.mem_map.mpr ⟨other, hother, rfl⟩))
    | false =>
      have hf : (r :: rest).filter q = rest.filter q := by
        simp [List.filter_cons, hq]
      rw [hf]
      cases hh : (rest.filter q).head? with
      | none =>
        rw [hh] at ih2
        simp only at ih2 ⊢
        intro row hrow
        rcases List.mem_cons.mp hrow with rfl | hrow
        · exact hq
        · exact ih2 row hrow
      | some row =>
        rw [hh] at ih2
        simp only at ih2 ⊢
        obtain ⟨hmem, hqr, hlow⟩ := ih2
        refine ⟨List.mem_cons_of_mem _ hmem, hqr, ?_⟩
        intro other hother hqo
        rcases List.mem_cons.mp hother with rfl | hother
        · rw [hq] at hqo; cases hqo
        · exact hlow other hother hqo

/-- The values `insertMessageFields` binds for the keys of `findMessage(message)`, when
every nested key record is found. -/
lemma insertMessageFields_find (write : Descriptor → Message → Exec Int) (fuel : Nat)
    (s : Store) : ∀ (keys : List (FieldDescriptor × Value)) (vals : List SqlValue),
    (∀ k ∈ keys, k.1.label = .singular) → List.Forall₂ (boundAs fuel s) keys vals →
    insertMessageFields write (findMessage fuel) false keys s = (.ok vals, s) := by
  intro keys vals hsing hb
  induction hb with
  | nil => rfl
  | @cons k v keys vals hkv _ ih =>
    obtain ⟨field, value⟩ := k
    have hl : field.label = .singular := hsing (field, value) (List.mem_cons_self _ _)
    have hrep : (field.is_repeated || field.is_map) = false := by
      simp [FieldDescriptor.is_repeated, FieldDescriptor.is_map, hl]
    have hbind : bindField write (findMessage fuel) false field value s = (.ok v, s) := by
      unfold boundAs at hkv
      unfold bindField
      cases hty : field.type with
      | scalar t =>
        cases value with
        | scalar has x =>
          simp only [hty] at hkv
          simp only [Exec.ofExcept, hkv]
        | message has x => simp [hty] at hkv
        | repeated x => simp [hty] at hkv
        | repeatedMessage x => simp [hty] at hkv
      | message nd =>
        cases value with
        | message has x =>
          simp only [hty] at hkv
          obtain ⟨id, hfind, hv⟩ := hkv
          simp only [Bool.false_eq_true, if_false]
          unfold Exec.bind Exec.ofStore
          simp only [hfind, Exec.pure, hv]
        | scalar has x => simp [hty] at hkv
        | repeated x => simp [hty] at hkv
        | repeatedMessage x => simp [hty] at hkv
    unfold insertMessageFields
    simp only [hrep, Bool.false_eq_true, if_false]
    rw [Exec.bind_run hbind,
      Exec.bind_run (ih (fun k hk => hsing k (List.mem_cons_of_mem _ hk)))]
    rfl

/-- The first loop of `getMessageKeys`, when it returns: the fields whose key option is
set. -/
lemma declaredKeys_ok : ∀ (ps res : List (FieldDescriptor × Value)),
    declaredKeys ps = .ok res →
    res = ps.filter (fun p => p.1.objectKeyField == some true) := by
  intro ps
  induction ps with
  | nil => intro res h; simp only [declaredKeys, Except.ok.injEq] at h; rw [← h]; rfl
  | cons p rest ih =>
    intro res h
    obtain ⟨field, value⟩ := p
    unfold declaredKeys at h
    cases hk : field.objectKeyField with
    | none =>
      simp only [hk] at h
      rw [ih res h]
      simp [List.filter_cons, hk]
    | some b =>
      cases b with
      | false =>
        simp only [hk] at h
        rw [ih res h]
        simp [List.filter_cons, hk]
      | true =>
        simp only [hk] at h
        cases hh : value.hasField with
        | error e => simp only [hh] at h; cases h
        | ok has =>
          cases has with
          | false => simp only [hh] at h; cases h
          | true =>
            simp only [hh] at h
            cases hr : declaredKeys rest with
            | error e => simp only [hr] at h; cases h
            | ok res2 =>
              simp only [hr, Except.ok.injEq] at h
              rw [← h, ih res2 hr]
              simp [List.filter_cons, hk]

/-- The keys of `getMessageKeys`, when it returns: the fields whose key option is set,
or, when there is none, all the fields. -/
lemma getMessageKeys_ok {d : Descriptor} {m : Message} {keys : List (FieldDescriptor × Value)}
    (h : getMessageKeys d m false = .ok keys) :
    keys = if ((d.fields.zip m.fields).filter
        (fun p => p.1.objectKeyField == some true)).isEmpty then d.fields.zip m.fields
      else (d.fields.zip m.fields).filter (fun p => p.1.objectKeyField == some true) := by
  unfold getMessageKeys at h
  split at h
  · cases h
  · cases hd : declaredKeys (d.fields.zip m.fields) with
    | error e => simp only [hd] at h; cases h
    | ok res =>
      simp only [hd, Bool.not_false, Bool.and_true] at h
      have hres := declaredKeys_ok _ _ hd
      rw [← hres]
      split at h
      · rename_i he
        simp only [Except.ok.injEq] at h
        simp [he, h]
      · rename_i he
        simp only [Except.ok.injEq] at h
        subst h
        rw [if_neg he]

/-- Claim C21, as amended (identity resolution).  Let `getMessageKeys` return the keys of
a record: the fields whose key option is set, each with a value, or, for a type without
such fields, all the fields.  Let the keys be singular fields with a column in the main
table, and let `vals` be the values bound for them: the scalar as `insertMessageFields`
binds it, and for a nested record the row id under which `findMessage` finds it.  Then,
on a store in rowid order, `findMessage(record)` returns: the empty optional if no row
holds these values in the columns of the keys, and otherwise the lowest id among the
rows that do. -/
theorem findMessage_returns_lowest_match (fuel : Nat) (d : Descriptor) (m : Message)
    (s : Store) (tb : Table) (keys : List (FieldDescriptor × Value)) (vals : List SqlValue)
    (hkeys : getMessageKeys d m false = .ok keys)
    (hsing : ∀ k ∈ keys, k.1.label = .singular)
    (htb : s.table? d.name = some tb)
    (hcols : ∀ k ∈ keys, tb.hasColumn (getColumnName k.1.name) = true)
    (hbound : List.Forall₂ (boundAs fuel s) keys vals) (hasc : s.ascending) :
    (keys = if ((d.fields.zip m.fields).filter
        (fun p => p.1.objectKeyField == some true)).isEmpty then d.fields.zip m.fields
      else (d.fields.zip m.fields).filter (fun p => p.1.objectKeyField == some true)) ∧
    match findMessage (fuel + 1) d m s with
    | .error _ => False
    | .ok none => ∀ row ∈ s.rows d.name, matchesKeys tb keys vals row = false
    | .ok (some id) =>
      ∃ row ∈ s.rows d.name, row.id = id ∧ matchesKeys tb keys vals row = true ∧
        ∀ other ∈ s.rows d.name, matchesKeys tb keys vals other = true → id ≤ other.id := by
  refine ⟨getMessageKeys_ok hkeys, ?_⟩
  have hall : (keys.map (fun k => getColumnName k.1.name)).all tb.hasColumn = true := by
    rw [List.all_eq_true]
    intro c hc
    obtain ⟨k, hk, rfl⟩ := List.mem_map.mp hc
    exact hcols k hk
  have hprep : Store.prepare d.name (keys.map (fun k => getColumnName k.1.name)) s =
      (.ok (), s) := by
    unfold Store.prepare
    simp only [htb, hall, if_true]
  have hvals := insertMessageFields_find (fun _ _ => Exec.throw .unexpectedType) fuel s keys
    vals hsing hbound
  have hconds : (((keys.map (fun k => getColumnName k.1.name)).zip vals).all
      (fun c => tb.hasColumn c.1)) = true := by
    rw [List.all_eq_true]
    intro c hc
    have h1 := (List.of_mem_zip hc).1
    exact List.all_eq_true.mp hall c.1 h1
  have hsel : s.selectWhere d.name ((keys.map (fun k => getColumnName k.1.name)).zip vals) =
      .ok ((s.rows d.name).filter (matchesKeys tb keys vals)) := by
    unfold Store.selectWhere
    simp only [htb, hconds, if_true]
    rfl
  have hfind : findMessage (fuel + 1) d m s =
      .ok (((s.rows d.name).filter (matchesKeys tb keys vals)).head?.map (fun r => r.id)) := by
    rw [findMessage]
    simp only [hkeys, hprep, hvals, hsel]
  rw [hfind]
  have hlow := head?_filter_lowest (matchesKeys tb keys vals) (s.rows d.name) (hasc d.name)
  cases hh : ((s.rows d.name).filter (matchesKeys tb keys vals)).head? with
  | none =>
    rw [hh] at hlow
    simpa using hlow
  | some row =>
    rw [hh] at hlow
    simp only [Option.map_some'] at hlow ⊢
    exact ⟨row, hlow.1, rfl, hlow.2.1, hlow.2.2⟩

/-- Witness of C21: `Pos{1, 2}` inserted twice into the table of the keyless type `Pos`
is stored in the rows 1 and 2, and `findMessage(Pos{1, 2})` returns 1. -/
theorem findMessage_returns_lowest_match_witness :
    findMessage 1 Examples.Pos (Examples.pos 1 2)
      (Examples.inserted 1 Examples.Pos (Examples.pos 1 2)
        (Examples.inserted 1 Examples.Pos (Examples.pos 1 2)
          (Examples.created 1 Examples.Pos))) = .ok (some 1) ∧
    (Examples.Pos.fields.zip (Examples.pos 1 2).fields =
      if ((Examples.Pos.fields.zip (Examples.pos 1 2).fields).filter
        (fun p => p.1.objectKeyField == some true)).isEmpty then
        Examples.Pos.fields.zip (Examples.pos 1 2).fields
      else (Examples.Pos.fields.zip (Examples.pos 1 2).fields).filter
        (fun p => p.1.objectKeyField == some true)) ∧
    match findMessage (0 + 1) Examples.Pos (Examples.pos 1 2)
      (Examples.inserted 1 Examples.Pos (Examples.pos 1 2)
        (Examples.inserted 1 Examples.Pos (Examples.pos 1 2)
          (Examples.created 1 Examples.Pos))) with
    | .error _ => False
    | .ok none =>
      ∀ row ∈ (Examples.inserted 1 Examples.Pos (Examples.pos 1 2)
          (Examples.inserted 1 Examples.Pos (Examples.pos 1 2)
            (Examples.created 1 Examples.Pos))).rows Examples.Pos.name,
        matchesKeys ⟨"Pos", [("field_x", .INTEGER), ("field_y", .INTEGER)], [], []⟩
          (Examples.Pos.fields.zip (Examples.pos 1 2).fields) [.integer 1, .integer 2] row =
          false
    | .ok (some id) =>
      ∃ row ∈ (Examples.inserted 1 Examples.Pos (Examples.pos 1 2)
          (Examples.inserted 1 Examples.Pos (Examples.pos 1 2)
            (Examples.created 1 Examples.Pos))).rows Examples.Pos.name,
        row.id = id ∧
        matchesKeys ⟨"Pos", [("field_x", .INTEGER), ("field_y", .INTEGER)], [], []⟩
          (Examples.Pos.fields.zip (Examples.pos 1 2).fields) [.integer 1, .integer 2] row =
          true ∧
        ∀ other ∈ (Examples.inserted 1 Examples.Pos (Examples.pos 1 2)
            (Examples.inserted 1 Examples.Pos (Examples.pos 1 2)
              (Examples.created 1 Examples.Pos))).rows Examples.Pos.name,
          matchesKeys ⟨"Pos", [("field_x", .INTEGER), ("field_y", .INTEGER)], [], []⟩
            (Examples.Pos.fields.zip (Examples.pos 1 2).fields) [.integer 1, .integer 2]
            other = true → id ≤ other.id := by
  refine ⟨by rfl, ?_⟩
  exact findMessage_returns_lowest_match 0 Examples.Pos (Examples.pos 1 2)
    (Examples.inserted 1 Examples.Pos (Examples.pos 1 2)
      (Examples.inserted 1 Examples.Pos (Examples.pos 1 2) (Examples.created 1 Examples.Pos)))
    ⟨"Pos", [("field_x", .INTEGER), ("field_y", .INTEGER)], [], []⟩
    (Examples.Pos.fields.zip (Examples.pos 1 2).fields) [.integer 1, .integer 2]
    (by rfl)
    (by
      intro k hk
      have h2 : k ∈ [(FieldDescriptor.mk "x" .singular (.scalar .INT32) none,
            Value.scalar true (.int32 1)),
          (FieldDescriptor.mk "y" .singular (.scalar .INT32) none,
            Value.scalar true (.int32 2))] := hk
      simp only [List.mem_cons, List.mem_singleton, List.not_mem_nil, or_false] at h2
      rcases h2 with rfl | rfl
      · rfl
      · rfl)
    (by rfl)
    (by
      intro k hk
      have h2 : k ∈ [(FieldDescriptor.mk "x" .singular (.scalar .INT32) none,
            Value.scalar true (.int32 1)),
          (FieldDescriptor.mk "y" .singular (.scalar .INT32) none,
            Value.scalar true (.int32 2))] := hk
      simp only [List.mem_cons, List.mem_singleton, List.not_mem_nil, or_false] at h2
      rcases h2 with rfl | rfl
      · rfl
      · rfl)
    (List.Forall₂.cons (by rfl) (List.Forall₂.cons (by rfl) List.Forall₂.nil))
    (by
      intro t
      by_cases h : t = "Pos"
      · subst h
        decide
      · have hnil : (Examples.inserted 1 Examples.Pos (Examples.pos 1 2)
            (Examples.inserted 1 Examples.Pos (Examples.pos 1 2)
              (Examples.created 1 Examples.Pos))).rows t = [] := by
          show (if t = "Pos" then _ else if t = "Pos" then _ else _) = _
          rw [if_neg h, if_neg h]
          rfl
        rw [hnil]
        exact List.Pairwise.nil)

/-- Counterexample to C21 as stated: the lookup does not return for every record.  A
record of `Tag` that leaves the key `k` unset raises the missing-key error, although the
table holds a row with the default value 0 in the key column; and a record of `Item`
whose key is a nested record that the table `Pos` does not hold raises the
missing-nested-object error, where the claim has it return no id. -/
theorem findMessage_raises_without_key_value :
    findMessage 1 Examples.Tag (.mk [.scalar false (.int32 0)])
      (Examples.written 1 Examples.Tag (Examples.tag 0) (Examples.created 1 Examples.Tag)) =
      .error .noKeyValue ∧
    (Examples.written 1 Examples.Tag (Examples.tag 0)
      (Examples.created 1 Examples.Tag)).rows "Tag" = [⟨1, [.integer 0]⟩] ∧
    findMessage 2 Examples.Item
      (Examples.item (Examples.pos 0 0) (Examples.pos 4 2) "a")
      (Examples.created 2 Examples.Item) = .error .noNestedObject := by
  refine ⟨by rfl, by rfl, by rfl⟩

/-- For a type without key fields, `getMessageKeys` returns every field, the repeated ones
too: the lookup of a record of `Bag { repeated int32 values }` names the column
`field_values`, which the main table does not have, and the statement is refused. -/
theorem findMessage_of_keyless_type_with_repeated_field :
    getMessageKeys Examples.Bag (.mk [.repeated [.int32 1]]) false =
      .ok [(.mk "values" .repeated (.scalar .INT32) none, .repeated [.int32 1])] ∧
    findMessage 1 Examples.Bag (.mk [.repeated [.int32 1]])
      (Examples.written 1 Examples.Bag (.mk [.repeated [.int32 1]])
        (Examples.created 1 Examples.Bag)) = .error .sqlError := by
  refine ⟨by rfl, by rfl⟩

end ProtoDatabase
namespace ProtoDatabase

/-! ## The shape of the statements of the schema creation -/

end ProtoDatabase
namespace ProtoDatabase

/-! ## The types below a type and the triggers of the created schema -/

end ProtoDatabase

namespace ProtoDatabase

/-! ## The records of a write and the types of the schema -/

end ProtoDatabase

namespace ProtoDatabase

/-! ## The round trip of a record that can be written -/

end ProtoDatabase

namespace ProtoDatabase

/-! ## The second write of a record with a scalar key -/

end ProtoDatabase

namespace ProtoDatabase

/-! ## The row of a written record -/

end ProtoDatabase

namespace ProtoDatabase

/-! ## The lookup by a record on the rows of written records -/

end ProtoDatabase

namespace ProtoDatabase

/-! ## The lookup by a record finds the row of the record -/

end ProtoDatabase

namespace ProtoDatabase

/-! ## Records written one after the other -/

end ProtoDatabase

namespace ProtoDatabase

/-! ## Lookup by key after a sequence of writes -/

/-- The row of a record is its row with more fuel. -/
lemma Stored.succ {s : Store} : ∀ (g : Nat) {d : Descriptor} {m : Message} {id : Int},
    Stored g s d m id → Stored (g + 1) s d m id := by
  intro g
  induction g with
  | zero =>
    intro d m id h
    exact h.elim
  | succ g ih =>
    intro d m id h
    rw [Stored] at h
    obtain ⟨tb, row, htb, hrow, hid, hall⟩ := h
    rw [Stored]
    refine ⟨tb, row, htb, hrow, hid, ?_⟩
    intro p hp
    have hp1 := hall p hp
    obtain ⟨f, v⟩ := p
    cases hty : f.type with
    | scalar t =>
      cases v with
      | scalar has x =>
        simp only [hty] at hp1 ⊢
        exact hp1
      | message _ _ => simp only [hty] at hp1
      | repeated _ => simp only [hty] at hp1
      | repeatedMessage _ => simp only [hty] at hp1
    | message e =>
      cases v with
      | message has n =>
        simp only [hty] at hp1 ⊢
        obtain ⟨k, hk, hst⟩ := hp1
        exact ⟨k, hk, ih hst⟩
      | scalar _ _ => simp only [hty] at hp1
      | repeated _ => simp only [hty] at hp1
      | repeatedMessage _ => simp only [hty] at hp1

end ProtoDatabase

namespace ProtoDatabase

/-! ## Claim C5 -/

/-- The `UNIQUE` constraint on the table of the key type is needed.  `Item` uses `Pos`
first as a plain field, so that `createTable` gives the table of `Pos` no `UNIQUE`
constraint.  After `Item{other: Pos{1, 2}, pos: Pos{3, 4}}` and
`Item{other: Pos{3, 4}, pos: Pos{1, 2}}`, the lookup by the key `Pos{1, 2}` of the second
record resolves the key to the row written for the field `other` of the first record and
returns the empty optional. -/
theorem lookup_by_shared_key_type_misses :
    (writeMessages 2 Examples.Item
      [Examples.item (Examples.pos 1 2) (Examples.pos 3 4) "a",
        Examples.item (Examples.pos 3 4) (Examples.pos 1 2) "b"]
      (Examples.created 2 Examples.Item)).1 = .ok [1, 2] ∧
    findMessageByKey 2 Examples.Item (.mk "pos" .singular (.message Examples.Pos) (some true))
      (.message Examples.Pos (Examples.pos 1 2))
      (writeMessages 2 Examples.Item
        [Examples.item (Examples.pos 1 2) (Examples.pos 3 4) "a",
          Examples.item (Examples.pos 3 4) (Examples.pos 1 2) "b"]
        (Examples.created 2 Examples.Item)).2 = .ok none := by
  constructor
  · decide!
  · have h : (match findMessageByKey 2 Examples.Item
          (.mk "pos" .singular (.message Examples.Pos) (some true))
          (.message Examples.Pos (Examples.pos 1 2))
          (writeMessages 2 Examples.Item
            [Examples.item (Examples.pos 1 2) (Examples.pos 3 4) "a",
              Examples.item (Examples.pos 3 4) (Examples.pos 1 2) "b"]
            (Examples.created 2 Examples.Item)).2 with
        | .ok none => true
        | _ => false) = true := by decide!
    revert h
    generalize findMessageByKey 2 Examples.Item
          (.mk "pos" .singular (.message Examples.Pos) (some true))
          (.message Examples.Pos (Examples.pos 1 2))
          (writeMessages 2 Examples.Item
            [Examples.item (Examples.pos 1 2) (Examples.pos 3 4) "a",
              Examples.item (Examples.pos 3 4) (Examples.pos 1 2) "b"]
            (Examples.created 2 Examples.Item)).2 = res
    intro h
    cases res with
    | error e => cases h
    | ok o =>
      cases o with
      | none => rfl
      | some m => cases h

end ProtoDatabase
